import Mathlib

/-!
# Cycles tile manager (`intern/cycles/render/tile.cpp`)

A shallow embedding of the progressive tile scheduler: the compiled part
(`get_divider`, `TileManager::reset`, `set_samples`, `set_tiles`, `done`,
`next`, `get_num_effective_samples`) and, from the text the source keeps
between `#if 0` and `#endif`, the tile generator `gen_tiles`, the tile
state machine `finish_tile` and the queue access `next_tile`.  The
generational arena of `source/blender/blenlib/BLI_generational_arena.hh`
follows in the namespace `blender.generational_arena`.

Conventions of the embedding.

* A C++ `int` is a Lean `Int`; `/` on `int` truncates and is `Int.tdiv`,
  `x <<= 1` is `x * 2`, `x >>= 1` is `x >>> 1`.  The definitions of the
  namespaces `Cycles` and `Cycles.TileManager` compute on mathematical
  integers: they describe the executions in which every intermediate value
  fits its type and no divisor is zero.
* The namespace `Cycles.Machine` embeds `get_divider`, `set_samples`, `reset`
  and `done` a second time with the arithmetic of the compiled code: a 32 bit
  `int` whose sums, differences, products and shifts wrap around
  (`wrap_int`), and a division by zero that ends the execution (`int_div`).
  What is stated about these four functions on their own is stated over the
  `Machine` definitions; the two embeddings agree where nothing overflows
  (`machine_get_divider_eq`, `machine_set_samples_eq`, `machine_reset_eq`,
  `machine_done_eq`).
* `uint64_t` arithmetic wraps and is written with an explicit `% 2 ^ 64`.
* A `while` loop whose termination depends on the data takes a `fuel`
  argument bounding the number of iterations and returns `none` when the
  bound is hit while the loop condition still holds.
* A member function is a function from the object before the call to the
  object after it (paired with the returned value when there is one).
-/

namespace Cycles

/-- The constant `INT_MAX` of `<climits>` for a 32 bit `int`. -/
def INT_MAX : Int := 2147483647

/-- Modelled from the spec: the declaration of `BufferParams` (render/buffers.h)
is not part of the sources at hand.  The descriptor has the pixel dimensions
`width`, `height`, the offset `full_x`, `full_y` inside the full frame and the
dimensions `full_width`, `full_height` of that frame; these are the six fields
`set_tiles` reads and writes. -/
structure BufferParams where
  width : Int
  height : Int
  full_x : Int
  full_y : Int
  full_width : Int
  full_height : Int
  deriving DecidableEq, Repr

/-- The fields of `TileManager::state` that the compiled code uses. -/
structure State where
  buffer : BufferParams
  sample : Int
  num_samples : Int
  resolution_divider : Int
  total_pixel_samples : Int
  deriving DecidableEq, Repr

/-- The data members of `TileManager` that the compiled code uses. -/
structure TileManager where
  params : BufferParams
  state : State
  num_samples : Int
  slice_overlap : Int
  progressive : Bool
  start_resolution : Int
  pixel_size : Int
  range_start_sample : Int
  range_num_samples : Int
  deriving DecidableEq, Repr

/-- The `while` loop of `get_divider` (tile.cpp:151-156) on mathematical integers, at most
`fuel + 1` evaluations of its condition; `Machine.get_divider_loop` is the loop in 32 bit
arithmetic. -/
def get_divider_loop (start_resolution : Int) : Nat → Int → Int → Int → Option Int
  | 0, w, h, divider =>
    if w * h > start_resolution * start_resolution then none else some divider
  | fuel + 1, w, h, divider =>
    if w * h > start_resolution * start_resolution then
      get_divider_loop start_resolution fuel (max 1 (w.tdiv 2)) (max 1 (h.tdiv 2)) (divider * 2)
    else
      some divider

/-- The function `get_divider` (tile.cpp:147-159) on mathematical integers;
`Machine.get_divider` is the function in 32 bit arithmetic, which differs once `w * h` or
`start_resolution * start_resolution` exceeds `INT_MAX`. -/
def get_divider (fuel : Nat) (w h start_resolution : Int) : Option Int :=
  if start_resolution ≠ INT_MAX then
    get_divider_loop start_resolution fuel w h 1
  else
    some 1

/-- A dimension `w` after `k` clamped halvings: `max(1, w / 2^k)`. -/
def clamped (w : Int) (k : Nat) : Int := max 1 (w.tdiv (2 ^ k))

/-- The loop condition of `get_divider` fails after `k` clamped halvings. -/
def fits (w h start_resolution : Int) (k : Nat) : Prop :=
  clamped w k * clamped h k ≤ start_resolution * start_resolution

namespace TileManager

/-- The method `TileManager::get_num_effective_samples` (tile.cpp:644-647). -/
def get_num_effective_samples (tm : TileManager) : Int :=
  if tm.range_num_samples = -1 then tm.num_samples else tm.range_num_samples

/-- The `while` loop of `set_samples` (tile.cpp:198-203) on mathematical integers; the
result is the final `divider` and the accumulated `pixel_samples`.  The loop divides by
`divider`, which is not zero when `pixel_size >= 1`; `Machine.set_samples_loop` is the loop
with the division that fails on zero. -/
def set_samples_loop (params : BufferParams) (pixel_size : Int) :
    Nat → Int → Int → Option (Int × Int)
  | 0, divider, pixel_samples =>
    if divider > pixel_size then none else some (divider, pixel_samples)
  | fuel + 1, divider, pixel_samples =>
    if divider > pixel_size then
      let image_w := max 1 (params.width.tdiv divider)
      let image_h := max 1 (params.height.tdiv divider)
      set_samples_loop params pixel_size fuel (divider >>> 1)
        ((pixel_samples + image_w * image_h) % 2 ^ 64)
    else
      some (divider, pixel_samples)

/-- The method `TileManager::set_samples` (tile.cpp:184-216) on mathematical integers, for
a `pixel_size` of at least 1 (the divisions at tile.cpp:199-206 are by `divider >= pixel_size`);
`Machine.set_samples` is the method in 32 bit arithmetic with the division that fails on
zero. -/
def set_samples (fuel : Nat) (tm : TileManager) (num_samples_ : Int) : Option TileManager :=
  let tm1 : TileManager := { tm with num_samples := num_samples_ }
  if tm1.num_samples = INT_MAX then
    some { tm1 with state := { tm1.state with total_pixel_samples := 0 } }
  else
    match get_divider fuel tm1.params.width tm1.params.height tm1.start_resolution with
    | none => none
    | some d =>
      match set_samples_loop tm1.params tm1.pixel_size fuel (max (d.tdiv 2) tm1.pixel_size) 0 with
      | none => none
      | some (divider, pixel_samples) =>
        let image_w := max 1 (tm1.params.width.tdiv divider)
        let image_h := max 1 (tm1.params.height.tdiv divider)
        some { tm1 with state := { tm1.state with
          total_pixel_samples :=
            (pixel_samples + get_num_effective_samples tm1 * image_w * image_h) % 2 ^ 64 } }

/-- The method `TileManager::reset` (tile.cpp:161-182) on mathematical integers.  `dflt` is
the value of a default constructed `BufferParams()`, whose constructor is not part of the
sources at hand.  `Machine.reset` is the method in 32 bit arithmetic, which need not return:
with `pixel_size = 0` the method `set_samples` divides by zero, and with a `start_resolution`
whose 32 bit square is not positive the loop of `get_divider` need not end. -/
def reset (fuel : Nat) (dflt : BufferParams) (tm : TileManager) (params_ : BufferParams)
    (num_samples_ : Int) : Option TileManager :=
  let tm1 : TileManager := { tm with params := params_ }
  match set_samples fuel tm1 num_samples_ with
  | none => none
  | some tm2 =>
    match get_divider fuel tm2.params.width tm2.params.height tm2.start_resolution with
    | none => none
    | some d =>
      some { tm2 with state := { tm2.state with
        buffer := dflt
        sample := tm2.range_start_sample - 1
        num_samples := 0
        resolution_divider := d } }

/-- The constructor `TileManager::TileManager` (tile.cpp:91-127).  The members
it does not assign before calling `reset` are all assigned by `reset`; `junk`
stands for their indeterminate values. -/
def construct (fuel : Nat) (dflt : BufferParams) (junk : State) (progressive_ : Bool)
    (num_samples_ start_resolution_ pixel_size_ : Int) : Option TileManager :=
  let tm : TileManager :=
    { params := dflt
      state := junk
      num_samples := num_samples_
      slice_overlap := 0
      progressive := progressive_
      start_resolution := start_resolution_
      pixel_size := pixel_size_
      range_start_sample := 0
      range_num_samples := -1 }
  reset fuel dflt tm dflt 0

/-- The method `TileManager::set_tiles` (tile.cpp:402-419). -/
def set_tiles (tm : TileManager) : TileManager :=
  let resolution := tm.state.resolution_divider
  let image_w := max 1 (tm.params.width.tdiv resolution)
  let image_h := max 1 (tm.params.height.tdiv resolution)
  { tm with state := { tm.state with buffer := { tm.state.buffer with
      width := image_w
      height := image_h
      full_x := tm.params.full_x.tdiv resolution
      full_y := tm.params.full_y.tdiv resolution
      full_width := max 1 (tm.params.full_width.tdiv resolution)
      full_height := max 1 (tm.params.full_height.tdiv resolution) } } }

/-- The method `TileManager::done` (tile.cpp:588-594) on mathematical integers;
`Machine.done` is the method with the 32 bit sums, which differs once
`state.sample + state.num_samples` exceeds `INT_MAX`. -/
def done (tm : TileManager) : Bool :=
  let end_sample :=
    if tm.range_num_samples = -1 then tm.num_samples
    else tm.range_start_sample + tm.range_num_samples
  decide (tm.state.resolution_divider = tm.pixel_size) &&
    decide (tm.state.sample + tm.state.num_samples ≥ end_sample)

/-- The method `TileManager::next` (tile.cpp:608-642): the returned `bool` and
the object after the call. -/
def next (tm : TileManager) : Bool × TileManager :=
  if done tm then
    (false, tm)
  else if tm.progressive && decide (tm.state.resolution_divider > tm.pixel_size) then
    let tm1 : TileManager := { tm with state := { tm.state with sample := 0 } }
    let tm2 : TileManager := { tm1 with state := { tm1.state with
      resolution_divider := max (tm1.state.resolution_divider.tdiv 2) tm1.pixel_size } }
    let tm3 : TileManager := { tm2 with state := { tm2.state with num_samples := 1 } }
    (true, set_tiles tm3)
  else
    let tm1 : TileManager := { tm with state := { tm.state with sample := tm.state.sample + 1 } }
    let tm2 : TileManager := { tm1 with state := { tm1.state with
      num_samples :=
        if tm1.progressive then 1
        else if tm1.range_num_samples = -1 then tm1.num_samples
        else tm1.range_num_samples } }
    let tm3 : TileManager := { tm2 with state := { tm2.state with
      resolution_divider := tm2.pixel_size } }
    if tm3.state.sample = tm3.range_start_sample then
      (true, set_tiles tm3)
    else
      (true, tm3)

/-- The object after `n` consecutive calls of `next`. -/
def run : Nat → TileManager → TileManager
  | 0, tm => tm
  | n + 1, tm => (next (run n tm)).2

/-- The guard of the progressive coarse branch of `next` (tile.cpp:613). -/
def coarse_branch (tm : TileManager) : Bool :=
  tm.progressive && decide (tm.state.resolution_divider > tm.pixel_size)

/-- The geometry of the 64 x 64 scenario. -/
def scenario_params : BufferParams :=
  { width := 64, height := 64, full_x := 0, full_y := 0, full_width := 64, full_height := 64 }

/-- A stand-in for the default constructed `BufferParams()` in the scenarios. -/
def scenario_default : BufferParams :=
  { width := 0, height := 0, full_x := 0, full_y := 0, full_width := 0, full_height := 0 }

/-- A stand-in for the members the constructor leaves unassigned before `reset`. -/
def scenario_junk : State :=
  { buffer := scenario_default, sample := 0, num_samples := 0, resolution_divider := 0,
    total_pixel_samples := 0 }

/-- The scenario `start_resolution = 32`, `pixel_size = 1`, `progressive = true`,
`num_samples = 4`, no sub-range: construction followed by `reset` on the 64 x 64 geometry. -/
def scenario_start : Option TileManager :=
  (construct 8 scenario_default scenario_junk true 4 32 1).bind
    (fun tm => reset 8 scenario_default tm scenario_params 4)

/-- The object `scenario_start` evaluates to. -/
def scenario_state : TileManager :=
  { params := scenario_params
    state := { buffer := scenario_default, sample := -1, num_samples := 0,
               resolution_divider := 2, total_pixel_samples := 16384 }
    num_samples := 4
    slice_overlap := 0
    progressive := true
    start_resolution := 32
    pixel_size := 1
    range_start_sample := 0
    range_num_samples := -1 }

/-- A session with `pixel_size = 2` whose budget `start_resolution = 64` already admits the
64 x 64 geometry at divider 1: construction followed by `reset`. -/
def coarse_pixel_start : Option TileManager :=
  (construct 8 scenario_default scenario_junk true 4 64 2).bind
    (fun tm => reset 8 scenario_default tm scenario_params 4)

/-- The object `coarse_pixel_start` evaluates to. -/
def coarse_pixel_state : TileManager :=
  { params := scenario_params
    state := { buffer := scenario_default, sample := -1, num_samples := 0,
               resolution_divider := 1, total_pixel_samples := 4096 }
    num_samples := 4
    slice_overlap := 0
    progressive := true
    start_resolution := 64
    pixel_size := 2
    range_start_sample := 0
    range_num_samples := -1 }

/-- The object after construction with `progressive = false` (otherwise the arguments of
`scenario_start`) and `reset` on the 64 x 64 geometry. -/
def batch_state : TileManager :=
  { scenario_state with progressive := false }


/-- A progressive session with `pixel_size = 3` and `start_resolution = 4` on the 64 x 64
geometry, before `set_samples`; `get_divider` gives 16 for it. -/
def odd_pixel_manager : TileManager :=
  { params := scenario_params
    state := scenario_junk
    num_samples := 0
    slice_overlap := 0
    progressive := true
    start_resolution := 4
    pixel_size := 3
    range_start_sample := 0
    range_num_samples := -1 }

/-- The relation between `state.buffer` and the active divider that `set_tiles` establishes
for the four clamped dimensions. -/
def buffer_matches (tm : TileManager) : Prop :=
  tm.state.buffer.width = max 1 (tm.params.width.tdiv tm.state.resolution_divider) ∧
  tm.state.buffer.height = max 1 (tm.params.height.tdiv tm.state.resolution_divider) ∧
  tm.state.buffer.full_width = max 1 (tm.params.full_width.tdiv tm.state.resolution_divider) ∧
  tm.state.buffer.full_height = max 1 (tm.params.full_height.tdiv tm.state.resolution_divider)

end TileManager

/-! ## The tile generator and the tile state machine (the `#if 0` blocks of tile.cpp)

The source keeps this part of `TileManager` between `#if 0` and `#endif`; it is embedded
from that text.  Reading a vector or a queue list outside its bounds, and a failing `assert`,
make the embedded function return `none`. -/

/-- The type `int2` of the Cycles utility headers: a pair of `int`.  Its operators act
componentwise and are written out componentwise where the code uses them. -/
structure int2 where
  x : Int
  y : Int
  deriving DecidableEq, Repr

namespace Tile

/-- Modelled from the spec: the enum `Tile::State` is declared in render/tile.h, which is not
part of the sources at hand.  Its states are RENDER, RENDERED, DENOISE, DENOISED, DONE, in
this order. -/
inductive State where
  | RENDER
  | RENDERED
  | DENOISE
  | DENOISED
  | DONE
  deriving DecidableEq, Repr

/-- The numeric value of an enumerator, used by the comparisons `state < min_state`. -/
def State.rank : State → Nat
  | .RENDER => 0
  | .RENDERED => 1
  | .DENOISE => 2
  | .DENOISED => 3
  | .DONE => 4

end Tile

/-- Modelled from the spec: the class `Tile` is declared in render/tile.h, which is not part
of the sources at hand.  A tile has an `index`, the rectangle `x, y, w, h`, the owning
`device`, a `state` and its `buffers`; `buffers` records whether the storage pointer is
non-null, and the constructor `Tile(index, x, y, w, h, device, state)` leaves it null. -/
structure Tile where
  index : Int
  x : Int
  y : Int
  w : Int
  h : Int
  device : Int
  state : Tile.State
  buffers : Bool
  deriving DecidableEq, Repr

/-- Modelled from the spec: the enum `TileOrder` is declared in render/tile.h, which is not
part of the sources at hand; the code only compares its values for equality. -/
inductive TileOrder where
  | TILE_CENTER
  | TILE_RIGHT_TO_LEFT
  | TILE_LEFT_TO_RIGHT
  | TILE_TOP_TO_BOTTOM
  | TILE_BOTTOM_TO_TOP
  | TILE_HILBERT_SPIRAL
  deriving DecidableEq, Repr

/-- The enum `SpiralDirection` (tile.cpp:81-86). -/
inductive SpiralDirection where
  | DIRECTION_UP
  | DIRECTION_LEFT
  | DIRECTION_DOWN
  | DIRECTION_RIGHT
  deriving DecidableEq, Repr

/-- The constructor call `Tile(index, x, y, w, h, device, Tile::RENDER)`. -/
def Tile.create (index x y w h device : Int) : Tile :=
  { index := index, x := x, y := y, w := w, h := h, device := device,
    state := Tile.State.RENDER, buffers := false }

/-- Modelled from the spec: the utility `divide_up(x, y)` is not part of the sources at hand;
it is the ceiling of `x / y`, computed as `(x + y - 1) / y`. -/
def divide_up (x y : Int) : Int := (x + y - 1).tdiv y

/-- `TileManager` with the members that only the `#if 0` blocks use: the constructor
arguments `tile_size`, `tile_order`, `num_devices`, `preserve_tile_device`, `background`, the
flag `schedule_denoising`, and the members `tiles`, `tile_stride`, `num_tiles`,
`render_tiles`, `denoising_tiles` of `TileManager::state`. -/
structure TileManagerFull extends TileManager where
  tile_size : int2
  tile_order : TileOrder
  num_devices : Int
  preserve_tile_device : Bool
  background : Bool
  schedule_denoising : Bool
  tiles : List Tile
  tile_stride : Int
  num_tiles : Int
  render_tiles : List (List Int)
  denoising_tiles : List (List Int)
  deriving DecidableEq, Repr

/-- The loop of `hilbert_index_to_pos` (tile.cpp:66-77); `s` doubles, `fuel` bounds the
number of iterations. -/
def hilbert_index_to_pos_loop (n : Int) : Nat → Int → Int → int2 → Option int2
  | 0, s, _, xy => if s < n then none else some xy
  | fuel + 1, s, d, xy =>
    if s < n then
      let r_x := Int.land (d >>> 1) 1
      let r_y := Int.land (Int.xor d r_x) 1
      let xy1 : int2 :=
        if r_y = 0 then
          let xy0 : int2 := if r_x ≠ 0 then { x := s - 1 - xy.x, y := s - 1 - xy.y } else xy
          { x := xy0.y, y := xy0.x }
        else xy
      let xy2 : int2 := { x := xy1.x + r_x * s, y := xy1.y + r_y * s }
      hilbert_index_to_pos_loop n fuel (s * 2) (d >>> 2) xy2
    else
      some xy

/-- The function `hilbert_index_to_pos` (tile.cpp:63-79). -/
def hilbert_index_to_pos (fuel : Nat) (n d : Int) : Option int2 :=
  hilbert_index_to_pos_loop n fuel 1 d { x := 0, y := 0 }

/-- The comparison `TileComparator::operator()` (tile.cpp:35-55) on two tiles.  For
`TILE_CENTER` the code compares squared distances in `float` (tile.cpp:39-43); they are
computed here in exact integer arithmetic, so the two orders agree as long as the squared
distances are exact in `float` (below `2^24`) and can differ beyond, where `float` rounds. -/
def TileComparator.less (order : TileOrder) (center : int2) (ta tb : Tile) : Bool :=
  match order with
  | .TILE_CENTER =>
    let da_x := center.x - (ta.x + ta.w.tdiv 2)
    let da_y := center.y - (ta.y + ta.h.tdiv 2)
    let db_x := center.x - (tb.x + tb.w.tdiv 2)
    let db_y := center.y - (tb.y + tb.h.tdiv 2)
    decide (da_x * da_x + da_y * da_y < db_x * db_x + db_y * db_y)
  | .TILE_LEFT_TO_RIGHT => if ta.x = tb.x then decide (ta.y < tb.y) else decide (ta.x < tb.x)
  | .TILE_RIGHT_TO_LEFT => if ta.x = tb.x then decide (ta.y < tb.y) else decide (ta.x > tb.x)
  | .TILE_TOP_TO_BOTTOM => if ta.y = tb.y then decide (ta.x < tb.x) else decide (ta.y > tb.y)
  | _ => if ta.y = tb.y then decide (ta.x < tb.x) else decide (ta.y < tb.y)

/-- The functor `TileComparator(order, center, tiles)` applied to two tile indices `a`, `b`:
`tiles[a]` before `tiles[b]`.  An index outside `tiles` compares as not less. -/
def TileComparator (order : TileOrder) (center : int2) (tiles : List Tile) (a b : Int) : Bool :=
  match tiles[a.toNat]?, tiles[b.toNat]? with
  | some ta, some tb => decide (0 ≤ a) && decide (0 ≤ b) && TileComparator.less order center ta tb
  | _, _ => false

/-- The call `tile_list->sort(TileComparator(...))`: `std::list::sort` is a stable sort, here
the stable insertion sort by "not `b` before `a`". -/
def sort_tile_list (order : TileOrder) (center : int2) (tiles : List Tile) (q : List Int) :
    List Int :=
  q.insertionSort (fun a b => TileComparator order center tiles b a = false)

namespace TileManager

/-- The method `TileManager::device_free` (tile.cpp:134-144): the buffers of the tiles are
deleted when `schedule_denoising || progressive`, then `state.tiles` is cleared. -/
def device_free (fm : TileManagerFull) : TileManagerFull :=
  { fm with tiles := [] }

/-- The variables the raster loops of `gen_tiles` carry from one tile to the next
(tile.cpp:340-387): `state.tiles`, `state.render_tiles`, the position of the iterator
`tile_list` in `state.render_tiles`, `cur_device`, `cur_tiles` and `idx`. -/
structure GenState where
  tiles : List Tile
  render_tiles : List (List Int)
  tile_list : Nat
  cur_device : Int
  cur_tiles : Int
  idx : Int
  deriving DecidableEq, Repr

/-- The body of the innermost raster loop of `gen_tiles` (tile.cpp:359-381), followed by the
`idx++` of the loop header. -/
def gen_tiles_tile (fm : TileManagerFull) (sliced : Bool) (image_w : Int) (center : int2)
    (tile_w tile_h slice slice_y slice_h tiles_per_device tile_y tile_x : Int) (s : GenState) :
    Option GenState :=
  let x := tile_x * fm.tile_size.x
  let y := tile_y * fm.tile_size.y
  let w := if tile_x = tile_w - 1 then image_w - x else fm.tile_size.x
  let h := if tile_y = tile_h - 1 then slice_h - y else fm.tile_size.y
  let tiles := s.tiles ++
    [Tile.create s.idx x (y + slice_y) w h (if sliced then slice else s.cur_device)]
  if s.tile_list < s.render_tiles.length then
    let queues := s.render_tiles.set s.tile_list (s.render_tiles.getD s.tile_list [] ++ [s.idx])
    if !sliced then
      let cur_tiles := s.cur_tiles + 1
      if cur_tiles = tiles_per_device then
        let queues1 :=
          if fm.tile_order ≠ TileOrder.TILE_BOTTOM_TO_TOP then
            queues.set s.tile_list
              (sort_tile_list fm.tile_order center tiles (queues.getD s.tile_list []))
          else queues
        some { tiles := tiles, render_tiles := queues1, tile_list := s.tile_list + 1,
               cur_device := s.cur_device + 1, cur_tiles := 0, idx := s.idx + 1 }
      else
        some { tiles := tiles, render_tiles := queues, tile_list := s.tile_list,
               cur_device := s.cur_device, cur_tiles := cur_tiles, idx := s.idx + 1 }
    else
      some { tiles := tiles, render_tiles := queues, tile_list := s.tile_list,
             cur_device := s.cur_device, cur_tiles := s.cur_tiles, idx := s.idx + 1 }
  else
    none

/-- The loop over `tile_x` (tile.cpp:358-382) for one `tile_y`. -/
def gen_tiles_row (fm : TileManagerFull) (sliced : Bool) (image_w : Int) (center : int2)
    (tile_w tile_h slice slice_y slice_h tiles_per_device tile_y : Int) (s : GenState) :
    Option GenState :=
  (List.range tile_w.toNat).foldlM
    (fun st (tile_x : Nat) => gen_tiles_tile fm sliced image_w center tile_w tile_h slice slice_y slice_h
      tiles_per_device tile_y (tile_x : Int) st) s

/-- The first row of a slice after the overlap adjustment (tile.cpp:342-350). -/
def gen_tiles_slice_y (fm : TileManagerFull) (image_h slice_num slice : Int) : Int :=
  let slice_y := (image_h.tdiv slice_num) * slice
  if fm.slice_overlap ≠ 0 then max (slice_y - fm.slice_overlap) 0 else slice_y

/-- The height of a slice after the overlap adjustment (tile.cpp:342-350). -/
def gen_tiles_slice_h (fm : TileManagerFull) (image_h slice_num slice : Int) : Int :=
  let slice_y := (image_h.tdiv slice_num) * slice
  let slice_h :=
    if slice = slice_num - 1 then image_h - slice * (image_h.tdiv slice_num)
    else image_h.tdiv slice_num
  if fm.slice_overlap ≠ 0 then
    let slice_y_offset := max (slice_y - fm.slice_overlap) 0
    min (slice_y + slice_h + fm.slice_overlap) image_h - slice_y_offset
  else slice_h

/-- The body of the loop over `slice` (tile.cpp:341-387). -/
def gen_tiles_slice (fm : TileManagerFull) (sliced : Bool) (image_w image_h : Int)
    (center : int2) (num slice_num tile_w slice : Int) (s : GenState) : Option GenState :=
  let slice_y := gen_tiles_slice_y fm image_h slice_num slice
  let slice_h := gen_tiles_slice_h fm image_h slice_num slice
  let tile_h := if fm.tile_size.y ≥ slice_h then 1 else divide_up slice_h fm.tile_size.y
  let tiles_per_device := divide_up (tile_w * tile_h) num
  let s0 : GenState := { s with cur_device := 0, cur_tiles := 0 }
  match (List.range tile_h.toNat).foldlM
      (fun st (tile_y : Nat) => gen_tiles_row fm sliced image_w center tile_w tile_h slice slice_y slice_h
        tiles_per_device (tile_y : Int) st) s0 with
  | none => none
  | some s1 => some (if sliced then { s1 with tile_list := s1.tile_list + 1 } else s1)

/-- The variables of the spiral loop of `gen_tiles` (tile.cpp:263-336): the current `block`,
`prev_dir`, `dir`, the ring counter `i`, and the carried generator variables. -/
structure SpiralState where
  block : int2
  prev_dir : SpiralDirection
  dir : SpiralDirection
  i : Int
  gen : GenState
  deriving DecidableEq, Repr

/-- The rotation of a Hilbert position by the spiral direction (tile.cpp:270-281). -/
def gen_tiles_rotate (hilbert_size : Int) (prev_dir dir : SpiralDirection) (hilbert_pos : int2) :
    int2 :=
  if prev_dir = SpiralDirection.DIRECTION_UP ∧ dir = SpiralDirection.DIRECTION_UP then
    { x := hilbert_pos.y, y := hilbert_pos.x }
  else if dir = SpiralDirection.DIRECTION_LEFT ∨ prev_dir = SpiralDirection.DIRECTION_LEFT then
    hilbert_pos
  else if dir = SpiralDirection.DIRECTION_DOWN then
    { x := hilbert_size - 1 - hilbert_pos.y, y := hilbert_size - 1 - hilbert_pos.x }
  else
    { x := hilbert_size - 1 - hilbert_pos.x, y := hilbert_size - 1 - hilbert_pos.y }

/-- The second part of the body of the loop over `hilbert_index` (tile.cpp:283-300): the
position of the rotated `tile` of the current `block`, the test that it lies in the image,
and the assignment of the tile to the current queue. -/
def gen_tiles_hilbert_push (fm : TileManagerFull) (image_w image_h tile_w : Int)
    (tiles_per_device : Int) (block_size offset block tile : int2) (s : GenState) :
    Option GenState :=
  let pos : int2 :=
    { x := block.x * block_size.x + tile.x * fm.tile_size.x + offset.x
      y := block.y * block_size.y + tile.y * fm.tile_size.y + offset.y }
  if pos.x ≥ 0 ∧ pos.y ≥ 0 ∧ pos.x < image_w ∧ pos.y < image_h then
    let w := min fm.tile_size.x (image_w - pos.x)
    let h := min fm.tile_size.y (image_h - pos.y)
    let ipos : int2 := { x := pos.x.tdiv fm.tile_size.x, y := pos.y.tdiv fm.tile_size.y }
    let idx := ipos.y * tile_w + ipos.x
    if 0 ≤ idx ∧ idx.toNat < s.tiles.length ∧ s.tile_list < s.render_tiles.length then
      let tiles := s.tiles.set idx.toNat (Tile.create idx pos.x pos.y w h s.cur_device)
      let queues := s.render_tiles.set s.tile_list (idx :: s.render_tiles.getD s.tile_list [])
      let cur_tiles := s.cur_tiles + 1
      if cur_tiles = tiles_per_device then
        some { tiles := tiles, render_tiles := queues, tile_list := s.tile_list + 1,
               cur_device := s.cur_device + 1, cur_tiles := 0, idx := s.idx }
      else
        some { tiles := tiles, render_tiles := queues, tile_list := s.tile_list,
               cur_device := s.cur_device, cur_tiles := cur_tiles, idx := s.idx }
    else
      none
  else
    some s

/-- The body of the loop over `hilbert_index` (tile.cpp:267-301) for one block: the Hilbert
position of the index, its rotation, then `gen_tiles_hilbert_push`. -/
def gen_tiles_hilbert_tile (fuel : Nat) (fm : TileManagerFull) (image_w image_h tile_w : Int)
    (hilbert_size tiles_per_device : Int) (block_size offset block : int2)
    (prev_dir dir : SpiralDirection) (hilbert_index : Int) (s : GenState) : Option GenState :=
  match hilbert_index_to_pos fuel hilbert_size hilbert_index with
  | none => none
  | some hilbert_pos =>
    gen_tiles_hilbert_push fm image_w image_h tile_w tiles_per_device block_size offset block
      (gen_tiles_rotate hilbert_size prev_dir dir hilbert_pos) s

/-- The step "advance to next block" of the spiral (tile.cpp:307-335). -/
def gen_tiles_advance (n : Int) (s : SpiralState) : SpiralState :=
  let s1 : SpiralState := { s with prev_dir := s.dir }
  match s1.dir with
  | .DIRECTION_UP =>
    let b : int2 := { s1.block with y := s1.block.y + 1 }
    { s1 with block := b,
              dir := if b.y = n - s1.i - 1 then SpiralDirection.DIRECTION_LEFT else s1.dir }
  | .DIRECTION_LEFT =>
    let b : int2 := { s1.block with x := s1.block.x + 1 }
    { s1 with block := b,
              dir := if b.x = n - s1.i - 1 then SpiralDirection.DIRECTION_DOWN else s1.dir }
  | .DIRECTION_DOWN =>
    let b : int2 := { s1.block with y := s1.block.y - 1 }
    { s1 with block := b,
              dir := if b.y = s1.i then SpiralDirection.DIRECTION_RIGHT else s1.dir }
  | .DIRECTION_RIGHT =>
    let b : int2 := { s1.block with x := s1.block.x - 1 }
    if b.x = s1.i + 1 then
      { s1 with block := b, dir := SpiralDirection.DIRECTION_UP, i := s1.i + 1 }
    else
      { s1 with block := b }

/-- The spiral loop `for (int i = 0;;)` of `gen_tiles` (tile.cpp:265-336); `fuel` bounds the
number of blocks visited, `hfuel` is the fuel of `hilbert_index_to_pos`. -/
def gen_tiles_spiral (hfuel : Nat) (fm : TileManagerFull) (image_w image_h tile_w : Int)
    (hilbert_size tiles_per_device : Int) (block_size offset : int2) (n : Int) :
    Nat → SpiralState → Option SpiralState
  | 0, _ => none
  | fuel + 1, s =>
    match (List.range (hilbert_size * hilbert_size).toNat).foldlM
        (fun st (hilbert_index : Nat) => gen_tiles_hilbert_tile hfuel fm image_w image_h tile_w
          hilbert_size tiles_per_device block_size offset s.block s.prev_dir s.dir
          (hilbert_index : Int) st) s.gen with
    | none => none
    | some g =>
      let s1 : SpiralState := { s with gen := g }
      if s1.block.x = (n - 1).tdiv 2 ∧ s1.block.y = (n - 1).tdiv 2 then
        some s1
      else
        gen_tiles_spiral hfuel fm image_w image_h tile_w hilbert_size tiles_per_device
          block_size offset n fuel (gen_tiles_advance n s1)

/-- The method `TileManager::gen_tiles` (tile.cpp:222-390).  `junk` is the value of a default
constructed `Tile()`, with which `state.tiles.resize` fills the vector; `fuel` bounds the
spiral loop and the loop of `hilbert_index_to_pos`. -/
def gen_tiles (fuel : Nat) (junk : Tile) (fm : TileManagerFull) (sliced : Bool) :
    Option (Int × TileManagerFull) :=
  let resolution := fm.state.resolution_divider
  let image_w := max 1 (fm.params.width.tdiv resolution)
  let image_h := max 1 (fm.params.height.tdiv resolution)
  let center : int2 := { x := image_w.tdiv 2, y := image_h.tdiv 2 }
  let num := if fm.preserve_tile_device || sliced then min image_h fm.num_devices else 1
  let slice_num := if sliced then num else 1
  let tile_w :=
    if fm.tile_size.x ≥ image_w then 1 else divide_up image_w fm.tile_size.x
  let fm1 := device_free fm
  if num < 0 then none
  else
    let fm2 : TileManagerFull :=
      { fm1 with render_tiles := List.replicate num.toNat []
                 denoising_tiles := List.replicate num.toNat []
                 tile_stride := tile_w }
    if fm.tile_order = TileOrder.TILE_HILBERT_SPIRAL then
      if sliced ∨ fm.slice_overlap ≠ 0 then none
      else
        let tile_h :=
          if fm.tile_size.y ≥ image_h then 1 else divide_up image_h fm.tile_size.y
        if tile_w * tile_h < 0 then none
        else
          let tiles0 := List.replicate (tile_w * tile_h).toNat junk
          let hilbert_size : Int := if max fm.tile_size.x fm.tile_size.y ≤ 12 then 8 else 4
          let tiles_per_device := divide_up (tile_w * tile_h) num
          let block_size : int2 :=
            { x := fm.tile_size.x * hilbert_size, y := fm.tile_size.y * hilbert_size }
          let blocks_x :=
            if block_size.x ≥ image_w then 1 else divide_up image_w block_size.x
          let blocks_y :=
            if block_size.y ≥ image_h then 1 else divide_up image_h block_size.y
          let n := Int.lor (max blocks_x blocks_y) 1
          let offset0 : int2 :=
            { x := (image_w - n * block_size.x).tdiv 2, y := (image_h - n * block_size.y).tdiv 2 }
          let offset : int2 :=
            { x := (offset0.x.tdiv fm.tile_size.x) * fm.tile_size.x
              y := (offset0.y.tdiv fm.tile_size.y) * fm.tile_size.y }
          let s0 : SpiralState :=
            { block := { x := 0, y := 0 }
              prev_dir := SpiralDirection.DIRECTION_UP
              dir := SpiralDirection.DIRECTION_UP
              i := 0
              gen := { tiles := tiles0, render_tiles := fm2.render_tiles, tile_list := 0,
                       cur_device := 0, cur_tiles := 0, idx := 0 } }
          match gen_tiles_spiral fuel fm image_w image_h tile_w hilbert_size tiles_per_device
              block_size offset n fuel s0 with
          | none => none
          | some s1 =>
            some (tile_w * tile_h,
              { fm2 with tiles := s1.gen.tiles, render_tiles := s1.gen.render_tiles })
    else
      let s0 : GenState :=
        { tiles := fm2.tiles, render_tiles := fm2.render_tiles, tile_list := 0,
          cur_device := 0, cur_tiles := 0, idx := 0 }
      match (List.range slice_num.toNat).foldlM
          (fun st (slice : Nat) => gen_tiles_slice fm sliced image_w image_h center num slice_num tile_w
            (slice : Int) st) s0 with
      | none => none
      | some s1 =>
        some (s1.idx, { fm2 with tiles := s1.tiles, render_tiles := s1.render_tiles })

/-- The tables `dx` and `dy` of `get_neighbor_index` (tile.cpp:429-430). -/
def neighbor_dx : List Int := [-1, 0, 1, -1, 0, 1, -1, 0, 1]

/-- See `neighbor_dx`. -/
def neighbor_dy : List Int := [-1, -1, -1, 0, 0, 0, 1, 1, 1]

/-- The method `TileManager::get_neighbor_index` (tile.cpp:422-450); `neighbor` is one of
0 .. 8. -/
def get_neighbor_index (fm : TileManagerFull) (index neighbor : Int) : Int :=
  let resolution := fm.state.resolution_divider
  let image_w := max 1 (fm.params.width.tdiv resolution)
  let image_h := max 1 (fm.params.height.tdiv resolution)
  let num := min image_h fm.num_devices
  let slice_num := if !fm.background then num else 1
  let slice_h := image_h.tdiv slice_num
  let tile_w :=
    if fm.tile_size.x ≥ image_w then 1 else divide_up image_w fm.tile_size.x
  let tile_h :=
    if fm.tile_size.y ≥ slice_h then 1 else divide_up slice_h fm.tile_size.y
  let nx := index.tmod tile_w + neighbor_dx.getD neighbor.toNat 0
  let ny := index.tdiv tile_w + neighbor_dy.getD neighbor.toNat 0
  if nx < 0 ∨ ny < 0 ∨ nx ≥ tile_w ∨ ny ≥ tile_h * slice_num then -1
  else ny * fm.tile_stride + nx

/-- The element `state.tiles[index]`, `none` outside the vector. -/
def tile_at (fm : TileManagerFull) (index : Int) : Option Tile :=
  if 0 ≤ index then fm.tiles[index.toNat]? else none

/-- The method `TileManager::check_neighbor_state` (tile.cpp:454-468). -/
def check_neighbor_state (fm : TileManagerFull) (index : Int) (min_state : Tile.State) :
    Option Bool :=
  if index < 0 then some false
  else
    match tile_at fm index with
    | none => none
    | some t =>
      if t.state.rank < min_state.rank then some false
      else
        (List.range 9).foldlM
          (fun (ok : Bool) (neighbor : Nat) =>
            if ok then
              let nindex := get_neighbor_index fm index (neighbor : Int)
              if nindex ≥ 0 then
                match tile_at fm nindex with
                | none => none
                | some nt => some (!decide (nt.state.rank < min_state.rank))
              else some true
            else some false) true

/-- The assignments `state.tiles[index].state = st`. -/
def set_tile_state (fm : TileManagerFull) (index : Int) (st : Tile.State) : TileManagerFull :=
  { fm with tiles := fm.tiles.modify (fun t => { t with state := st }) index.toNat }

/-- The body of the loop over `neighbor` in the `RENDER` case of `finish_tile`
(tile.cpp:486-492). -/
def finish_tile_promote (index : Int) (fm : TileManagerFull) (neighbor : Nat) :
    Option TileManagerFull :=
  let nindex := get_neighbor_index fm index (neighbor : Int)
  match check_neighbor_state fm nindex Tile.State.RENDERED with
  | none => none
  | some false => some fm
  | some true =>
    let fm1 := set_tile_state fm nindex Tile.State.DENOISE
    match tile_at fm1 nindex with
    | none => none
    | some nt =>
      if 0 ≤ nt.device ∧ nt.device.toNat < fm1.denoising_tiles.length then
        some { fm1 with
          denoising_tiles :=
            fm1.denoising_tiles.set nt.device.toNat
              (fm1.denoising_tiles.getD nt.device.toNat [] ++ [nindex]) }
      else none

/-- The body of the loop over `neighbor` in the `DENOISE` case of `finish_tile`
(tile.cpp:499-517); the carried pair is `delete_tile` and the object. -/
def finish_tile_release (index : Int) (acc : Bool × TileManagerFull) (neighbor : Nat) :
    Option (Bool × TileManagerFull) :=
  let fm := acc.2
  let nindex := get_neighbor_index fm index (neighbor : Int)
  match check_neighbor_state fm nindex Tile.State.DENOISED with
  | none => none
  | some false => some acc
  | some true =>
    let fm1 := set_tile_state fm nindex Tile.State.DONE
    if !fm1.progressive then
      if neighbor = 4 then some (true, fm1)
      else
        some (acc.1, { fm1 with
          tiles := fm1.tiles.modify (fun t => { t with buffers := false }) nindex.toNat })
    else some (acc.1, fm1)

/-- The method `TileManager::finish_tile` (tile.cpp:472-524): the returned `bool`, the value
left in `delete_tile`, and the object after the call. -/
def finish_tile (fm : TileManagerFull) (index : Int) (need_denoise : Bool) :
    Option (Bool × Bool × TileManagerFull) :=
  match tile_at fm index with
  | none => none
  | some t =>
    match t.state with
    | .RENDER =>
      if !(fm.schedule_denoising && need_denoise) then
        some (true, !fm.progressive, set_tile_state fm index Tile.State.DONE)
      else
        let fm1 := set_tile_state fm index Tile.State.RENDERED
        match (List.range 9).foldlM (finish_tile_promote index) fm1 with
        | none => none
        | some fm2 => some (false, false, fm2)
    | .DENOISE =>
      let fm1 := set_tile_state fm index Tile.State.DENOISED
      match (List.range 9).foldlM (finish_tile_release index) (false, fm1) with
      | none => none
      | some (delete_tile, fm2) => some (true, delete_tile, fm2)
    | _ => none

/-- A manager at divider 1 for an image of `w` by `h` pixels with the given tile size, tile
order, device count, `preserve_tile_device`, `background` and `slice_overlap`, with no tiles
generated yet; the session members are those of `scenario_state`. -/
def tiled_manager (w h tile_x tile_y : Int) (order : TileOrder) (num_devices : Int)
    (preserve_tile_device background : Bool) (slice_overlap : Int) : TileManagerFull :=
  { toTileManager :=
      { scenario_state with
        params := { width := w, height := h, full_x := 0, full_y := 0,
                    full_width := w, full_height := h }
        slice_overlap := slice_overlap
        state := { scenario_state.state with resolution_divider := 1 } }
    tile_size := { x := tile_x, y := tile_y }
    tile_order := order
    num_devices := num_devices
    preserve_tile_device := preserve_tile_device
    background := background
    schedule_denoising := false
    tiles := []
    tile_stride := 0
    num_tiles := 0
    render_tiles := []
    denoising_tiles := [] }

/-- Right-to-left order on a 5 x 2 image with tiles of 1 x 2 and two devices kept apart
(`preserve_tile_device`), background (not sliced). -/
def raster_fixture : TileManagerFull :=
  tiled_manager 5 2 1 2 TileOrder.TILE_RIGHT_TO_LEFT 2 true true 0

/-- A 3 x 7 image with tiles of 2 x 2 and three devices, not background (sliced). -/
def sliced_fixture : TileManagerFull :=
  tiled_manager 3 7 2 2 TileOrder.TILE_BOTTOM_TO_TOP 3 true false 0

/-- A 1 x 4 image with tiles of 1 x 1, two devices and `slice_overlap = 1`, not background
(sliced). -/
def overlap_fixture : TileManagerFull :=
  tiled_manager 1 4 1 1 TileOrder.TILE_BOTTOM_TO_TOP 2 true false 1

/-- A stand-in for the value of a default constructed `Tile()`. -/
def junk_tile : Tile := Tile.create (-1) 0 0 0 0 0

end TileManager

/-- The pixel `(px, py)` lies in the rectangle of the tile. -/
def Tile.contains (t : Tile) (px py : Int) : Bool :=
  decide (t.x ≤ px ∧ px < t.x + t.w ∧ t.y ≤ py ∧ py < t.y + t.h)

/-- The number of tiles of the list that contain the pixel `(px, py)`. -/
def cover_count (tiles : List Tile) (px py : Int) : Nat :=
  tiles.countP (fun t => t.contains px py)

/-- The sum of the areas `w * h` of the tiles of the list. -/
def total_area (tiles : List Tile) : Int :=
  (tiles.map (fun t => t.w * t.h)).sum

namespace TileManager

/-- The state of the raster loops in non-sliced mode after `c` tiles, with `num` queues and
`tpd` tiles per device: tile `k` has index `k` and device `k / tpd`, the iterator and
`cur_device` are at `c / tpd`, `cur_tiles` is `c % tpd`, the queues before the iterator are
full and the queue at the iterator holds `c % tpd` indices. -/
def raster_assigned (num tpd c : Nat) (s : GenState) : Prop :=
  s.render_tiles.length = num ∧ s.idx = (c : Int) ∧ s.tiles.length = c ∧
  s.tile_list = c / tpd ∧ s.cur_device = ((c / tpd : Nat) : Int) ∧
  s.cur_tiles = ((c % tpd : Nat) : Int) ∧
  (∀ (k : Nat) (t : Tile), s.tiles[k]? = some t →
    t.index = (k : Int) ∧ t.device = ((k / tpd : Nat) : Int)) ∧
  (∀ j, (s.render_tiles.getD j []).length =
    if j < c / tpd then tpd else if j = c / tpd then c % tpd else 0)

/-- The number of the first `k` slices whose rows `[slice_y, slice_y + slice_h)` contain the
row `py` (tile.cpp:342-350). -/
def slices_cover (fm : TileManagerFull) (image_h slice_num : Int) : Nat → Int → Nat
  | 0, _ => 0
  | k + 1, py =>
    slices_cover fm image_h slice_num k py +
      (if gen_tiles_slice_y fm image_h slice_num (k : Int) ≤ py ∧
          py < gen_tiles_slice_y fm image_h slice_num (k : Int) +
            gen_tiles_slice_h fm image_h slice_num (k : Int) then 1 else 0)

/-- The sum of the heights of the first `k` slices. -/
def slices_height (fm : TileManagerFull) (image_h slice_num : Int) : Nat → Int
  | 0 => 0
  | k + 1 =>
    slices_height fm image_h slice_num k + gen_tiles_slice_h fm image_h slice_num (k : Int)

/-- The state of the raster loops after some number `c` of tiles: `idx` is `c`, there are
`c` tiles, and the render queues hold, taken together, each of the indices `0 .. c - 1`
once. -/
def raster_queued (s : GenState) : Prop :=
  ∃ c : Nat, s.idx = (c : Int) ∧ s.tiles.length = c ∧
    s.render_tiles.flatten.Perm ((List.range c).map Int.ofNat)

/-- The local `image_w` of `gen_tiles` (tile.cpp:225). -/
def gen_tiles_image_w (fm : TileManagerFull) : Int :=
  max 1 (fm.params.width.tdiv fm.state.resolution_divider)

/-- The local `image_h` of `gen_tiles` (tile.cpp:226). -/
def gen_tiles_image_h (fm : TileManagerFull) : Int :=
  max 1 (fm.params.height.tdiv fm.state.resolution_divider)

/-- The local `num` of `gen_tiles` (tile.cpp:229). -/
def gen_tiles_num (fm : TileManagerFull) (sliced : Bool) : Int :=
  if fm.preserve_tile_device || sliced then min (gen_tiles_image_h fm) fm.num_devices else 1

/-- The local `slice_num` of `gen_tiles` (tile.cpp:230). -/
def gen_tiles_slice_num (fm : TileManagerFull) (sliced : Bool) : Int :=
  if sliced then gen_tiles_num fm sliced else 1

/-- The local `tile_w` of `gen_tiles` (tile.cpp:231). -/
def gen_tiles_tile_w (fm : TileManagerFull) : Int :=
  if fm.tile_size.x ≥ gen_tiles_image_w fm then 1
  else divide_up (gen_tiles_image_w fm) fm.tile_size.x

/-- The local `tile_h` of `gen_tiles` for a slice of height `slice_h` (tile.cpp:352); in the
Hilbert branch `slice_h` is `image_h` (tile.cpp:245). -/
def gen_tiles_tile_h (fm : TileManagerFull) (slice_h : Int) : Int :=
  if fm.tile_size.y ≥ slice_h then 1 else divide_up slice_h fm.tile_size.y

/-- The start of the raster loops of `gen_tiles` (tile.cpp:233-240, 340): `state.tiles`
cleared, `num` empty render queues, the iterator at the first of them. -/
def gen_tiles_start (fm : TileManagerFull) (sliced : Bool) : GenState :=
  { tiles := [], render_tiles := List.replicate (gen_tiles_num fm sliced).toNat [],
    tile_list := 0, cur_device := 0, cur_tiles := 0, idx := 0 }

/-- The Hilbert position of index `k` in a block of side `hilbert_size`, as
`hilbert_index_to_pos` returns it with three rounds of fuel. -/
def hilbert_cell (hilbert_size : Int) (k : Nat) : int2 :=
  (hilbert_index_to_pos 3 hilbert_size (k : Int)).getD { x := 0, y := 0 }

/-- The blocks the spiral loop of `gen_tiles` has not passed when it arrives at the head of
the loop body in state `s` (tile.cpp:265), the current block included: what is left of the
side of ring `i` that belongs to the direction `dir`, and the square inside the sides walked
so far. -/
def spiral_ahead (n : Int) (s : SpiralState) (x y : Int) : Prop :=
  match s.dir with
  | .DIRECTION_UP =>
    s.i ≤ x ∧ x ≤ n - 1 - s.i ∧ y ≤ n - 1 - s.i ∧
    ((x = s.i ∧ s.block.y ≤ y) ∨ (s.i < x ∧ s.i ≤ y))
  | .DIRECTION_LEFT =>
    s.i ≤ x ∧ x ≤ n - 1 - s.i ∧ s.i ≤ y ∧ y ≤ n - 1 - s.i ∧
    ((s.i < x ∧ y < n - 1 - s.i) ∨ (y = n - 1 - s.i ∧ s.block.x ≤ x))
  | .DIRECTION_DOWN =>
    (s.i < x ∧ x < n - 1 - s.i ∧ s.i ≤ y ∧ y < n - 1 - s.i) ∨
    (x = n - 1 - s.i ∧ s.i ≤ y ∧ y ≤ s.block.y)
  | .DIRECTION_RIGHT =>
    (s.i < x ∧ x < n - 1 - s.i ∧ s.i < y ∧ y < n - 1 - s.i) ∨
    (y = s.i ∧ s.i < x ∧ x ≤ s.block.x)

/-- The blocks of the `n` by `n` square the spiral loop has passed before state `s`. -/
def spiral_seen (n : Int) (s : SpiralState) (x y : Int) : Prop :=
  0 ≤ x ∧ x < n ∧ 0 ≤ y ∧ y < n ∧ ¬ spiral_ahead n s x y

/-- The position of the spiral loop of `gen_tiles` at the head of the loop body: the current
block lies on the side of ring `i` that belongs to the direction `dir`. -/
def spiral_inv (n : Int) (s : SpiralState) : Prop :=
  0 ≤ s.i ∧ s.i ≤ n - 1 - s.i ∧
  (match s.dir with
   | .DIRECTION_UP =>
     s.block.x = s.i ∧ 0 ≤ s.block.y ∧ s.i - 1 ≤ s.block.y ∧
     (s.block.y < n - 1 - s.i ∨ (n = 1 ∧ s.block.y = 0))
   | .DIRECTION_LEFT =>
     s.block.y = n - 1 - s.i ∧ s.i ≤ s.block.x ∧
     (s.block.x < n - 1 - s.i ∨ (s.block.x = n - 1 - s.i ∧ s.i = n - 1 - s.i))
   | .DIRECTION_DOWN =>
     s.block.x = n - 1 - s.i ∧ s.i < s.block.y ∧ s.block.y ≤ n - 1 - s.i
   | .DIRECTION_RIGHT =>
     s.block.y = s.i ∧ s.i + 1 < s.block.x ∧ s.block.x ≤ n - 1 - s.i)

/-- A bound on the number of blocks the spiral loop still has to pass from state `s`: the
blocks of the square inside ring `i`, less the blocks of ring `i` walked so far. -/
def spiral_left (n : Int) (s : SpiralState) : Nat :=
  ((n - 2 * s.i) * (n - 2 * s.i) + 2 -
    (match s.dir with
     | .DIRECTION_UP => s.block.y - s.i + 1
     | .DIRECTION_LEFT => (n - 2 * s.i - 1) + 1 + (s.block.x - s.i)
     | .DIRECTION_DOWN => 2 * (n - 2 * s.i - 1) + 1 + (n - 1 - s.i - s.block.y)
     | .DIRECTION_RIGHT => 3 * (n - 2 * s.i - 1) + 1 + (n - 1 - s.i - s.block.x))).toNat

/-- The cells (tile positions in the square of the spiral) of the blocks of side
`hilbert_size` in `B`. -/
def block_cells (hilbert_size : Int) (B : Int → Int → Prop) (x y : Int) : Prop :=
  ∃ bx by_, B bx by_ ∧ bx * hilbert_size ≤ x ∧ x < bx * hilbert_size + hilbert_size ∧
    by_ * hilbert_size ≤ y ∧ y < by_ * hilbert_size + hilbert_size

/-- The state of the Hilbert branch of `gen_tiles` after the cells in `P` have been passed,
for an image window of `tile_w` by `tile_h` tiles that starts at cell `(a, b)`: the render
queues hold, without repetition, the indices `(y - b) * tile_w + (x - a)` of the passed
cells within the window, every queued index is the index of the tile stored at it, and the
iterator and `cur_tiles` count the queued tiles in groups of `tpd`. -/
def hilbert_pushed (tile_w tile_h a b : Int) (num tpd : Nat) (P : Int → Int → Prop)
    (g : GenState) : Prop :=
  g.tiles.length = (tile_w * tile_h).toNat ∧ g.render_tiles.length = num ∧
  g.render_tiles.flatten.Nodup ∧
  (∀ idx : Int, idx ∈ g.render_tiles.flatten ↔
    ∃ x y, P x y ∧ a ≤ x ∧ x < a + tile_w ∧ b ≤ y ∧ y < b + tile_h ∧
      idx = (y - b) * tile_w + (x - a)) ∧
  g.tile_list = g.render_tiles.flatten.length / tpd ∧
  g.cur_tiles = ((g.render_tiles.flatten.length % tpd : Nat) : Int) ∧
  (∀ idx ∈ g.render_tiles.flatten, ∃ t, g.tiles[idx.toNat]? = some t ∧ t.index = idx)

/-- The local `hilbert_size` of `gen_tiles` (tile.cpp:249). -/
def gen_tiles_hilbert_size (fm : TileManagerFull) : Int :=
  if max fm.tile_size.x fm.tile_size.y ≤ 12 then 8 else 4

/-- The local `block_size` of `gen_tiles` (tile.cpp:254). -/
def gen_tiles_block_size (fm : TileManagerFull) : int2 :=
  { x := fm.tile_size.x * gen_tiles_hilbert_size fm
    y := fm.tile_size.y * gen_tiles_hilbert_size fm }

/-- The number of blocks that fill a dimension of length `len` with blocks of size
`block_size` (tile.cpp:256-257). -/
def gen_tiles_blocks (len block_size : Int) : Int :=
  if block_size ≥ len then 1 else divide_up len block_size

/-- The local `n` of `gen_tiles`, the side length of the spiral in blocks (tile.cpp:258). -/
def gen_tiles_n (fm : TileManagerFull) : Int :=
  Int.lor (max (gen_tiles_blocks (gen_tiles_image_w fm) (gen_tiles_block_size fm).x)
    (gen_tiles_blocks (gen_tiles_image_h fm) (gen_tiles_block_size fm).y)) 1

/-- The local `offset` of `gen_tiles`, rounded to the tile border (tile.cpp:260-261). -/
def gen_tiles_offset (fm : TileManagerFull) : int2 :=
  { x := ((gen_tiles_image_w fm - gen_tiles_n fm * (gen_tiles_block_size fm).x).tdiv 2).tdiv
      fm.tile_size.x * fm.tile_size.x
    y := ((gen_tiles_image_h fm - gen_tiles_n fm * (gen_tiles_block_size fm).y).tdiv 2).tdiv
      fm.tile_size.y * fm.tile_size.y }

/-- The start of the spiral loop of `gen_tiles` (tile.cpp:233-240, 246, 251-252, 263-265):
`state.tiles` resized to `tile_w * tile_h`, `num` empty render queues, the iterator at the
first of them, the spiral at block `(0, 0)` heading up. -/
def gen_tiles_spiral_start (junk : Tile) (fm : TileManagerFull) : SpiralState :=
  { block := { x := 0, y := 0 }
    prev_dir := SpiralDirection.DIRECTION_UP
    dir := SpiralDirection.DIRECTION_UP
    i := 0
    gen := { tiles := List.replicate
               (gen_tiles_tile_w fm * gen_tiles_tile_h fm (gen_tiles_image_h fm)).toNat junk
             render_tiles := List.replicate (gen_tiles_num fm false).toNat []
             tile_list := 0, cur_device := 0, cur_tiles := 0, idx := 0 } }

/-- A 5 x 3 image with tiles of 1 x 1 in Hilbert spiral order for two devices kept apart
(`preserve_tile_device`), background (not sliced). -/
def hilbert_fixture : TileManagerFull :=
  tiled_manager 5 3 1 1 TileOrder.TILE_HILBERT_SPIRAL 2 true true 0

/-- The loop `while (logical_device < queues.size())` of `next_tile`, which the source has
twice: for `state.denoising_tiles` (tile.cpp:536-549) and for `state.render_tiles`
(tile.cpp:561-574).  It returns the value left in `tile_index` and the queues.  The loop
test and the subscript convert the `int` `logical_device` to `size_t`, that is, take it
modulo `2 ^ 64`; `fuel` bounds the number of iterations. -/
def next_tile_loop (preserve_device : Bool) :
    Nat → Int → List (List Int) → Option (Int × List (List Int))
  | 0, logical_device, queues =>
    if (logical_device % 2 ^ 64).toNat < queues.length then none else some (-1, queues)
  | fuel + 1, logical_device, queues =>
    if (logical_device % 2 ^ 64).toNat < queues.length then
      match queues.getD (logical_device % 2 ^ 64).toNat [] with
      | [] =>
        if preserve_device then some (-1, queues)
        else next_tile_loop preserve_device fuel (logical_device + 1) queues
      | tile_index :: rest =>
        some (tile_index, queues.set (logical_device % 2 ^ 64).toNat rest)
    else some (-1, queues)

/-- The statement `if (tile_index >= 0) { tile = &state.tiles[tile_index]; return true; }` of
`next_tile` (tile.cpp:551-554, 576-579): `some (some i)` when the function returns true with
`tile` pointing to `state.tiles[i]`, `some none` when it goes on, `none` when the subscript
is outside `state.tiles`. -/
def next_tile_result (fm : TileManagerFull) (tile_index : Int) : Option (Option Int) :=
  if tile_index ≥ 0 then
    if tile_index.toNat < fm.tiles.length then some (some tile_index) else none
  else some none

/-- The method `TileManager::next_tile` (tile.cpp:526-585).  `denoise` and `path_trace`
stand for the tests `tile_types & RenderTile::DENOISE` and
`tile_types & RenderTile::PATH_TRACE`.  The result is `some i` when the call returns true
with `tile = &state.tiles[i]` and `none` when it returns false, paired with the object after
the call. -/
def next_tile (fuel : Nat) (fm : TileManagerFull) (device : Int) (denoise path_trace : Bool) :
    Option (Option Int × TileManagerFull) :=
  let preserve_device := fm.preserve_tile_device && decide (device < fm.num_devices)
  let after_denoise : Option (Option Int × TileManagerFull) :=
    if denoise then
      match next_tile_loop preserve_device fuel (if preserve_device then device else 0)
          fm.denoising_tiles with
      | none => none
      | some (tile_index, queues) =>
        match next_tile_result fm tile_index with
        | none => none
        | some r => some (r, { fm with denoising_tiles := queues })
    else some (none, fm)
  match after_denoise with
  | none => none
  | some (some i, fm1) => some (some i, fm1)
  | some (none, fm1) =>
    if path_trace then
      match next_tile_loop preserve_device fuel (if preserve_device then device else 0)
          fm1.render_tiles with
      | none => none
      | some (tile_index, queues) =>
        match next_tile_result fm1 tile_index with
        | none => none
        | some r => some (r, { fm1 with render_tiles := queues })
    else some (none, fm1)

/-- A sequence of `next_tile` calls for the workers `devices`, all with the same requested
kinds: the results of the calls and the object after the last one. -/
def next_tiles (fuel : Nat) (denoise path_trace : Bool) :
    List Int → TileManagerFull → Option (List (Option Int) × TileManagerFull)
  | [], fm => some ([], fm)
  | device :: devices, fm =>
    match next_tile fuel fm device denoise path_trace with
    | none => none
    | some (r, fm1) =>
      match next_tiles fuel denoise path_trace devices fm1 with
      | none => none
      | some (rs, fm2) => some (r :: rs, fm2)

/-- The local `preserve_device` of `next_tile` (tile.cpp:530). -/
def next_tile_preserve (fm : TileManagerFull) (device : Int) : Bool :=
  fm.preserve_tile_device && decide (device < fm.num_devices)

/-- The queue a worker is served from, following the description of `next_tile`: with
`preserve_device` the worker's own queue if it exists and is not empty, otherwise the first
queue that is not empty. -/
def eligible_queue (preserve_device : Bool) (device : Int) (queues : List (List Int)) :
    Option Nat :=
  if preserve_device then
    if 0 ≤ device ∧ device.toNat < queues.length ∧ queues.getD device.toNat [] ≠ [] then
      some device.toNat
    else none
  else
    queues.findIdx? (fun q => !q.isEmpty)

/-- The queues hold indices of `state.tiles`. -/
def queues_valid (fm : TileManagerFull) (queues : List (List Int)) : Prop :=
  ∀ q ∈ queues, ∀ x ∈ q, 0 ≤ x ∧ x.toNat < fm.tiles.length

/-- A manager with two tiles, an empty first and a filled second queue of either kind. -/
def queue_fixture : TileManagerFull :=
  { tiled_manager 2 1 1 1 TileOrder.TILE_BOTTOM_TO_TOP 2 false true 0 with
    tiles := [Tile.create 0 0 0 1 1 0, Tile.create 1 1 0 1 1 1]
    render_tiles := [[], [0, 1]]
    denoising_tiles := [[], [1]] }

/-- The front of queue `i`, or `-1` for an empty or missing queue. -/
def queue_front (queues : List (List Int)) (i : Nat) : Int :=
  (queues.getD i []).headD (-1)

/-- The queues after `pop_front` on queue `i`. -/
def queue_pop (queues : List (List Int)) (i : Nat) : List (List Int) :=
  queues.set i (queues.getD i []).tail

/-- The call `next_tile(tile, device, tile_types)` in words: the front of the eligible
denoising queue if `DENOISE` is requested and there is one, else the front of the eligible
render queue if `PATH_TRACE` is requested and there is one, else nothing; the queue served
loses its front. -/
def next_tile_served (fm : TileManagerFull) (device : Int) (denoise path_trace : Bool) :
    Option Int × TileManagerFull :=
  match (if denoise then eligible_queue (next_tile_preserve fm device) device fm.denoising_tiles
    else none) with
  | some i =>
    (some (queue_front fm.denoising_tiles i),
      { fm with denoising_tiles := queue_pop fm.denoising_tiles i })
  | none =>
    match (if path_trace then
        eligible_queue (next_tile_preserve fm device) device fm.render_tiles
      else none) with
    | some i =>
      (some (queue_front fm.render_tiles i),
        { fm with render_tiles := queue_pop fm.render_tiles i })
    | none => (none, fm)

/-- The manager `raster_fixture` after `gen_tiles(false)`. -/
def raster_generated : TileManagerFull :=
  ((gen_tiles 0 junk_tile raster_fixture false).map Prod.snd).getD raster_fixture


/-- Two tiles of 1 x 1 side by side on a 2 x 1 image, tile 0 (A) and its right neighbour
tile 1 (B), on one device, both in state `RENDER` with buffers allocated; denoising is
scheduled, `progressive` is off and the image is not sliced. -/
def pair_fixture : TileManagerFull :=
  { tiled_manager 2 1 1 1 TileOrder.TILE_BOTTOM_TO_TOP 1 false true 0 with
    progressive := false
    schedule_denoising := true
    tiles := [{ Tile.create 0 0 0 1 1 0 with buffers := true },
              { Tile.create 1 1 0 1 1 0 with buffers := true }]
    tile_stride := 2
    num_tiles := 2
    render_tiles := [[]]
    denoising_tiles := [[]] }

/-- The local `slice_num` of `get_neighbor_index` (tile.cpp:436-437). -/
def neighbor_slice_num (fm : TileManagerFull) : Int :=
  if !fm.background then min (gen_tiles_image_h fm) fm.num_devices else 1

/-- The local `tile_w` of `get_neighbor_index` (tile.cpp:440). -/
def neighbor_tile_w (fm : TileManagerFull) : Int :=
  if fm.tile_size.x ≥ gen_tiles_image_w fm then 1
  else divide_up (gen_tiles_image_w fm) fm.tile_size.x

/-- The local `tile_h` of `get_neighbor_index` (tile.cpp:438, 441). -/
def neighbor_tile_h (fm : TileManagerFull) : Int :=
  if fm.tile_size.y ≥ (gen_tiles_image_h fm).tdiv (neighbor_slice_num fm) then 1
  else divide_up ((gen_tiles_image_h fm).tdiv (neighbor_slice_num fm)) fm.tile_size.y

/-- The state of `state.tiles[index]`, `none` outside the vector. -/
def tile_state (fm : TileManagerFull) (index : Int) : Option Tile.State :=
  (tile_at fm index).map (fun t => t.state)

/-- The closure check in words: the tile `index` exists and it and each of its in-grid
neighbours (those for which `get_neighbor_index` is not negative) is at least in state
`min_state`. -/
def closure_ok (fm : TileManagerFull) (index : Int) (min_state : Tile.State) : Prop :=
  0 ≤ index ∧
  (∃ t, tile_at fm index = some t ∧ min_state.rank ≤ t.state.rank) ∧
  ∀ n : Nat, n < 9 → 0 ≤ get_neighbor_index fm index (n : Int) →
    ∃ t, tile_at fm (get_neighbor_index fm index (n : Int)) = some t ∧
      min_state.rank ≤ t.state.rank

/-- Whether `state.tiles[index]` exists and is at least in state `min_state`. -/
def state_at_least (fm : TileManagerFull) (index : Int) (min_state : Tile.State) : Bool :=
  match tile_at fm index with
  | some t => decide (min_state.rank ≤ t.state.rank)
  | none => false

/-- The closure check in words, as a test: the index is not negative, the tile is at least
in `min_state`, and so is every neighbour whose index is not negative. -/
def closure_check (fm : TileManagerFull) (index : Int) (min_state : Tile.State) : Bool :=
  decide (0 ≤ index) && state_at_least fm index min_state &&
  (List.range 9).all (fun n =>
    decide (get_neighbor_index fm index (n : Int) < 0) ||
      state_at_least fm (get_neighbor_index fm index (n : Int)) min_state)

/-- The promotion of tile `j` in words (tile.cpp:489-490): its state becomes `DENOISE` and
`j` is appended to the denoising queue of its device. -/
def promote_tile (fm : TileManagerFull) (j : Int) : TileManagerFull :=
  let fm1 := set_tile_state fm j Tile.State.DENOISE
  match tile_at fm1 j with
  | none => fm1
  | some nt =>
    { fm1 with
      denoising_tiles :=
        fm1.denoising_tiles.set nt.device.toNat
          (fm1.denoising_tiles.getD nt.device.toNat [] ++ [j]) }

/-- The release of tile `j` in words (tile.cpp:502-515): its state becomes `DONE`, and its
buffers are deleted in place when `free` is set. -/
def release_tile (fm : TileManagerFull) (j : Int) (free : Bool) : TileManagerFull :=
  let fm1 := set_tile_state fm j Tile.State.DONE
  if free then
    { fm1 with tiles := fm1.tiles.modify (fun t => { t with buffers := false }) j.toNat }
  else fm1

/-- The tile grid that `get_neighbor_index` assumes is the one `state.tiles` holds:
`tile_stride` is the `tile_w` of `get_neighbor_index`, there are `tile_w` times
`tile_h * slice_num` tiles, and the device of every tile has a denoising queue. -/
def grid_ok (fm : TileManagerFull) : Prop :=
  1 ≤ neighbor_tile_w fm ∧ fm.tile_stride = neighbor_tile_w fm ∧
  0 ≤ neighbor_tile_h fm * neighbor_slice_num fm ∧
  (fm.tiles.length : Int) = neighbor_tile_w fm * (neighbor_tile_h fm * neighbor_slice_num fm) ∧
  ∀ k t, tile_at fm k = some t → 0 ≤ t.device ∧ t.device.toNat < fm.denoising_tiles.length

/-- The body of the loop over `neighbor` in the `DENOISE` case of `finish_tile`
(tile.cpp:499-517) as in `finish_tile_release`, with a log of the indices `nindex` for which
`delete state.tiles[nindex].buffers` is executed (tile.cpp:512); the carried triple is the
log, `delete_tile` and the object. -/
def finish_tile_release_log (index : Int) (acc : List Int × Bool × TileManagerFull)
    (neighbor : Nat) : Option (List Int × Bool × TileManagerFull) :=
  let fm := acc.2.2
  let nindex := get_neighbor_index fm index (neighbor : Int)
  match check_neighbor_state fm nindex Tile.State.DENOISED with
  | none => none
  | some false => some acc
  | some true =>
    let fm1 := set_tile_state fm nindex Tile.State.DONE
    if !fm1.progressive then
      if neighbor = 4 then some (acc.1, true, fm1)
      else
        some (acc.1 ++ [nindex], acc.2.1, { fm1 with
          tiles := fm1.tiles.modify (fun t => { t with buffers := false }) nindex.toNat })
    else some (acc.1, acc.2.1, fm1)

/-- The indices whose buffers a call `finish_tile(index, need_denoise)` deletes in place, in
the order of deletion: none in the `RENDER` case, the log of `finish_tile_release_log` in the
`DENOISE` case. -/
def finish_tile_freed (fm : TileManagerFull) (index : Int) : Option (List Int) :=
  match tile_at fm index with
  | none => none
  | some t =>
    match t.state with
    | .RENDER => some []
    | .DENOISE =>
      match (List.range 9).foldlM (finish_tile_release_log index)
          ([], false, set_tile_state fm index Tile.State.DENOISED) with
      | none => none
      | some (log, _, _) => some log
    | _ => none

/-- One call of `finish_tile` in a run: the object before the call, the arguments, the
returned value `write`, the value left in `delete_tile`, the indices whose buffers the
call deleted in place, and the object after the call. -/
structure FinishCall where
  before : TileManagerFull
  index : Int
  need_denoise : Bool
  write : Bool
  delete_tile : Bool
  freed : List Int
  after : TileManagerFull
  deriving DecidableEq

/-- A run of `finish_tile` calls with the given arguments: the record of the calls and the
object after the last call; `none` when a call is not defined. -/
def finish_run : TileManagerFull → List (Int × Bool) → Option (List FinishCall × TileManagerFull)
  | fm, [] => some ([], fm)
  | fm, (index, need_denoise) :: calls =>
    match finish_tile fm index need_denoise, finish_tile_freed fm index with
    | some (write, delete_tile, fm1), some freed =>
      match finish_run fm1 calls with
      | none => none
      | some (record, fm2) =>
        some ({ before := fm, index := index, need_denoise := need_denoise, write := write,
                delete_tile := delete_tile, freed := freed, after := fm1 } :: record, fm2)
    | _, _ => none

/-- The objects `fm` and `fm'` differ at most in `state.tiles` and
`state.denoising_tiles`. -/
def frame_eq (fm fm' : TileManagerFull) : Prop :=
  fm' = { fm with tiles := fm'.tiles, denoising_tiles := fm'.denoising_tiles }

/-- The tile states of `fm'` come from those of `fm` by setting some tiles that were at least
at rank `lo` to the state `new`, and nothing else but the denoising queues and the other
members of those tiles differs. -/
def states_step (lo : Nat) (new : Tile.State) (fm fm' : TileManagerFull) : Prop :=
  frame_eq fm fm' ∧ fm'.tiles.length = fm.tiles.length ∧
  ∀ k : Int, tile_state fm' k = tile_state fm k ∨
    ∃ s, tile_state fm k = some s ∧ lo ≤ s.rank ∧ tile_state fm' k = some new

/-- The `RENDER` case of `finish_tile` with denoising, in words (tile.cpp:483-493): the tile
becomes `RENDERED`; then every tile of its 3 x 3 neighbourhood whose closure check holds in
that state is promoted, in the order of the neighbour numbers. -/
def finish_render_spec (fm : TileManagerFull) (index : Int) : TileManagerFull :=
  (List.range 9).foldl
    (fun acc (n : Nat) =>
      if closure_check (set_tile_state fm index Tile.State.RENDERED)
          (get_neighbor_index fm index (n : Int)) Tile.State.RENDERED then
        promote_tile acc (get_neighbor_index fm index (n : Int))
      else acc)
    (set_tile_state fm index Tile.State.RENDERED)

/-- The `DENOISE` case of `finish_tile` in words (tile.cpp:496-518): the tile becomes
`DENOISED`; then every tile of its 3 x 3 neighbourhood whose closure check holds in that
state is released, in place unless `progressive` is set or it is neighbour 4, the tile
itself, for which `delete_tile` is set instead. -/
def finish_denoise_spec (fm : TileManagerFull) (index : Int) : Bool × TileManagerFull :=
  (List.range 9).foldl
    (fun (acc : Bool × TileManagerFull) (n : Nat) =>
      if closure_check (set_tile_state fm index Tile.State.DENOISED)
          (get_neighbor_index fm index (n : Int)) Tile.State.DENOISED then
        (if !fm.progressive ∧ n = 4 then true else acc.1,
          release_tile acc.2 (get_neighbor_index fm index (n : Int))
            (!fm.progressive && decide (n ≠ 4)))
      else acc)
    (false, set_tile_state fm index Tile.State.DENOISED)

/-- The tiles whose buffers the `DENOISE` case deletes in place, in words: the neighbours
other than the tile itself whose closure check holds once the tile is `DENOISED`, unless
`progressive` is set. -/
def finish_denoise_freed (fm : TileManagerFull) (index : Int) : List Int :=
  ((List.range 9).filter
    (fun (n : Nat) => decide (n ≠ 4) && !fm.progressive &&
      closure_check (set_tile_state fm index Tile.State.DENOISED)
        (get_neighbor_index fm index (n : Int)) Tile.State.DENOISED)).map
    (fun (n : Nat) => get_neighbor_index fm index (n : Int))

/-- The 3 x 3 neighbourhood of a tile as `finish_tile` walks it: the values of
`get_neighbor_index(index, neighbor)` for `neighbor` from 0 to 8, the tile itself being
neighbour 4 and `-1` standing for a position outside the grid. -/
def neighborhood (fm : TileManagerFull) (index : Int) : List Int :=
  (List.range 9).map (fun (n : Nat) => get_neighbor_index fm index (n : Int))

/-- The run on `pair_fixture` in which A and then B finish rendering, and B and then A finish
denoising; `([], pair_fixture)` if a call were not defined. -/
def pair_run : List FinishCall × TileManagerFull :=
  (finish_run pair_fixture [(0, true), (1, true), (1, true), (0, true)]).getD
    ([], pair_fixture)

/-- The device of `state.tiles[index]`, `none` outside the vector. -/
def tile_device (fm : TileManagerFull) (index : Int) : Option Int :=
  (tile_at fm index).map (fun t => t.device)

/-- The object after A and B of `pair_fixture` have finished rendering and B has finished
denoising: A is in state `DENOISE` and B in state `DENOISED`. -/
def pair_denoising : TileManagerFull :=
  ((finish_run pair_fixture [(0, true), (1, true), (1, true)]).map Prod.snd).getD pair_fixture

/-- The number of times the calls of a record signal the release of the storage of tile `k`:
in place, once for each occurrence of `k` among the buffers a call deleted, or by
`delete_tile = true` from a call on `k`. -/
def release_signals (record : List FinishCall) (k : Int) : Nat :=
  (record.map (fun e =>
    e.freed.count k + (if e.index = k ∧ e.delete_tile = true then 1 else 0))).sum

/-- The number 1 if tile `k` is `DONE` and 0 if not. -/
def done_count (fm : TileManagerFull) (k : Int) : Nat :=
  if tile_state fm k = some Tile.State.DONE then 1 else 0

/-- What holds between the calls of a run on a grid in which denoising is scheduled and
requested for every tile and `progressive` is off: every in-grid neighbour of a tile that is
at least `DENOISE` is at least `RENDERED`, and a tile is `DONE` exactly if it and its in-grid
neighbours are at least `DENOISED`. -/
def release_inv (fm : TileManagerFull) : Prop :=
  grid_ok fm ∧ fm.progressive = false ∧ fm.schedule_denoising = true ∧
  (∀ k s, tile_state fm k = some s → 2 ≤ s.rank →
    closure_check fm k Tile.State.RENDERED = true) ∧
  (∀ k, tile_state fm k = some Tile.State.DONE ↔
    closure_check fm k Tile.State.DENOISED = true)


/-- The bound `end_sample` of `done` (tile.cpp:590-591). -/
def end_sample (tm : TileManager) : Int :=
  if tm.range_num_samples = -1 then tm.num_samples
  else tm.range_start_sample + tm.range_num_samples

/-- What holds between the calls of a run in which tiles finish rendering with denoising
scheduled and requested, before any tile has finished denoising: no tile is beyond `DENOISE`,
a tile is in state `DENOISE` exactly if it and its in-grid neighbours are at least
`RENDERED`, and the denoising queue of a device holds exactly the tiles of that device that
are in state `DENOISE`, each once. -/
def promote_inv (fm : TileManagerFull) : Prop :=
  grid_ok fm ∧ fm.schedule_denoising = true ∧
  (∀ k s, tile_state fm k = some s → s.rank ≤ 2) ∧
  (∀ k, tile_state fm k = some Tile.State.DENOISE ↔
    closure_check fm k Tile.State.RENDERED = true) ∧
  ∀ (d : Nat) (k : Int), (fm.denoising_tiles.getD d []).count k =
    if tile_state fm k = some Tile.State.DENOISE ∧ tile_device fm k = some (d : Int) then 1
    else 0

end TileManager

/-! # The 32 bit arithmetic of the compiled code

The definitions above compute on mathematical integers and describe the executions in which
no intermediate value leaves its type.  The definitions of the namespace `Machine` embed the
same functions with the arithmetic of the compiled code: an `int` has 32 bits, a sum, a
difference, a product or a shift that leaves `[-2^31, 2^31)` wraps around (two's complement),
and a division by zero ends the execution. -/

/-- The constant `INT_MIN` of `<climits>` for a 32 bit `int`. -/
def INT_MIN : Int := -2147483648

/-- The value an arithmetic result `x` has as a 32 bit two's complement `int`. -/
def wrap_int (x : Int) : Int := (x + 2 ^ 31) % 2 ^ 32 - 2 ^ 31

/-- The operator `/` on `int`: truncating division; the execution ends when the divisor is 0
and when `INT_MIN` is divided by -1. -/
def int_div (x y : Int) : Option Int :=
  if y = 0 ∨ (x = INT_MIN ∧ y = -1) then none else some (x.tdiv y)

namespace Machine

/-- The `while` loop of `get_divider` (tile.cpp:151-156) in 32 bit arithmetic, at most
`fuel + 1` evaluations of its condition: the products `w * h` and
`start_resolution * start_resolution` and the shift `divider <<= 1` wrap. -/
def get_divider_loop (start_resolution : Int) : Nat → Int → Int → Int → Option Int
  | 0, w, h, divider =>
    if wrap_int (w * h) > wrap_int (start_resolution * start_resolution) then none
    else some divider
  | fuel + 1, w, h, divider =>
    if wrap_int (w * h) > wrap_int (start_resolution * start_resolution) then
      get_divider_loop start_resolution fuel (max 1 (w.tdiv 2)) (max 1 (h.tdiv 2))
        (wrap_int (divider * 2))
    else
      some divider

/-- The function `get_divider` (tile.cpp:147-159) in 32 bit arithmetic. -/
def get_divider (fuel : Nat) (w h start_resolution : Int) : Option Int :=
  if start_resolution ≠ INT_MAX then
    get_divider_loop start_resolution fuel w h 1
  else
    some 1

/-- The method `TileManager::done` (tile.cpp:588-594) in 32 bit arithmetic: the sums
`range_start_sample + range_num_samples` and `state.sample + state.num_samples` wrap. -/
def done (tm : TileManager) : Bool :=
  let end_sample :=
    if tm.range_num_samples = -1 then tm.num_samples
    else wrap_int (tm.range_start_sample + tm.range_num_samples)
  decide (tm.state.resolution_divider = tm.pixel_size) &&
    decide (wrap_int (tm.state.sample + tm.state.num_samples) ≥ end_sample)

/-- The `while` loop of `set_samples` (tile.cpp:198-203) in 32 bit arithmetic; the result is
the final `divider` and the accumulated `pixel_samples`.  The divisions by `divider` end the
execution when `divider` is 0; the product `image_w * image_h` is an `int` product and wraps
before it is converted and added to the `uint64_t`. -/
def set_samples_loop (params : BufferParams) (pixel_size : Int) :
    Nat → Int → Int → Option (Int × Int)
  | 0, divider, pixel_samples =>
    if divider > pixel_size then none else some (divider, pixel_samples)
  | fuel + 1, divider, pixel_samples =>
    if divider > pixel_size then
      match int_div params.width divider, int_div params.height divider with
      | some qw, some qh =>
        let image_w := max 1 qw
        let image_h := max 1 qh
        set_samples_loop params pixel_size fuel (divider >>> 1)
          ((pixel_samples + wrap_int (image_w * image_h)) % 2 ^ 64)
      | _, _ => none
    else
      some (divider, pixel_samples)

/-- The method `TileManager::set_samples` (tile.cpp:184-216) in 32 bit arithmetic.  The
final product is taken in `uint64_t`, the first factor being cast. -/
def set_samples (fuel : Nat) (tm : TileManager) (num_samples_ : Int) : Option TileManager :=
  let tm1 : TileManager := { tm with num_samples := num_samples_ }
  if tm1.num_samples = INT_MAX then
    some { tm1 with state := { tm1.state with total_pixel_samples := 0 } }
  else
    match get_divider fuel tm1.params.width tm1.params.height tm1.start_resolution with
    | none => none
    | some d =>
      match set_samples_loop tm1.params tm1.pixel_size fuel (max (d.tdiv 2) tm1.pixel_size) 0 with
      | none => none
      | some (divider, pixel_samples) =>
        match int_div tm1.params.width divider, int_div tm1.params.height divider with
        | some qw, some qh =>
          let image_w := max 1 qw
          let image_h := max 1 qh
          some { tm1 with state := { tm1.state with
            total_pixel_samples :=
              (pixel_samples + TileManager.get_num_effective_samples tm1 * image_w * image_h)
                % 2 ^ 64 } }
        | _, _ => none

/-- The method `TileManager::reset` (tile.cpp:161-182) in 32 bit arithmetic; `dflt` is the
value of a default constructed `BufferParams()`.  The difference `range_start_sample - 1`
wraps. -/
def reset (fuel : Nat) (dflt : BufferParams) (tm : TileManager) (params_ : BufferParams)
    (num_samples_ : Int) : Option TileManager :=
  let tm1 : TileManager := { tm with params := params_ }
  match set_samples fuel tm1 num_samples_ with
  | none => none
  | some tm2 =>
    match get_divider fuel tm2.params.width tm2.params.height tm2.start_resolution with
    | none => none
    | some d =>
      some { tm2 with state := { tm2.state with
        buffer := dflt
        sample := wrap_int (tm2.range_start_sample - 1)
        num_samples := 0
        resolution_divider := d } }

end Machine

namespace TileManager

/-- The object `tm` with `state.buffer` replaced by `b`. -/
def with_buffer (tm : TileManager) (b : BufferParams) : TileManager :=
  { tm with state := { tm.state with buffer := b } }

/-- The call `next()` on `tm` regenerates the buffer geometry: whatever `state.buffer` holds
before the call, after it the buffer is the geometry `set_tiles()` computes from `params` and
the divider. -/
def next_regenerates (tm : TileManager) : Prop :=
  ∀ b : BufferParams,
    (next (with_buffer tm b)).2.state.buffer =
      (set_tiles (next (with_buffer tm b)).2).state.buffer

/-- The call `next()` on `tm` does not touch the buffer geometry: whatever `state.buffer`
holds before the call, it holds the same after it. -/
def next_keeps_buffer (tm : TileManager) : Prop :=
  ∀ b : BufferParams, (next (with_buffer tm b)).2.state.buffer = b

/-- A state in which `state.sample + state.num_samples` leaves the range of `int`: sample 1
with the step sample count `INT_MAX`, at full resolution, for 4 requested samples. -/
def overflow_state : TileManager :=
  { scenario_state with
    state := { scenario_state.state with sample := 1, num_samples := INT_MAX,
                                         resolution_divider := 1 } }

end TileManager

end Cycles

/-! # The generational arena (`source/blender/blenlib/BLI_generational_arena.hh`) -/

namespace blender

namespace generational_arena

/-- The class `Index` (BLI_generational_arena.hh:73-90): a position in the arena and the
generation at which the value was inserted. -/
structure Index where
  index : Nat
  generation : Nat
  deriving DecidableEq, Repr

/-- The variant `Entry = std::variant<EntryNoExist, EntryExist>`
(BLI_generational_arena.hh:116-147): a free slot with the position of the next free slot, or
an occupied slot with its value and generation. -/
inductive Entry (T : Type) where
  | EntryNoExist (next_free : Option Nat)
  | EntryExist (value : T) (generation : Nat)
  deriving DecidableEq, Repr

/-- The data members of `Arena` (BLI_generational_arena.hh:149-152).  The `usize` members
are naturals; arithmetic on them wraps at `2 ^ 64`. -/
structure Arena (T : Type) where
  data : List (Entry T)
  next_free_head : Option Nat
  generation : Nat
  length : Nat
  deriving DecidableEq, Repr

/-- The method `Arena::try_insert` (BLI_generational_arena.hh:197-217): the returned
`std::optional<Index>` and the arena after the call.  The outer `none` stands for the
executions the code does not define: `next_free_head` outside `data`, or at an occupied
slot, where `BLI_assert_unreachable()` is hit.  The header is a draft whose member functions
do not type-check where they are instantiated: `loc` is the `std::optional<usize>` itself in
`this->data[loc]` and in `Index(loc, this->generation)`, and `data = EntryExist(...)` assigns
through the reference to the visited `EntryNoExist` alternative.  They are read here as
`this->data[*loc]`, `Index(*loc, this->generation)` and the assignment of the new alternative
to the slot `this->data[*loc]`. -/
def try_insert {T : Type} (a : Arena T) (value : T) : Option (Option Index × Arena T) :=
  match a.next_free_head with
  | some loc =>
    match a.data[loc]? with
    | some (Entry.EntryNoExist next_free) =>
      some (some { index := loc, generation := a.generation },
        { a with next_free_head := next_free
                 data := a.data.set loc (Entry.EntryExist value a.generation)
                 length := (a.length + 1) % 2 ^ 64 })
    | some (Entry.EntryExist _ _) => none
    | none => none
  | none => some (none, a)

/-- An arena of three slots: slot 1 holds the value 10 of generation 0, the free list is
slot 2, then slot 0. -/
def arena_fixture : Arena Nat :=
  { data := [Entry.EntryNoExist none, Entry.EntryExist 10 0, Entry.EntryNoExist (some 0)]
    next_free_head := some 2
    generation := 5
    length := 1 }

/-- The arena a value-initialised `Arena` object is, as in the delegation to `Arena()` by the
constructor `Arena(const usize size)` (BLI_generational_arena.hh:155-160): no slots, an empty
free list, generation 0 and length 0. -/
def empty_arena (T : Type) : Arena T :=
  { data := [], next_free_head := none, generation := 0, length := 0 }

/-- The method `Arena::reserve` (BLI_generational_arena.hh:172-193).  `new_cap` is a
`usize`; the loop bound `new_cap - 1` wraps at `2 ^ 64`.  The loop variable stays below that
bound, so `i + 1` does not wrap.  The slots from `start` to the bound are appended as free
slots linked to their successor, then one more free slot linked to the old head. -/
def reserve {T : Type} (a : Arena T) (new_cap : Nat) : Arena T :=
  if new_cap < a.data.length then a
  else
    let old_next_free_head := a.next_free_head
    let start := a.data.length
    { a with
      data := a.data ++
        (List.range' start ((new_cap + 2 ^ 64 - 1) % 2 ^ 64 - start)).map
          (fun i => Entry.EntryNoExist (some (i + 1))) ++
        [Entry.EntryNoExist old_next_free_head]
      next_free_head := some start }

/-- The method `Arena::insert` (BLI_generational_arena.hh:219-237): the returned `Index` and
the arena after the call; `none` stands for the executions the code does not define, among
them the two `BLI_assert_unreachable()`.  The `return index;` of the draft returns the
`std::optional<Index>` where an `Index` is expected; it is read as `return *index;`.  The
argument `this->data.size() * 2` is passed as a `usize`. -/
def insert {T : Type} (a : Arena T) (value : T) : Option (Index × Arena T) :=
  match try_insert a value with
  | none => none
  | some (some index, a1) => some (index, a1)
  | some (none, a1) =>
    match try_insert (reserve a1 (a1.data.length * 2 % 2 ^ 64)) value with
    | some (some index, a2) => some (index, a2)
    | _ => none

/-- The method `Arena::get` (BLI_generational_arena.hh:239-265, both overloads): the value
referred to, or `none` for `std::nullopt`.  The draft compares `index.generation` with the
entry `this->data[index.index]` itself and returns a reference to the entry where a reference
to a `T` is expected.  Following the file documentation (lines 47-51) the comparison is read
as one with the generation stored in the slot, the result as the value stored in the slot,
and a free slot, which stores no generation, as no match. -/
def get {T : Type} (a : Arena T) (index : Index) : Option T :=
  if index.index ≥ a.data.length then none
  else
    match a.data[index.index]? with
    | some (Entry.EntryExist value generation) =>
      if index.generation ≠ generation then none else some value
    | _ => none

/-- Following `next_free` from the slot `head`: the slots visited, in order, if every one of
them is a free slot and the walk ends at an empty link within `fuel` slots. -/
def free_walk {T : Type} (data : List (Entry T)) : Nat → Option Nat → Option (List Nat)
  | _, none => some []
  | 0, some _ => none
  | fuel + 1, some p =>
    match data[p]? with
    | some (Entry.EntryNoExist next_free) => (free_walk data fuel next_free).map (fun l => p :: l)
    | _ => none

/-- The free list of an arena: the walk from `next_free_head`, over at most as many slots as
the arena has. -/
def free_list {T : Type} (a : Arena T) : Option (List Nat) :=
  free_walk a.data a.data.length a.next_free_head

/-- The slots `l` are linked into a list of free slots that starts at `head` and ends at an
empty link. -/
def free_chain {T : Type} (data : List (Entry T)) : Option Nat → List Nat → Prop
  | head, [] => head = none
  | head, p :: l =>
    head = some p ∧ ∃ next_free, data[p]? = some (Entry.EntryNoExist next_free) ∧
      free_chain data next_free l

/-- The number of occupied slots. -/
def occupied {T : Type} : List (Entry T) → Nat
  | [] => 0
  | Entry.EntryExist _ _ :: es => occupied es + 1
  | Entry.EntryNoExist _ :: es => occupied es

/-- The free-list invariant: the free slots are exactly the slots of a list without
repetition that is linked from `next_free_head` to an empty link, and `length` is the number
of occupied slots (as a `usize`). -/
def arena_ok {T : Type} (a : Arena T) : Prop :=
  ∃ l : List Nat, free_chain a.data a.next_free_head l ∧ l.Nodup ∧
    (∀ p next_free, a.data[p]? = some (Entry.EntryNoExist next_free) → p ∈ l) ∧
    a.length = occupied a.data % 2 ^ 64

/-- The arena `b` is reached from the arena `a` by calls of `reserve` with a capacity of at
least 1, of `try_insert`, and of `insert` on an arena with at least one slot. -/
inductive reaches {T : Type} : Arena T → Arena T → Prop
  | refl (a : Arena T) : reaches a a
  | reserve {a b : Arena T} (n : Nat) : reaches a b → 1 ≤ n → n < 2 ^ 64 →
      reaches a (reserve b n)
  | try_insert {a b b1 : Arena T} {v : T} {r : Option Index} : reaches a b →
      try_insert b v = some (r, b1) → reaches a b1
  | insert {a b b1 : Arena T} {v : T} {i : Index} : reaches a b → 1 ≤ b.data.length →
      insert b v = some (i, b1) → reaches a b1

/-- An arena with one slot, which is occupied, and an empty free list. -/
def full_fixture : Arena Nat :=
  { data := [Entry.EntryExist 10 0], next_free_head := none, generation := 0, length := 1 }

end generational_arena

end blender

namespace Cycles

namespace TileManager

end TileManager

/-! ## The resolution divider -/

theorem tdiv_two_pow_cast (n k : Nat) : (n : Int).tdiv (2 ^ k) = ((n / 2 ^ k : Nat) : Int) := by
  rw [Int.tdiv_eq_ediv (by omega) (by positivity)]
  norm_cast

theorem clamped_zero {w : Int} (hw : 1 ≤ w) : clamped w 0 = w := by
  simp [clamped, Int.tdiv_one]
  omega

theorem clamped_pos (w : Int) (k : Nat) : 1 ≤ clamped w k := by
  unfold clamped; exact le_max_left _ _

theorem clamped_succ {w : Int} (hw : 1 ≤ w) (k : Nat) :
    max 1 ((clamped w k).tdiv 2) = clamped w (k + 1) := by
  lift w to Nat using (by omega)
  unfold clamped
  rw [tdiv_two_pow_cast, tdiv_two_pow_cast, pow_succ, ← Nat.div_div_eq_div_mul,
    Int.tdiv_eq_ediv (by omega) (by decide)]
  omega

theorem tdiv_le_clamped (w : Int) (hw : 0 ≤ w) (k : Nat) :
    0 ≤ w.tdiv (2 ^ k) ∧ w.tdiv (2 ^ k) ≤ clamped w k := by
  refine ⟨Int.tdiv_nonneg hw (by positivity), ?_⟩
  unfold clamped; exact le_max_right _ _

theorem clamped_eq_one {w : Int} (hw : 1 ≤ w) {k : Nat} (hk : w.toNat ≤ k) : clamped w k = 1 := by
  lift w to Nat using (by omega)
  have h1 : w < 2 ^ k := lt_of_le_of_lt (by simpa using hk) (Nat.lt_two_pow k)
  unfold clamped
  rw [tdiv_two_pow_cast, Nat.div_eq_of_lt h1]
  rfl

theorem get_divider_loop_mono (sr : Int) :
    ∀ (fuel fuel2 : Nat) (w h d r : Int), fuel ≤ fuel2 →
      get_divider_loop sr fuel w h d = some r → get_divider_loop sr fuel2 w h d = some r := by
  intro fuel
  induction fuel with
  | zero =>
    intro fuel2 w h d r _ hr
    by_cases hc : w * h > sr * sr
    · simp [get_divider_loop, hc] at hr
    · cases fuel2 <;> simpa [get_divider_loop, hc] using hr
  | succ n ih =>
    intro fuel2 w h d r hle hr
    obtain ⟨m, rfl⟩ : ∃ m, fuel2 = m + 1 := ⟨fuel2 - 1, by omega⟩
    by_cases hc : w * h > sr * sr
    · simp only [get_divider_loop, hc, if_true] at hr ⊢
      exact ih m _ _ _ _ (by omega) hr
    · simpa [get_divider_loop, hc] using hr

theorem get_divider_loop_run (sr : Int) {w h : Int} (hw : 1 ≤ w) (hh : 1 ≤ h) :
    ∀ (n k fuel : Nat) (d : Int), (∀ j, j < n → ¬ fits w h sr (k + j)) → fits w h sr (k + n) →
      n ≤ fuel → get_divider_loop sr fuel (clamped w k) (clamped h k) d = some (d * 2 ^ n) := by
  intro n
  induction n with
  | zero =>
    intro k fuel d _ hfit _
    have hc : ¬ clamped w k * clamped h k > sr * sr := by
      have := hfit; simp only [fits, Nat.add_zero] at this; omega
    cases fuel <;> simp [get_divider_loop, hc]
  | succ n ih =>
    intro k fuel d hnot hfit hle
    obtain ⟨m, rfl⟩ : ∃ m, fuel = m + 1 := ⟨fuel - 1, by omega⟩
    have hc : clamped w k * clamped h k > sr * sr := by
      have := hnot 0 (by omega); simp only [fits, Nat.add_zero] at this; omega
    simp only [get_divider_loop, hc, if_true]
    rw [clamped_succ hw, clamped_succ hh, ih (k + 1) m (d * 2) _ _ (by omega)]
    · rw [pow_succ]; congr 1; ring
    · intro j hj
      have := hnot (j + 1) (by omega)
      rwa [show k + (j + 1) = k + 1 + j by omega] at this
    · rwa [show k + (n + 1) = k + 1 + n by omega] at hfit

theorem fits_eventually {w h sr : Int} (hw : 1 ≤ w) (hh : 1 ≤ h) (hs : sr ≠ 0) :
    ∃ k, fits w h sr k := by
  refine ⟨w.toNat + h.toNat, ?_⟩
  unfold fits
  rw [clamped_eq_one hw (by omega), clamped_eq_one hh (by omega)]
  have : 0 < sr * sr := mul_self_pos.mpr hs
  linarith

/-- The result of `get_divider` on positive dimensions: `2 ^ k` for the least `k` at which the
loop condition fails, reached with any fuel of at least `k`. -/
theorem get_divider_least (w h sr : Int) (hw : 1 ≤ w) (hh : 1 ≤ h) (hs : sr ≠ 0)
    (hmax : sr ≠ INT_MAX) :
    ∃ k, fits w h sr k ∧ (∀ j, j < k → ¬ fits w h sr j) ∧
      ∀ fuel, k ≤ fuel → get_divider fuel w h sr = some (2 ^ k) := by
  classical
  have hex := fits_eventually hw hh hs
  refine ⟨Nat.find hex, Nat.find_spec hex, fun j hj => Nat.find_min hex hj, ?_⟩
  intro fuel hle
  have := get_divider_loop_run sr hw hh (Nat.find hex) 0 fuel 1
    (fun j hj => by simpa using Nat.find_min hex hj) (by simpa using Nat.find_spec hex) hle
  rw [clamped_zero hw, clamped_zero hh] at this
  simp [get_divider, hmax, this]

theorem get_divider_unique {w h sr : Int} {fuel fuel2 : Nat} {d d2 : Int}
    (h1 : get_divider fuel w h sr = some d) (h2 : get_divider fuel2 w h sr = some d2) : d = d2 := by
  unfold get_divider at h1 h2
  by_cases hm : sr ≠ INT_MAX
  · simp only [hm, ne_eq, not_false_eq_true, if_true] at h1 h2
    have a := get_divider_loop_mono sr fuel (max fuel fuel2) w h 1 d (le_max_left _ _) h1
    have b := get_divider_loop_mono sr fuel2 (max fuel fuel2) w h 1 d2 (le_max_right _ _) h2
    rw [a] at b; exact Option.some.inj b
  · simp only [hm, if_false] at h1 h2
    rw [← Option.some.inj h1, ← Option.some.inj h2]

/-! ## The divider in 32 bit arithmetic -/

theorem wrap_int_eq {x : Int} (h1 : INT_MIN ≤ x) (h2 : x ≤ INT_MAX) : wrap_int x = x := by
  unfold wrap_int
  unfold INT_MIN at h1
  unfold INT_MAX at h2
  omega

theorem wrap_int_range (x : Int) : INT_MIN ≤ wrap_int x ∧ wrap_int x ≤ INT_MAX := by
  unfold wrap_int INT_MIN INT_MAX
  omega

/-- One halving at least halves the product of two dimensions whose product exceeds 1. -/
theorem halved_product_le {w h : Int} (hw : 1 ≤ w) (hh : 1 ≤ h) (hp : 2 ≤ w * h) :
    1 ≤ max 1 (w.tdiv 2) ∧ 1 ≤ max 1 (h.tdiv 2) ∧
      2 * (max 1 (w.tdiv 2) * max 1 (h.tdiv 2)) ≤ w * h := by
  refine ⟨le_max_left _ _, le_max_left _ _, ?_⟩
  rw [Int.tdiv_eq_ediv (by omega) (by decide), Int.tdiv_eq_ediv (by omega) (by decide)]
  have a1 : max 1 (w / 2) ≤ w := max_le hw (by omega)
  have b1 : max 1 (h / 2) ≤ h := max_le hh (by omega)
  have a0 : (1 : Int) ≤ max 1 (w / 2) := le_max_left _ _
  have b0 : (1 : Int) ≤ max 1 (h / 2) := le_max_left _ _
  rcases le_or_lt 2 w with h2 | h2
  · have a2 : 2 * max 1 (w / 2) ≤ w := by
      have : max 1 (w / 2) = w / 2 := max_eq_right (by omega)
      rw [this]
      omega
    calc 2 * (max 1 (w / 2) * max 1 (h / 2)) = (2 * max 1 (w / 2)) * max 1 (h / 2) := by ring
      _ ≤ w * max 1 (h / 2) := mul_le_mul_of_nonneg_right a2 (by omega)
      _ ≤ w * h := mul_le_mul_of_nonneg_left b1 (by omega)
  · have hw1 : w = 1 := by omega
    subst hw1
    have hh2 : 2 ≤ h := by omega
    have b2 : 2 * max 1 (h / 2) ≤ h := by
      have : max 1 (h / 2) = h / 2 := max_eq_right (by omega)
      rw [this]
      omega
    have : max 1 ((1 : Int) / 2) = 1 := by decide
    rw [this]
    omega

/-- Where no product overflows the loop of `get_divider` computes in 32 bit arithmetic what
it computes on mathematical integers. -/
theorem machine_get_divider_loop_eq (sr : Int) (hs0 : 1 ≤ sr * sr) (hs : sr * sr ≤ INT_MAX) :
    ∀ (fuel : Nat) (w h d : Int), 1 ≤ w → 1 ≤ h → 1 ≤ d → d * (w * h) ≤ INT_MAX →
      Machine.get_divider_loop sr fuel w h d = get_divider_loop sr fuel w h d := by
  have hsw : wrap_int (sr * sr) = sr * sr :=
    wrap_int_eq (by unfold INT_MIN; omega) hs
  intro fuel
  induction fuel with
  | zero =>
    intro w h d hw hh hd hb
    have hp : 1 ≤ w * h := by nlinarith
    have hwh : w * h ≤ INT_MAX := by nlinarith
    simp only [Machine.get_divider_loop, get_divider_loop, hsw,
      wrap_int_eq (show INT_MIN ≤ w * h by unfold INT_MIN; omega) hwh]
  | succ n ih =>
    intro w h d hw hh hd hb
    have hp : 1 ≤ w * h := by nlinarith
    have hwh : w * h ≤ INT_MAX := by nlinarith
    simp only [Machine.get_divider_loop, get_divider_loop, hsw,
      wrap_int_eq (show INT_MIN ≤ w * h by unfold INT_MIN; omega) hwh]
    by_cases hc : w * h > sr * sr
    · rw [if_pos hc, if_pos hc]
      obtain ⟨a, b, c⟩ := halved_product_le hw hh (by omega)
      have hd2 : d * 2 ≤ INT_MAX := by nlinarith
      rw [wrap_int_eq (by unfold INT_MIN; omega) hd2]
      apply ih _ _ _ a b (by omega)
      calc d * 2 * (max 1 (w.tdiv 2) * max 1 (h.tdiv 2))
          = d * (2 * (max 1 (w.tdiv 2) * max 1 (h.tdiv 2))) := by ring
        _ ≤ d * (w * h) := mul_le_mul_of_nonneg_left c (by omega)
        _ ≤ INT_MAX := hb
    · rw [if_neg hc, if_neg hc]

theorem machine_get_divider_eq (fuel : Nat) (w h sr : Int) (hw : 1 ≤ w) (hh : 1 ≤ h)
    (hs : 1 ≤ sr) (hwh : w * h ≤ INT_MAX) (hsr : sr * sr ≤ INT_MAX) :
    Machine.get_divider fuel w h sr = get_divider fuel w h sr := by
  unfold Machine.get_divider get_divider
  have hs0 : 1 ≤ sr * sr := by nlinarith
  rw [machine_get_divider_loop_eq sr hs0 hsr fuel w h 1 hw hh (le_refl 1) (by omega)]

theorem mul_self_gt_int_max : ¬ (INT_MAX * INT_MAX ≤ INT_MAX) := by decide

/-- C1 (as stated, refuted): for `width = height = 50000` and `start_resolution = 64` the
product `w * h = 2500000000` wraps to `-1794967296`, the loop is not entered and `get_divider`
returns 1, with whatever fuel; but `(50000 div 1) * (50000 div 1)` is far above `64^2`. -/
theorem get_divider_overflow_exceeds_budget :
    wrap_int (50000 * 50000) = -1794967296 ∧
    Machine.get_divider 0 50000 50000 64 = some 1 ∧
    Machine.get_divider 64 50000 50000 64 = some 1 ∧
    ¬ ((50000 : Int).tdiv 1 * (50000 : Int).tdiv 1 ≤ 64 * 64) := by
  decide

/-- C1 (amended): for positive `width`, `height` and `start_resolution` whose products
`width * height` and `start_resolution^2` fit in an `int` (so `start_resolution <= 46340`),
`get_divider` returns (with enough fuel) and every divider `d` it returns satisfies
`(width div d) * (height div d) <= start_resolution^2`, `div` truncating. -/
theorem get_divider_within_budget (w h sr : Int) (hw : 0 < w) (hh : 0 < h) (hs : 0 < sr)
    (hwh : w * h ≤ INT_MAX) (hsr : sr * sr ≤ INT_MAX) :
    (∃ fuel d, Machine.get_divider fuel w h sr = some d) ∧
      ∀ fuel d, Machine.get_divider fuel w h sr = some d → w.tdiv d * h.tdiv d ≤ sr * sr := by
  have hmax : sr ≠ INT_MAX := fun e => mul_self_gt_int_max (by rw [e] at hsr; exact hsr)
  have heq : ∀ fuel, Machine.get_divider fuel w h sr = get_divider fuel w h sr :=
    fun fuel => machine_get_divider_eq fuel w h sr (by omega) (by omega) (by omega) hwh hsr
  obtain ⟨k, hfit, -, hrun⟩ := get_divider_least w h sr
    (by omega) (by omega) (by omega) hmax
  refine ⟨⟨k, 2 ^ k, by rw [heq]; exact hrun k le_rfl⟩, ?_⟩
  intro fuel d hd
  rw [heq] at hd
  rw [get_divider_unique hd (hrun k le_rfl)]
  obtain ⟨a0, a1⟩ := tdiv_le_clamped w (by omega) k
  obtain ⟨b0, b1⟩ := tdiv_le_clamped h (by omega) k
  have hc := clamped_pos w k
  calc w.tdiv (2 ^ k) * h.tdiv (2 ^ k) ≤ clamped w k * clamped h k :=
        mul_le_mul a1 b1 b0 (by omega)
    _ ≤ sr * sr := hfit

theorem get_divider_within_budget_witness :
    (∃ fuel d, Machine.get_divider fuel 64 64 32 = some d) ∧
      ∀ fuel d, Machine.get_divider fuel 64 64 32 = some d →
        (64 : Int).tdiv d * (64 : Int).tdiv d ≤ 32 * 32 :=
  get_divider_within_budget 64 64 32 (by decide) (by decide) (by decide) (by decide)
    (by decide)

/-- C2 (as stated, refuted): for `width = 1`, `height = 4`, `start_resolution = 1` the divider is
`4 > 1`, on mathematical integers and in 32 bit arithmetic alike, yet with plain truncating
division `(1 div 2) * (4 div 2) = 0` is not above `start_resolution^2 = 1`. -/
theorem get_divider_unclamped_minimality_fails :
    get_divider 2 1 4 1 = some 4 ∧ Machine.get_divider 2 1 4 1 = some 4 ∧ (4 : Int) > 1 ∧
      ¬ ((1 : Int).tdiv ((4 : Int).tdiv 2) * (4 : Int).tdiv ((4 : Int).tdiv 2) > 1 * 1) := by
  decide

/-- C2 (amended): for positive `width`, `height` and `start_resolution` whose products
`width * height` and `start_resolution^2` fit in an `int`, `get_divider` returns, and a
returned divider `d > 1` is minimal for the clamped dimensions:
`max(1, width div (d/2)) * max(1, height div (d/2)) > start_resolution^2`. -/
theorem get_divider_clamped_minimality (w h sr : Int) (hw : 0 < w) (hh : 0 < h) (hs : 0 < sr)
    (hwh : w * h ≤ INT_MAX) (hsr : sr * sr ≤ INT_MAX) :
    (∃ fuel d, Machine.get_divider fuel w h sr = some d) ∧
      ∀ fuel d, Machine.get_divider fuel w h sr = some d → d > 1 →
        max 1 (w.tdiv (d.tdiv 2)) * max 1 (h.tdiv (d.tdiv 2)) > sr * sr := by
  have hmax : sr ≠ INT_MAX := fun e => mul_self_gt_int_max (by rw [e] at hsr; exact hsr)
  have heq : ∀ fuel, Machine.get_divider fuel w h sr = get_divider fuel w h sr :=
    fun fuel => machine_get_divider_eq fuel w h sr (by omega) (by omega) (by omega) hwh hsr
  obtain ⟨k, -, hmin, hrun⟩ := get_divider_least w h sr
    (by omega) (by omega) (by omega) hmax
  refine ⟨⟨k, 2 ^ k, by rw [heq]; exact hrun k le_rfl⟩, ?_⟩
  intro fuel d hd hgt
  rw [heq] at hd
  rw [get_divider_unique hd (hrun k le_rfl)] at hgt ⊢
  obtain ⟨m, rfl⟩ : ∃ m, k = m + 1 := by
    rcases k with _ | m
    · simp at hgt
    · exact ⟨m, rfl⟩
  have hhalf : ((2 : Int) ^ (m + 1)).tdiv 2 = 2 ^ m := by
    rw [pow_succ, Int.tdiv_eq_ediv (by positivity) (by decide)]
    exact Int.mul_ediv_cancel _ (by decide)
  rw [hhalf]
  have := hmin m (by omega)
  simp only [fits, clamped, not_le] at this
  exact this

theorem get_divider_clamped_minimality_witness :
    (∃ fuel d, Machine.get_divider fuel 1 4 1 = some d) ∧
      ∀ fuel d, Machine.get_divider fuel 1 4 1 = some d → d > 1 →
        max 1 ((1 : Int).tdiv (d.tdiv 2)) * max 1 ((4 : Int).tdiv (d.tdiv 2)) > 1 * 1 :=
  get_divider_clamped_minimality 1 4 1 (by decide) (by decide) (by decide) (by decide)
    (by decide)

/-- With `start_resolution = 46341` the square wraps to a negative number, and on dimensions
that have reached 1 the loop of `get_divider` does not end. -/
theorem machine_get_divider_loop_diverges :
    ∀ (fuel : Nat) (d : Int), Machine.get_divider_loop 46341 fuel 1 1 d = none := by
  intro fuel
  induction fuel with
  | zero => intro d; rfl
  | succ n ih =>
    intro d
    have hc : wrap_int (1 * 1) > wrap_int (46341 * 46341) := by decide
    have h1 : max 1 ((1 : Int).tdiv 2) = 1 := by decide
    simp only [Machine.get_divider_loop, hc, if_true, h1]
    exact ih _

/-- C3 (as stated, refuted): for `width = height = 50000`, `start_resolution = 64` the
product wraps and `get_divider` returns `1 = 2^0`, although the clamped product is within
`64^2` only from `k = 10` on; and for `start_resolution = 46341`, whose square wraps to a
negative number, `get_divider` does not return at all (on `width = height = 1`, for every
fuel). -/
theorem get_divider_overflow_not_least :
    Machine.get_divider 64 50000 50000 64 = some (2 ^ 0) ∧
    ¬ (max 1 ((50000 : Int).tdiv (2 ^ 0)) * max 1 ((50000 : Int).tdiv (2 ^ 0)) ≤ 64 * 64) ∧
    ¬ (max 1 ((50000 : Int).tdiv (2 ^ 9)) * max 1 ((50000 : Int).tdiv (2 ^ 9)) ≤ 64 * 64) ∧
    max 1 ((50000 : Int).tdiv (2 ^ 10)) * max 1 ((50000 : Int).tdiv (2 ^ 10)) ≤ 64 * 64 ∧
    wrap_int (46341 * 46341) = -2147479015 ∧
    ∀ fuel, Machine.get_divider fuel 1 1 46341 = none := by
  refine ⟨by decide, by decide, by decide, by decide, by decide, fun fuel => ?_⟩
  have hne : (46341 : Int) ≠ INT_MAX := by decide
  simp only [Machine.get_divider, hne, ne_eq, not_false_eq_true, if_true]
  exact machine_get_divider_loop_diverges fuel 1

/-- C3 (amended): for `width, height >= 1` and `start_resolution >= 1` whose products
`width * height` and `start_resolution^2` fit in an `int`, `get_divider` terminates (any fuel
of at least `k` suffices) and returns `2^k`, `k` being the least natural number with
`max(1, width div 2^k) * max(1, height div 2^k) <= start_resolution^2`; and for
`start_resolution = INT_MAX` it returns 1 for every width and height. -/
theorem get_divider_least_power_of_two :
    (∀ w h sr : Int, 1 ≤ w → 1 ≤ h → 1 ≤ sr → w * h ≤ INT_MAX → sr * sr ≤ INT_MAX →
      ∃ k : Nat,
        max 1 (w.tdiv (2 ^ k)) * max 1 (h.tdiv (2 ^ k)) ≤ sr * sr ∧
        (∀ j : Nat, j < k → ¬ max 1 (w.tdiv (2 ^ j)) * max 1 (h.tdiv (2 ^ j)) ≤ sr * sr) ∧
        (∀ fuel, k ≤ fuel → Machine.get_divider fuel w h sr = some (2 ^ k)) ∧
        (∀ fuel d, Machine.get_divider fuel w h sr = some d → d = 2 ^ k ∧ 1 ≤ d)) ∧
    (∀ (fuel : Nat) (w h : Int), Machine.get_divider fuel w h INT_MAX = some 1) := by
  constructor
  · intro w h sr hw hh hs hwh hsr
    have hmax : sr ≠ INT_MAX := fun e => mul_self_gt_int_max (by rw [e] at hsr; exact hsr)
    have heq : ∀ fuel, Machine.get_divider fuel w h sr = get_divider fuel w h sr :=
      fun fuel => machine_get_divider_eq fuel w h sr hw hh hs hwh hsr
    obtain ⟨k, hfit, hmin, hrun⟩ := get_divider_least w h sr hw hh (by omega) hmax
    refine ⟨k, hfit, hmin, fun fuel hf => by rw [heq]; exact hrun fuel hf, ?_⟩
    intro fuel d hd
    rw [heq] at hd
    rw [get_divider_unique hd (hrun k le_rfl)]
    exact ⟨rfl, one_le_pow₀ (by decide)⟩
  · intro fuel w h
    simp [Machine.get_divider]

theorem get_divider_least_power_of_two_witness :
    ∃ k : Nat,
      max 1 ((64 : Int).tdiv (2 ^ k)) * max 1 ((64 : Int).tdiv (2 ^ k)) ≤ 32 * 32 ∧
      (∀ j : Nat, j < k →
        ¬ max 1 ((64 : Int).tdiv (2 ^ j)) * max 1 ((64 : Int).tdiv (2 ^ j)) ≤ 32 * 32) ∧
      (∀ fuel, k ≤ fuel → Machine.get_divider fuel 64 64 32 = some (2 ^ k)) ∧
      (∀ fuel d, Machine.get_divider fuel 64 64 32 = some d → d = 2 ^ k ∧ 1 ≤ d) :=
  get_divider_least_power_of_two.1 64 64 32 (by decide) (by decide) (by decide) (by decide)
    (by decide)


namespace TileManager

/-! ## `done` and `next` -/

/-- Where neither sum leaves the range of `int`, `done()` computes in 32 bit arithmetic what
it computes on mathematical integers. -/
theorem machine_done_eq (tm : TileManager)
    (h1 : INT_MIN ≤ tm.state.sample + tm.state.num_samples)
    (h2 : tm.state.sample + tm.state.num_samples ≤ INT_MAX)
    (h3 : tm.range_num_samples ≠ -1 →
      INT_MIN ≤ tm.range_start_sample + tm.range_num_samples ∧
        tm.range_start_sample + tm.range_num_samples ≤ INT_MAX) :
    Machine.done tm = done tm := by
  unfold Machine.done done
  rw [wrap_int_eq h1 h2]
  by_cases hr : tm.range_num_samples = -1
  · simp [hr]
  · rw [wrap_int_eq (h3 hr).1 (h3 hr).2]

/-- C4 (as stated, refuted): in `overflow_state` the divider equals `pixel_size` and no
sub-range is active, and the sum `sample + num_samples = 1 + INT_MAX` is above
`end_sample = 4`; but the `int` addition wraps to `INT_MIN` and `done()` is false. -/
theorem done_false_on_overflowing_sum :
    overflow_state.state.resolution_divider = overflow_state.pixel_size ∧
    overflow_state.range_num_samples = -1 ∧
    overflow_state.state.sample + overflow_state.state.num_samples ≥
      overflow_state.num_samples ∧
    wrap_int (overflow_state.state.sample + overflow_state.state.num_samples) = INT_MIN ∧
    Machine.done overflow_state = false := by
  decide

/-- C4 (amended): `done()` is true exactly when `resolution_divider == pixel_size` and
`sample + num_samples >= end_sample`, both sums being the 32 bit `int` sums of the code,
where `end_sample` is `range_start_sample + range_num_samples` when a sub-range is active
(`range_num_samples != -1`) and the requested `num_samples` otherwise; when the sums stay
within the range of `int` they are the mathematical sums; and `done()` is false whenever
`resolution_divider != pixel_size`, whatever the sample counters are. -/
theorem done_iff_resolution_and_samples (tm : TileManager) :
    (Machine.done tm = true ↔
      tm.state.resolution_divider = tm.pixel_size ∧
        wrap_int (tm.state.sample + tm.state.num_samples) ≥
          (if tm.range_num_samples ≠ -1 then
            wrap_int (tm.range_start_sample + tm.range_num_samples)
           else tm.num_samples)) ∧
    (INT_MIN ≤ tm.state.sample + tm.state.num_samples →
      tm.state.sample + tm.state.num_samples ≤ INT_MAX →
      (tm.range_num_samples ≠ -1 →
        INT_MIN ≤ tm.range_start_sample + tm.range_num_samples ∧
          tm.range_start_sample + tm.range_num_samples ≤ INT_MAX) →
      (Machine.done tm = true ↔
        tm.state.resolution_divider = tm.pixel_size ∧
          tm.state.sample + tm.state.num_samples ≥
            (if tm.range_num_samples ≠ -1 then tm.range_start_sample + tm.range_num_samples
             else tm.num_samples))) ∧
    (tm.state.resolution_divider ≠ tm.pixel_size → Machine.done tm = false) := by
  refine ⟨?_, ?_, ?_⟩
  · unfold Machine.done
    by_cases hr : tm.range_num_samples = -1 <;>
      by_cases hd : tm.state.resolution_divider = tm.pixel_size <;>
      simp [hr, hd]
  · intro h1 h2 h3
    rw [machine_done_eq tm h1 h2 h3]
    unfold done
    by_cases hr : tm.range_num_samples = -1 <;>
      by_cases hd : tm.state.resolution_divider = tm.pixel_size <;>
      simp [hr, hd]
  · intro hd
    unfold Machine.done
    simp [hd]

theorem done_iff_resolution_and_samples_witness :
    (Machine.done scenario_state = true ↔
      scenario_state.state.resolution_divider = scenario_state.pixel_size ∧
        scenario_state.state.sample + scenario_state.state.num_samples ≥
          (if scenario_state.range_num_samples ≠ -1 then
            scenario_state.range_start_sample + scenario_state.range_num_samples
           else scenario_state.num_samples)) ∧
    Machine.done scenario_state = false :=
  ⟨(done_iff_resolution_and_samples scenario_state).2.1 (by decide) (by decide) (by decide),
    (done_iff_resolution_and_samples scenario_state).2.2 (by decide)⟩

/-- A call of `next` on a state that is done returns false and changes nothing. -/
theorem next_of_done (tm : TileManager) (hd : done tm = true) : next tm = (false, tm) := by
  simp [next, hd]

/-- C5: `next()` returns false exactly when `done()` held before the call, and then it leaves
the whole object unchanged; otherwise it returns true. -/
theorem next_false_iff_done (tm : TileManager) :
    ((next tm).1 = false ↔ done tm = true) ∧
    (done tm = true → (next tm).2 = tm) ∧
    (done tm = false → (next tm).1 = true) := by
  cases hd : done tm
  · have h1 : (next tm).1 = true := by
      by_cases hg : (tm.progressive && decide (tm.state.resolution_divider > tm.pixel_size)) = true <;>
        by_cases hs : tm.state.sample + 1 = tm.range_start_sample <;>
        simp [next, hd, hg, hs]
    simp [h1]
  · simp [next, hd]

theorem next_false_iff_done_witness :
    done (run 4 scenario_state) = true ∧
      (next (run 4 scenario_state)).2 = run 4 scenario_state ∧
      done scenario_state = false ∧ (next scenario_state).1 = true :=
  ⟨by decide, (next_false_iff_done (run 4 scenario_state)).2.1 (by decide),
    by decide, (next_false_iff_done scenario_state).2.2 (by decide)⟩

/-- C6: progressive coarse step.  When `progressive` is true, `done()` is false and
`resolution_divider > pixel_size`, `next()` returns true, sets `resolution_divider` to
`max(old_divider div 2, pixel_size)`, `sample` to 0, the step sample count `state.num_samples`
to 1, and recomputes every field of `state.buffer` from `params` and the new divider. -/
theorem next_progressive_coarse_step (tm : TileManager) (hp : tm.progressive = true)
    (hd : done tm = false) (hgt : tm.state.resolution_divider > tm.pixel_size) :
    (next tm).1 = true ∧
    (next tm).2.state.resolution_divider =
      max (tm.state.resolution_divider.tdiv 2) tm.pixel_size ∧
    (next tm).2.state.sample = 0 ∧
    (next tm).2.state.num_samples = 1 ∧
    (next tm).2.params = tm.params ∧
    (next tm).2.state.buffer =
      { width := max 1 (tm.params.width.tdiv (next tm).2.state.resolution_divider)
        height := max 1 (tm.params.height.tdiv (next tm).2.state.resolution_divider)
        full_x := tm.params.full_x.tdiv (next tm).2.state.resolution_divider
        full_y := tm.params.full_y.tdiv (next tm).2.state.resolution_divider
        full_width := max 1 (tm.params.full_width.tdiv (next tm).2.state.resolution_divider)
        full_height :=
          max 1 (tm.params.full_height.tdiv (next tm).2.state.resolution_divider) } := by
  simp [next, hd, hp, hgt, set_tiles]

theorem next_progressive_coarse_step_witness :
    (next scenario_state).1 = true ∧
    (next scenario_state).2.state.resolution_divider =
      max (scenario_state.state.resolution_divider.tdiv 2) scenario_state.pixel_size ∧
    (next scenario_state).2.state.sample = 0 ∧
    (next scenario_state).2.state.num_samples = 1 ∧
    (next scenario_state).2.params = scenario_state.params ∧
    (next scenario_state).2.state.buffer =
      { width := max 1 (scenario_state.params.width.tdiv
          (next scenario_state).2.state.resolution_divider)
        height := max 1 (scenario_state.params.height.tdiv
          (next scenario_state).2.state.resolution_divider)
        full_x := scenario_state.params.full_x.tdiv
          (next scenario_state).2.state.resolution_divider
        full_y := scenario_state.params.full_y.tdiv
          (next scenario_state).2.state.resolution_divider
        full_width := max 1 (scenario_state.params.full_width.tdiv
          (next scenario_state).2.state.resolution_divider)
        full_height := max 1 (scenario_state.params.full_height.tdiv
          (next scenario_state).2.state.resolution_divider) } :=
  next_progressive_coarse_step scenario_state (by decide) (by decide) (by decide)

/-- `next` changes nothing outside `state`. -/
theorem next_config (tm : TileManager) :
    (next tm).2.params = tm.params ∧ (next tm).2.num_samples = tm.num_samples ∧
    (next tm).2.progressive = tm.progressive ∧
    (next tm).2.start_resolution = tm.start_resolution ∧
    (next tm).2.pixel_size = tm.pixel_size ∧
    (next tm).2.range_start_sample = tm.range_start_sample ∧
    (next tm).2.range_num_samples = tm.range_num_samples := by
  by_cases hd : done tm = true <;>
    by_cases hg : (tm.progressive && decide (tm.state.resolution_divider > tm.pixel_size)) = true <;>
    by_cases hs : tm.state.sample + 1 = tm.range_start_sample <;>
    simp [next, hd, hg, hs, set_tiles]

theorem run_config (tm : TileManager) (n : Nat) :
    (run n tm).params = tm.params ∧ (run n tm).num_samples = tm.num_samples ∧
    (run n tm).progressive = tm.progressive ∧
    (run n tm).start_resolution = tm.start_resolution ∧
    (run n tm).pixel_size = tm.pixel_size ∧
    (run n tm).range_start_sample = tm.range_start_sample ∧
    (run n tm).range_num_samples = tm.range_num_samples := by
  induction n with
  | zero => simp [run]
  | succ n ih =>
    obtain ⟨a, b, c, d, e, f, g⟩ := next_config (run n tm)
    obtain ⟨a2, b2, c2, d2, e2, f2, g2⟩ := ih
    simp only [run]
    exact ⟨a.trans a2, b.trans b2, c.trans c2, d.trans d2, e.trans e2, f.trans f2, g.trans g2⟩

theorem run_add (tm : TileManager) (m n : Nat) : run (m + n) tm = run n (run m tm) := by
  induction n with
  | zero => rfl
  | succ n ih =>
    show (next (run (m + n) tm)).2 = (next (run n (run m tm))).2
    rw [ih]

/-- What one call of `next` does to `sample` and `resolution_divider`. -/
theorem next_cases (tm : TileManager) :
    (done tm = true ∧ (next tm).2 = tm) ∨
    (done tm = false ∧ coarse_branch tm = true ∧ (next tm).2.state.sample = 0 ∧
      (next tm).2.state.resolution_divider =
        max (tm.state.resolution_divider.tdiv 2) tm.pixel_size) ∨
    (done tm = false ∧ coarse_branch tm = false ∧
      (next tm).2.state.sample = tm.state.sample + 1 ∧
      (next tm).2.state.resolution_divider = tm.pixel_size) := by
  cases hd : done tm
  · cases hc : coarse_branch tm
    · right; right
      have hc2 := hc
      unfold coarse_branch at hc2
      by_cases hs : tm.state.sample + 1 = tm.range_start_sample <;>
        simp [next, hd, hc2, hs, set_tiles]
    · right; left
      have hc2 := hc
      unfold coarse_branch at hc2
      simp [next, hd, hc2, set_tiles]
  · left
    simp [next, hd]

/-- Once the divider equals `pixel_size` it stays there and `sample` never decreases. -/
theorem run_full_resolution_stable (tm : TileManager) (lo : Int)
    (hdiv : tm.state.resolution_divider = tm.pixel_size) (hlo : lo ≤ tm.state.sample) (n : Nat) :
    (run n tm).state.resolution_divider = tm.pixel_size ∧ lo ≤ (run n tm).state.sample := by
  induction n with
  | zero => exact ⟨hdiv, hlo⟩
  | succ n ih =>
    obtain ⟨h1, h2⟩ := ih
    have hps := (run_config tm n).2.2.2.2.1
    simp only [run]
    rcases next_cases (run n tm) with ⟨_, he⟩ | ⟨_, hc, _, _⟩ | ⟨_, _, hs, hr⟩
    · rw [he]; exact ⟨h1, h2⟩
    · simp [coarse_branch, h1, hps] at hc
    · rw [hs, hr, hps]; exact ⟨rfl, by omega⟩

/-- While the divider is at least a positive `pixel_size`, `next` does not increase it and keeps
it at least `pixel_size`. -/
theorem next_divider_le (tm : TileManager) (hps : 0 < tm.pixel_size)
    (hge : tm.pixel_size ≤ tm.state.resolution_divider) :
    (next tm).2.state.resolution_divider ≤ tm.state.resolution_divider ∧
    tm.pixel_size ≤ (next tm).2.state.resolution_divider := by
  rcases next_cases tm with ⟨_, he⟩ | ⟨_, hc, _, hr⟩ | ⟨_, _, _, hr⟩
  · rw [he]; exact ⟨le_rfl, hge⟩
  · rw [hr]
    simp only [coarse_branch, Bool.and_eq_true, decide_eq_true_eq] at hc
    have h0 : 0 ≤ tm.state.resolution_divider := by omega
    have h2 : tm.state.resolution_divider.tdiv 2 = tm.state.resolution_divider / 2 :=
      Int.tdiv_eq_ediv h0 (by decide)
    rw [h2]
    constructor
    · apply max_le <;> omega
    · exact le_max_right _ _
  · rw [hr]; exact ⟨hge, le_rfl⟩

theorem run_divider_antitone (tm : TileManager) (hps : 0 < tm.pixel_size)
    (hge : tm.pixel_size ≤ tm.state.resolution_divider) (n : Nat) :
    (run (n + 1) tm).state.resolution_divider ≤ (run n tm).state.resolution_divider ∧
    tm.pixel_size ≤ (run n tm).state.resolution_divider := by
  induction n with
  | zero => exact ⟨(next_divider_le tm hps hge).1, hge⟩
  | succ n ih =>
    have hc := (run_config tm (n + 1)).2.2.2.2.1
    have hc0 := (run_config tm n).2.2.2.2.1
    have hn := next_divider_le (run n tm) (by rw [hc0]; exact hps) (by rw [hc0]; exact ih.2)
    have hge2 : tm.pixel_size ≤ (run (n + 1) tm).state.resolution_divider := by
      have := hn.2; rw [hc0] at this; exact this
    exact ⟨(next_divider_le (run (n + 1) tm) (by rw [hc]; exact hps) (by rw [hc]; exact hge2)).1,
      hge2⟩

/-! ## `reset` -/

theorem set_samples_config {fuel : Nat} {tm tm2 : TileManager} {n : Int}
    (h : set_samples fuel tm n = some tm2) :
    tm2.params = tm.params ∧ tm2.num_samples = n ∧ tm2.progressive = tm.progressive ∧
    tm2.start_resolution = tm.start_resolution ∧ tm2.pixel_size = tm.pixel_size ∧
    tm2.range_start_sample = tm.range_start_sample ∧
    tm2.range_num_samples = tm.range_num_samples := by
  unfold set_samples at h
  simp only at h
  split_ifs at h with hi
  · cases h; simp
  · split at h
    · cases h
    · split at h
      · cases h
      · cases h; simp

/-- The object `reset` leaves behind. -/
theorem reset_result {fuel : Nat} {dflt : BufferParams} {tm s : TileManager}
    {params : BufferParams} {n : Int} (h : reset fuel dflt tm params n = some s) :
    s.params = params ∧ s.num_samples = n ∧ s.progressive = tm.progressive ∧
    s.start_resolution = tm.start_resolution ∧ s.pixel_size = tm.pixel_size ∧
    s.range_start_sample = tm.range_start_sample ∧
    s.range_num_samples = tm.range_num_samples ∧
    s.state.buffer = dflt ∧ s.state.sample = tm.range_start_sample - 1 ∧
    s.state.num_samples = 0 ∧
    get_divider fuel params.width params.height tm.start_resolution =
      some s.state.resolution_divider := by
  unfold reset at h
  simp only at h
  split at h
  · cases h
  · rename_i tm2 hss
    obtain ⟨a, b, c, d, e, f, g⟩ := set_samples_config hss
    simp only at a d
    split at h
    · cases h
    · rename_i dv hdv
      cases h
      rw [a, d] at hdv
      simp only [a, b, c, d, e, f, g, hdv]
      simp

/-! ## The `set_tiles()` of the full-resolution branch, observed on the buffer -/

theorem done_with_buffer (tm : TileManager) (b : BufferParams) :
    done (with_buffer tm b) = done tm := rfl

theorem coarse_branch_with_buffer (tm : TileManager) (b : BufferParams) :
    coarse_branch (with_buffer tm b) = coarse_branch tm := rfl

/-- The geometry `set_tiles()` writes does not depend on the buffer it overwrites. -/
theorem set_tiles_buffer_idem (tm : TileManager) :
    (set_tiles (set_tiles tm)).state.buffer = (set_tiles tm).state.buffer := rfl

/-- The width `set_tiles()` writes is at least 1. -/
theorem set_tiles_width_pos (tm : TileManager) : 1 ≤ (set_tiles tm).state.buffer.width :=
  le_max_left _ _

/-- A full-resolution call whose incremented sample equals `range_start_sample` ends in
`set_tiles()`: the buffer after it is the geometry `set_tiles()` computes. -/
theorem next_full_resolution_buffer_set (tm : TileManager) (hd : done tm = false)
    (hc : coarse_branch tm = false) (hs : tm.state.sample + 1 = tm.range_start_sample) :
    (next tm).2.state.buffer = (set_tiles (next tm).2).state.buffer := by
  have hc2 : (tm.progressive && decide (tm.state.resolution_divider > tm.pixel_size)) = false :=
    hc
  simp only [next, hd, hc2, hs, if_true, Bool.false_eq_true, if_false]
  rfl

/-- A full-resolution call whose incremented sample differs from `range_start_sample` does
not assign the buffer. -/
theorem next_full_resolution_buffer_kept (tm : TileManager) (hd : done tm = false)
    (hc : coarse_branch tm = false) (hs : tm.state.sample + 1 ≠ tm.range_start_sample) :
    (next tm).2.state.buffer = tm.state.buffer := by
  have hc2 : (tm.progressive && decide (tm.state.resolution_divider > tm.pixel_size)) = false :=
    hc
  simp only [next, hd, hc2, hs, if_true, Bool.false_eq_true, if_false]

/-- A full-resolution call whose incremented sample equals `range_start_sample` leaves the
geometry of `set_tiles()` in the buffer, whatever the buffer held. -/
theorem next_full_resolution_regenerates (tm : TileManager) (hd : done tm = false)
    (hc : coarse_branch tm = false) (hs : tm.state.sample + 1 = tm.range_start_sample) :
    next_regenerates tm :=
  fun b => next_full_resolution_buffer_set (with_buffer tm b) hd hc hs

/-- A full-resolution call whose incremented sample differs from `range_start_sample` leaves
the buffer as it was. -/
theorem next_full_resolution_keeps (tm : TileManager) (hd : done tm = false)
    (hc : coarse_branch tm = false) (hs : tm.state.sample + 1 ≠ tm.range_start_sample) :
    next_keeps_buffer tm :=
  fun b => next_full_resolution_buffer_kept (with_buffer tm b) hd hc hs

/-- No call both regenerates the geometry and keeps every buffer: `set_tiles()` never writes
the width 0. -/
theorem regenerates_not_keeps (tm : TileManager) (h1 : next_regenerates tm)
    (h2 : next_keeps_buffer tm) : False := by
  have a := h1 scenario_default
  have b := h2 scenario_default
  have c := set_tiles_width_pos (next (with_buffer tm scenario_default)).2
  rw [← a, b] at c
  exact absurd c (by decide)

/-- For a full-resolution call, regenerating the geometry and leaving the buffer alone are
decided by the guard `state.sample == range_start_sample` after the increment. -/
theorem next_full_resolution_buffer (tm : TileManager) (hd : done tm = false)
    (hc : coarse_branch tm = false) :
    (next_regenerates tm ↔ tm.state.sample + 1 = tm.range_start_sample) ∧
    (next_keeps_buffer tm ↔ tm.state.sample + 1 ≠ tm.range_start_sample) := by
  by_cases hs : tm.state.sample + 1 = tm.range_start_sample
  · have h1 := next_full_resolution_regenerates tm hd hc hs
    exact ⟨⟨fun _ => hs, fun _ => h1⟩,
      ⟨fun h2 => (regenerates_not_keeps tm h1 h2).elim, fun h => absurd hs h⟩⟩
  · have h2 := next_full_resolution_keeps tm hd hc hs
    exact ⟨⟨fun h1 => (regenerates_not_keeps tm h1 h2).elim, fun h => absurd h hs⟩,
      ⟨fun _ => hs, fun _ => h2⟩⟩

/-- C8 (as stated, refuted): in the progressive 64 x 64 scenario the run from `reset` has four
successful calls of `next` before `done()`; the first takes the coarse branch, the other three
are full-resolution calls, and each of these three leaves the buffer as it was and does not
regenerate the geometry: the full-resolution branch calls `set_tiles()` at no call, not at
one. -/
theorem full_resolution_regen_absent_in_scenario :
    scenario_start = some scenario_state ∧
    done (run 4 scenario_state) = true ∧
    (∀ i, i < 4 → done (run i scenario_state) = false) ∧
    coarse_branch (run 0 scenario_state) = true ∧
    (∀ i, 1 ≤ i → i < 4 → coarse_branch (run i scenario_state) = false ∧
      next_keeps_buffer (run i scenario_state) ∧ ¬ next_regenerates (run i scenario_state)) := by
  refine ⟨by decide, by decide, by decide, by decide, ?_⟩
  intro i h1 h4
  have hd : done (run i scenario_state) = false := by
    interval_cases i <;> decide
  have hc : coarse_branch (run i scenario_state) = false := by
    interval_cases i <;> decide
  have hs : (run i scenario_state).state.sample + 1 ≠ (run i scenario_state).range_start_sample := by
    interval_cases i <;> decide
  have hk := next_full_resolution_keeps _ hd hc hs
  exact ⟨hc, hk, fun hr => regenerates_not_keeps _ hr hk⟩

/-- C8 (amended): in every run of `next()` calls from a freshly reset object, a
full-resolution call (`done()` false and the coarse guard false before it) regenerates the
buffer geometry, that is leaves in `state.buffer` what `set_tiles()` computes, exactly when
`sample` equals `range_start_sample` after it, and leaves `state.buffer` untouched exactly
when it does not; no more than one full-resolution call of the run regenerates the geometry;
and the first call of the run does when the run takes no coarse step first (`done()` false
and the coarse guard false right after `reset`). -/
theorem full_resolution_regen_at_most_once (fuel : Nat) (dflt : BufferParams)
    (tm0 : TileManager) (params : BufferParams) (n : Int) (s0 : TileManager)
    (hreset : reset fuel dflt tm0 params n = some s0) :
    (∀ i, done (run i s0) = false → coarse_branch (run i s0) = false →
      (next_regenerates (run i s0) ↔
        (run (i + 1) s0).state.sample = s0.range_start_sample) ∧
      (next_keeps_buffer (run i s0) ↔
        (run (i + 1) s0).state.sample ≠ s0.range_start_sample)) ∧
    (∀ i j, done (run i s0) = false → coarse_branch (run i s0) = false →
      done (run j s0) = false → coarse_branch (run j s0) = false →
      next_regenerates (run i s0) → next_regenerates (run j s0) → i = j) ∧
    (done s0 = false → coarse_branch s0 = false → next_regenerates (run 0 s0)) := by
  have hsample : ∀ i, done (run i s0) = false → coarse_branch (run i s0) = false →
      (run (i + 1) s0).state.sample = (run i s0).state.sample + 1 ∧
      (run (i + 1) s0).state.resolution_divider = s0.pixel_size := by
    intro i hd hc
    have hps := (run_config s0 i).2.2.2.2.1
    rcases next_cases (run i s0) with ⟨hd2, _⟩ | ⟨_, hc2, _, _⟩ | ⟨_, _, hs2, hr⟩
    · rw [hd] at hd2; cases hd2
    · rw [hc] at hc2; cases hc2
    · simp only [run]; rw [hs2, hr, hps]; exact ⟨rfl, rfl⟩
  have key : ∀ i, done (run i s0) = false → coarse_branch (run i s0) = false →
      (next_regenerates (run i s0) ↔
        (run (i + 1) s0).state.sample = s0.range_start_sample) ∧
      (next_keeps_buffer (run i s0) ↔
        (run (i + 1) s0).state.sample ≠ s0.range_start_sample) := by
    intro i hd hc
    have hrs := (run_config s0 i).2.2.2.2.2.1
    have h := next_full_resolution_buffer (run i s0) hd hc
    rw [hrs, ← (hsample i hd hc).1] at h
    exact h
  have later : ∀ i k, done (run i s0) = false → coarse_branch (run i s0) = false →
      next_regenerates (run i s0) →
      done (run (i + 1 + k) s0) = false → coarse_branch (run (i + 1 + k) s0) = false →
      ¬ next_regenerates (run (i + 1 + k) s0) := by
    intro i k hd hc hi hd2 hc2 hj
    have hs := ((key i hd hc).1).1 hi
    have hs2 := ((key (i + 1 + k) hd2 hc2).1).1 hj
    have hps1 := (run_config s0 (i + 1)).2.2.2.2.1
    have hdiv : (run (i + 1) s0).state.resolution_divider = (run (i + 1) s0).pixel_size := by
      rw [hps1]; exact (hsample i hd hc).2
    obtain ⟨-, hlo⟩ := run_full_resolution_stable (run (i + 1) s0) s0.range_start_sample hdiv
      (le_of_eq hs.symm) k
    rw [← run_add] at hlo
    have := (hsample (i + 1 + k) hd2 hc2).1
    omega
  refine ⟨key, ?_, ?_⟩
  · intro i j hdi hci hdj hcj hi hj
    rcases Nat.lt_trichotomy i j with h | h | h
    · obtain ⟨k, rfl⟩ : ∃ k, j = i + 1 + k := ⟨j - (i + 1), by omega⟩
      exact absurd hj (later i k hdi hci hi hdj hcj)
    · exact h
    · obtain ⟨k, rfl⟩ : ∃ k, i = j + 1 + k := ⟨i - (j + 1), by omega⟩
      exact absurd hi (later j k hdj hcj hj hdi hci)
  · intro hd hc
    obtain ⟨-, -, -, -, -, hrs, -, -, hsm, -, -⟩ := reset_result hreset
    apply next_full_resolution_regenerates (run 0 s0) hd hc
    show s0.state.sample + 1 = s0.range_start_sample
    rw [hsm, hrs]; omega

theorem full_resolution_regen_at_most_once_witness :
    next_regenerates (run 0 batch_state) ∧
    (run (0 + 1) batch_state).state.sample = batch_state.range_start_sample ∧
    (∀ j, done (run j batch_state) = false → coarse_branch (run j batch_state) = false →
      next_regenerates (run j batch_state) → j = 0) :=
  have h := full_resolution_regen_at_most_once 8 scenario_default batch_state scenario_params 4
    batch_state (by decide)
  ⟨h.2.2 (by decide) (by decide),
    ((h.1 0 (by decide) (by decide)).1).1 (h.2.2 (by decide) (by decide)),
    fun j hd hc hj => h.2.1 j 0 hd hc (by decide) (by decide) hj (h.2.2 (by decide) (by decide))⟩

/-- C9 (as stated, refuted): in the scenario `done()` is already true after the 4th call of
`next()`, so the 5th call returns false and `sample` stays 3; it never becomes 4. -/
theorem scenario_fifth_next_fails :
    scenario_start = some scenario_state ∧
    done (run 4 scenario_state) = true ∧
    (next (run 4 scenario_state)).1 = false ∧
    (run 5 scenario_state).state.sample = 3 := by
  decide

/-- C9 (amended): scenario width = height = 64, start_resolution = 32, pixel_size = 1,
progressive, num_samples = 4, no sub-range.  `get_divider` returns 2; after `reset` the 1st
`next()` sets divider 1, sample 0, step samples 1; the 2nd to 4th calls succeed and set sample
to 1, 2, 3 at divider 1 with step samples 1; `done()` is false after the 3rd call and true
after the 4th; the 5th call returns false and changes nothing. -/
theorem scenario_trace :
    get_divider 8 64 64 32 = some 2 ∧
    scenario_start = some scenario_state ∧
    scenario_state.state.resolution_divider = 2 ∧
    (next scenario_state).1 = true ∧
    (run 1 scenario_state).state.resolution_divider = 1 ∧
    (run 1 scenario_state).state.sample = 0 ∧
    (run 1 scenario_state).state.num_samples = 1 ∧
    (∀ i : Nat, 1 ≤ i → i ≤ 3 →
      (next (run i scenario_state)).1 = true ∧
      (run (i + 1) scenario_state).state.sample = i ∧
      (run (i + 1) scenario_state).state.resolution_divider = 1 ∧
      (run (i + 1) scenario_state).state.num_samples = 1) ∧
    (∀ i : Nat, i ≤ 3 → done (run i scenario_state) = false) ∧
    done (run 4 scenario_state) = true ∧
    next (run 4 scenario_state) = (false, run 4 scenario_state) := by
  decide

/-- C10 (as stated, refuted): with `pixel_size = 2` and `start_resolution = 64` the 64 x 64
geometry resets to divider 1, and the first `next()` raises the divider to `pixel_size = 2`. -/
theorem resolution_divider_increases_below_pixel_size :
    coarse_pixel_start = some coarse_pixel_state ∧
    0 < coarse_pixel_state.pixel_size ∧
    (next coarse_pixel_state).1 = true ∧
    ¬ ((next coarse_pixel_state).2.state.resolution_divider ≤
        coarse_pixel_state.state.resolution_divider) := by
  decide

/-- C10 (amended): for every object reachable by `next()` calls from a `reset` whose divider
`get_divider(width, height, start_resolution)` is at least a positive `pixel_size`
(progressive or not, any geometry), `resolution_divider` after `next()` is at most its value
before the call. -/
theorem resolution_divider_nonincreasing (fuel : Nat) (dflt : BufferParams)
    (tm0 : TileManager) (params : BufferParams) (n : Int) (s0 : TileManager) (d : Int)
    (hreset : reset fuel dflt tm0 params n = some s0)
    (hdiv : get_divider fuel params.width params.height tm0.start_resolution = some d)
    (hps : 0 < tm0.pixel_size) (hge : tm0.pixel_size ≤ d) (i : Nat) :
    s0.state.resolution_divider = d ∧
    (next (run i s0)).2.state.resolution_divider ≤ (run i s0).state.resolution_divider := by
  obtain ⟨-, -, -, -, hpx, -, -, -, -, -, hg⟩ := reset_result hreset
  have hd : s0.state.resolution_divider = d := by
    rw [hg] at hdiv; exact Option.some.inj hdiv
  refine ⟨hd, ?_⟩
  exact (run_divider_antitone s0 (by rw [hpx]; exact hps) (by rw [hpx, hd]; exact hge) i).1

theorem resolution_divider_nonincreasing_witness :
    scenario_state.state.resolution_divider = 2 ∧
    (next (run 0 scenario_state)).2.state.resolution_divider ≤
      (run 0 scenario_state).state.resolution_divider :=
  resolution_divider_nonincreasing 8 scenario_default scenario_state scenario_params 4
    scenario_state 2 (by decide) (by decide) (by decide) (by decide) 0

end TileManager

namespace TileManager

/-! ## The divider floor and the buffer geometry -/

/-- C11: `pixel_size` is a floor for the divider.  After every successful `next()` with
`pixel_size >= 1`, `resolution_divider >= pixel_size >= 1`; it equals `pixel_size` after a
full-resolution step, and after a progressive coarse step it is strictly greater than
`pixel_size` exactly when `old_divider div 2 > pixel_size`. -/
theorem next_divider_floor (tm : TileManager) (hps : 1 ≤ tm.pixel_size)
    (hs : (next tm).1 = true) :
    (next tm).2.state.resolution_divider ≥ (next tm).2.pixel_size ∧
    (next tm).2.pixel_size ≥ 1 ∧
    (coarse_branch tm = false → (next tm).2.state.resolution_divider = (next tm).2.pixel_size) ∧
    (coarse_branch tm = true →
      ((next tm).2.state.resolution_divider > (next tm).2.pixel_size ↔
        tm.state.resolution_divider.tdiv 2 > tm.pixel_size)) := by
  have hpx := (next_config tm).2.2.2.2.1
  rw [hpx]
  rcases next_cases tm with ⟨hd, _⟩ | ⟨_, hc, _, hr⟩ | ⟨_, hc, _, hr⟩
  · rw [next_of_done tm hd] at hs; cases hs
  · rw [hr]
    refine ⟨le_max_right _ _, hps, ?_, ?_⟩
    · intro h; rw [hc] at h; cases h
    · intro _; exact ⟨fun h => by omega, fun h => by omega⟩
  · rw [hr]
    refine ⟨le_rfl, hps, fun _ => rfl, ?_⟩
    intro h; rw [hc] at h; cases h

theorem next_divider_floor_witness :
    (next scenario_state).2.state.resolution_divider ≥ (next scenario_state).2.pixel_size ∧
    (next scenario_state).2.pixel_size ≥ 1 ∧
    ((next scenario_state).2.state.resolution_divider > (next scenario_state).2.pixel_size ↔
      scenario_state.state.resolution_divider.tdiv 2 > scenario_state.pixel_size) ∧
    (next (run 1 scenario_state)).2.state.resolution_divider =
      (next (run 1 scenario_state)).2.pixel_size :=
  ⟨(next_divider_floor scenario_state (by decide) (by decide)).1,
    (next_divider_floor scenario_state (by decide) (by decide)).2.1,
    (next_divider_floor scenario_state (by decide) (by decide)).2.2.2 (by decide),
    (next_divider_floor (run 1 scenario_state) (by decide) (by decide)).2.2.1 (by decide)⟩

/-- After `set_tiles` the buffer matches the divider. -/
theorem set_tiles_buffer_matches (tm : TileManager) : buffer_matches (set_tiles tm) := by
  simp [buffer_matches, set_tiles]

/-- The state after a successful `next()` on a freshly reset object, and on an object that
already satisfies the invariant. -/
theorem next_buffer_matches (tm : TileManager) (hd : done tm = false)
    (h : tm.state.sample + 1 = tm.range_start_sample ∨
      (buffer_matches tm ∧ (tm.state.resolution_divider = tm.pixel_size ∨
        (tm.progressive = true ∧ tm.state.resolution_divider > tm.pixel_size)))) :
    buffer_matches (next tm).2 ∧
    ((next tm).2.state.resolution_divider = tm.pixel_size ∨
      (tm.progressive = true ∧ (next tm).2.state.resolution_divider > tm.pixel_size)) ∧
    (next tm).2.state.resolution_divider ≥ tm.pixel_size := by
  by_cases hg : (tm.progressive && decide (tm.state.resolution_divider > tm.pixel_size)) = true
  · have hn : (next tm).2 = set_tiles
        { tm with state := { tm.state with
            sample := 0
            resolution_divider := max (tm.state.resolution_divider.tdiv 2) tm.pixel_size
            num_samples := 1 } } := by
      simp [next, hd, hg]
    rw [hn]
    refine ⟨set_tiles_buffer_matches _, ?_, ?_⟩
    · simp only [Bool.and_eq_true, decide_eq_true_eq] at hg
      simp only [set_tiles]
      rcases lt_or_ge tm.pixel_size (tm.state.resolution_divider.tdiv 2) with h2 | h2
      · right; exact ⟨hg.1, lt_of_lt_of_le h2 (le_max_left _ _)⟩
      · left; exact max_eq_right h2
    · simp only [set_tiles]; exact le_max_right _ _
  · by_cases hs : tm.state.sample + 1 = tm.range_start_sample
    · have hn : (next tm).2 = set_tiles
          { tm with state := { tm.state with
              sample := tm.state.sample + 1
              num_samples :=
                if tm.progressive then 1
                else if tm.range_num_samples = -1 then tm.num_samples
                else tm.range_num_samples
              resolution_divider := tm.pixel_size } } := by
        simp [next, hd, hg, hs]
      rw [hn]
      exact ⟨set_tiles_buffer_matches _, Or.inl (by simp [set_tiles]), by simp [set_tiles]⟩
    · have hn : (next tm).2 =
          { tm with state := { tm.state with
              sample := tm.state.sample + 1
              num_samples :=
                if tm.progressive then 1
                else if tm.range_num_samples = -1 then tm.num_samples
                else tm.range_num_samples
              resolution_divider := tm.pixel_size } } := by
        simp [next, hd, hg, hs]
      rw [hn]
      rcases h with h | ⟨hb, hdv⟩
      · exact absurd h hs
      · have hdiv : tm.state.resolution_divider = tm.pixel_size := by
          rcases hdv with h1 | ⟨h1, h2⟩
          · exact h1
          · simp [h1, h2] at hg
        refine ⟨?_, Or.inl rfl, le_rfl⟩
        simp only [buffer_matches] at hb ⊢
        rw [← hdiv]; exact hb

/-- Along a run from `reset`, either no call has succeeded yet or the buffer matches the
divider and the divider is at `pixel_size` or, in progressive mode, above it. -/
theorem run_buffer_matches {fuel : Nat} {dflt : BufferParams} {tm0 s0 : TileManager}
    {params : BufferParams} {n : Int} (hreset : reset fuel dflt tm0 params n = some s0)
    (i : Nat) :
    run i s0 = s0 ∨
    (buffer_matches (run i s0) ∧
      ((run i s0).state.resolution_divider = s0.pixel_size ∨
        (s0.progressive = true ∧ (run i s0).state.resolution_divider > s0.pixel_size))) := by
  obtain ⟨-, -, -, -, -, hrs, -, -, hsample, -, -⟩ := reset_result hreset
  induction i with
  | zero => left; rfl
  | succ i ih =>
    obtain ⟨-, -, hpr, -, hpx, -, -⟩ := run_config s0 i
    cases hd : done (run i s0)
    · right
      have hpre : (run i s0).state.sample + 1 = (run i s0).range_start_sample ∨
          (buffer_matches (run i s0) ∧
            ((run i s0).state.resolution_divider = (run i s0).pixel_size ∨
              ((run i s0).progressive = true ∧
                (run i s0).state.resolution_divider > (run i s0).pixel_size))) := by
        rcases ih with h | h
        · left; rw [h, hsample, hrs]; omega
        · right; rw [hpr, hpx]; exact h
      obtain ⟨a, b, -⟩ := next_buffer_matches (run i s0) hd hpre
      rw [hpr, hpx] at b
      exact ⟨a, b⟩
    · have he : run (i + 1) s0 = run i s0 := by
        show (next (run i s0)).2 = run i s0
        rw [next_of_done _ hd]
      rw [he]; exact ih

/-- C14: buffer geometry never degenerates and matches the active divider.  In every run
`reset; next(); next(); ...` with `pixel_size >= 1`, after each successful `next()` the
buffer `width`, `height`, `full_width` and `full_height` are `max(1, params.* div
resolution_divider)`, so all four are at least 1, and the divider they were divided by is at
least `pixel_size >= 1`, so it is not zero. -/
theorem buffer_never_degenerates (fuel : Nat) (dflt : BufferParams) (tm0 : TileManager)
    (params : BufferParams) (n : Int) (s0 : TileManager)
    (hreset : reset fuel dflt tm0 params n = some s0) (hps : 1 ≤ tm0.pixel_size) (i : Nat)
    (hsucc : (next (run i s0)).1 = true) :
    (run (i + 1) s0).state.buffer.width =
      max 1 (params.width.tdiv (run (i + 1) s0).state.resolution_divider) ∧
    (run (i + 1) s0).state.buffer.height =
      max 1 (params.height.tdiv (run (i + 1) s0).state.resolution_divider) ∧
    (run (i + 1) s0).state.buffer.full_width =
      max 1 (params.full_width.tdiv (run (i + 1) s0).state.resolution_divider) ∧
    (run (i + 1) s0).state.buffer.full_height =
      max 1 (params.full_height.tdiv (run (i + 1) s0).state.resolution_divider) ∧
    1 ≤ (run (i + 1) s0).state.buffer.width ∧ 1 ≤ (run (i + 1) s0).state.buffer.height ∧
    1 ≤ (run (i + 1) s0).state.buffer.full_width ∧
    1 ≤ (run (i + 1) s0).state.buffer.full_height ∧
    1 ≤ (run (i + 1) s0).state.resolution_divider := by
  obtain ⟨hpar, -, -, -, hpx0, hrs, -, -, hsample, -, -⟩ := reset_result hreset
  obtain ⟨hp, -, hpr, -, hpx, -, -⟩ := run_config s0 i
  obtain ⟨hp1, -, -, -, -, -, -⟩ := run_config s0 (i + 1)
  have hd : done (run i s0) = false := by
    cases h : done (run i s0)
    · rfl
    · rw [next_of_done _ h] at hsucc; cases hsucc
  have hpre : (run i s0).state.sample + 1 = (run i s0).range_start_sample ∨
      (buffer_matches (run i s0) ∧
        ((run i s0).state.resolution_divider = (run i s0).pixel_size ∨
          ((run i s0).progressive = true ∧
            (run i s0).state.resolution_divider > (run i s0).pixel_size))) := by
    rcases run_buffer_matches hreset i with h | h
    · left; rw [h, hsample, hrs]; omega
    · right; rw [hpr, hpx]; exact h
  obtain ⟨⟨a, b, c, d⟩, -, hge⟩ := next_buffer_matches (run i s0) hd hpre
  have hrun : (next (run i s0)).2 = run (i + 1) s0 := rfl
  rw [hrun] at a b c d hge
  rw [hp1, hpar] at a b c d
  rw [hpx, hpx0] at hge
  refine ⟨a, b, c, d, ?_, ?_, ?_, ?_, by omega⟩
  · rw [a]; exact le_max_left _ _
  · rw [b]; exact le_max_left _ _
  · rw [c]; exact le_max_left _ _
  · rw [d]; exact le_max_left _ _

theorem buffer_never_degenerates_witness :
    (run (0 + 1) scenario_state).state.buffer.width =
      max 1 (scenario_params.width.tdiv (run (0 + 1) scenario_state).state.resolution_divider) ∧
    (run (0 + 1) scenario_state).state.buffer.height =
      max 1 (scenario_params.height.tdiv (run (0 + 1) scenario_state).state.resolution_divider) ∧
    (run (0 + 1) scenario_state).state.buffer.full_width =
      max 1 (scenario_params.full_width.tdiv
        (run (0 + 1) scenario_state).state.resolution_divider) ∧
    (run (0 + 1) scenario_state).state.buffer.full_height =
      max 1 (scenario_params.full_height.tdiv
        (run (0 + 1) scenario_state).state.resolution_divider) ∧
    1 ≤ (run (0 + 1) scenario_state).state.buffer.width ∧
    1 ≤ (run (0 + 1) scenario_state).state.buffer.height ∧
    1 ≤ (run (0 + 1) scenario_state).state.buffer.full_width ∧
    1 ≤ (run (0 + 1) scenario_state).state.buffer.full_height ∧
    1 ≤ (run (0 + 1) scenario_state).state.resolution_divider :=
  buffer_never_degenerates 8 scenario_default scenario_state scenario_params 4 scenario_state
    (by decide) (by decide) 0 (by decide)

/-! ## Termination of `reset` and what it installs -/

/-- On a non-negative value `x >>= 1` halves. -/
theorem shiftRight_one_of_nonneg (d : Int) (h : 0 ≤ d) : d >>> (1 : Int) = d / 2 := by
  lift d to Nat using h
  have h1 : ((1 : Nat) : Int) = 1 := rfl
  rw [← h1, Int.shiftRight_coe_nat, Nat.shiftRight_eq_div_pow]
  norm_num

/-- One clamped halving of a dimension of at most `n >= 2` gives at most `n / 2`. -/
theorem halved_le (w : Int) (n : Nat) (hn : 2 ≤ n) (hw : w ≤ n) :
    max 1 (w.tdiv 2) ≤ ((n / 2 : Nat) : Int) := by
  have h2 : (1 : Int) ≤ ((n / 2 : Nat) : Int) := by omega
  rcases le_or_lt 0 w with h0 | h0
  · rw [Int.tdiv_eq_ediv h0 (by decide)]
    omega
  · have : w.tdiv 2 ≤ 0 := by
      have e : w.tdiv 2 = -((-w).tdiv 2) := by rw [Int.neg_tdiv, neg_neg]
      rw [e, Int.tdiv_eq_ediv (by omega) (by decide)]
      omega
    omega

/-- A dimension of at most 1 is 1 after one clamped halving. -/
theorem halved_eq_one (w : Int) (hw : w ≤ 1) : max 1 (w.tdiv 2) = 1 := by
  rcases le_or_lt 0 w with h0 | h0
  · rw [Int.tdiv_eq_ediv h0 (by decide)]
    omega
  · have : w.tdiv 2 ≤ 0 := by
      have e : w.tdiv 2 = -((-w).tdiv 2) := by rw [Int.neg_tdiv, neg_neg]
      rw [e, Int.tdiv_eq_ediv (by omega) (by decide)]
      omega
    omega

/-- When the 32 bit square of `start_resolution` is positive, the loop of `get_divider` ends
on every input: both dimensions reach 1. -/
theorem machine_get_divider_loop_terminates (sr : Int) (hs : 1 ≤ wrap_int (sr * sr)) :
    ∀ (n : Nat) (w h d : Int), w ≤ n → h ≤ n →
      ∃ (f0 : Nat) (r : Int), ∀ fuel, f0 ≤ fuel →
        Machine.get_divider_loop sr fuel w h d = some r := by
  intro n
  induction n using Nat.strong_induction_on with
  | _ n ih =>
    intro w h d hw hh
    by_cases hc : wrap_int (w * h) > wrap_int (sr * sr)
    · by_cases hn : n < 2
      · have e1 : max 1 (w.tdiv 2) = 1 := halved_eq_one w (by omega)
        have e2 : max 1 (h.tdiv 2) = 1 := halved_eq_one h (by omega)
        have h11 : ¬ wrap_int (1 * 1) > wrap_int (sr * sr) := by
          have : wrap_int (1 * 1) = 1 := by decide
          rw [this]; omega
        refine ⟨1, wrap_int (d * 2), fun fuel hf => ?_⟩
        obtain ⟨m, rfl⟩ : ∃ m, fuel = m + 1 := ⟨fuel - 1, by omega⟩
        simp only [Machine.get_divider_loop, hc, if_true, e1, e2]
        cases m <;> simp only [Machine.get_divider_loop, h11, if_false]
      · obtain ⟨f0, r, hr⟩ := ih (n / 2) (by omega) (max 1 (w.tdiv 2)) (max 1 (h.tdiv 2))
          (wrap_int (d * 2)) (halved_le w n (by omega) hw) (halved_le h n (by omega) hh)
        refine ⟨f0 + 1, r, fun fuel hf => ?_⟩
        obtain ⟨m, rfl⟩ : ∃ m, fuel = m + 1 := ⟨fuel - 1, by omega⟩
        simp only [Machine.get_divider_loop, hc, if_true]
        exact hr m (by omega)
    · refine ⟨0, d, fun fuel _ => ?_⟩
      cases fuel <;> simp only [Machine.get_divider_loop, hc, if_false]

/-- With `start_resolution = INT_MAX`, or a `start_resolution` whose 32 bit square is positive
(as it is for `1 <= start_resolution <= 46340`), `get_divider` returns on every input. -/
theorem machine_get_divider_terminates (w h sr : Int)
    (hs : sr = INT_MAX ∨ 1 ≤ wrap_int (sr * sr)) :
    ∃ (f0 : Nat) (d : Int), ∀ fuel, f0 ≤ fuel → Machine.get_divider fuel w h sr = some d := by
  by_cases hm : sr = INT_MAX
  · exact ⟨0, 1, fun fuel _ => by simp [Machine.get_divider, hm]⟩
  · have hs1 : 1 ≤ wrap_int (sr * sr) := hs.resolve_left hm
    obtain ⟨f0, r, hr⟩ := machine_get_divider_loop_terminates sr hs1
      (max w.toNat h.toNat) w h 1 (by omega) (by omega)
    refine ⟨f0, r, fun fuel hf => ?_⟩
    simp only [Machine.get_divider, ne_eq, hm, not_false_eq_true, if_true]
    exact hr fuel hf

/-- The 32 bit square of a `start_resolution` between 1 and 46340 is positive. -/
theorem wrap_int_square_pos (sr : Int) (h0 : sr ≠ 0) (h1 : sr * sr ≤ INT_MAX) :
    1 ≤ wrap_int (sr * sr) := by
  have hp : 1 ≤ sr * sr := by
    have := mul_self_pos.2 h0
    omega
  rw [wrap_int_eq (by unfold INT_MIN; omega) h1]
  exact hp

/-- No division by a positive `int` ends the execution. -/
theorem int_div_pos (x y : Int) (hy : 1 ≤ y) : int_div x y = some (x.tdiv y) := by
  unfold int_div
  have : ¬ (y = 0 ∨ (x = INT_MIN ∧ y = -1)) := by omega
  simp only [this, if_false]

/-- For a `pixel_size` of at least 1 the loop of `set_samples` ends within `divider` steps on
a positive `divider`, and leaves a positive `divider`. -/
theorem machine_set_samples_loop_terminates (params : BufferParams) (ps : Int) (hps : 1 ≤ ps) :
    ∀ (fuel : Nat) (divider acc : Int), 1 ≤ divider → divider.toNat ≤ fuel →
      ∃ r, Machine.set_samples_loop params ps fuel divider acc = some r ∧ 1 ≤ r.1 := by
  intro fuel
  induction fuel with
  | zero =>
    intro divider acc h1 hle
    have : ¬ divider > ps := by omega
    exact ⟨(divider, acc), by simp [Machine.set_samples_loop, this], h1⟩
  | succ m ih =>
    intro divider acc h1 hle
    by_cases hc : divider > ps
    · simp only [Machine.set_samples_loop, hc, if_true, int_div_pos _ _ h1]
      apply ih
      · rw [shiftRight_one_of_nonneg divider (by omega)]
        omega
      · rw [shiftRight_one_of_nonneg divider (by omega)]
        omega
    · exact ⟨(divider, acc), by simp [Machine.set_samples_loop, hc], h1⟩

/-- With `start_resolution = INT_MAX` or a positive 32 bit square of `start_resolution`, and
with `num_samples = INT_MAX` or a `pixel_size` of at least 1, `reset` returns. -/
theorem machine_reset_terminates (dflt : BufferParams) (tm : TileManager)
    (params : BufferParams) (n : Int)
    (hs : tm.start_resolution = INT_MAX ∨
      1 ≤ wrap_int (tm.start_resolution * tm.start_resolution))
    (hps : n = INT_MAX ∨ 1 ≤ tm.pixel_size) :
    ∃ fuel s, Machine.reset fuel dflt tm params n = some s := by
  obtain ⟨f0, d, hd⟩ :=
    machine_get_divider_terminates params.width params.height tm.start_resolution hs
  by_cases hn : n = INT_MAX
  · exact ⟨f0, by simp [Machine.reset, Machine.set_samples, hn, hd f0 le_rfl]⟩
  · have hp : 1 ≤ tm.pixel_size := hps.resolve_left hn
    let fuel := max f0 (max (d.tdiv 2) tm.pixel_size).toNat
    have hd1 := hd fuel (le_max_left _ _)
    obtain ⟨r, hr, hr1⟩ := machine_set_samples_loop_terminates params tm.pixel_size hp fuel
      (max (d.tdiv 2) tm.pixel_size) 0 (le_trans hp (le_max_right _ _)) (le_max_right _ _)
    obtain ⟨r1, r2⟩ := r
    refine ⟨fuel, ?_⟩
    simp [Machine.reset, Machine.set_samples, hn, hd1, hr, int_div_pos _ _ hr1]

theorem machine_set_samples_config {fuel : Nat} {tm tm2 : TileManager} {n : Int}
    (h : Machine.set_samples fuel tm n = some tm2) :
    tm2.params = tm.params ∧ tm2.num_samples = n ∧ tm2.progressive = tm.progressive ∧
    tm2.start_resolution = tm.start_resolution ∧ tm2.pixel_size = tm.pixel_size ∧
    tm2.range_start_sample = tm.range_start_sample ∧
    tm2.range_num_samples = tm.range_num_samples := by
  unfold Machine.set_samples at h
  simp only at h
  split_ifs at h with hi
  · cases h; simp
  · split at h
    · cases h
    · split at h
      · cases h
      · split at h
        · cases h; simp
        · cases h

/-- The object `reset` leaves behind, in 32 bit arithmetic. -/
theorem machine_reset_result {fuel : Nat} {dflt : BufferParams} {tm s : TileManager}
    {params : BufferParams} {n : Int} (h : Machine.reset fuel dflt tm params n = some s) :
    s.params = params ∧ s.num_samples = n ∧ s.progressive = tm.progressive ∧
    s.start_resolution = tm.start_resolution ∧ s.pixel_size = tm.pixel_size ∧
    s.range_start_sample = tm.range_start_sample ∧
    s.range_num_samples = tm.range_num_samples ∧
    s.state.buffer = dflt ∧ s.state.sample = wrap_int (tm.range_start_sample - 1) ∧
    s.state.num_samples = 0 ∧
    Machine.get_divider fuel params.width params.height tm.start_resolution =
      some s.state.resolution_divider := by
  unfold Machine.reset at h
  simp only at h
  split at h
  · cases h
  · rename_i tm2 hss
    obtain ⟨a, b, c, d, e, f, g⟩ := machine_set_samples_config hss
    simp only at a d
    split at h
    · cases h
    · rename_i dv hdv
      cases h
      rw [a, d] at hdv
      simp only [a, b, c, d, e, f, g, hdv]
      simp

/-- A positive dimension divided by a positive divider and clamped to 1 stays between 1 and
the dimension. -/
theorem clamped_quotient_bounds {w d : Int} (hw : 1 ≤ w) (hd : 1 ≤ d) :
    1 ≤ max 1 (w.tdiv d) ∧ max 1 (w.tdiv d) ≤ w := by
  refine ⟨le_max_left _ _, max_le hw ?_⟩
  rw [Int.tdiv_eq_ediv (by omega) (by omega)]
  exact Int.ediv_le_self _ (by omega)

/-- For positive dimensions whose product fits in an `int`, the pixels of one pass fit as
well. -/
theorem wrap_int_pass_pixels {w h d : Int} (hw : 1 ≤ w) (hh : 1 ≤ h) (hd : 1 ≤ d)
    (hwh : w * h ≤ INT_MAX) :
    wrap_int (max 1 (w.tdiv d) * max 1 (h.tdiv d)) = max 1 (w.tdiv d) * max 1 (h.tdiv d) := by
  obtain ⟨a1, a2⟩ := clamped_quotient_bounds hw hd
  obtain ⟨b1, b2⟩ := clamped_quotient_bounds hh hd
  have h1 : 0 ≤ max 1 (w.tdiv d) * max 1 (h.tdiv d) := by positivity
  have h2 : max 1 (w.tdiv d) * max 1 (h.tdiv d) ≤ w * h :=
    mul_le_mul a2 b2 (by omega) (by omega)
  exact wrap_int_eq (by unfold INT_MIN; omega) (by omega)

/-- For a `pixel_size` of at least 1 and positive dimensions whose product fits in an `int`,
the loop of `set_samples` computes in 32 bit arithmetic what it computes on mathematical
integers. -/
theorem machine_set_samples_loop_eq (params : BufferParams) (ps : Int) (hps : 1 ≤ ps)
    (hw : 1 ≤ params.width) (hh : 1 ≤ params.height)
    (hwh : params.width * params.height ≤ INT_MAX) :
    ∀ (fuel : Nat) (divider acc : Int), 1 ≤ divider →
      Machine.set_samples_loop params ps fuel divider acc =
        set_samples_loop params ps fuel divider acc := by
  intro fuel
  induction fuel with
  | zero => intro divider acc _; rfl
  | succ m ih =>
    intro divider acc h1
    by_cases hc : divider > ps
    · simp only [Machine.set_samples_loop, set_samples_loop, hc, if_true, int_div_pos _ _ h1,
        wrap_int_pass_pixels hw hh h1 hwh]
      apply ih
      rw [shiftRight_one_of_nonneg divider (by omega)]
      omega
    · simp only [Machine.set_samples_loop, set_samples_loop, hc, if_false]

/-- The loop of `set_samples` on a positive `divider` leaves a positive `divider` when
`pixel_size` is at least 1. -/
theorem set_samples_loop_divider_pos (params : BufferParams) (ps : Int) (hps : 1 ≤ ps) :
    ∀ (fuel : Nat) (divider acc : Int) (r : Int × Int), 1 ≤ divider →
      set_samples_loop params ps fuel divider acc = some r → 1 ≤ r.1 := by
  intro fuel
  induction fuel with
  | zero =>
    intro divider acc r h1 h
    simp only [set_samples_loop] at h
    split_ifs at h
    cases h; exact h1
  | succ m ih =>
    intro divider acc r h1 h
    by_cases hc : divider > ps
    · simp only [set_samples_loop, hc, if_true] at h
      refine ih _ _ r ?_ h
      rw [shiftRight_one_of_nonneg divider (by omega)]
      omega
    · simp only [set_samples_loop, hc, if_false] at h
      cases h; exact h1

/-- Where nothing overflows and no divisor is zero, `set_samples` computes in 32 bit
arithmetic what it computes on mathematical integers. -/
theorem machine_set_samples_eq (fuel : Nat) (tm : TileManager) (n : Int)
    (hps : 1 ≤ tm.pixel_size) (hw : 1 ≤ tm.params.width) (hh : 1 ≤ tm.params.height)
    (hwh : tm.params.width * tm.params.height ≤ INT_MAX)
    (hs : 1 ≤ tm.start_resolution)
    (hsr : tm.start_resolution * tm.start_resolution ≤ INT_MAX) :
    Machine.set_samples fuel tm n = set_samples fuel tm n := by
  unfold Machine.set_samples set_samples
  simp only
  split_ifs with hn
  · rfl
  · rw [machine_get_divider_eq fuel _ _ _ hw hh hs hwh hsr]
    cases hd : get_divider fuel tm.params.width tm.params.height tm.start_resolution with
    | none => rfl
    | some d =>
      simp only
      have h1 : 1 ≤ max (d.tdiv 2) tm.pixel_size := le_trans hps (le_max_right _ _)
      rw [machine_set_samples_loop_eq tm.params tm.pixel_size hps hw hh hwh fuel _ 0 h1]
      cases hl : set_samples_loop tm.params tm.pixel_size fuel
          (max (d.tdiv 2) tm.pixel_size) 0 with
      | none => rfl
      | some r =>
        obtain ⟨r1, r2⟩ := r
        have hr1 : 1 ≤ r1 :=
          set_samples_loop_divider_pos tm.params tm.pixel_size hps fuel _ 0 (r1, r2) h1 hl
        simp only [int_div_pos _ _ hr1]

/-- Where nothing overflows and no divisor is zero, `reset` computes in 32 bit arithmetic
what it computes on mathematical integers: for a `pixel_size` of at least 1, positive
dimensions whose product fits in an `int`, a `start_resolution` from 1 to 46340 and a start
sample above `INT_MIN`. -/
theorem machine_reset_eq (fuel : Nat) (dflt : BufferParams) (tm : TileManager)
    (params : BufferParams) (n : Int)
    (hps : 1 ≤ tm.pixel_size) (hw : 1 ≤ params.width) (hh : 1 ≤ params.height)
    (hwh : params.width * params.height ≤ INT_MAX)
    (hs : 1 ≤ tm.start_resolution)
    (hsr : tm.start_resolution * tm.start_resolution ≤ INT_MAX)
    (hr1 : INT_MIN < tm.range_start_sample) (hr2 : tm.range_start_sample ≤ INT_MAX) :
    Machine.reset fuel dflt tm params n = reset fuel dflt tm params n := by
  unfold Machine.reset reset
  simp only
  rw [machine_set_samples_eq fuel { tm with params := params } n hps hw hh hwh hs hsr]
  cases hss : set_samples fuel { tm with params := params } n with
  | none => rfl
  | some tm2 =>
    obtain ⟨a, -, -, d, -, f, -⟩ := set_samples_config hss
    simp only at a d f
    simp only
    rw [a, d, f, machine_get_divider_eq fuel _ _ _ hw hh hs hwh hsr,
      wrap_int_eq (by unfold INT_MIN at hr1 ⊢; omega) (by omega)]

/-- With `pixel_size = 0` and a sample count other than `INT_MAX`, `set_samples` divides by
zero (tile.cpp:205-206): `reset` does not return, whatever the fuel. -/
theorem machine_reset_pixel_size_zero (fuel : Nat) (dflt : BufferParams) (tm : TileManager)
    (params : BufferParams) (n : Int) (hps : tm.pixel_size = 0) (hn : n ≠ INT_MAX) :
    Machine.reset fuel dflt tm params n = none := by
  have hloop : ∀ (f : Nat) (divider acc : Int) (r : Int × Int), 0 ≤ divider →
      Machine.set_samples_loop params 0 f divider acc = some r → r.1 = 0 := by
    intro f
    induction f with
    | zero =>
      intro divider acc r h0 h
      simp only [Machine.set_samples_loop] at h
      split_ifs at h with hc
      cases h
      show divider = 0
      omega
    | succ m ih =>
      intro divider acc r h0 h
      by_cases hc : divider > 0
      · simp only [Machine.set_samples_loop, hc, if_true, int_div_pos _ _ (by omega : 1 ≤ divider)]
          at h
        refine ih _ _ r ?_ h
        rw [shiftRight_one_of_nonneg divider h0]
        omega
      · simp only [Machine.set_samples_loop, hc, if_false] at h
        cases h
        show divider = 0
        omega
  have hss : Machine.set_samples fuel { tm with params := params } n = none := by
    unfold Machine.set_samples
    simp only [hn, if_false, hps]
    cases hd : Machine.get_divider fuel params.width params.height tm.start_resolution with
    | none => rfl
    | some d =>
      simp only
      cases hl : Machine.set_samples_loop params 0 fuel (max (d.tdiv 2) 0) 0 with
      | none => rfl
      | some r =>
        obtain ⟨r1, r2⟩ := r
        have : r1 = 0 := hloop fuel _ 0 (r1, r2) (le_max_right _ _) hl
        subst this
        simp [int_div]
  unfold Machine.reset
  simp only [hss]

/-- C12: `reset(params, n)` installs `params` as the geometry, stores `n` as the requested
sample count and recomputes `total_pixel_samples` (the value `set_samples` gives), resets
`state.buffer` to the default descriptor, sets `state.sample` to the `int` difference
`range_start_sample - 1`, which is the mathematical difference unless `range_start_sample` is
`INT_MIN`, the step sample count `state.num_samples` to 0 and `state.resolution_divider` to
`get_divider(params.width, params.height, start_resolution)`; `progressive`,
`start_resolution`, `pixel_size` and the sub-range are unchanged.  All of it in the 32 bit
arithmetic of the code, where a division by zero ends the execution; `reset` returns whenever
`start_resolution` is `INT_MAX` or has a positive 32 bit square (as every
`start_resolution` from 1 to 46340 has) and `pixel_size >= 1` or `n = INT_MAX`, and it does
not return when `pixel_size = 0` and `n` is not `INT_MAX`. -/
theorem reset_installs (dflt : BufferParams) (tm : TileManager) (params : BufferParams)
    (n : Int) :
    ((tm.start_resolution = INT_MAX ∨
        1 ≤ wrap_int (tm.start_resolution * tm.start_resolution)) →
      (n = INT_MAX ∨ 1 ≤ tm.pixel_size) →
      ∃ fuel s, Machine.reset fuel dflt tm params n = some s) ∧
    (1 ≤ tm.start_resolution → tm.start_resolution * tm.start_resolution ≤ INT_MAX →
      1 ≤ wrap_int (tm.start_resolution * tm.start_resolution)) ∧
    (tm.pixel_size = 0 → n ≠ INT_MAX →
      ∀ fuel, Machine.reset fuel dflt tm params n = none) ∧
    ∀ fuel s, Machine.reset fuel dflt tm params n = some s →
      s.params = params ∧ s.num_samples = n ∧
      (∃ t, Machine.set_samples fuel { tm with params := params } n = some t ∧
        s.state.total_pixel_samples = t.state.total_pixel_samples) ∧
      s.state.buffer = dflt ∧
      s.state.sample = wrap_int (tm.range_start_sample - 1) ∧
      (INT_MIN < tm.range_start_sample → tm.range_start_sample ≤ INT_MAX →
        s.state.sample = tm.range_start_sample - 1) ∧
      s.state.num_samples = 0 ∧
      Machine.get_divider fuel params.width params.height tm.start_resolution =
        some s.state.resolution_divider ∧
      s.progressive = tm.progressive ∧ s.start_resolution = tm.start_resolution ∧
      s.pixel_size = tm.pixel_size ∧ s.range_start_sample = tm.range_start_sample ∧
      s.range_num_samples = tm.range_num_samples := by
  refine ⟨machine_reset_terminates dflt tm params n,
    fun h1 h2 => wrap_int_square_pos _ (by omega) h2,
    fun h1 h2 fuel => machine_reset_pixel_size_zero fuel dflt tm params n h1 h2, ?_⟩
  intro fuel s h
  obtain ⟨a, b, c, d, e, f, g, h1, h2, h3, h4⟩ := machine_reset_result h
  refine ⟨a, b, ?_, h1, h2, ?_, h3, h4, c, d, e, f, g⟩
  · unfold Machine.reset at h
    simp only at h
    split at h
    · cases h
    · rename_i t ht
      refine ⟨t, ht, ?_⟩
      split at h
      · cases h
      · cases h; rfl
  · intro hlo hhi
    rw [h2]
    exact wrap_int_eq (by unfold INT_MIN at hlo ⊢; omega) (by omega)

theorem reset_installs_witness :
    (∃ fuel s, Machine.reset fuel scenario_default scenario_state scenario_params 4 = some s) ∧
    1 ≤ wrap_int (scenario_state.start_resolution * scenario_state.start_resolution) ∧
    scenario_state.params = scenario_params ∧ scenario_state.num_samples = 4 ∧
    (∃ t, Machine.set_samples 8 { scenario_state with params := scenario_params } 4 = some t ∧
      scenario_state.state.total_pixel_samples = t.state.total_pixel_samples) ∧
    scenario_state.state.buffer = scenario_default ∧
    scenario_state.state.sample = wrap_int (scenario_state.range_start_sample - 1) ∧
    scenario_state.state.sample = scenario_state.range_start_sample - 1 ∧
    scenario_state.state.num_samples = 0 ∧
    Machine.get_divider 8 scenario_params.width scenario_params.height
      scenario_state.start_resolution = some scenario_state.state.resolution_divider :=
  have h := reset_installs scenario_default scenario_state scenario_params 4
  have r := h.2.2.2 8 scenario_state (by decide)
  ⟨h.1 (Or.inr (by decide)) (Or.inr (by decide)), h.2.1 (by decide) (by decide),
    r.1, r.2.1, r.2.2.1, r.2.2.2.1, r.2.2.2.2.1, r.2.2.2.2.2.1 (by decide) (by decide),
    r.2.2.2.2.2.2.1, r.2.2.2.2.2.2.2.1⟩

/-- C13 (the code at the failing input): with `pixel_size = 3`, `start_resolution = 4` and the
64 x 64 geometry, `get_divider` is 16 and `set_samples(4)` adds the intermediate dividers 8
and 4, then leaves its loop at divider 2 and counts the final pass as `4 * 32 * 32`, giving
4416; the claimed value with the final pass at `pixel_size` is `64 + 256 + 4 * 21 * 21 = 2084`.
The run of `next()` from the same `reset` does end at divider 3 with a 21 x 21 buffer. -/
theorem set_samples_final_pass_below_pixel_size :
    get_divider 8 64 64 4 = some 16 ∧
    set_samples_loop scenario_params 3 8 (max ((16 : Int).tdiv 2) 3) 0 = some (2, 8 * 8 + 16 * 16) ∧
    (set_samples 8 odd_pixel_manager 4).map (fun t => t.state.total_pixel_samples) =
      some (8 * 8 + 16 * 16 + 4 * (32 * 32)) ∧
    (8 * 8 + 16 * 16 + 4 * (max 1 ((64 : Int).tdiv 3) * max 1 ((64 : Int).tdiv 3)) : Int) = 2084 ∧
    (8 * 8 + 16 * 16 + 4 * (32 * 32) : Int) = 4416 ∧
    (reset 8 scenario_default odd_pixel_manager scenario_params 4).map
      (fun s => ((run 3 s).state.resolution_divider, (run 3 s).state.buffer.width,
        (run 3 s).state.buffer.height, (run 4 s).state.resolution_divider,
        (run 4 s).state.buffer.width)) = some (3, 21, 21, 3, 21) := by
  decide

/-! ## `finish_tile` without denoising -/

/-- C20: `finish_tile` on a tile in state RENDER, when denoising is not both scheduled and
requested, returns true, sets `delete_tile` to `!progressive`, sets that tile to DONE and
changes nothing else: every other tile, the tile's other members, and both queue lists are
as before. -/
theorem finish_tile_render_without_denoise (fm : TileManagerFull) (index : Int)
    (need_denoise : Bool) (t : Tile) (hidx : 0 ≤ index)
    (ht : fm.tiles[index.toNat]? = some t) (hs : t.state = Tile.State.RENDER)
    (hden : ¬ (fm.schedule_denoising = true ∧ need_denoise = true)) :
    ∃ fm2, finish_tile fm index need_denoise = some (true, !fm.progressive, fm2) ∧
      fm2.tiles[index.toNat]? = some { t with state := Tile.State.DONE } ∧
      (∀ k, k ≠ index.toNat → fm2.tiles[k]? = fm.tiles[k]?) ∧
      fm2.tiles.length = fm.tiles.length ∧
      fm2.render_tiles = fm.render_tiles ∧
      fm2.denoising_tiles = fm.denoising_tiles ∧
      fm2 = { fm with tiles := fm.tiles.set index.toNat { t with state := Tile.State.DONE } } := by
  have hlt : index.toNat < fm.tiles.length := by
    rcases Nat.lt_or_ge index.toNat fm.tiles.length with h | h
    · exact h
    · rw [List.getElem?_eq_none h] at ht; cases ht
  have hget : fm.tiles[index.toNat] = t := by
    rw [List.getElem?_eq_getElem hlt] at ht; exact Option.some.inj ht
  have hmod : fm.tiles.modify (fun t => { t with state := Tile.State.DONE }) index.toNat =
      fm.tiles.set index.toNat { t with state := Tile.State.DONE } := by
    rw [List.modify_eq_set_get _ hlt]
    have hg : fm.tiles.get ⟨index.toNat, hlt⟩ = t := hget
    rw [hg]
  have hcond : (!(fm.schedule_denoising && need_denoise)) = true := by
    cases h1 : fm.schedule_denoising <;> cases h2 : need_denoise <;> simp_all
  refine ⟨{ fm with tiles := fm.tiles.set index.toNat { t with state := Tile.State.DONE } },
    ?_, ?_, ?_, ?_, rfl, rfl, rfl⟩
  · simp only [finish_tile, tile_at, hidx, if_true, ht, hs, hcond, set_tile_state, hmod]
  · simp [List.getElem?_set, hlt]
  · intro k hk
    simp [List.getElem?_set, Ne.symm hk]
  · simp

theorem finish_tile_render_without_denoise_witness :
    ∃ fm2,
      finish_tile
        { tiled_manager 2 1 1 1 TileOrder.TILE_BOTTOM_TO_TOP 1 false true 0 with
          tiles := [Tile.create 0 0 0 1 1 0, Tile.create 1 1 0 1 1 0]
          render_tiles := [[]], denoising_tiles := [[]] } 1 false =
        some (true, !(tiled_manager 2 1 1 1 TileOrder.TILE_BOTTOM_TO_TOP 1 false true
          0).progressive, fm2) ∧
      fm2.tiles[(1 : Int).toNat]? =
        some { Tile.create 1 1 0 1 1 0 with state := Tile.State.DONE } ∧
      (∀ k, k ≠ (1 : Int).toNat →
        fm2.tiles[k]? = [Tile.create 0 0 0 1 1 0, Tile.create 1 1 0 1 1 0][k]?) ∧
      fm2.tiles.length = 2 ∧ fm2.render_tiles = [[]] ∧ fm2.denoising_tiles = [[]] ∧
      fm2 =
        { tiled_manager 2 1 1 1 TileOrder.TILE_BOTTOM_TO_TOP 1 false true 0 with
          tiles := [Tile.create 0 0 0 1 1 0, Tile.create 1 1 0 1 1 0].set (1 : Int).toNat
            { Tile.create 1 1 0 1 1 0 with state := Tile.State.DONE }
          render_tiles := [[]], denoising_tiles := [[]] } :=
  finish_tile_render_without_denoise
    { tiled_manager 2 1 1 1 TileOrder.TILE_BOTTOM_TO_TOP 1 false true 0 with
      tiles := [Tile.create 0 0 0 1 1 0, Tile.create 1 1 0 1 1 0]
      render_tiles := [[]], denoising_tiles := [[]] } 1 false
    (Tile.create 1 1 0 1 1 0) (by decide) (by decide) (by decide) (by decide)

/-! ## The raster generator at concrete inputs -/

/-- C19 (the code at the failing input): right-to-left order, a 5 x 2 image, tiles of 1 x 2,
two devices with `preserve_tile_device`, not sliced.  There are 5 tiles and
`tiles_per_device = 3`; the first queue is sorted when it fills up, the second queue never
fills up, is never sorted and stays `[3, 4]`, although the comparator puts tile 4 (at x = 4)
before tile 3 (at x = 3). -/
theorem gen_tiles_last_queue_unsorted :
    (gen_tiles 0 junk_tile
        raster_fixture false).map
      (fun r => (r.1, r.2.render_tiles, r.2.tiles.map (fun t => (t.index, t.x, t.y)))) =
      some (5, [[2, 1, 0], [3, 4]], [(0, 0, 0), (1, 1, 0), (2, 2, 0), (3, 3, 0), (4, 4, 0)]) ∧
    (gen_tiles 0 junk_tile
        raster_fixture false).map
      (fun r => TileComparator TileOrder.TILE_RIGHT_TO_LEFT { x := 2, y := 1 } r.2.tiles 4 3) =
      some true := by
  decide

/-- C16 (as stated, refuted): sliced generation of a 1 x 4 image with tiles of 1 x 1, two
devices and `slice_overlap = 1` gives two slices of three tiles each, rows 0..2 and rows
1..3; the pixels (0, 1) and (0, 2) lie in two tiles each. -/
theorem gen_tiles_overlap_shares_pixels :
    (gen_tiles 0 junk_tile
        overlap_fixture true).map
      (fun r => r.2.tiles.map (fun t => (t.x, t.y, t.w, t.h))) =
      some [(0, 0, 1, 1), (0, 1, 1, 1), (0, 2, 1, 1), (0, 1, 1, 1), (0, 2, 1, 1), (0, 3, 1, 1)] ∧
    (gen_tiles 0 junk_tile
        overlap_fixture true).map
      (fun r => r.2.tiles.map (fun t => t.device)) = some [0, 0, 0, 1, 1, 1] ∧
    (gen_tiles 0 junk_tile
        overlap_fixture true).map
      (fun r => [cover_count r.2.tiles 0 0, cover_count r.2.tiles 0 1,
        cover_count r.2.tiles 0 2, cover_count r.2.tiles 0 3]) = some [1, 2, 2, 1] := by
  decide

/-! ## Loops as folds: invariants -/

/-- A loop `for k in 0 .. n` whose body keeps an invariant and never fails ends with the
invariant at `n`. -/
theorem foldlM_range_invariant {σ : Type} (body : σ → Nat → Option σ) (P : Nat → σ → Prop)
    (n : Nat) (s0 : σ) (h0 : P 0 s0)
    (hstep : ∀ k s, k < n → P k s → ∃ s', body s k = some s' ∧ P (k + 1) s') :
    ∃ s', (List.range n).foldlM body s0 = some s' ∧ P n s' := by
  induction n with
  | zero => exact ⟨s0, rfl, h0⟩
  | succ n ih =>
    obtain ⟨s1, h1, hP1⟩ := ih (fun k s hk hP => hstep k s (by omega) hP)
    obtain ⟨s2, h2, hP2⟩ := hstep n s1 (by omega) hP1
    refine ⟨s2, ?_, hP2⟩
    rw [List.range_succ, List.foldlM_append, h1]
    simpa using h2

/-- A loop `for k in 0 .. n` that ends keeps every invariant its body keeps. -/
theorem foldlM_range_preserves {σ : Type} (body : σ → Nat → Option σ) (P : Nat → σ → Prop)
    (n : Nat) (s0 sn : σ) (h0 : P 0 s0)
    (hstep : ∀ k s s', k < n → P k s → body s k = some s' → P (k + 1) s')
    (hrun : (List.range n).foldlM body s0 = some sn) : P n sn := by
  induction n generalizing sn with
  | zero =>
    simp at hrun
    rw [← hrun]; exact h0
  | succ n ih =>
    rw [List.range_succ, List.foldlM_append] at hrun
    cases h1 : (List.range n).foldlM body s0 with
    | none => rw [h1] at hrun; simp at hrun
    | some s1 =>
      rw [h1] at hrun
      have hb : body s1 n = some sn := by simpa using hrun
      exact hstep n s1 sn (by omega) (ih s1 (fun k s s' hk => hstep k s s' (by omega)) h1) hb

/-! ## Arithmetic of the tile grid -/

/-- For a non-negative `x` and a positive `y`, `divide_up x y` is the ceiling of `x / y`. -/
theorem divide_up_spec (x y : Int) (hx : 0 ≤ x) (hy : 1 ≤ y) :
    x ≤ divide_up x y * y ∧ divide_up x y * y < x + y ∧ 0 ≤ divide_up x y := by
  unfold divide_up
  rw [Int.tdiv_eq_ediv (by omega) (by omega)]
  have h1 := Int.ediv_add_emod (x + y - 1) y
  have h2 := Int.emod_nonneg (x + y - 1) (show y ≠ 0 by omega)
  have h3 := Int.emod_lt_of_pos (x + y - 1) (show 0 < y by omega)
  have h4 : (x + y - 1) / y * y = y * ((x + y - 1) / y) := mul_comm _ _
  have h5 : 0 ≤ (x + y - 1) / y := Int.ediv_nonneg (by omega) (by omega)
  refine ⟨by omega, by omega, h5⟩

/-- The number of tiles along one dimension of length `len` with tile size `ts`
(tile.cpp:231, 352): `n - 1` whole tiles fit strictly inside and `n` tiles reach the end. -/
theorem tile_count_spec (len ts : Int) (hlen : 1 ≤ len) (hts : 1 ≤ ts) :
    1 ≤ (if ts ≥ len then 1 else divide_up len ts) ∧
    ((if ts ≥ len then 1 else divide_up len ts) - 1) * ts < len ∧
    len ≤ (if ts ≥ len then 1 else divide_up len ts) * ts := by
  by_cases h : ts ≥ len
  · simp only [h, if_true]; omega
  · simp only [h, if_false]
    obtain ⟨a, b, c⟩ := divide_up_spec len ts (by omega) hts
    have h1 : (divide_up len ts - 1) * ts = divide_up len ts * ts - ts := by ring
    refine ⟨?_, by omega, a⟩
    by_contra hc
    have h0 : divide_up len ts = 0 := by omega
    rw [h0] at a
    omega

/-- The extent of tile `i` of `n` along one dimension (tile.cpp:359-362): it starts at
`i * ts`, which is below `len`, is at least one pixel long and ends at `(i + 1) * ts`, or at
`len` for the last tile. -/
theorem tile_extent_spec (len ts n : Int) (hts : 1 ≤ ts) (h2 : (n - 1) * ts < len)
    (i : Int) (hi0 : 0 ≤ i) (hin : i < n) :
    0 ≤ i * ts ∧ i * ts < len ∧
    1 ≤ (if i = n - 1 then len - i * ts else ts) ∧
    i * ts + (if i = n - 1 then len - i * ts else ts) ≤ len ∧
    (i + 1 < n → i * ts + (if i = n - 1 then len - i * ts else ts) = (i + 1) * ts) ∧
    (i + 1 = n → i * ts + (if i = n - 1 then len - i * ts else ts) = len) := by
  have hmono : i * ts ≤ (n - 1) * ts := mul_le_mul_of_nonneg_right (by omega) (by omega)
  have hpos : 0 ≤ i * ts := mul_nonneg hi0 (by omega)
  by_cases hl : i = n - 1
  · simp only [hl, if_true]
    refine ⟨by rw [← hl]; exact hpos, h2, by omega, by omega, fun h => by omega, fun _ => by ring⟩
  · simp only [hl, if_false]
    have hmono2 : (i + 1) * ts ≤ (n - 1) * ts := mul_le_mul_of_nonneg_right (by omega) (by omega)
    have h5 : (i + 1) * ts = i * ts + ts := by ring
    refine ⟨hpos, by omega, hts, by omega, fun _ => by omega, fun h => by omega⟩

/-! ## One tile of the raster loops -/

/-- Appending to one queue: the queue at `q` afterwards. -/
theorem getD_set_append (qs : List (List Int)) (i : Nat) (x : List Int) (hi : i < qs.length)
    (q : Nat) : (qs.set i x).getD q [] = if q = i then x else qs.getD q [] := by
  simp only [List.getD_eq_getElem?_getD, List.getElem?_set]
  by_cases h : i = q
  · subst h; simp [hi]
  · simp [h, Ne.symm h]

/-- Sorting a queue permutes it. -/
theorem sort_tile_list_perm (order : TileOrder) (center : int2) (tiles : List Tile)
    (q : List Int) : (sort_tile_list order center tiles q).Perm q :=
  List.perm_insertionSort _ q

/-- What one pass through the body of the innermost raster loop does. -/
theorem gen_tiles_tile_some {fm : TileManagerFull} {sliced : Bool} {image_w : Int}
    {center : int2} {tile_w tile_h slice slice_y slice_h tpd tile_y tile_x : Int}
    {s s' : GenState}
    (h : gen_tiles_tile fm sliced image_w center tile_w tile_h slice slice_y slice_h tpd
      tile_y tile_x s = some s') :
    s.tile_list < s.render_tiles.length ∧
    s'.tiles = s.tiles ++
      [Tile.create s.idx (tile_x * fm.tile_size.x) (tile_y * fm.tile_size.y + slice_y)
        (if tile_x = tile_w - 1 then image_w - tile_x * fm.tile_size.x else fm.tile_size.x)
        (if tile_y = tile_h - 1 then slice_h - tile_y * fm.tile_size.y else fm.tile_size.y)
        (if sliced then slice else s.cur_device)] ∧
    s'.idx = s.idx + 1 ∧
    s'.render_tiles.length = s.render_tiles.length ∧
    (∀ q, (s'.render_tiles.getD q []).Perm
      (if q = s.tile_list then s.render_tiles.getD q [] ++ [s.idx]
       else s.render_tiles.getD q [])) ∧
    (sliced = true →
      s'.tile_list = s.tile_list ∧ s'.cur_device = s.cur_device ∧ s'.cur_tiles = s.cur_tiles) ∧
    (sliced = false → s.cur_tiles + 1 = tpd →
      s'.tile_list = s.tile_list + 1 ∧ s'.cur_device = s.cur_device + 1 ∧ s'.cur_tiles = 0) ∧
    (sliced = false → s.cur_tiles + 1 ≠ tpd →
      s'.tile_list = s.tile_list ∧ s'.cur_device = s.cur_device ∧
        s'.cur_tiles = s.cur_tiles + 1) := by
  unfold gen_tiles_tile at h
  by_cases hlt : s.tile_list < s.render_tiles.length
  · simp only [hlt, if_true] at h
    refine ⟨hlt, ?_⟩
    have hq0 : ∀ q, ((s.render_tiles.set s.tile_list
        (s.render_tiles.getD s.tile_list [] ++ [s.idx])).getD q []).Perm
        (if q = s.tile_list then s.render_tiles.getD q [] ++ [s.idx]
         else s.render_tiles.getD q []) := by
      intro q
      rw [getD_set_append _ _ _ hlt]
      by_cases hq : q = s.tile_list
      · subst hq; simp
      · simp [hq]
    cases hsl : sliced
    · simp only [hsl, Bool.not_false, if_true, Bool.false_eq_true, if_false] at h
      by_cases hc : s.cur_tiles + 1 = tpd
      · simp only [hc, if_true] at h
        by_cases ho : fm.tile_order ≠ TileOrder.TILE_BOTTOM_TO_TOP
        · rw [if_pos ho] at h
          cases h
          refine ⟨rfl, rfl, by simp, ?_, by simp, by simp, by simp [hc]⟩
          intro q
          have hlt2 : s.tile_list < (s.render_tiles.set s.tile_list
              (s.render_tiles.getD s.tile_list [] ++ [s.idx])).length := by simpa using hlt
          simp only
          rw [getD_set_append _ _ _ hlt2]
          by_cases hq : q = s.tile_list
          · rw [if_pos hq, if_pos hq]
            refine (sort_tile_list_perm _ _ _ _).trans ?_
            have := hq0 q
            rw [if_pos hq, hq] at this
            rw [hq]
            exact this
          · simp only [hq, if_false]
            have := hq0 q
            simpa [hq] using this
        · rw [if_neg ho] at h
          cases h
          exact ⟨rfl, rfl, by simp, hq0, by simp, by simp, by simp [hc]⟩
      · simp only [hc, if_false] at h
        cases h
        exact ⟨rfl, rfl, by simp, hq0, by simp, by simp [hc], by simp⟩
    · simp only [hsl, Bool.not_true, Bool.false_eq_true, if_false, if_true] at h
      cases h
      exact ⟨rfl, rfl, by simp, hq0, by simp, by simp, by simp⟩
  · simp [hlt] at h

/-- The body of the innermost raster loop succeeds when the iterator `tile_list` is inside
`state.render_tiles`. -/
theorem gen_tiles_tile_succeeds (fm : TileManagerFull) (sliced : Bool) (image_w : Int)
    (center : int2) (tile_w tile_h slice slice_y slice_h tpd tile_y tile_x : Int)
    (s : GenState) (hlt : s.tile_list < s.render_tiles.length) :
    ∃ s', gen_tiles_tile fm sliced image_w center tile_w tile_h slice slice_y slice_h tpd
      tile_y tile_x s = some s' := by
  unfold gen_tiles_tile
  simp only [hlt, if_true]
  split_ifs <;> exact ⟨_, rfl⟩

/-! ## Coverage and area of the raster tiles -/

theorem cover_count_append (l : List Tile) (t : Tile) (px py : Int) :
    cover_count (l ++ [t]) px py = cover_count l px py + (if t.contains px py then 1 else 0) := by
  simp [cover_count, List.countP_append, List.countP_cons]

theorem total_area_append (l : List Tile) (t : Tile) :
    total_area (l ++ [t]) = total_area l + t.w * t.h := by
  simp [total_area]

theorem cover_count_nil (px py : Int) : cover_count [] px py = 0 := rfl

theorem total_area_nil : total_area [] = 0 := rfl

/-- The tiles `0 .. i` along one dimension end where tile `i + 1` starts:
`min(i * ts, len)` is the running extent. -/
theorem tile_extent_min (len ts n : Int) (hts : 1 ≤ ts) (h2 : (n - 1) * ts < len)
    (h3 : len ≤ n * ts) (i : Int) (hi0 : 0 ≤ i) (hin : i < n) :
    min (i * ts) len = i * ts ∧
    min ((i + 1) * ts) len = i * ts + (if i = n - 1 then len - i * ts else ts) ∧
    1 ≤ (if i = n - 1 then len - i * ts else ts) ∧ 0 ≤ i * ts := by
  obtain ⟨a, b, c, d, e, f⟩ := tile_extent_spec len ts n hts h2 i hi0 hin
  refine ⟨min_eq_left (by omega), ?_, c, a⟩
  by_cases hl : i + 1 < n
  · rw [e hl] at d ⊢
    exact min_eq_left d
  · have hn : i + 1 = n := by omega
    rw [f hn, hn]
    exact min_eq_right h3

/-- Geometry of one row of tiles (the loop over `tile_x`): the row covers each pixel of the
strip `[0, image_w) x [y, y + h)` once more, and adds the area `image_w * h`. -/
theorem gen_tiles_row_geometry {fm : TileManagerFull} {sliced : Bool} {image_w : Int}
    {center : int2} {tile_w tile_h slice slice_y slice_h tpd tile_y : Int} {s s' : GenState}
    (hts : 1 ≤ fm.tile_size.x) (hw : 1 ≤ image_w)
    (htw : tile_w = if fm.tile_size.x ≥ image_w then 1 else divide_up image_w fm.tile_size.x)
    (hh : 1 ≤ (if tile_y = tile_h - 1 then slice_h - tile_y * fm.tile_size.y
      else fm.tile_size.y))
    (hgood : ∀ t ∈ s.tiles, 1 ≤ t.w ∧ 1 ≤ t.h)
    (h : gen_tiles_row fm sliced image_w center tile_w tile_h slice slice_y slice_h tpd tile_y s =
      some s') :
    (∀ px py, cover_count s'.tiles px py = cover_count s.tiles px py +
      (if 0 ≤ px ∧ px < image_w ∧ tile_y * fm.tile_size.y + slice_y ≤ py ∧
          py < tile_y * fm.tile_size.y + slice_y +
            (if tile_y = tile_h - 1 then slice_h - tile_y * fm.tile_size.y
             else fm.tile_size.y) then 1 else 0)) ∧
    total_area s'.tiles = total_area s.tiles + image_w *
      (if tile_y = tile_h - 1 then slice_h - tile_y * fm.tile_size.y else fm.tile_size.y) ∧
    (∀ t ∈ s'.tiles, 1 ≤ t.w ∧ 1 ≤ t.h) := by
  obtain ⟨c1, c2, c3⟩ := tile_count_spec image_w fm.tile_size.x hw hts
  rw [← htw] at c1 c2 c3
  generalize hhv : (if tile_y = tile_h - 1 then slice_h - tile_y * fm.tile_size.y
    else fm.tile_size.y) = hrow at hh ⊢
  unfold gen_tiles_row at h
  have key := foldlM_range_preserves
    (fun st tile_x => gen_tiles_tile fm sliced image_w center tile_w tile_h slice slice_y slice_h
      tpd tile_y (tile_x : Int) st)
    (fun k st =>
      (∀ px py, cover_count st.tiles px py = cover_count s.tiles px py +
        (if 0 ≤ px ∧ px < min ((k : Int) * fm.tile_size.x) image_w ∧
            tile_y * fm.tile_size.y + slice_y ≤ py ∧
            py < tile_y * fm.tile_size.y + slice_y + hrow then 1 else 0)) ∧
      total_area st.tiles = total_area s.tiles +
        min ((k : Int) * fm.tile_size.x) image_w * hrow ∧
      (∀ t ∈ st.tiles, 1 ≤ t.w ∧ 1 ≤ t.h))
    tile_w.toNat s s' ?_ ?_ h
  · have hcast : ((tile_w.toNat : Nat) : Int) = tile_w := Int.toNat_of_nonneg (by omega)
    have hm : min (((tile_w.toNat : Nat) : Int) * fm.tile_size.x) image_w = image_w := by
      rw [hcast]; exact min_eq_right c3
    obtain ⟨k1, k2, k3⟩ := key
    rw [hm] at k2
    refine ⟨?_, k2, k3⟩
    intro px py
    rw [k1 px py, hm]
  · refine ⟨?_, ?_, hgood⟩
    · intro px py
      have : min (((0 : Nat) : Int) * fm.tile_size.x) image_w = 0 := by
        simp; omega
      rw [this]
      have hf : ¬ (0 ≤ px ∧ px < 0 ∧ tile_y * fm.tile_size.y + slice_y ≤ py ∧
          py < tile_y * fm.tile_size.y + slice_y + hrow) := by omega
      simp [hf]
    · have : min (((0 : Nat) : Int) * fm.tile_size.x) image_w = 0 := by
        simp; omega
      rw [this]; ring
  · intro k st st' hk ⟨i1, i2, i3⟩ hstep
    obtain ⟨-, htiles, -⟩ := gen_tiles_tile_some hstep
    have hk' : (k : Int) < tile_w := by omega
    obtain ⟨m1, m2, m3, m4⟩ := tile_extent_min image_w fm.tile_size.x tile_w hts c2 c3 (k : Int)
      (by omega) hk'
    have hcast : ((k + 1 : Nat) : Int) = (k : Int) + 1 := by push_cast; rfl
    rw [hcast, m2]
    rw [m1] at i1 i2
    generalize hwv : (if (k : Int) = tile_w - 1 then image_w - (k : Int) * fm.tile_size.x
      else fm.tile_size.x) = wcol at htiles m2 m3 ⊢
    have hle : (k : Int) * fm.tile_size.x + wcol ≤ image_w := by
      rw [← m2]; exact min_le_right _ _
    refine ⟨?_, ?_, ?_⟩
    · intro px py
      rw [htiles, cover_count_append, i1 px py]
      simp only [Tile.contains, Tile.create, hhv]
      by_cases hy : tile_y * fm.tile_size.y + slice_y ≤ py ∧
          py < tile_y * fm.tile_size.y + slice_y + hrow
      · by_cases hx1 : px < (k : Int) * fm.tile_size.x
        · by_cases hx0 : 0 ≤ px
          · have e1 : (0 ≤ px ∧ px < (k : Int) * fm.tile_size.x ∧
                tile_y * fm.tile_size.y + slice_y ≤ py ∧
                py < tile_y * fm.tile_size.y + slice_y + hrow) := ⟨hx0, hx1, hy⟩
            have e2 : ¬ ((k : Int) * fm.tile_size.x ≤ px ∧
                px < (k : Int) * fm.tile_size.x + wcol ∧
                tile_y * fm.tile_size.y + slice_y ≤ py ∧
                py < tile_y * fm.tile_size.y + slice_y + hrow) := by omega
            have e3 : (0 ≤ px ∧ px < (k : Int) * fm.tile_size.x + wcol ∧
                tile_y * fm.tile_size.y + slice_y ≤ py ∧
                py < tile_y * fm.tile_size.y + slice_y + hrow) := ⟨hx0, by omega, hy⟩
            simp [e1, e2, e3]
          · have e1 : ¬ (0 ≤ px ∧ px < (k : Int) * fm.tile_size.x ∧
                tile_y * fm.tile_size.y + slice_y ≤ py ∧
                py < tile_y * fm.tile_size.y + slice_y + hrow) := by omega
            have e2 : ¬ ((k : Int) * fm.tile_size.x ≤ px ∧
                px < (k : Int) * fm.tile_size.x + wcol ∧
                tile_y * fm.tile_size.y + slice_y ≤ py ∧
                py < tile_y * fm.tile_size.y + slice_y + hrow) := by omega
            have e3 : ¬ (0 ≤ px ∧ px < (k : Int) * fm.tile_size.x + wcol ∧
                tile_y * fm.tile_size.y + slice_y ≤ py ∧
                py < tile_y * fm.tile_size.y + slice_y + hrow) := by omega
            simp [e1, e2, e3]
        · have e1 : ¬ (0 ≤ px ∧ px < (k : Int) * fm.tile_size.x ∧
              tile_y * fm.tile_size.y + slice_y ≤ py ∧
              py < tile_y * fm.tile_size.y + slice_y + hrow) := by omega
          by_cases hx2 : px < (k : Int) * fm.tile_size.x + wcol
          · have e2 : ((k : Int) * fm.tile_size.x ≤ px ∧
                px < (k : Int) * fm.tile_size.x + wcol ∧
                tile_y * fm.tile_size.y + slice_y ≤ py ∧
                py < tile_y * fm.tile_size.y + slice_y + hrow) := ⟨by omega, hx2, hy⟩
            have e3 : (0 ≤ px ∧ px < (k : Int) * fm.tile_size.x + wcol ∧
                tile_y * fm.tile_size.y + slice_y ≤ py ∧
                py < tile_y * fm.tile_size.y + slice_y + hrow) := ⟨by omega, hx2, hy⟩
            simp [e1, e2, e3]
          · have e2 : ¬ ((k : Int) * fm.tile_size.x ≤ px ∧
                px < (k : Int) * fm.tile_size.x + wcol ∧
                tile_y * fm.tile_size.y + slice_y ≤ py ∧
                py < tile_y * fm.tile_size.y + slice_y + hrow) := by omega
            have e3 : ¬ (0 ≤ px ∧ px < (k : Int) * fm.tile_size.x + wcol ∧
                tile_y * fm.tile_size.y + slice_y ≤ py ∧
                py < tile_y * fm.tile_size.y + slice_y + hrow) := by omega
            simp [e1, e2, e3]
      · have e1 : ¬ (0 ≤ px ∧ px < (k : Int) * fm.tile_size.x ∧
            tile_y * fm.tile_size.y + slice_y ≤ py ∧
            py < tile_y * fm.tile_size.y + slice_y + hrow) := fun h => hy h.2.2
        have e2 : ¬ ((k : Int) * fm.tile_size.x ≤ px ∧
            px < (k : Int) * fm.tile_size.x + wcol ∧
            tile_y * fm.tile_size.y + slice_y ≤ py ∧
            py < tile_y * fm.tile_size.y + slice_y + hrow) := fun h => hy h.2.2
        have e3 : ¬ (0 ≤ px ∧ px < (k : Int) * fm.tile_size.x + wcol ∧
            tile_y * fm.tile_size.y + slice_y ≤ py ∧
            py < tile_y * fm.tile_size.y + slice_y + hrow) := fun h => hy h.2.2
        simp [e1, e2, e3]
    · rw [htiles, total_area_append, i2]
      simp only [Tile.create, hhv]
      ring
    · intro t ht
      rw [htiles] at ht
      rcases List.mem_append.1 ht with h1 | h1
      · exact i3 t h1
      · rw [List.mem_singleton.1 h1]
        simp only [Tile.create, hhv]
        exact ⟨m3, hh⟩

/-- Geometry of one slice (the loop over `tile_y`): a slice of positive height covers each
pixel of `[0, image_w) x [slice_y, slice_y + slice_h)` once more and adds the area
`image_w * slice_h`. -/
theorem gen_tiles_slice_geometry {fm : TileManagerFull} {sliced : Bool} {image_w image_h : Int}
    {center : int2} {num slice_num tile_w slice : Int} {s s' : GenState}
    (htx : 1 ≤ fm.tile_size.x) (hty : 1 ≤ fm.tile_size.y) (hw : 1 ≤ image_w)
    (htw : tile_w = if fm.tile_size.x ≥ image_w then 1 else divide_up image_w fm.tile_size.x)
    (hsh : 1 ≤ gen_tiles_slice_h fm image_h slice_num slice)
    (hgood : ∀ t ∈ s.tiles, 1 ≤ t.w ∧ 1 ≤ t.h)
    (h : gen_tiles_slice fm sliced image_w image_h center num slice_num tile_w slice s =
      some s') :
    (∀ px py, cover_count s'.tiles px py = cover_count s.tiles px py +
      (if 0 ≤ px ∧ px < image_w ∧ gen_tiles_slice_y fm image_h slice_num slice ≤ py ∧
          py < gen_tiles_slice_y fm image_h slice_num slice +
            gen_tiles_slice_h fm image_h slice_num slice then 1 else 0)) ∧
    total_area s'.tiles = total_area s.tiles +
      image_w * gen_tiles_slice_h fm image_h slice_num slice ∧
    (∀ t ∈ s'.tiles, 1 ≤ t.w ∧ 1 ≤ t.h) := by
  unfold gen_tiles_slice at h
  generalize gen_tiles_slice_y fm image_h slice_num slice = sy at h ⊢
  generalize gen_tiles_slice_h fm image_h slice_num slice = sh at h hsh ⊢
  simp only at h
  generalize htile_h : (if fm.tile_size.y ≥ sh then 1 else divide_up sh fm.tile_size.y) = tile_h
    at h
  obtain ⟨c1, c2, c3⟩ := tile_count_spec sh fm.tile_size.y hsh hty
  rw [htile_h] at c1 c2 c3
  generalize divide_up (tile_w * tile_h) num = tpd at h
  cases hrun : (List.range tile_h.toNat).foldlM
      (fun st (tile_y : Nat) => gen_tiles_row fm sliced image_w center tile_w tile_h slice sy sh
        tpd (tile_y : Int) st) { s with cur_device := 0, cur_tiles := 0 } with
  | none => rw [hrun] at h; cases h
  | some s1 =>
    rw [hrun] at h
    have hs' : s'.tiles = s1.tiles := by
      have := Option.some.inj h
      rw [← this]; split_ifs <;> rfl
    rw [hs']
    have key := foldlM_range_preserves
      (fun st (tile_y : Nat) => gen_tiles_row fm sliced image_w center tile_w tile_h slice sy sh
        tpd (tile_y : Int) st)
      (fun k st =>
        (∀ px py, cover_count st.tiles px py = cover_count s.tiles px py +
          (if 0 ≤ px ∧ px < image_w ∧ sy ≤ py ∧
              py < sy + min ((k : Int) * fm.tile_size.y) sh then 1 else 0)) ∧
        total_area st.tiles = total_area s.tiles +
          image_w * min ((k : Int) * fm.tile_size.y) sh ∧
        (∀ t ∈ st.tiles, 1 ≤ t.w ∧ 1 ≤ t.h))
      tile_h.toNat { s with cur_device := 0, cur_tiles := 0 } s1 ?_ ?_ hrun
    · have hcast : ((tile_h.toNat : Nat) : Int) = tile_h := Int.toNat_of_nonneg (by omega)
      have hm : min (((tile_h.toNat : Nat) : Int) * fm.tile_size.y) sh = sh := by
        rw [hcast]; exact min_eq_right c3
      obtain ⟨k1, k2, k3⟩ := key
      rw [hm] at k2
      refine ⟨?_, k2, k3⟩
      intro px py
      rw [k1 px py, hm]
    · have hz : min (((0 : Nat) : Int) * fm.tile_size.y) sh = 0 := by
        simp; omega
      refine ⟨?_, ?_, hgood⟩
      · intro px py
        rw [hz]
        have hf : ¬ (0 ≤ px ∧ px < image_w ∧ sy ≤ py ∧ py < sy + 0) := by omega
        simp [hf]
      · rw [hz]; simp
    · intro k st st' hk ⟨i1, i2, i3⟩ hstep
      have hk' : (k : Int) < tile_h := by omega
      obtain ⟨m1, m2, m3, m4⟩ := tile_extent_min sh fm.tile_size.y tile_h hty c2 c3 (k : Int)
        (by omega) hk'
      obtain ⟨r1, r2, r3⟩ := gen_tiles_row_geometry htx hw htw m3 i3 hstep
      have hcast : ((k + 1 : Nat) : Int) = (k : Int) + 1 := by push_cast; rfl
      rw [hcast, m2]
      rw [m1] at i1 i2
      generalize (if (k : Int) = tile_h - 1 then sh - (k : Int) * fm.tile_size.y
        else fm.tile_size.y) = hrow at r1 r2 m2 m3 ⊢
      generalize (k : Int) * fm.tile_size.y = a at r1 r2 i1 i2 m4 ⊢
      refine ⟨?_, ?_, r3⟩
      · intro px py
        rw [r1 px py, i1 px py]
        split_ifs <;> omega
      · rw [r2, i2]; ring

/-! ## Device assignment in non-sliced mode -/

theorem succ_div_mod_wrap (c d : Nat) (h : c % d + 1 = d) :
    (c + 1) / d = c / d + 1 ∧ (c + 1) % d = 0 := by
  have hd : 0 < d := by omega
  have h1 := Nat.div_add_mod c d
  exact (Nat.div_mod_unique hd).2 ⟨by rw [Nat.mul_add]; omega, hd⟩

theorem succ_div_mod_step (c d : Nat) (hd : 0 < d) (h : c % d + 1 ≠ d) :
    (c + 1) / d = c / d ∧ (c + 1) % d = c % d + 1 := by
  have h1 := Nat.div_add_mod c d
  have h2 := Nat.mod_lt c hd
  exact (Nat.div_mod_unique hd).2 ⟨by omega, by omega⟩

/-- One tile in non-sliced mode: the body succeeds and the assignment advances by one. -/
theorem gen_tiles_tile_assigned (fm : TileManagerFull) (image_w : Int) (center : int2)
    (tile_w tile_h slice slice_y slice_h tile_y tile_x : Int) (num tpd total c : Nat)
    (s : GenState) (htpd : 0 < tpd) (htot : total ≤ tpd * num) (hc : c < total)
    (hQ : raster_assigned num tpd c s) :
    ∃ s', gen_tiles_tile fm false image_w center tile_w tile_h slice slice_y slice_h
        (tpd : Int) tile_y tile_x s = some s' ∧ raster_assigned num tpd (c + 1) s' := by
  obtain ⟨q1, q2, q3, q4, q5, q6, q7, q8⟩ := hQ
  have hdiv : c / tpd < num := by
    apply Nat.div_lt_of_lt_mul
    exact lt_of_lt_of_le hc htot
  have hlt : s.tile_list < s.render_tiles.length := by rw [q4, q1]; exact hdiv
  obtain ⟨s', hs'⟩ := gen_tiles_tile_succeeds fm false image_w center tile_w tile_h slice
    slice_y slice_h (tpd : Int) tile_y tile_x s hlt
  obtain ⟨-, t1, t2, t3, t4, -, t6, t7⟩ := gen_tiles_tile_some hs'
  refine ⟨s', hs', ?_⟩
  have hlen : ∀ j, (s'.render_tiles.getD j []).length =
      (s.render_tiles.getD j []).length + (if j = c / tpd then 1 else 0) := by
    intro j
    rw [(t4 j).length_eq, q4]
    split_ifs <;> simp
  have htile : ∀ (k : Nat) (t : Tile), s'.tiles[k]? = some t →
      t.index = (k : Int) ∧ t.device = ((k / tpd : Nat) : Int) := by
    intro k t hk
    rw [t1] at hk
    rcases Nat.lt_or_ge k s.tiles.length with hlt | hge
    · rw [List.getElem?_append_left hlt] at hk
      exact q7 k t hk
    · rw [List.getElem?_append_right hge] at hk
      have hk0 : k - s.tiles.length = 0 := by
        rcases Nat.eq_zero_or_pos (k - s.tiles.length) with h0 | h0
        · exact h0
        · rw [List.getElem?_eq_none (by simp only [List.length_singleton]; omega)] at hk
          cases hk
      rw [hk0] at hk
      have hkc : k = c := by omega
      have ht : t = Tile.create s.idx (tile_x * fm.tile_size.x)
          (tile_y * fm.tile_size.y + slice_y)
          (if tile_x = tile_w - 1 then image_w - tile_x * fm.tile_size.x else fm.tile_size.x)
          (if tile_y = tile_h - 1 then slice_h - tile_y * fm.tile_size.y else fm.tile_size.y)
          (if false = true then slice else s.cur_device) := by
        simpa using hk.symm
      rw [ht, hkc]
      simp [Tile.create, q2, q5]
  by_cases hw : c % tpd + 1 = tpd
  · obtain ⟨d1, d2⟩ := succ_div_mod_wrap c tpd hw
    have hw' : s.cur_tiles + 1 = (tpd : Int) := by rw [q6]; exact_mod_cast hw
    obtain ⟨u1, u2, u3⟩ := t6 rfl hw'
    refine ⟨by rw [t3, q1], by rw [t2, q2]; push_cast; rfl, by rw [t1]; simp [q3],
      by rw [u1, q4, d1], by rw [u2, q5, d1]; push_cast; rfl, by rw [u3, d2]; rfl, htile, ?_⟩
    intro j
    rw [hlen j, q8 j, d1, d2]
    split_ifs <;> omega
  · obtain ⟨d1, d2⟩ := succ_div_mod_step c tpd htpd hw
    have hw' : s.cur_tiles + 1 ≠ (tpd : Int) := by
      rw [q6]; intro h; exact hw (by exact_mod_cast h)
    obtain ⟨u1, u2, u3⟩ := t7 rfl hw'
    refine ⟨by rw [t3, q1], by rw [t2, q2]; push_cast; rfl, by rw [t1]; simp [q3],
      by rw [u1, q4, d1], by rw [u2, q5, d1], by rw [u3, q6, d2]; push_cast; rfl, htile, ?_⟩
    intro j
    rw [hlen j, q8 j, d1, d2]
    split_ifs <;> omega

/-- One row in non-sliced mode. -/
theorem gen_tiles_row_assigned (fm : TileManagerFull) (image_w : Int) (center : int2)
    (tile_w tile_h slice slice_y slice_h tile_y : Int) (num tpd total c0 : Nat)
    (s : GenState) (htpd : 0 < tpd) (htot : total ≤ tpd * num)
    (hc : c0 + tile_w.toNat ≤ total) (hQ : raster_assigned num tpd c0 s) :
    ∃ s', gen_tiles_row fm false image_w center tile_w tile_h slice slice_y slice_h
        (tpd : Int) tile_y s = some s' ∧ raster_assigned num tpd (c0 + tile_w.toNat) s' := by
  unfold gen_tiles_row
  exact foldlM_range_invariant
    (fun st (tile_x : Nat) => gen_tiles_tile fm false image_w center tile_w tile_h slice slice_y
      slice_h (tpd : Int) tile_y (tile_x : Int) st)
    (fun k st => raster_assigned num tpd (c0 + k) st) tile_w.toNat s hQ
    (fun k st hk hP => gen_tiles_tile_assigned fm image_w center tile_w tile_h slice slice_y
      slice_h tile_y (k : Int) num tpd total (c0 + k) st htpd htot (by omega) hP)

/-- All rows of the single slice of non-sliced mode. -/
theorem gen_tiles_rows_assigned (fm : TileManagerFull) (image_w : Int) (center : int2)
    (tile_w tile_h slice slice_y slice_h : Int) (num tpd : Nat)
    (s : GenState) (htpd : 0 < tpd) (htot : tile_h.toNat * tile_w.toNat ≤ tpd * num)
    (hQ : raster_assigned num tpd 0 s) :
    ∃ s', (List.range tile_h.toNat).foldlM
        (fun st (tile_y : Nat) => gen_tiles_row fm false image_w center tile_w tile_h slice
          slice_y slice_h (tpd : Int) (tile_y : Int) st) s = some s' ∧
      raster_assigned num tpd (tile_h.toNat * tile_w.toNat) s' := by
  exact foldlM_range_invariant
    (fun st (tile_y : Nat) => gen_tiles_row fm false image_w center tile_w tile_h slice slice_y
      slice_h (tpd : Int) (tile_y : Int) st)
    (fun k st => raster_assigned num tpd (k * tile_w.toNat) st) tile_h.toNat s
    (by simpa using hQ)
    (fun k st hk hP => by
      have hle : k * tile_w.toNat + tile_w.toNat ≤ tile_h.toNat * tile_w.toNat := by
        have : (k + 1) * tile_w.toNat ≤ tile_h.toNat * tile_w.toNat :=
          Nat.mul_le_mul_right _ (by omega)
        rw [Nat.add_mul, Nat.one_mul] at this
        exact this
      obtain ⟨s', h1, h2⟩ := gen_tiles_row_assigned fm image_w center tile_w tile_h slice slice_y
        slice_h (k : Int) num tpd (tile_h.toNat * tile_w.toNat) (k * tile_w.toNat) st htpd htot
        hle hP
      refine ⟨s', h1, ?_⟩
      show raster_assigned num tpd ((k + 1) * tile_w.toNat) s'
      rw [Nat.add_mul, Nat.one_mul]
      exact h2)

/-- The start of the raster loops: no tiles, `num` empty queues. -/
theorem raster_assigned_start (num tpd : Nat) :
    raster_assigned num tpd 0
      { tiles := [], render_tiles := List.replicate num [], tile_list := 0,
        cur_device := 0, cur_tiles := 0, idx := 0 } := by
  refine ⟨by simp, rfl, rfl, by simp, by simp, by simp, ?_, ?_⟩
  · intro k t h; simp at h
  · intro j
    have : (List.replicate num ([] : List Int)).getD j [] = [] := by
      simp only [List.getD_eq_getElem?_getD]
      rcases Nat.lt_or_ge j num with h | h
      · simp [List.getElem?_replicate, h]
      · simp [List.getElem?_replicate, Nat.not_lt.2 h]
    rw [this]
    simp

/-! ## Sliced mode: the iterator stays inside the queue list -/

/-- One slice in sliced mode: the loops succeed and the iterator moves to the next queue. -/
theorem gen_tiles_slice_sliced (fm : TileManagerFull) (image_w image_h : Int) (center : int2)
    (num slice_num tile_w slice : Int) (s : GenState)
    (hlt : s.tile_list < s.render_tiles.length) :
    ∃ s', gen_tiles_slice fm true image_w image_h center num slice_num tile_w slice s =
        some s' ∧
      s'.tile_list = s.tile_list + 1 ∧ s'.render_tiles.length = s.render_tiles.length := by
  unfold gen_tiles_slice
  simp only
  generalize gen_tiles_slice_y fm image_h slice_num slice = sy
  generalize gen_tiles_slice_h fm image_h slice_num slice = sh
  generalize (if fm.tile_size.y ≥ sh then 1 else divide_up sh fm.tile_size.y) = tile_h
  generalize divide_up (tile_w * tile_h) num = tpd
  have hrow : ∀ (ty : Int) (st : GenState), st.tile_list = s.tile_list →
      st.render_tiles.length = s.render_tiles.length →
      ∃ st', gen_tiles_row fm true image_w center tile_w tile_h slice sy sh tpd ty st =
          some st' ∧
        st'.tile_list = s.tile_list ∧ st'.render_tiles.length = s.render_tiles.length := by
    intro ty st h1 h2
    unfold gen_tiles_row
    exact foldlM_range_invariant
      (fun st (tile_x : Nat) => gen_tiles_tile fm true image_w center tile_w tile_h slice sy sh
        tpd ty (tile_x : Int) st)
      (fun _ st => st.tile_list = s.tile_list ∧
        st.render_tiles.length = s.render_tiles.length) tile_w.toNat st ⟨h1, h2⟩
      (fun k st2 _ hP => by
        obtain ⟨st3, h3⟩ := gen_tiles_tile_succeeds fm true image_w center tile_w tile_h slice
          sy sh tpd ty (k : Int) st2 (by rw [hP.1, hP.2]; exact hlt)
        obtain ⟨-, -, -, t3, -, t5, -, -⟩ := gen_tiles_tile_some h3
        exact ⟨st3, h3, by rw [(t5 rfl).1, hP.1], by rw [t3, hP.2]⟩)
  obtain ⟨s1, h1, h2, h3⟩ := foldlM_range_invariant
    (fun st (tile_y : Nat) => gen_tiles_row fm true image_w center tile_w tile_h slice sy sh
      tpd (tile_y : Int) st)
    (fun _ st => st.tile_list = s.tile_list ∧
      st.render_tiles.length = s.render_tiles.length) tile_h.toNat
    { s with cur_device := 0, cur_tiles := 0 } ⟨rfl, rfl⟩
    (fun k st2 _ hP => hrow (k : Int) st2 hP.1 hP.2)
  rw [h1]
  exact ⟨_, rfl, by simp [h2], by simp [h3]⟩

/-- The loop over the slices in sliced mode succeeds when there are as many queues as
slices. -/
theorem gen_tiles_slices_sliced (fm : TileManagerFull) (image_w image_h : Int) (center : int2)
    (num slice_num tile_w : Int) (s : GenState) (h0 : s.tile_list = 0)
    (hlen : s.render_tiles.length = slice_num.toNat) :
    ∃ s', (List.range slice_num.toNat).foldlM
        (fun st (slice : Nat) => gen_tiles_slice fm true image_w image_h center num slice_num
          tile_w (slice : Int) st) s = some s' ∧
      s'.render_tiles.length = slice_num.toNat := by
  obtain ⟨s', h1, -, h3⟩ := foldlM_range_invariant
    (fun st (slice : Nat) => gen_tiles_slice fm true image_w image_h center num slice_num
      tile_w (slice : Int) st)
    (fun k st => st.tile_list = k ∧ st.render_tiles.length = slice_num.toNat)
    slice_num.toNat s ⟨h0, hlen⟩
    (fun k st hk hP => by
      obtain ⟨st', a, b, c⟩ := gen_tiles_slice_sliced fm image_w image_h center num slice_num
        tile_w (k : Int) st (by rw [hP.1, hP.2]; exact hk)
      exact ⟨st', a, by rw [b, hP.1], by rw [c, hP.2]⟩)
  exact ⟨s', h1, h3⟩

/-! ## Geometry of all slices -/

/-- The loop over the slices: started without tiles, it covers each pixel of a column
`0 <= px < image_w` as often as slices contain its row, and the area is `image_w` times the
sum of the slice heights. -/
theorem gen_tiles_slices_geometry {fm : TileManagerFull} {sliced : Bool}
    {image_w image_h : Int} {center : int2} {num slice_num tile_w : Int} {s s' : GenState}
    (htx : 1 ≤ fm.tile_size.x) (hty : 1 ≤ fm.tile_size.y) (hw : 1 ≤ image_w)
    (htw : tile_w = if fm.tile_size.x ≥ image_w then 1 else divide_up image_w fm.tile_size.x)
    (hsh : ∀ k : Nat, k < slice_num.toNat → 1 ≤ gen_tiles_slice_h fm image_h slice_num (k : Int))
    (hs : s.tiles = [])
    (h : (List.range slice_num.toNat).foldlM
        (fun st (slice : Nat) => gen_tiles_slice fm sliced image_w image_h center num slice_num
          tile_w (slice : Int) st) s = some s') :
    (∀ px py, cover_count s'.tiles px py =
      if 0 ≤ px ∧ px < image_w then slices_cover fm image_h slice_num slice_num.toNat py
      else 0) ∧
    total_area s'.tiles = image_w * slices_height fm image_h slice_num slice_num.toNat ∧
    (∀ t ∈ s'.tiles, 1 ≤ t.w ∧ 1 ≤ t.h) := by
  refine foldlM_range_preserves
    (fun st (slice : Nat) => gen_tiles_slice fm sliced image_w image_h center num slice_num
      tile_w (slice : Int) st)
    (fun k st =>
      (∀ px py, cover_count st.tiles px py =
        if 0 ≤ px ∧ px < image_w then slices_cover fm image_h slice_num k py else 0) ∧
      total_area st.tiles = image_w * slices_height fm image_h slice_num k ∧
      (∀ t ∈ st.tiles, 1 ≤ t.w ∧ 1 ≤ t.h))
    slice_num.toNat s s' ?_ ?_ h
  · simp only [hs]
    refine ⟨fun px py => ?_, ?_, ?_⟩
    · simp [cover_count_nil, slices_cover]
    · simp [total_area_nil, slices_height]
    · intro t ht; cases ht
  · intro k st st' hk ⟨i1, i2, i3⟩ hstep
    obtain ⟨r1, r2, r3⟩ := gen_tiles_slice_geometry htx hty hw htw (hsh k hk) i3 hstep
    show (∀ px py, cover_count st'.tiles px py =
        if 0 ≤ px ∧ px < image_w then slices_cover fm image_h slice_num (k + 1) py else 0) ∧
      total_area st'.tiles = image_w * slices_height fm image_h slice_num (k + 1) ∧
      (∀ t ∈ st'.tiles, 1 ≤ t.w ∧ 1 ≤ t.h)
    refine ⟨fun px py => ?_, ?_, r3⟩
    · rw [r1 px py, i1 px py]
      simp only [slices_cover]
      split_ifs <;> omega
    · rw [r2, i2]
      simp only [slices_height]
      ring

/-! ## The slices -/

/-- With `1 <= n <= image_h` slices the common slice height `image_h / n` is at least 1 and
`n` such slices fit into the image. -/
theorem slice_quotient_spec (image_h n : Int) (hn : 1 ≤ n) (hle : n ≤ image_h) :
    1 ≤ image_h.tdiv n ∧ n * image_h.tdiv n ≤ image_h := by
  rw [Int.tdiv_eq_ediv (by omega) (by omega)]
  have h1 := Int.ediv_add_emod image_h n
  have h2 := Int.emod_nonneg image_h (show n ≠ 0 by omega)
  have h3 := Int.emod_lt_of_pos image_h (show 0 < n by omega)
  refine ⟨?_, by omega⟩
  by_contra hc
  have h0 : image_h / n ≤ 0 := by omega
  have h4 : n * (image_h / n) ≤ 0 := mul_nonpos_of_nonneg_of_nonpos (by omega) h0
  omega

theorem slices_cover_mono (fm : TileManagerFull) (image_h n : Int) (py : Int) (a b : Nat)
    (hab : a ≤ b) : slices_cover fm image_h n a py ≤ slices_cover fm image_h n b py := by
  induction b with
  | zero =>
    have : a = 0 := by omega
    rw [this]
  | succ b ih =>
    rcases Nat.lt_or_ge a (b + 1) with h | h
    · have := ih (by omega)
      simp only [slices_cover]
      omega
    · have : a = b + 1 := by omega
      rw [this]

/-- Without overlap the slices partition the rows of the image. -/
theorem slices_partition (fm : TileManagerFull) (image_h n : Int) (hov : fm.slice_overlap = 0)
    (hn : 1 ≤ n) (hle : n ≤ image_h) :
    (∀ k : Nat, k < n.toNat → 1 ≤ gen_tiles_slice_h fm image_h n (k : Int)) ∧
    (∀ py, slices_cover fm image_h n n.toNat py = if 0 ≤ py ∧ py < image_h then 1 else 0) ∧
    slices_height fm image_h n n.toNat = image_h := by
  obtain ⟨hq1, hq2⟩ := slice_quotient_spec image_h n hn hle
  generalize hq : image_h.tdiv n = q at hq1 hq2
  have hy : ∀ k : Int, gen_tiles_slice_y fm image_h n k = q * k := by
    intro k; simp [gen_tiles_slice_y, hov, hq]
  have hh : ∀ k : Int, gen_tiles_slice_h fm image_h n k =
      if k = n - 1 then image_h - k * q else q := by
    intro k; simp [gen_tiles_slice_h, hov, hq]
  have hbound : ∀ k : Nat, (k : Int) ≤ n - 1 → (k : Int) * q ≤ image_h - q := by
    intro k hk
    have h1 : (k : Int) * q ≤ (n - 1) * q := mul_le_mul_of_nonneg_right hk (by omega)
    have h2 : (n - 1) * q = n * q - q := by ring
    omega
  have hpre : ∀ k : Nat, (k : Int) ≤ n - 1 →
      (∀ py, slices_cover fm image_h n k py = if 0 ≤ py ∧ py < (k : Int) * q then 1 else 0) ∧
      slices_height fm image_h n k = (k : Int) * q := by
    intro k
    induction k with
    | zero =>
      intro _
      refine ⟨fun py => ?_, by simp [slices_height]⟩
      have h0 : ((0 : Nat) : Int) * q = 0 := by simp
      rw [h0]
      have : ¬ (0 ≤ py ∧ py < 0) := by omega
      simp [slices_cover, this]
    | succ k ih =>
      intro hk
      have hk1 : ((k + 1 : Nat) : Int) = (k : Int) + 1 := by push_cast; rfl
      rw [hk1] at hk
      obtain ⟨i1, i2⟩ := ih (by omega)
      have hne : ¬ ((k : Int) = n - 1) := by omega
      have hb := hbound k (by omega)
      have hnn : 0 ≤ (k : Int) * q := mul_nonneg (by omega) (by omega)
      have e1 : ((k : Int) + 1) * q = (k : Int) * q + q := by ring
      have e2 : q * (k : Int) = (k : Int) * q := mul_comm _ _
      refine ⟨fun py => ?_, ?_⟩
      · simp only [slices_cover, i1 py, hy, hh, hne, if_false, hk1, e1, e2]
        split_ifs <;> omega
      · simp only [slices_height, i2, hh, hne, if_false, hk1, e1]
  obtain ⟨m, hm⟩ : ∃ m : Nat, n.toNat = m + 1 := ⟨n.toNat - 1, by omega⟩
  have hmn : (m : Int) = n - 1 := by omega
  obtain ⟨i1, i2⟩ := hpre m (by omega)
  have hb := hbound m (by omega)
  have hnn : 0 ≤ (m : Int) * q := mul_nonneg (by omega) (by omega)
  have e2 : q * (m : Int) = (m : Int) * q := mul_comm _ _
  refine ⟨fun k hk => ?_, fun py => ?_, ?_⟩
  · rw [hh]
    split_ifs with hl
    · have := hbound k (by omega)
      omega
    · exact hq1
  · rw [hm]
    simp only [slices_cover, i1 py, hy, hh, hmn, if_true, e2]
    rw [← hmn]
    split_ifs <;> omega
  · rw [hm]
    simp only [slices_height, i2, hh, hmn, if_true]
    ring

/-! ## The raster generator as a whole -/

/-- The single slice of non-sliced mode: the loops succeed and assign all
`tile_h * tile_w` tiles. -/
theorem gen_tiles_slice_nonsliced (fm : TileManagerFull) (image_w image_h : Int)
    (center : int2) (num slice_num tile_w slice : Int) (s : GenState) (hnum : 1 ≤ num)
    (htw : 1 ≤ tile_w)
    (hth : 1 ≤ (if fm.tile_size.y ≥ gen_tiles_slice_h fm image_h slice_num slice then 1
      else divide_up (gen_tiles_slice_h fm image_h slice_num slice) fm.tile_size.y))
    (hQ : raster_assigned num.toNat 1 0 s) :
    ∃ s', gen_tiles_slice fm false image_w image_h center num slice_num tile_w slice s =
        some s' ∧
      0 < (divide_up (tile_w * (if fm.tile_size.y ≥ gen_tiles_slice_h fm image_h slice_num slice
        then 1 else divide_up (gen_tiles_slice_h fm image_h slice_num slice)
          fm.tile_size.y)) num).toNat ∧
      raster_assigned num.toNat
        (divide_up (tile_w * (if fm.tile_size.y ≥ gen_tiles_slice_h fm image_h slice_num slice
          then 1 else divide_up (gen_tiles_slice_h fm image_h slice_num slice)
            fm.tile_size.y)) num).toNat
        ((if fm.tile_size.y ≥ gen_tiles_slice_h fm image_h slice_num slice then 1
          else divide_up (gen_tiles_slice_h fm image_h slice_num slice)
            fm.tile_size.y).toNat * tile_w.toNat) s' := by
  unfold gen_tiles_slice
  simp only
  generalize gen_tiles_slice_y fm image_h slice_num slice = sy
  generalize gen_tiles_slice_h fm image_h slice_num slice = sh at hth ⊢
  generalize (if fm.tile_size.y ≥ sh then 1 else divide_up sh fm.tile_size.y) = tile_h at hth ⊢
  have hT : 1 ≤ tile_w * tile_h := by
    have := mul_le_mul htw hth (by omega) (by omega)
    simpa using this
  obtain ⟨d1, d2, d3⟩ := divide_up_spec (tile_w * tile_h) num (by omega) hnum
  generalize divide_up (tile_w * tile_h) num = tpd at d1 d2 d3 ⊢
  have htpd : 1 ≤ tpd := by
    by_contra hc
    have h0 : tpd = 0 := by omega
    rw [h0] at d1; omega
  have hcast : ((tpd.toNat : Nat) : Int) = tpd := Int.toNat_of_nonneg (by omega)
  have htot : tile_h.toNat * tile_w.toNat ≤ tpd.toNat * num.toNat := by
    have e1 : ((tile_h.toNat * tile_w.toNat : Nat) : Int) = tile_w * tile_h := by
      push_cast
      rw [Int.toNat_of_nonneg (by omega), Int.toNat_of_nonneg (by omega)]
      ring
    have e2 : ((tpd.toNat * num.toNat : Nat) : Int) = tpd * num := by
      push_cast
      rw [Int.toNat_of_nonneg (by omega), Int.toNat_of_nonneg (by omega)]
    have : ((tile_h.toNat * tile_w.toNat : Nat) : Int) ≤ ((tpd.toNat * num.toNat : Nat) : Int) := by
      rw [e1, e2]; exact d1
    exact_mod_cast this
  obtain ⟨q1, q2, q3, q4, q5, q6, q7, q8⟩ := hQ
  have hQ0 : raster_assigned num.toNat tpd.toNat 0
      { s with cur_device := 0, cur_tiles := 0 } := by
    refine ⟨q1, q2, q3, ?_, ?_, ?_, ?_, ?_⟩
    · simpa using q4
    · simp
    · simp
    · intro k t hk
      have hl : k < s.tiles.length := by
        rcases Nat.lt_or_ge k s.tiles.length with h | h
        · exact h
        · rw [List.getElem?_eq_none h] at hk; cases hk
      omega
    · intro j
      have := q8 j
      simp only [Nat.zero_div, Nat.zero_mod] at this ⊢
      exact this
  obtain ⟨s1, h1, h2⟩ := gen_tiles_rows_assigned fm image_w center tile_w tile_h slice sy sh
    num.toNat tpd.toNat { s with cur_device := 0, cur_tiles := 0 } (by omega) htot hQ0
  rw [hcast] at h1
  rw [h1]
  exact ⟨s1, rfl, by omega, h2⟩

/-- The raster branch of `gen_tiles` is the loop over the slices from `gen_tiles_start`; it
returns the final `idx` and stores the tiles and queues. -/
theorem gen_tiles_raster_run (fuel : Nat) (junk : Tile) (fm : TileManagerFull) (sliced : Bool)
    (hord : fm.tile_order ≠ TileOrder.TILE_HILBERT_SPIRAL) (hnum : 0 ≤ gen_tiles_num fm sliced)
    (s1 : GenState)
    (hrun : (List.range (gen_tiles_slice_num fm sliced).toNat).foldlM
        (fun st (slice : Nat) => gen_tiles_slice fm sliced (gen_tiles_image_w fm)
          (gen_tiles_image_h fm)
          { x := (gen_tiles_image_w fm).tdiv 2, y := (gen_tiles_image_h fm).tdiv 2 }
          (gen_tiles_num fm sliced) (gen_tiles_slice_num fm sliced) (gen_tiles_tile_w fm)
          (slice : Int) st) (gen_tiles_start fm sliced) = some s1) :
    ∃ fm', gen_tiles fuel junk fm sliced = some (s1.idx, fm') ∧ fm'.tiles = s1.tiles ∧
      fm'.render_tiles = s1.render_tiles ∧ fm'.tile_stride = gen_tiles_tile_w fm ∧
      fm'.toTileManager = fm.toTileManager ∧ fm'.tile_size = fm.tile_size ∧
      fm'.num_devices = fm.num_devices ∧ fm'.background = fm.background := by
  unfold gen_tiles
  simp only [gen_tiles_num, gen_tiles_slice_num, gen_tiles_image_w, gen_tiles_image_h,
    gen_tiles_tile_w, gen_tiles_start] at hnum hrun
  simp only [hord, if_false, not_lt.2 hnum, device_free, hrun]
  exact ⟨_, rfl, rfl, rfl, rfl, rfl, rfl, rfl, rfl⟩

theorem gen_tiles_image_w_pos (fm : TileManagerFull) : 1 ≤ gen_tiles_image_w fm :=
  le_max_left _ _

theorem gen_tiles_image_h_pos (fm : TileManagerFull) : 1 ≤ gen_tiles_image_h fm :=
  le_max_left _ _

/-- With at least one device there is at least one queue, and in sliced mode no more slices
than rows. -/
theorem gen_tiles_num_spec (fm : TileManagerFull) (sliced : Bool) (hnd : 1 ≤ fm.num_devices) :
    1 ≤ gen_tiles_num fm sliced ∧
    1 ≤ gen_tiles_slice_num fm sliced ∧ gen_tiles_slice_num fm sliced ≤ gen_tiles_image_h fm ∧
    (sliced = true → gen_tiles_slice_num fm sliced = gen_tiles_num fm sliced) ∧
    (sliced = false → gen_tiles_slice_num fm sliced = 1) := by
  have hh := gen_tiles_image_h_pos fm
  unfold gen_tiles_slice_num gen_tiles_num
  cases sliced <;> cases fm.preserve_tile_device <;> simp <;> omega

/-- In non-sliced mode with a non-negative overlap the single slice is the whole image. -/
theorem gen_tiles_single_slice (fm : TileManagerFull) (image_h : Int)
    (hov : 0 ≤ fm.slice_overlap) :
    gen_tiles_slice_y fm image_h 1 ((0 : Nat) : Int) = 0 ∧
    gen_tiles_slice_h fm image_h 1 ((0 : Nat) : Int) = image_h := by
  unfold gen_tiles_slice_y gen_tiles_slice_h
  simp only [Int.tdiv_one, Nat.cast_zero, mul_zero, zero_mul, sub_self, if_true, sub_zero,
    zero_add, zero_sub]
  constructor
  · split_ifs <;> omega
  · split_ifs <;> omega

/-- Non-sliced mode: the loops succeed and leave the assignment of all tiles. -/
theorem gen_tiles_nonsliced_run (fm : TileManagerFull) (hty : 1 ≤ fm.tile_size.y)
    (htx : 1 ≤ fm.tile_size.x) (hnd : 1 ≤ fm.num_devices) (hov : 0 ≤ fm.slice_overlap) :
    ∃ s1, (List.range (gen_tiles_slice_num fm false).toNat).foldlM
        (fun st (slice : Nat) => gen_tiles_slice fm false (gen_tiles_image_w fm)
          (gen_tiles_image_h fm)
          { x := (gen_tiles_image_w fm).tdiv 2, y := (gen_tiles_image_h fm).tdiv 2 }
          (gen_tiles_num fm false) (gen_tiles_slice_num fm false) (gen_tiles_tile_w fm)
          (slice : Int) st) (gen_tiles_start fm false) = some s1 ∧
      1 ≤ gen_tiles_tile_w fm ∧ 1 ≤ gen_tiles_tile_h fm (gen_tiles_image_h fm) ∧
      0 < (divide_up (gen_tiles_tile_w fm * gen_tiles_tile_h fm (gen_tiles_image_h fm))
        (gen_tiles_num fm false)).toNat ∧
      raster_assigned (gen_tiles_num fm false).toNat
        (divide_up (gen_tiles_tile_w fm * gen_tiles_tile_h fm (gen_tiles_image_h fm))
          (gen_tiles_num fm false)).toNat
        ((gen_tiles_tile_h fm (gen_tiles_image_h fm)).toNat * (gen_tiles_tile_w fm).toNat)
        s1 := by
  obtain ⟨n1, -, -, -, n5⟩ := gen_tiles_num_spec fm false hnd
  obtain ⟨-, e2⟩ := gen_tiles_single_slice fm (gen_tiles_image_h fm) hov
  have htw := (tile_count_spec (gen_tiles_image_w fm) fm.tile_size.x
    (gen_tiles_image_w_pos fm) htx).1
  have hth := (tile_count_spec (gen_tiles_image_h fm) fm.tile_size.y
    (gen_tiles_image_h_pos fm) hty).1
  rw [n5 rfl]
  have hone : (List.range (Int.toNat 1)) = [0] := rfl
  rw [hone]
  simp only [List.foldlM_cons, List.foldlM_nil]
  obtain ⟨s1, h1, h2, h3⟩ := gen_tiles_slice_nonsliced fm (gen_tiles_image_w fm)
    (gen_tiles_image_h fm)
    { x := (gen_tiles_image_w fm).tdiv 2, y := (gen_tiles_image_h fm).tdiv 2 }
    (gen_tiles_num fm false) 1 (gen_tiles_tile_w fm) ((0 : Nat) : Int)
    (gen_tiles_start fm false) n1 htw (by rw [e2]; exact hth)
    (raster_assigned_start _ 1)
  rw [e2] at h2 h3
  rw [h1]
  exact ⟨s1, by simp, htw, hth, h2, h3⟩

/-- C18: worker assignment in non-sliced raster mode.  With `T = tile_w * tile_h` tiles and
`num` worker queues, `gen_tiles` returns `T` without ever dereferencing the queue iterator
past the last queue; the `k`-th generated tile has index `k` and device
`k div divide_up(T, num)`, which is below `num`; and no render queue holds more than
`divide_up(T, num)` tiles. -/
theorem gen_tiles_worker_assignment (fuel : Nat) (junk : Tile) (fm : TileManagerFull)
    (htx : 1 ≤ fm.tile_size.x) (hty : 1 ≤ fm.tile_size.y) (hnd : 1 ≤ fm.num_devices)
    (hov : 0 ≤ fm.slice_overlap) (hord : fm.tile_order ≠ TileOrder.TILE_HILBERT_SPIRAL) :
    ∃ fm', gen_tiles fuel junk fm false =
        some (gen_tiles_tile_w fm * gen_tiles_tile_h fm (gen_tiles_image_h fm), fm') ∧
      1 ≤ gen_tiles_num fm false ∧
      fm'.render_tiles.length = (gen_tiles_num fm false).toNat ∧
      ((fm'.tiles.length : Nat) : Int) =
        gen_tiles_tile_w fm * gen_tiles_tile_h fm (gen_tiles_image_h fm) ∧
      (∀ (k : Nat) (t : Tile), fm'.tiles[k]? = some t →
        t.index = (k : Int) ∧
        t.device = (k : Int).tdiv
          (divide_up (gen_tiles_tile_w fm * gen_tiles_tile_h fm (gen_tiles_image_h fm))
            (gen_tiles_num fm false)) ∧
        0 ≤ t.device ∧ t.device < gen_tiles_num fm false) ∧
      (∀ q ∈ fm'.render_tiles, (q.length : Int) ≤
        divide_up (gen_tiles_tile_w fm * gen_tiles_tile_h fm (gen_tiles_image_h fm))
          (gen_tiles_num fm false)) := by
  obtain ⟨n1, -, -, -, -⟩ := gen_tiles_num_spec fm false hnd
  obtain ⟨s1, hrun, htw, hth, htpd, q1, q2, q3, q4, q5, q6, q7, q8⟩ :=
    gen_tiles_nonsliced_run fm hty htx hnd hov
  obtain ⟨fm', g1, g2, g3, -⟩ := gen_tiles_raster_run fuel junk fm false hord (by omega) s1 hrun
  generalize gen_tiles_tile_w fm = tile_w at *
  generalize gen_tiles_tile_h fm (gen_tiles_image_h fm) = tile_h at *
  generalize gen_tiles_num fm false = num at *
  have hT : 1 ≤ tile_w * tile_h := by
    have := mul_le_mul htw hth (by omega) (by omega)
    simpa using this
  obtain ⟨d1, d2, d3⟩ := divide_up_spec (tile_w * tile_h) num (by omega) n1
  generalize divide_up (tile_w * tile_h) num = tpd at *
  have hcast : ((tpd.toNat : Nat) : Int) = tpd := Int.toNat_of_nonneg (by omega)
  have hTc : ((tile_h.toNat * tile_w.toNat : Nat) : Int) = tile_w * tile_h := by
    push_cast
    rw [Int.toNat_of_nonneg (by omega), Int.toNat_of_nonneg (by omega)]
    ring
  refine ⟨fm', ?_, n1, by rw [g3, q1], by rw [g2, q3, hTc], ?_, ?_⟩
  · rw [g1, q2, hTc]
  · intro k t hk
    rw [g2] at hk
    obtain ⟨a, b⟩ := q7 k t hk
    have hklt : k < tile_h.toNat * tile_w.toNat := by
      rcases Nat.lt_or_ge k s1.tiles.length with h | h
      · omega
      · rw [List.getElem?_eq_none h] at hk; cases hk
    have hdev : ((k / tpd.toNat : Nat) : Int) = (k : Int).tdiv tpd := by
      rw [Int.tdiv_eq_ediv (by omega) (by omega), ← hcast]
      norm_cast
    have hlt : k / tpd.toNat < num.toNat := by
      apply Nat.div_lt_of_lt_mul
      have : ((k : Nat) : Int) < ((tpd.toNat * num.toNat : Nat) : Int) := by
        push_cast
        rw [hcast, Int.toNat_of_nonneg (by omega)]
        have : (k : Int) < tile_w * tile_h := by rw [← hTc]; exact_mod_cast hklt
        omega
      exact_mod_cast this
    have hnn : (0 : Int) ≤ ((k / tpd.toNat : Nat) : Int) := Int.ofNat_nonneg _
    have hlt2 : ((k / tpd.toNat : Nat) : Int) < ((num.toNat : Nat) : Int) := by
      exact_mod_cast hlt
    rw [Int.toNat_of_nonneg (by omega)] at hlt2
    rw [b]
    exact ⟨a, hdev, hnn, hlt2⟩
  · intro q hq
    rw [g3] at hq
    obtain ⟨j, hj, hjq⟩ := List.mem_iff_getElem.1 hq
    have hget : s1.render_tiles.getD j [] = q := by
      simp [List.getD_eq_getElem?_getD, List.getElem?_eq_getElem hj, hjq]
    have hl := q8 j
    rw [hget] at hl
    have hmod : (tile_h.toNat * tile_w.toNat) % tpd.toNat < tpd.toNat := Nat.mod_lt _ htpd
    have : q.length ≤ tpd.toNat := by
      rw [hl]; split_ifs <;> omega
    have h2 : ((q.length : Nat) : Int) ≤ ((tpd.toNat : Nat) : Int) := by exact_mod_cast this
    rw [hcast] at h2
    exact h2

theorem gen_tiles_worker_assignment_witness :
    ∃ fm', gen_tiles 0 junk_tile
        raster_fixture false =
        some (gen_tiles_tile_w raster_fixture *
          gen_tiles_tile_h raster_fixture
            (gen_tiles_image_h raster_fixture),
          fm') ∧
      1 ≤ gen_tiles_num raster_fixture false ∧
      fm'.render_tiles.length =
        (gen_tiles_num raster_fixture
          false).toNat ∧
      ((fm'.tiles.length : Nat) : Int) =
        gen_tiles_tile_w raster_fixture *
          gen_tiles_tile_h raster_fixture
            (gen_tiles_image_h raster_fixture) ∧
      (∀ (k : Nat) (t : Tile), fm'.tiles[k]? = some t →
        t.index = (k : Int) ∧
        t.device = (k : Int).tdiv
          (divide_up
            (gen_tiles_tile_w raster_fixture *
              gen_tiles_tile_h raster_fixture
                (gen_tiles_image_h
                  raster_fixture))
            (gen_tiles_num raster_fixture
              false)) ∧
        0 ≤ t.device ∧
        t.device <
          gen_tiles_num raster_fixture false) ∧
      (∀ q ∈ fm'.render_tiles, (q.length : Int) ≤
        divide_up
          (gen_tiles_tile_w raster_fixture *
            gen_tiles_tile_h raster_fixture
              (gen_tiles_image_h
                raster_fixture))
          (gen_tiles_num raster_fixture
            false)) :=
  gen_tiles_worker_assignment 0 junk_tile
    raster_fixture
    (by decide) (by decide) (by decide) (by decide) (by decide)

/-! ## Exact cover -/

theorem cover_count_cons (t : Tile) (l : List Tile) (px py : Int) :
    cover_count (t :: l) px py = cover_count l px py + (if t.contains px py then 1 else 0) := by
  simp [cover_count, List.countP_cons]

theorem cover_count_pos_of_mem {l : List Tile} {t : Tile} {px py : Int} (hm : t ∈ l)
    (hc : t.contains px py = true) : 1 ≤ cover_count l px py := by
  unfold cover_count
  exact List.countP_pos_iff.2 ⟨t, hm, hc⟩

/-- Tiles that cover no pixel twice are pairwise disjoint. -/
theorem pairwise_disjoint_of_cover (l : List Tile) (h : ∀ px py, cover_count l px py ≤ 1) :
    l.Pairwise (fun a b => ∀ px py, ¬ (a.contains px py = true ∧ b.contains px py = true)) := by
  induction l with
  | nil => exact List.Pairwise.nil
  | cons a l ih =>
    refine List.Pairwise.cons ?_ (ih ?_)
    · intro b hb px py ⟨ha, hb2⟩
      have h1 := h px py
      rw [cover_count_cons, ha] at h1
      have h2 := cover_count_pos_of_mem hb hb2
      simp at h1
      omega
    · intro px py
      have h1 := h px py
      rw [cover_count_cons] at h1
      omega

/-- A tile of positive size in a list that covers exactly the pixels of the image lies
inside the image. -/
theorem tile_inside_of_cover {l : List Tile} {w h : Int}
    (hc : ∀ px py, cover_count l px py = if 0 ≤ px ∧ px < w ∧ 0 ≤ py ∧ py < h then 1 else 0)
    {t : Tile} (hm : t ∈ l) (hw : 1 ≤ t.w) (hh : 1 ≤ t.h) :
    0 ≤ t.x ∧ t.x + t.w ≤ w ∧ 0 ≤ t.y ∧ t.y + t.h ≤ h := by
  have h1 : 1 ≤ cover_count l t.x t.y :=
    cover_count_pos_of_mem hm (by simp [Tile.contains]; omega)
  have h2 : 1 ≤ cover_count l (t.x + t.w - 1) (t.y + t.h - 1) :=
    cover_count_pos_of_mem hm (by simp [Tile.contains]; omega)
  rw [hc] at h1 h2
  split_ifs at h1 h2 <;> omega

/-- C15: for every image size `image_w, image_h >= 1`, tile size `>= (1, 1)`, device count
`>= 1` and `slice_overlap = 0`, `gen_tiles` in the non-Hilbert orders, sliced or not,
returns, and its tiles cover every pixel of the image exactly once: each tile has
`w, h >= 1` and lies inside `[0, image_w) x [0, image_h)`, a pixel of the image lies in
exactly one tile and any other point in none, the tiles are pairwise disjoint, and the sum of
the tile areas is `image_w * image_h`. -/
theorem gen_tiles_raster_exact_cover (fuel : Nat) (junk : Tile) (fm : TileManagerFull)
    (sliced : Bool) (htx : 1 ≤ fm.tile_size.x) (hty : 1 ≤ fm.tile_size.y)
    (hnd : 1 ≤ fm.num_devices) (hov : fm.slice_overlap = 0)
    (hord : fm.tile_order ≠ TileOrder.TILE_HILBERT_SPIRAL) :
    1 ≤ gen_tiles_image_w fm ∧ 1 ≤ gen_tiles_image_h fm ∧
    ∃ r, gen_tiles fuel junk fm sliced = some r ∧
      (∀ t ∈ r.2.tiles, 1 ≤ t.w ∧ 1 ≤ t.h ∧ 0 ≤ t.x ∧ t.x + t.w ≤ gen_tiles_image_w fm ∧
        0 ≤ t.y ∧ t.y + t.h ≤ gen_tiles_image_h fm) ∧
      (∀ px py, cover_count r.2.tiles px py =
        if 0 ≤ px ∧ px < gen_tiles_image_w fm ∧ 0 ≤ py ∧ py < gen_tiles_image_h fm then 1
        else 0) ∧
      r.2.tiles.Pairwise
        (fun a b => ∀ px py, ¬ (a.contains px py = true ∧ b.contains px py = true)) ∧
      total_area r.2.tiles = gen_tiles_image_w fm * gen_tiles_image_h fm := by
  refine ⟨gen_tiles_image_w_pos fm, gen_tiles_image_h_pos fm, ?_⟩
  obtain ⟨n1, n2, n3, n4, n5⟩ := gen_tiles_num_spec fm sliced hnd
  have hrun : ∃ s1, (List.range (gen_tiles_slice_num fm sliced).toNat).foldlM
      (fun st (slice : Nat) => gen_tiles_slice fm sliced (gen_tiles_image_w fm)
        (gen_tiles_image_h fm)
        { x := (gen_tiles_image_w fm).tdiv 2, y := (gen_tiles_image_h fm).tdiv 2 }
        (gen_tiles_num fm sliced) (gen_tiles_slice_num fm sliced) (gen_tiles_tile_w fm)
        (slice : Int) st) (gen_tiles_start fm sliced) = some s1 := by
    cases hs : sliced
    · obtain ⟨s1, h1, -⟩ := gen_tiles_nonsliced_run fm hty htx hnd (by omega)
      exact ⟨s1, h1⟩
    · obtain ⟨s1, h1, -⟩ := gen_tiles_slices_sliced fm (gen_tiles_image_w fm)
        (gen_tiles_image_h fm)
        { x := (gen_tiles_image_w fm).tdiv 2, y := (gen_tiles_image_h fm).tdiv 2 }
        (gen_tiles_num fm true) (gen_tiles_slice_num fm true) (gen_tiles_tile_w fm)
        (gen_tiles_start fm true) rfl
        (by rw [hs] at n4; rw [n4 rfl]; simp [gen_tiles_start])
      exact ⟨s1, h1⟩
  obtain ⟨s1, hrun⟩ := hrun
  obtain ⟨fm', g1, g2, -⟩ := gen_tiles_raster_run fuel junk fm sliced hord (by omega) s1 hrun
  obtain ⟨p1, p2, p3⟩ := slices_partition fm (gen_tiles_image_h fm)
    (gen_tiles_slice_num fm sliced) hov n2 n3
  obtain ⟨c1, c2, c3⟩ := gen_tiles_slices_geometry htx hty (gen_tiles_image_w_pos fm) rfl p1
    (show (gen_tiles_start fm sliced).tiles = [] from rfl) hrun
  have hcov : ∀ px py, cover_count s1.tiles px py =
      if 0 ≤ px ∧ px < gen_tiles_image_w fm ∧ 0 ≤ py ∧ py < gen_tiles_image_h fm then 1
      else 0 := by
    intro px py
    rw [c1 px py, p2 py]
    split_ifs <;> first | rfl | omega
  refine ⟨(s1.idx, fm'), g1, ?_, ?_, ?_, ?_⟩
  · intro t ht
    simp only [g2] at ht
    obtain ⟨a, b⟩ := c3 t ht
    obtain ⟨i1, i2, i3, i4⟩ := tile_inside_of_cover hcov ht a b
    exact ⟨a, b, i1, i2, i3, i4⟩
  · simp only [g2]; exact hcov
  · simp only [g2]
    apply pairwise_disjoint_of_cover
    intro px py
    rw [hcov]; split_ifs <;> omega
  · simp only [g2]
    rw [c2, p3]

theorem gen_tiles_raster_exact_cover_witness :
    1 ≤ gen_tiles_image_w sliced_fixture ∧ 1 ≤ gen_tiles_image_h sliced_fixture ∧
    ∃ r, gen_tiles 0 junk_tile sliced_fixture true = some r ∧
      (∀ t ∈ r.2.tiles, 1 ≤ t.w ∧ 1 ≤ t.h ∧ 0 ≤ t.x ∧
        t.x + t.w ≤ gen_tiles_image_w sliced_fixture ∧
        0 ≤ t.y ∧ t.y + t.h ≤ gen_tiles_image_h sliced_fixture) ∧
      (∀ px py, cover_count r.2.tiles px py =
        if 0 ≤ px ∧ px < gen_tiles_image_w sliced_fixture ∧ 0 ≤ py ∧
            py < gen_tiles_image_h sliced_fixture then 1
        else 0) ∧
      r.2.tiles.Pairwise
        (fun a b => ∀ px py, ¬ (a.contains px py = true ∧ b.contains px py = true)) ∧
      total_area r.2.tiles = gen_tiles_image_w sliced_fixture * gen_tiles_image_h sliced_fixture :=
  gen_tiles_raster_exact_cover 0 junk_tile sliced_fixture true
    (by decide) (by decide) (by decide) (by decide) (by decide)

/-! ## Slices with overlap -/

/-- A row inside one of the first `m` slices is counted at least once. -/
theorem slices_cover_pos (fm : TileManagerFull) (image_h n : Int) (py : Int) (k m : Nat)
    (hk : k < m)
    (hin : gen_tiles_slice_y fm image_h n (k : Int) ≤ py ∧
      py < gen_tiles_slice_y fm image_h n (k : Int) + gen_tiles_slice_h fm image_h n (k : Int)) :
    1 ≤ slices_cover fm image_h n m py := by
  have h1 : 1 ≤ slices_cover fm image_h n (k + 1) py := by
    simp only [slices_cover, hin, and_self, if_true]
    omega
  exact le_trans h1 (slices_cover_mono fm image_h n py (k + 1) m (by omega))

/-- With a positive overlap every slice still has positive height and contains its rows of
the partition without overlap; the last row of the first slice also lies in the second. -/
theorem slices_overlap_spec (fm : TileManagerFull) (image_h n : Int)
    (hov : 0 < fm.slice_overlap) (hn : 1 ≤ n) (hle : n ≤ image_h) :
    (∀ k : Nat, k < n.toNat → 1 ≤ gen_tiles_slice_h fm image_h n (k : Int)) ∧
    (∀ py, 0 ≤ py → py < image_h → 1 ≤ slices_cover fm image_h n n.toNat py) ∧
    (2 ≤ n → 2 ≤ slices_cover fm image_h n n.toNat (image_h.tdiv n - 1)) := by
  obtain ⟨hq1, hq2⟩ := slice_quotient_spec image_h n hn hle
  generalize hq : image_h.tdiv n = q at hq1 hq2
  have hne : fm.slice_overlap ≠ 0 := by omega
  have hy : ∀ k : Int, gen_tiles_slice_y fm image_h n k = max (q * k - fm.slice_overlap) 0 := by
    intro k; simp [gen_tiles_slice_y, hne, hq]
  have hh : ∀ k : Int, gen_tiles_slice_h fm image_h n k =
      min (q * k + (if k = n - 1 then image_h - k * q else q) + fm.slice_overlap) image_h -
        max (q * k - fm.slice_overlap) 0 := by
    intro k; simp [gen_tiles_slice_h, hne, hq]
  have hbound : ∀ k : Nat, (k : Int) ≤ n - 1 →
      0 ≤ q * (k : Int) ∧ q * (k : Int) ≤ image_h - q ∧ (k : Int) * q = q * (k : Int) := by
    intro k hk
    have h1 : (k : Int) * q ≤ (n - 1) * q := mul_le_mul_of_nonneg_right hk (by omega)
    have h2 : (n - 1) * q = n * q - q := by ring
    have h3 : 0 ≤ (k : Int) * q := mul_nonneg (by omega) (by omega)
    have h4 : (k : Int) * q = q * (k : Int) := mul_comm _ _
    omega
  have hin : ∀ (k : Nat) (py : Int), (k : Int) ≤ n - 1 → q * (k : Int) ≤ py →
      py < q * (k : Int) + (if (k : Int) = n - 1 then image_h - (k : Int) * q else q) →
      gen_tiles_slice_y fm image_h n (k : Int) ≤ py ∧
        py < gen_tiles_slice_y fm image_h n (k : Int) +
          gen_tiles_slice_h fm image_h n (k : Int) := by
    intro k py hk h1 h2
    obtain ⟨b1, b2, b3⟩ := hbound k hk
    rw [hy, hh]
    rw [b3] at h2 ⊢
    generalize q * (k : Int) = a at *
    split_ifs at h2 ⊢ <;> omega
  refine ⟨fun k hk => ?_, fun py hp0 hp1 => ?_, fun h2 => ?_⟩
  · obtain ⟨b1, b2, b3⟩ := hbound k (by omega)
    rw [hh, b3]
    generalize q * (k : Int) = a at *
    split_ifs <;> omega
  · by_cases hlast : (n - 1) * q ≤ py
    · have hm : ((n.toNat - 1 : Nat) : Int) = n - 1 := by omega
      refine slices_cover_pos fm image_h n py (n.toNat - 1) n.toNat (by omega)
        (hin (n.toNat - 1) py (by omega) ?_ ?_)
      · rw [hm]; rw [mul_comm]; exact hlast
      · rw [hm]; simp only [if_true]
        have : q * (n - 1) = (n - 1) * q := mul_comm _ _
        omega
    · have hk0 : 0 ≤ py / q := Int.ediv_nonneg hp0 (by omega)
      have hk1 := Int.ediv_add_emod py q
      have hk2 := Int.emod_nonneg py (show q ≠ 0 by omega)
      have hk3 := Int.emod_lt_of_pos py (show 0 < q by omega)
      have hk4 : py / q < n - 1 := by
        apply Int.ediv_lt_of_lt_mul (by omega)
        omega
      have hc : (((py / q).toNat : Nat) : Int) = py / q := Int.toNat_of_nonneg hk0
      refine slices_cover_pos fm image_h n py (py / q).toNat n.toNat (by omega)
        (hin (py / q).toNat py (by omega) ?_ ?_)
      · rw [hc]; omega
      · rw [hc]
        have hne2 : ¬ (py / q = n - 1) := by omega
        simp only [hne2, if_false]
        omega
  · have hmono := slices_cover_mono fm image_h n (q - 1) 2 n.toNat (by omega)
    have hc0 : ((0 : Nat) : Int) = 0 := rfl
    have hc1 : ((1 : Nat) : Int) = 1 := rfl
    obtain ⟨b1, b2, b3⟩ := hbound 1 (by rw [hc1]; omega)
    rw [hc1, mul_one] at b2
    have h0 : gen_tiles_slice_y fm image_h n ((0 : Nat) : Int) ≤ q - 1 ∧
        q - 1 < gen_tiles_slice_y fm image_h n ((0 : Nat) : Int) +
          gen_tiles_slice_h fm image_h n ((0 : Nat) : Int) := by
      rw [hy, hh, hc0, mul_zero]
      have hn0 : ¬ ((0 : Int) = n - 1) := by omega
      rw [if_neg hn0]
      omega
    have h1 : gen_tiles_slice_y fm image_h n ((1 : Nat) : Int) ≤ q - 1 ∧
        q - 1 < gen_tiles_slice_y fm image_h n ((1 : Nat) : Int) +
          gen_tiles_slice_h fm image_h n ((1 : Nat) : Int) := by
      rw [hy, hh, hc1, mul_one, one_mul]
      split_ifs <;> omega
    have hcount : slices_cover fm image_h n 2 (q - 1) = 2 := by
      have e0 : slices_cover fm image_h n 2 (q - 1) =
          slices_cover fm image_h n 0 (q - 1) +
            (if gen_tiles_slice_y fm image_h n ((0 : Nat) : Int) ≤ q - 1 ∧
                q - 1 < gen_tiles_slice_y fm image_h n ((0 : Nat) : Int) +
                  gen_tiles_slice_h fm image_h n ((0 : Nat) : Int) then 1 else 0) +
            (if gen_tiles_slice_y fm image_h n ((1 : Nat) : Int) ≤ q - 1 ∧
                q - 1 < gen_tiles_slice_y fm image_h n ((1 : Nat) : Int) +
                  gen_tiles_slice_h fm image_h n ((1 : Nat) : Int) then 1 else 0) := rfl
      rw [e0, if_pos h0, if_pos h1]
      rfl
    omega

/-- C16 (amended): for `gen_tiles(sliced = true)` with `slice_overlap > 0`, every pixel of the
image is contained in at least one generated tile, namely in one tile of every slice whose
rows, extended by the overlap, contain the pixel's row; with at least two slices the pixels
of row `image_h / slice_num - 1`, the last row of the first slice, lie in two tiles or
more. -/
theorem gen_tiles_overlap_covers (fuel : Nat) (junk : Tile) (fm : TileManagerFull)
    (htx : 1 ≤ fm.tile_size.x) (hty : 1 ≤ fm.tile_size.y) (hnd : 1 ≤ fm.num_devices)
    (hov : 0 < fm.slice_overlap) (hord : fm.tile_order ≠ TileOrder.TILE_HILBERT_SPIRAL) :
    ∃ r, gen_tiles fuel junk fm true = some r ∧
      (∀ px py, 0 ≤ px → px < gen_tiles_image_w fm → 0 ≤ py → py < gen_tiles_image_h fm →
        cover_count r.2.tiles px py =
          slices_cover fm (gen_tiles_image_h fm) (gen_tiles_slice_num fm true)
            (gen_tiles_slice_num fm true).toNat py ∧
        1 ≤ cover_count r.2.tiles px py) ∧
      (2 ≤ gen_tiles_slice_num fm true → ∀ px, 0 ≤ px → px < gen_tiles_image_w fm →
        2 ≤ cover_count r.2.tiles px
          ((gen_tiles_image_h fm).tdiv (gen_tiles_slice_num fm true) - 1)) := by
  obtain ⟨n1, n2, n3, n4, -⟩ := gen_tiles_num_spec fm true hnd
  obtain ⟨s1, hrun, -⟩ := gen_tiles_slices_sliced fm (gen_tiles_image_w fm)
    (gen_tiles_image_h fm)
    { x := (gen_tiles_image_w fm).tdiv 2, y := (gen_tiles_image_h fm).tdiv 2 }
    (gen_tiles_num fm true) (gen_tiles_slice_num fm true) (gen_tiles_tile_w fm)
    (gen_tiles_start fm true) rfl (by rw [n4 rfl]; simp [gen_tiles_start])
  obtain ⟨fm', g1, g2, -⟩ := gen_tiles_raster_run fuel junk fm true hord (by omega) s1 hrun
  obtain ⟨p1, p2, p3⟩ := slices_overlap_spec fm (gen_tiles_image_h fm)
    (gen_tiles_slice_num fm true) hov n2 n3
  obtain ⟨c1, -, -⟩ := gen_tiles_slices_geometry htx hty (gen_tiles_image_w_pos fm) rfl p1
    (show (gen_tiles_start fm true).tiles = [] from rfl) hrun
  refine ⟨(s1.idx, fm'), g1, ?_, ?_⟩
  · intro px py h1 h2 h3 h4
    simp only [g2]
    rw [c1 px py, if_pos ⟨h1, h2⟩]
    exact ⟨rfl, p2 py h3 h4⟩
  · intro hn px h1 h2
    simp only [g2]
    rw [c1 px _, if_pos ⟨h1, h2⟩]
    exact p3 hn

theorem gen_tiles_overlap_covers_witness :
    ∃ r, gen_tiles 0 junk_tile overlap_fixture true = some r ∧
      (∀ px py, 0 ≤ px → px < gen_tiles_image_w overlap_fixture → 0 ≤ py →
        py < gen_tiles_image_h overlap_fixture →
        cover_count r.2.tiles px py =
          slices_cover overlap_fixture (gen_tiles_image_h overlap_fixture)
            (gen_tiles_slice_num overlap_fixture true)
            (gen_tiles_slice_num overlap_fixture true).toNat py ∧
        1 ≤ cover_count r.2.tiles px py) ∧
      (2 ≤ gen_tiles_slice_num overlap_fixture true → ∀ px, 0 ≤ px →
        px < gen_tiles_image_w overlap_fixture →
        2 ≤ cover_count r.2.tiles px
          ((gen_tiles_image_h overlap_fixture).tdiv (gen_tiles_slice_num overlap_fixture true) -
            1)) :=
  gen_tiles_overlap_covers 0 junk_tile overlap_fixture
    (by decide) (by decide) (by decide) (by decide) (by decide)

/-! ## The Hilbert curve of a block -/

/-- More fuel does not change a result of the loop of `hilbert_index_to_pos`. -/
theorem hilbert_index_to_pos_loop_mono (n : Int) (fuel : Nat) :
    ∀ (s d : Int) (xy r : int2), hilbert_index_to_pos_loop n fuel s d xy = some r →
      hilbert_index_to_pos_loop n (fuel + 1) s d xy = some r := by
  induction fuel with
  | zero =>
    intro s d xy r h
    unfold hilbert_index_to_pos_loop at h ⊢
    by_cases hs : s < n
    · rw [if_pos hs] at h; cases h
    · rw [if_neg hs] at h; rw [if_neg hs]; exact h
  | succ f ih =>
    intro s d xy r h
    unfold hilbert_index_to_pos_loop at h ⊢
    by_cases hs : s < n
    · rw [if_pos hs] at h; rw [if_pos hs]; exact ih _ _ _ _ h
    · rw [if_neg hs] at h; rw [if_neg hs]; exact h

/-- With at least three rounds of fuel `hilbert_index_to_pos` returns what it returns with
three. -/
theorem hilbert_index_to_pos_fuel (n d : Int) (r : int2) (fuel : Nat) (hf : 3 ≤ fuel)
    (h : hilbert_index_to_pos 3 n d = some r) : hilbert_index_to_pos fuel n d = some r := by
  induction fuel, hf using Nat.le_induction with
  | base => exact h
  | succ k _ ih => exact hilbert_index_to_pos_loop_mono n k _ _ _ _ ih

set_option maxRecDepth 100000 in
theorem hilbert_8_some : ∀ k : Nat, k < 64 →
    hilbert_index_to_pos 3 8 (k : Int) = some (hilbert_cell 8 k) ∧
    0 ≤ (hilbert_cell 8 k).x ∧ (hilbert_cell 8 k).x < 8 ∧
    0 ≤ (hilbert_cell 8 k).y ∧ (hilbert_cell 8 k).y < 8 := by
  decide

set_option maxRecDepth 100000 in
theorem hilbert_8_inj : ∀ j : Nat, j < 64 → ∀ k : Nat, k < 64 →
    hilbert_cell 8 j = hilbert_cell 8 k → j = k := by
  decide

set_option maxRecDepth 100000 in
theorem hilbert_8_surj : ∀ x : Nat, x < 8 → ∀ y : Nat, y < 8 →
    ∃ k : Nat, k < 64 ∧ hilbert_cell 8 k = { x := (x : Int), y := (y : Int) } := by
  decide

set_option maxRecDepth 100000 in
theorem hilbert_4_some : ∀ k : Nat, k < 16 →
    hilbert_index_to_pos 3 4 (k : Int) = some (hilbert_cell 4 k) ∧
    0 ≤ (hilbert_cell 4 k).x ∧ (hilbert_cell 4 k).x < 4 ∧
    0 ≤ (hilbert_cell 4 k).y ∧ (hilbert_cell 4 k).y < 4 := by
  decide

set_option maxRecDepth 100000 in
theorem hilbert_4_inj : ∀ j : Nat, j < 16 → ∀ k : Nat, k < 16 →
    hilbert_cell 4 j = hilbert_cell 4 k → j = k := by
  decide

set_option maxRecDepth 100000 in
theorem hilbert_4_surj : ∀ x : Nat, x < 4 → ∀ y : Nat, y < 4 →
    ∃ k : Nat, k < 16 ∧ hilbert_cell 4 k = { x := (x : Int), y := (y : Int) } := by
  decide

/-- For the two block sizes of `gen_tiles`, `hilbert_index_to_pos` returns for the indices
`0 .. hs * hs - 1` the cells of the `hs` by `hs` block, each of them once. -/
theorem hilbert_curve_spec (hs : Int) (hhs : hs = 4 ∨ hs = 8) (fuel : Nat) (hf : 3 ≤ fuel) :
    (∀ k : Nat, k < (hs * hs).toNat →
      hilbert_index_to_pos fuel hs (k : Int) = some (hilbert_cell hs k) ∧
      0 ≤ (hilbert_cell hs k).x ∧ (hilbert_cell hs k).x < hs ∧
      0 ≤ (hilbert_cell hs k).y ∧ (hilbert_cell hs k).y < hs) ∧
    (∀ j : Nat, j < (hs * hs).toNat → ∀ k : Nat, k < (hs * hs).toNat →
      hilbert_cell hs j = hilbert_cell hs k → j = k) ∧
    (∀ p : int2, 0 ≤ p.x → p.x < hs → 0 ≤ p.y → p.y < hs →
      ∃ k : Nat, k < (hs * hs).toNat ∧ hilbert_cell hs k = p) := by
  rcases hhs with rfl | rfl
  · have e : ((4 : Int) * 4).toNat = 16 := by decide
    rw [e]
    refine ⟨fun k hk => ?_, hilbert_4_inj, fun p h1 h2 h3 h4 => ?_⟩
    · obtain ⟨a, b⟩ := hilbert_4_some k hk
      exact ⟨hilbert_index_to_pos_fuel _ _ _ fuel hf a, b⟩
    · obtain ⟨k, hk, e⟩ := hilbert_4_surj p.x.toNat (by omega) p.y.toNat (by omega)
      refine ⟨k, hk, ?_⟩
      rw [e, Int.toNat_of_nonneg h1, Int.toNat_of_nonneg h3]
  · have e : ((8 : Int) * 8).toNat = 64 := by decide
    rw [e]
    refine ⟨fun k hk => ?_, hilbert_8_inj, fun p h1 h2 h3 h4 => ?_⟩
    · obtain ⟨a, b⟩ := hilbert_8_some k hk
      exact ⟨hilbert_index_to_pos_fuel _ _ _ fuel hf a, b⟩
    · obtain ⟨k, hk, e⟩ := hilbert_8_surj p.x.toNat (by omega) p.y.toNat (by omega)
      refine ⟨k, hk, ?_⟩
      rw [e, Int.toNat_of_nonneg h1, Int.toNat_of_nonneg h3]

/-- The rotation of a block is its own inverse. -/
theorem gen_tiles_rotate_involutive (hs : Int) (prev_dir dir : SpiralDirection) (p : int2) :
    gen_tiles_rotate hs prev_dir dir (gen_tiles_rotate hs prev_dir dir p) = p := by
  unfold gen_tiles_rotate
  split_ifs <;> simp

/-- The rotation of a block maps the block to itself. -/
theorem gen_tiles_rotate_range (hs : Int) (prev_dir dir : SpiralDirection) (p : int2)
    (h1 : 0 ≤ p.x) (h2 : p.x < hs) (h3 : 0 ≤ p.y) (h4 : p.y < hs) :
    0 ≤ (gen_tiles_rotate hs prev_dir dir p).x ∧ (gen_tiles_rotate hs prev_dir dir p).x < hs ∧
    0 ≤ (gen_tiles_rotate hs prev_dir dir p).y ∧ (gen_tiles_rotate hs prev_dir dir p).y < hs := by
  unfold gen_tiles_rotate
  split_ifs <;> (try dsimp only) <;> omega

/-! ## The walk of the spiral -/

/-- The current block of the spiral lies in the square and is still ahead. -/
theorem spiral_block_ahead (n : Int) (s : SpiralState) (hinv : spiral_inv n s) :
    0 ≤ s.block.x ∧ s.block.x < n ∧ 0 ≤ s.block.y ∧ s.block.y < n ∧
    spiral_ahead n s s.block.x s.block.y := by
  obtain ⟨⟨bx, by_⟩, pd, d, i, g⟩ := s
  cases d <;> simp only [spiral_inv, spiral_ahead] at hinv ⊢ <;> omega

/-- The blocks ahead lie in the square. -/
theorem spiral_ahead_grid (n : Int) (s : SpiralState) (hinv : spiral_inv n s) (x y : Int)
    (h : spiral_ahead n s x y) : 0 ≤ x ∧ x < n ∧ 0 ≤ y ∧ y < n := by
  obtain ⟨⟨bx, by_⟩, pd, d, i, g⟩ := s
  cases d <;> simp only [spiral_inv, spiral_ahead] at hinv h ⊢ <;> omega

set_option maxHeartbeats 1000000 in
/-- Advancing from a block other than the centre keeps the position on the spiral and takes
the block left, and no other block, from the blocks ahead. -/
theorem spiral_advance (n : Int) (s : SpiralState) (hn : n % 2 = 1) (h1 : 1 ≤ n)
    (hinv : spiral_inv n s)
    (hc : ¬ (s.block.x = (n - 1).tdiv 2 ∧ s.block.y = (n - 1).tdiv 2)) :
    spiral_inv n (gen_tiles_advance n s) ∧
    (∀ x y, spiral_ahead n (gen_tiles_advance n s) x y ↔
      (spiral_ahead n s x y ∧ ¬ (x = s.block.x ∧ y = s.block.y))) := by
  obtain ⟨⟨bx, by_⟩, pd, d, i, g⟩ := s
  have hdiv : (n - 1).tdiv 2 * 2 = n - 1 := by
    rw [Int.tdiv_eq_ediv (by omega) (by omega)]; omega
  cases d
  · simp only [spiral_inv, gen_tiles_advance] at hinv hc ⊢
    by_cases hq : by_ + 1 = n - i - 1
    · rw [if_pos hq]
      refine ⟨by omega, fun x y => ?_⟩
      simp only [spiral_ahead]
      omega
    · rw [if_neg hq]
      refine ⟨by omega, fun x y => ?_⟩
      simp only [spiral_ahead]
      omega
  · simp only [spiral_inv, gen_tiles_advance] at hinv hc ⊢
    by_cases hq : bx + 1 = n - i - 1
    · rw [if_pos hq]
      refine ⟨by omega, fun x y => ?_⟩
      simp only [spiral_ahead]
      omega
    · rw [if_neg hq]
      refine ⟨by omega, fun x y => ?_⟩
      simp only [spiral_ahead]
      omega
  · simp only [spiral_inv, gen_tiles_advance] at hinv hc ⊢
    by_cases hq : by_ - 1 = i
    · rw [if_pos hq]
      refine ⟨by omega, fun x y => ?_⟩
      simp only [spiral_ahead]
      omega
    · rw [if_neg hq]
      refine ⟨by omega, fun x y => ?_⟩
      simp only [spiral_ahead]
      omega
  · simp only [spiral_inv, gen_tiles_advance] at hinv hc ⊢
    by_cases hq : bx - 1 = i + 1
    · rw [if_pos hq]
      simp only [spiral_inv]
      refine ⟨by omega, fun x y => ?_⟩
      simp only [spiral_ahead]
      omega
    · rw [if_neg hq]
      simp only [spiral_inv]
      refine ⟨by omega, fun x y => ?_⟩
      simp only [spiral_ahead]
      omega

/-- At the centre block no other block is ahead. -/
theorem spiral_centre_last (n : Int) (s : SpiralState) (hn : n % 2 = 1) (h1 : 1 ≤ n)
    (hinv : spiral_inv n s)
    (hc : s.block.x = (n - 1).tdiv 2 ∧ s.block.y = (n - 1).tdiv 2) (x y : Int)
    (h : spiral_ahead n s x y) : x = s.block.x ∧ y = s.block.y := by
  obtain ⟨⟨bx, by_⟩, pd, d, i, g⟩ := s
  have hdiv : (n - 1).tdiv 2 * 2 = n - 1 := by
    rw [Int.tdiv_eq_ediv (by omega) (by omega)]; omega
  cases d <;> simp only [spiral_inv, spiral_ahead] at hinv hc h ⊢ <;> omega

/-- The bound `spiral_left` is positive and drops with every advance. -/
theorem spiral_left_decreases (n : Int) (s : SpiralState) (hn : n % 2 = 1) (h1 : 1 ≤ n)
    (hinv : spiral_inv n s) :
    1 ≤ spiral_left n s ∧
    (¬ (s.block.x = (n - 1).tdiv 2 ∧ s.block.y = (n - 1).tdiv 2) →
      spiral_left n (gen_tiles_advance n s) < spiral_left n s) := by
  obtain ⟨⟨bx, by_⟩, pd, d, i, g⟩ := s
  have hdiv : (n - 1).tdiv 2 * 2 = n - 1 := by
    rw [Int.tdiv_eq_ediv (by omega) (by omega)]; omega
  have hsq : (n - 2 * i) * (n - 2 * i) =
      (n - 2 * i - 2) * (n - 2 * i - 2) + 4 * (n - 2 * i) - 4 := by
    ring
  have hsq0 : 0 ≤ (n - 2 * i - 2) * (n - 2 * i - 2) := mul_self_nonneg _
  cases d
  · simp only [spiral_inv, spiral_left, gen_tiles_advance] at hinv ⊢
    refine ⟨by omega, fun hc => ?_⟩
    by_cases hq : by_ + 1 = n - i - 1
    · rw [if_pos hq]; dsimp only; omega
    · rw [if_neg hq]; dsimp only; omega
  · simp only [spiral_inv, spiral_left, gen_tiles_advance] at hinv ⊢
    refine ⟨by omega, fun hc => ?_⟩
    by_cases hq : bx + 1 = n - i - 1
    · rw [if_pos hq]; dsimp only; omega
    · rw [if_neg hq]; dsimp only; omega
  · simp only [spiral_inv, spiral_left, gen_tiles_advance] at hinv ⊢
    refine ⟨by omega, fun hc => ?_⟩
    by_cases hq : by_ - 1 = i
    · rw [if_pos hq]; dsimp only; omega
    · rw [if_neg hq]; dsimp only; omega
  · simp only [spiral_inv, spiral_left, gen_tiles_advance] at hinv ⊢
    refine ⟨by omega, fun hc => ?_⟩
    have hsq1 : (n - 2 * (i + 1)) * (n - 2 * (i + 1)) =
        (n - 2 * i - 2) * (n - 2 * i - 2) := by
      ring
    by_cases hq : bx - 1 = i + 1
    · rw [if_pos hq]; dsimp only; rw [hsq1]; omega
    · rw [if_neg hq]; dsimp only; omega

/-! ## Pushing one cell of the spiral -/

/-- Pushing `x` to the front of queue `i` adds `x` to the queued indices. -/
theorem flatten_set_cons_perm (qs : List (List Int)) (i : Nat) (x : Int) (hi : i < qs.length) :
    (qs.set i (x :: qs.getD i [])).flatten.Perm (x :: qs.flatten) := by
  induction qs generalizing i with
  | nil => simp at hi
  | cons q qs ih =>
    cases i with
    | zero => simp
    | succ j =>
      have h := ih j (by simpa using hi)
      simp only [List.set_cons_succ, List.flatten_cons, List.getD_cons_succ]
      exact (List.Perm.append_left q h).trans List.perm_middle

/-- A list of distinct integers of `[0, T)` has at most `T` entries. -/
theorem nodup_bounded_length (l : List Int) (T : Int) (hn : l.Nodup)
    (hb : ∀ x ∈ l, 0 ≤ x ∧ x < T) : l.length ≤ T.toNat := by
  have h1 : (l.map Int.toNat).Nodup := by
    refine List.Nodup.map_on ?_ hn
    intro x hx y hy hxy
    have := hb x hx
    have := hb y hy
    omega
  have h2 : l.map Int.toNat ⊆ List.range T.toNat := by
    intro k hk
    obtain ⟨x, hx, rfl⟩ := List.mem_map.1 hk
    have := hb x hx
    exact List.mem_range.2 (by omega)
  have h3 := (List.subperm_of_subset h1 h2).length_le
  simpa using h3

/-- The test `pos >= 0 && pos < len` of the Hilbert branch for the position `u * ts`, with
`cnt` tiles of size `ts` along a dimension of length `len`: it holds for the first `cnt`
multiples of `ts`, and `pos / ts` gives `u` back. -/
theorem window_cell (u ts len cnt : Int) (hts : 1 ≤ ts) (h1 : (cnt - 1) * ts < len)
    (h2 : len ≤ cnt * ts) :
    ((u * ts ≥ 0 ∧ u * ts < len) ↔ (0 ≤ u ∧ u < cnt)) ∧ (u * ts).tdiv ts = u := by
  refine ⟨⟨fun ⟨p, q⟩ => ⟨?_, ?_⟩, fun ⟨p, q⟩ => ⟨?_, ?_⟩⟩, ?_⟩
  · by_contra hc
    have : (u + 1) * ts ≤ 0 * ts := mul_le_mul_of_nonneg_right (by omega) (by omega)
    have e : (u + 1) * ts = u * ts + ts := by ring
    omega
  · by_contra hc
    have : cnt * ts ≤ u * ts := mul_le_mul_of_nonneg_right (by omega) (by omega)
    omega
  · exact mul_nonneg p (by omega)
  · have : u * ts ≤ (cnt - 1) * ts := mul_le_mul_of_nonneg_right (by omega) (by omega)
    omega
  · exact Int.mul_tdiv_cancel u (by omega)

/-- The index `v * W + u` of the cell `(u, v)` of a `W` by `H` grid lies in `[0, W * H)`. -/
theorem cell_index_bounds (W H u v : Int) (hu0 : 0 ≤ u) (hu : u < W) (hv0 : 0 ≤ v)
    (hv : v < H) : 0 ≤ v * W + u ∧ v * W + u < W * H := by
  have h1 : 0 ≤ v * W := mul_nonneg hv0 (by omega)
  have h2 : (v + 1) * W ≤ H * W := mul_le_mul_of_nonneg_right (by omega) (by omega)
  have e1 : (v + 1) * W = v * W + W := by ring
  have e2 : H * W = W * H := mul_comm _ _
  omega

/-- Two cells of a row-major grid with the same index are the same cell. -/
theorem cell_index_inj (W u v u' v' : Int) (hu0 : 0 ≤ u) (hu : u < W) (hu0' : 0 ≤ u')
    (hu' : u' < W) (h : v * W + u = v' * W + u') : u = u' ∧ v = v' := by
  rcases lt_trichotomy v v' with hlt | heq | hgt
  · have h2 : (v + 1) * W ≤ v' * W := mul_le_mul_of_nonneg_right (by omega) (by omega)
    have e1 : (v + 1) * W = v * W + W := by ring
    omega
  · subst heq
    omega
  · have h2 : (v' + 1) * W ≤ v * W := mul_le_mul_of_nonneg_right (by omega) (by omega)
    have e1 : (v' + 1) * W = v' * W + W := by ring
    omega

/-- The state `hilbert_pushed` depends on the set of passed cells only. -/
theorem hilbert_pushed_congr (tile_w tile_h a b : Int) (num tpd : Nat)
    (P Q : Int → Int → Prop) (g : GenState) (h : ∀ x y, P x y ↔ Q x y)
    (hJ : hilbert_pushed tile_w tile_h a b num tpd P g) :
    hilbert_pushed tile_w tile_h a b num tpd Q g := by
  have e : P = Q := funext fun x => funext fun y => propext (h x y)
  rw [← e]
  exact hJ

/-- One cell of the spiral that has not been passed: the body succeeds, and the cell is
pushed when it lies in the window of the image. -/
theorem gen_tiles_hilbert_push_spec (fm : TileManagerFull)
    (image_w image_h tile_w tile_h a b : Int) (num tpd : Nat)
    (block_size offset block tile : int2) (P : Int → Int → Prop) (g : GenState) (gx gy : Int)
    (htx : 1 ≤ fm.tile_size.x) (hty : 1 ≤ fm.tile_size.y)
    (hw1 : (tile_w - 1) * fm.tile_size.x < image_w) (hw2 : image_w ≤ tile_w * fm.tile_size.x)
    (hh1 : (tile_h - 1) * fm.tile_size.y < image_h) (hh2 : image_h ≤ tile_h * fm.tile_size.y)
    (hpx : block.x * block_size.x + tile.x * fm.tile_size.x + offset.x =
      (gx - a) * fm.tile_size.x)
    (hpy : block.y * block_size.y + tile.y * fm.tile_size.y + offset.y =
      (gy - b) * fm.tile_size.y)
    (htpd : 0 < tpd) (htot : (tile_w * tile_h).toNat ≤ tpd * num)
    (hJ : hilbert_pushed tile_w tile_h a b num tpd P g) (hnew : ¬ P gx gy) :
    ∃ g', gen_tiles_hilbert_push fm image_w image_h tile_w (tpd : Int) block_size offset
        block tile g = some g' ∧
      hilbert_pushed tile_w tile_h a b num tpd (fun x y => P x y ∨ (x = gx ∧ y = gy)) g' := by
  obtain ⟨j1, j2, j3, j4, j5, j6, j7⟩ := hJ
  obtain ⟨wx, dx⟩ := window_cell (gx - a) fm.tile_size.x image_w tile_w htx hw1 hw2
  obtain ⟨wy, dy⟩ := window_cell (gy - b) fm.tile_size.y image_h tile_h hty hh1 hh2
  unfold gen_tiles_hilbert_push
  simp only [hpx, hpy, dx, dy]
  by_cases hin : (gx - a) * fm.tile_size.x ≥ 0 ∧ (gy - b) * fm.tile_size.y ≥ 0 ∧
      (gx - a) * fm.tile_size.x < image_w ∧ (gy - b) * fm.tile_size.y < image_h
  · rw [if_pos hin]
    obtain ⟨i1, i2, i3, i4⟩ := hin
    obtain ⟨u0, u1⟩ := wx.1 ⟨i1, i3⟩
    obtain ⟨v0, v1⟩ := wy.1 ⟨i2, i4⟩
    obtain ⟨b0, b1⟩ := cell_index_bounds tile_w tile_h (gx - a) (gy - b) u0 u1 v0 v1
    have hfresh : (gy - b) * tile_w + (gx - a) ∉ g.render_tiles.flatten := by
      intro hm
      obtain ⟨x, y, hP, x0, x1, y0, y1, e⟩ := (j4 _).1 hm
      obtain ⟨e1, e2⟩ := cell_index_inj tile_w (gx - a) (gy - b) (x - a) (y - b) u0 u1
        (by omega) (by omega) e
      have ex : x = gx := by omega
      have ey : y = gy := by omega
      rw [ex, ey] at hP
      exact hnew hP
    have hbound : ∀ z ∈ ((gy - b) * tile_w + (gx - a)) :: g.render_tiles.flatten,
        0 ≤ z ∧ z < tile_w * tile_h := by
      intro z hz
      rcases List.mem_cons.1 hz with rfl | hz
      · exact ⟨b0, b1⟩
      · obtain ⟨x, y, -, x0, x1, y0, y1, e⟩ := (j4 _).1 hz
        rw [e]
        exact cell_index_bounds tile_w tile_h (x - a) (y - b) (by omega) (by omega)
          (by omega) (by omega)
    have hlen := nodup_bounded_length _ (tile_w * tile_h) (List.nodup_cons.2 ⟨hfresh, j3⟩) hbound
    simp only [List.length_cons] at hlen
    have hq : g.tile_list < g.render_tiles.length := by
      rw [j5, j2]
      apply Nat.div_lt_of_lt_mul
      omega
    have hidx : ((gy - b) * tile_w + (gx - a)).toNat < g.tiles.length := by
      rw [j1]; omega
    rw [if_pos ⟨b0, hidx, hq⟩]
    have hperm := flatten_set_cons_perm g.render_tiles g.tile_list
      ((gy - b) * tile_w + (gx - a)) hq
    have hcore : ∀ (tl : Nat) (ct cd : Int) (w h : Int),
        tl = (g.render_tiles.flatten.length + 1) / tpd →
        ct = (((g.render_tiles.flatten.length + 1) % tpd : Nat) : Int) →
        hilbert_pushed tile_w tile_h a b num tpd (fun x y => P x y ∨ (x = gx ∧ y = gy))
          { tiles := g.tiles.set ((gy - b) * tile_w + (gx - a)).toNat
              (Tile.create ((gy - b) * tile_w + (gx - a)) ((gx - a) * fm.tile_size.x)
                ((gy - b) * fm.tile_size.y) w h g.cur_device)
            render_tiles := g.render_tiles.set g.tile_list
              (((gy - b) * tile_w + (gx - a)) :: g.render_tiles.getD g.tile_list [])
            tile_list := tl, cur_device := cd, cur_tiles := ct, idx := g.idx } := by
      intro tl ct cd w h htl hct
      refine ⟨by simp only [List.length_set]; exact j1, by simp only [List.length_set]; exact j2,
        hperm.nodup_iff.2 (List.nodup_cons.2 ⟨hfresh, j3⟩), fun idx => ?_, ?_, ?_, fun idx hm => ?_⟩
      · rw [hperm.mem_iff, List.mem_cons, j4]
        constructor
        · rintro (rfl | ⟨x, y, hP, x0, x1, y0, y1, e⟩)
          · exact ⟨gx, gy, Or.inr ⟨rfl, rfl⟩, by omega, by omega, by omega, by omega, rfl⟩
          · exact ⟨x, y, Or.inl hP, x0, x1, y0, y1, e⟩
        · rintro ⟨x, y, hP | ⟨rfl, rfl⟩, x0, x1, y0, y1, e⟩
          · exact Or.inr ⟨x, y, hP, x0, x1, y0, y1, e⟩
          · exact Or.inl e
      · show tl = _
        rw [hperm.length_eq, List.length_cons]; exact htl
      · show ct = _
        rw [hperm.length_eq, List.length_cons]; exact hct
      · show ∃ t, (g.tiles.set _ _)[idx.toNat]? = some t ∧ t.index = idx
        rcases List.mem_cons.1 (hperm.mem_iff.1 hm) with rfl | hold
        · exact ⟨_, List.getElem?_set_self hidx, rfl⟩
        · obtain ⟨t, ht, hti⟩ := j7 idx hold
          have hb := hbound idx (List.mem_cons_of_mem _ hold)
          have hne : ((gy - b) * tile_w + (gx - a)).toNat ≠ idx.toNat := by
            intro e
            have : (gy - b) * tile_w + (gx - a) = idx := by omega
            rw [this] at hfresh
            exact hfresh hold
          refine ⟨t, ?_, hti⟩
          rw [List.getElem?_set_ne hne]
          exact ht
    by_cases hwrap : g.cur_tiles + 1 = (tpd : Int)
    · rw [if_pos hwrap]
      obtain ⟨d1, d2⟩ := succ_div_mod_wrap g.render_tiles.flatten.length tpd (by omega)
      exact ⟨_, rfl, hcore _ _ _ _ _ (by rw [d1, j5]) (by rw [d2]; rfl)⟩
    · rw [if_neg hwrap]
      obtain ⟨d1, d2⟩ := succ_div_mod_step g.render_tiles.flatten.length tpd htpd (by omega)
      exact ⟨_, rfl, hcore _ _ _ _ _ (by rw [d1, j5]) (by rw [d2, j6]; push_cast; rfl)⟩
  · rw [if_neg hin]
    refine ⟨g, rfl, j1, j2, j3, fun idx => ?_, j5, j6, j7⟩
    rw [j4]
    constructor
    · rintro ⟨x, y, hP, x0, x1, y0, y1, e⟩
      exact ⟨x, y, Or.inl hP, x0, x1, y0, y1, e⟩
    · rintro ⟨x, y, hP | ⟨rfl, rfl⟩, x0, x1, y0, y1, e⟩
      · exact ⟨x, y, hP, x0, x1, y0, y1, e⟩
      · exfalso
        obtain ⟨p1, p2⟩ := wx.2 ⟨by omega, by omega⟩
        obtain ⟨q1, q2⟩ := wy.2 ⟨by omega, by omega⟩
        exact hin ⟨p1, q1, p2, q2⟩


/-! ## One block of the spiral -/

/-- Two positions with the same coordinates are equal. -/
theorem int2_eq (p q : int2) (hx : p.x = q.x) (hy : p.y = q.y) : p = q := by
  cases p; cases q; simp only [int2.mk.injEq]; exact ⟨hx, hy⟩

/-- The loop over `hilbert_index` for a block none of whose cells has been passed: it
succeeds and passes exactly the cells of the block. -/
theorem gen_tiles_block_spec (fuel : Nat) (hf : 3 ≤ fuel) (fm : TileManagerFull)
    (image_w image_h tile_w tile_h a b hs : Int) (hhs : hs = 4 ∨ hs = 8) (num tpd : Nat)
    (block_size offset block : int2) (prev_dir dir : SpiralDirection)
    (P : Int → Int → Prop) (g : GenState)
    (htx : 1 ≤ fm.tile_size.x) (hty : 1 ≤ fm.tile_size.y)
    (hw1 : (tile_w - 1) * fm.tile_size.x < image_w) (hw2 : image_w ≤ tile_w * fm.tile_size.x)
    (hh1 : (tile_h - 1) * fm.tile_size.y < image_h) (hh2 : image_h ≤ tile_h * fm.tile_size.y)
    (hbx : block_size.x = fm.tile_size.x * hs) (hby : block_size.y = fm.tile_size.y * hs)
    (hox : offset.x = -(a * fm.tile_size.x)) (hoy : offset.y = -(b * fm.tile_size.y))
    (htpd : 0 < tpd) (htot : (tile_w * tile_h).toNat ≤ tpd * num)
    (hJ : hilbert_pushed tile_w tile_h a b num tpd P g)
    (hfresh : ∀ x y, block.x * hs ≤ x → x < block.x * hs + hs → block.y * hs ≤ y →
      y < block.y * hs + hs → ¬ P x y) :
    ∃ g', (List.range (hs * hs).toNat).foldlM
        (fun st (hilbert_index : Nat) => gen_tiles_hilbert_tile fuel fm image_w image_h tile_w
          hs (tpd : Int) block_size offset block prev_dir dir (hilbert_index : Int) st) g =
        some g' ∧
      hilbert_pushed tile_w tile_h a b num tpd
        (fun x y => P x y ∨ (block.x * hs ≤ x ∧ x < block.x * hs + hs ∧
          block.y * hs ≤ y ∧ y < block.y * hs + hs)) g' := by
  obtain ⟨hsome, hinj, hsurj⟩ := hilbert_curve_spec hs hhs fuel hf
  have hrot := gen_tiles_rotate_range hs prev_dir dir
  have hinv := gen_tiles_rotate_involutive hs prev_dir dir
  obtain ⟨g', hrun, hQ⟩ := foldlM_range_invariant
    (fun st (hilbert_index : Nat) => gen_tiles_hilbert_tile fuel fm image_w image_h tile_w
      hs (tpd : Int) block_size offset block prev_dir dir (hilbert_index : Int) st)
    (fun k st => hilbert_pushed tile_w tile_h a b num tpd
      (fun x y => P x y ∨ ∃ j : Nat, j < k ∧
        x = block.x * hs + (gen_tiles_rotate hs prev_dir dir (hilbert_cell hs j)).x ∧
        y = block.y * hs + (gen_tiles_rotate hs prev_dir dir (hilbert_cell hs j)).y) st)
    (hs * hs).toNat g
    (hilbert_pushed_congr _ _ _ _ _ _ _ _ _
      (fun x y => ⟨fun h => Or.inl h, fun h => h.elim id (fun ⟨j, hj, _⟩ => absurd hj (by omega))⟩)
      hJ)
    (by
      intro k st hk hQk
      obtain ⟨e, c1, c2, c3, c4⟩ := hsome k hk
      obtain ⟨r1, r2, r3, r4⟩ := hrot _ c1 c2 c3 c4
      show ∃ s', gen_tiles_hilbert_tile fuel fm image_w image_h tile_w hs (tpd : Int)
        block_size offset block prev_dir dir (k : Int) st = some s' ∧ _
      unfold gen_tiles_hilbert_tile
      rw [e]
      obtain ⟨s', hs', hJ'⟩ := gen_tiles_hilbert_push_spec fm image_w image_h tile_w tile_h a b
        num tpd block_size offset block (gen_tiles_rotate hs prev_dir dir (hilbert_cell hs k))
        _ st (block.x * hs + (gen_tiles_rotate hs prev_dir dir (hilbert_cell hs k)).x)
        (block.y * hs + (gen_tiles_rotate hs prev_dir dir (hilbert_cell hs k)).y)
        htx hty hw1 hw2 hh1 hh2 (by rw [hbx, hox]; ring) (by rw [hby, hoy]; ring) htpd htot hQk
        (by
          rintro (hP | ⟨j, hj, ex, ey⟩)
          · exact hfresh _ _ (by omega) (by omega) (by omega) (by omega) hP
          · have hc : gen_tiles_rotate hs prev_dir dir (hilbert_cell hs k) =
                gen_tiles_rotate hs prev_dir dir (hilbert_cell hs j) :=
              int2_eq _ _ (by omega) (by omega)
            have hc2 := congrArg (gen_tiles_rotate hs prev_dir dir) hc
            rw [hinv, hinv] at hc2
            have := hinj k hk j (by omega) hc2
            omega)
      refine ⟨s', hs', hilbert_pushed_congr _ _ _ _ _ _ _ _ _ (fun x y => ?_) hJ'⟩
      constructor
      · rintro ((hP | ⟨j, hj, ex, ey⟩) | ⟨ex, ey⟩)
        · exact Or.inl hP
        · exact Or.inr ⟨j, by omega, ex, ey⟩
        · exact Or.inr ⟨k, by omega, ex, ey⟩
      · rintro (hP | ⟨j, hj, ex, ey⟩)
        · exact Or.inl (Or.inl hP)
        · rcases Nat.lt_or_ge j k with hlt | hge
          · exact Or.inl (Or.inr ⟨j, hlt, ex, ey⟩)
          · have : j = k := by omega
            subst this
            exact Or.inr ⟨ex, ey⟩)
  refine ⟨g', hrun, hilbert_pushed_congr _ _ _ _ _ _ _ _ _ (fun x y => ?_) hQ⟩
  constructor
  · rintro (hP | ⟨j, hj, ex, ey⟩)
    · exact Or.inl hP
    · obtain ⟨e, c1, c2, c3, c4⟩ := hsome j hj
      obtain ⟨r1, r2, r3, r4⟩ := hrot _ c1 c2 c3 c4
      exact Or.inr ⟨by omega, by omega, by omega, by omega⟩
  · rintro (hP | ⟨x0, x1, y0, y1⟩)
    · exact Or.inl hP
    · obtain ⟨r1, r2, r3, r4⟩ := hrot { x := x - block.x * hs, y := y - block.y * hs }
        (by show 0 ≤ x - block.x * hs; omega) (by show x - block.x * hs < hs; omega)
        (by show 0 ≤ y - block.y * hs; omega) (by show y - block.y * hs < hs; omega)
      obtain ⟨k, hk, ek⟩ := hsurj _ r1 r2 r3 r4
      refine Or.inr ⟨k, hk, ?_, ?_⟩
      · rw [ek, hinv]; show x = block.x * hs + (x - block.x * hs); omega
      · rw [ek, hinv]; show y = block.y * hs + (y - block.y * hs); omega


/-! ## The spiral loop -/

/-- Advancing the spiral does not touch the generator variables. -/
theorem gen_tiles_advance_gen (n : Int) (s : SpiralState) :
    (gen_tiles_advance n s).gen = s.gen := by
  obtain ⟨⟨bx, by_⟩, pd, d, i, g⟩ := s
  cases d <;> simp only [gen_tiles_advance]
  all_goals first | rfl | (split_ifs <;> rfl)

/-- The blocks passed after an advance are the blocks passed before and the block left. -/
theorem spiral_seen_advance (n : Int) (s : SpiralState) (hn : n % 2 = 1) (h1 : 1 ≤ n)
    (hinv : spiral_inv n s)
    (hc : ¬ (s.block.x = (n - 1).tdiv 2 ∧ s.block.y = (n - 1).tdiv 2)) (x y : Int) :
    spiral_seen n (gen_tiles_advance n s) x y ↔
      (spiral_seen n s x y ∨ (x = s.block.x ∧ y = s.block.y)) := by
  obtain ⟨-, hah⟩ := spiral_advance n s hn h1 hinv hc
  obtain ⟨b0, b1, b2, b3, -⟩ := spiral_block_ahead n s hinv
  unfold spiral_seen
  rw [hah]
  constructor
  · rintro ⟨g0, g1, g2, g3, hna⟩
    by_cases he : x = s.block.x ∧ y = s.block.y
    · exact Or.inr he
    · exact Or.inl ⟨g0, g1, g2, g3, fun ha => hna ⟨ha, he⟩⟩
  · rintro (⟨g0, g1, g2, g3, hna⟩ | ⟨rfl, rfl⟩)
    · exact ⟨g0, g1, g2, g3, fun ha => hna ha.1⟩
    · exact ⟨b0, b1, b2, b3, fun ha => ha.2 ⟨rfl, rfl⟩⟩

/-- The cells of a set of blocks to which one block is added. -/
theorem block_cells_insert (hs : Int) (B B' : Int → Int → Prop) (cx cy : Int)
    (h : ∀ bx by_, B' bx by_ ↔ (B bx by_ ∨ (bx = cx ∧ by_ = cy))) (x y : Int) :
    block_cells hs B' x y ↔
      (block_cells hs B x y ∨ (cx * hs ≤ x ∧ x < cx * hs + hs ∧ cy * hs ≤ y ∧ y < cy * hs + hs)) := by
  constructor
  · rintro ⟨bx, by_, hB, r⟩
    rcases (h bx by_).1 hB with hB | ⟨rfl, rfl⟩
    · exact Or.inl ⟨bx, by_, hB, r⟩
    · exact Or.inr r
  · rintro (⟨bx, by_, hB, r⟩ | r)
    · exact ⟨bx, by_, (h bx by_).2 (Or.inl hB), r⟩
    · exact ⟨cx, cy, (h cx cy).2 (Or.inr ⟨rfl, rfl⟩), r⟩

/-- The spiral loop of `gen_tiles`, started on the spiral with `spiral_left` rounds of fuel or
more: it returns, and has then passed every cell of the square of `n` by `n` blocks. -/
theorem gen_tiles_spiral_spec (hfuel : Nat) (hf : 3 ≤ hfuel) (fm : TileManagerFull)
    (image_w image_h tile_w tile_h a b hs : Int) (hhs : hs = 4 ∨ hs = 8) (num tpd : Nat)
    (block_size offset : int2) (n : Int) (hn : n % 2 = 1) (h1 : 1 ≤ n)
    (htx : 1 ≤ fm.tile_size.x) (hty : 1 ≤ fm.tile_size.y)
    (hw1 : (tile_w - 1) * fm.tile_size.x < image_w) (hw2 : image_w ≤ tile_w * fm.tile_size.x)
    (hh1 : (tile_h - 1) * fm.tile_size.y < image_h) (hh2 : image_h ≤ tile_h * fm.tile_size.y)
    (hbx : block_size.x = fm.tile_size.x * hs) (hby : block_size.y = fm.tile_size.y * hs)
    (hox : offset.x = -(a * fm.tile_size.x)) (hoy : offset.y = -(b * fm.tile_size.y))
    (htpd : 0 < tpd) (htot : (tile_w * tile_h).toNat ≤ tpd * num) (fuel : Nat) :
    ∀ s : SpiralState, spiral_inv n s → spiral_left n s ≤ fuel →
      hilbert_pushed tile_w tile_h a b num tpd (block_cells hs (spiral_seen n s)) s.gen →
      ∃ s', gen_tiles_spiral hfuel fm image_w image_h tile_w hs (tpd : Int) block_size offset
          n fuel s = some s' ∧
        hilbert_pushed tile_w tile_h a b num tpd
          (fun x y => 0 ≤ x ∧ x < n * hs ∧ 0 ≤ y ∧ y < n * hs) s'.gen := by
  induction fuel with
  | zero =>
    intro s hinv hle
    have := (spiral_left_decreases n s hn h1 hinv).1
    omega
  | succ f ih =>
    intro s hinv hle hJ
    obtain ⟨b0, b1, b2, b3, hah⟩ := spiral_block_ahead n s hinv
    obtain ⟨g', hrun, hJ'⟩ := gen_tiles_block_spec hfuel hf fm image_w image_h tile_w tile_h
      a b hs hhs num tpd block_size offset s.block s.prev_dir s.dir
      (block_cells hs (spiral_seen n s)) s.gen htx hty hw1 hw2 hh1 hh2 hbx hby hox hoy htpd
      htot hJ (by
        rintro x y x0 x1 y0 y1 ⟨bx, by_, ⟨-, -, -, -, hna⟩, r0, r1, r2, r3⟩
        have ex : bx = s.block.x := by rcases hhs with rfl | rfl <;> omega
        have ey : by_ = s.block.y := by rcases hhs with rfl | rfl <;> omega
        rw [ex, ey] at hna
        exact hna hah)
    unfold gen_tiles_spiral
    rw [hrun]
    by_cases hc : s.block.x = (n - 1).tdiv 2 ∧ s.block.y = (n - 1).tdiv 2
    · simp only [if_pos hc]
      refine ⟨_, rfl, hilbert_pushed_congr _ _ _ _ _ _ _ _ _ (fun x y => ?_) hJ'⟩
      constructor
      · rintro (⟨bx, by_, ⟨g0, g1, g2, g3, -⟩, r0, r1, r2, r3⟩ | ⟨r0, r1, r2, r3⟩)
        · rcases hhs with rfl | rfl <;> omega
        · rcases hhs with rfl | rfl <;> omega
      · rintro ⟨x0, x1, y0, y1⟩
        have hs0 : 0 < hs := by rcases hhs with rfl | rfl <;> omega
        have px := Int.ediv_add_emod x hs
        have py := Int.ediv_add_emod y hs
        have qx := Int.emod_nonneg x (show hs ≠ 0 by omega)
        have qy := Int.emod_nonneg y (show hs ≠ 0 by omega)
        have rx := Int.emod_lt_of_pos x hs0
        have ry := Int.emod_lt_of_pos y hs0
        have cx : x / hs * hs = hs * (x / hs) := mul_comm _ _
        have cy : y / hs * hs = hs * (y / hs) := mul_comm _ _
        have gx0 : 0 ≤ x / hs := Int.ediv_nonneg x0 (by omega)
        have gy0 : 0 ≤ y / hs := Int.ediv_nonneg y0 (by omega)
        have gx1 : x / hs < n := by rcases hhs with rfl | rfl <;> omega
        have gy1 : y / hs < n := by rcases hhs with rfl | rfl <;> omega
        by_cases ha : spiral_ahead n s (x / hs) (y / hs)
        · obtain ⟨ex, ey⟩ := spiral_centre_last n s hn h1 hinv hc _ _ ha
          rw [← ex, ← ey]
          exact Or.inr ⟨by omega, by omega, by omega, by omega⟩
        · exact Or.inl ⟨x / hs, y / hs, ⟨gx0, gx1, gy0, gy1, ha⟩, by omega, by omega,
            by omega, by omega⟩
    · simp only [if_neg hc]
      have hinv1 : spiral_inv n { s with gen := g' } := hinv
      have hc1 : ¬ (({ s with gen := g' } : SpiralState).block.x = (n - 1).tdiv 2 ∧
          ({ s with gen := g' } : SpiralState).block.y = (n - 1).tdiv 2) := hc
      obtain ⟨hinv2, -⟩ := spiral_advance n _ hn h1 hinv1 hc1
      have hdec := (spiral_left_decreases n { s with gen := g' } hn h1 hinv1).2 hc1
      have hle1 : spiral_left n { s with gen := g' } = spiral_left n s := rfl
      refine ih _ hinv2 (by omega) ?_
      rw [gen_tiles_advance_gen]
      refine hilbert_pushed_congr _ _ _ _ _ _ _ _ _ (fun x y => ?_) hJ'
      exact (block_cells_insert hs (spiral_seen n s) _ s.block.x s.block.y
        (fun bx by_ => spiral_seen_advance n { s with gen := g' } hn h1 hinv1 hc1 bx by_)
        x y).symm


/-! ## The Hilbert branch of `gen_tiles` -/

/-- The Hilbert branch of `gen_tiles` is the spiral loop from `gen_tiles_spiral_start`; it
returns `tile_w * tile_h` and stores the tiles and queues. -/
theorem gen_tiles_hilbert_run (fuel : Nat) (junk : Tile) (fm : TileManagerFull)
    (hord : fm.tile_order = TileOrder.TILE_HILBERT_SPIRAL) (hov : fm.slice_overlap = 0)
    (hnum : 0 ≤ gen_tiles_num fm false)
    (hT : 0 ≤ gen_tiles_tile_w fm * gen_tiles_tile_h fm (gen_tiles_image_h fm))
    (s1 : SpiralState)
    (hrun : gen_tiles_spiral fuel fm (gen_tiles_image_w fm) (gen_tiles_image_h fm)
        (gen_tiles_tile_w fm) (gen_tiles_hilbert_size fm)
        (divide_up (gen_tiles_tile_w fm * gen_tiles_tile_h fm (gen_tiles_image_h fm))
          (gen_tiles_num fm false))
        (gen_tiles_block_size fm) (gen_tiles_offset fm) (gen_tiles_n fm) fuel
        (gen_tiles_spiral_start junk fm) = some s1) :
    ∃ fm', gen_tiles fuel junk fm false =
        some (gen_tiles_tile_w fm * gen_tiles_tile_h fm (gen_tiles_image_h fm), fm') ∧
      fm'.tiles = s1.gen.tiles ∧ fm'.render_tiles = s1.gen.render_tiles := by
  unfold gen_tiles
  simp only [gen_tiles_num, gen_tiles_image_w, gen_tiles_image_h, gen_tiles_tile_w,
    gen_tiles_tile_h, gen_tiles_hilbert_size, gen_tiles_block_size, gen_tiles_offset,
    gen_tiles_n, gen_tiles_blocks, gen_tiles_spiral_start] at hnum hT hrun
  simp only [hord, hov, if_true, not_lt.2 hnum, not_lt.2 hT, device_free, hrun, if_false,
    Bool.false_eq_true, false_or, ne_eq, not_true_eq_false]
  exact ⟨_, rfl, rfl, rfl⟩

/-- The side length `x | 1` of the spiral is odd and not below `x`. -/
theorem lor_one_spec (m : Int) (hm : 0 ≤ m) : m ≤ Int.lor m 1 ∧ Int.lor m 1 % 2 = 1 := by
  obtain ⟨k, rfl⟩ := Int.eq_ofNat_of_zero_le hm
  have e : Int.lor (k : Int) 1 = ((k ||| 1 : Nat) : Int) := rfl
  rw [e]
  have h1 : k ≤ k ||| 1 := Nat.le_of_testBit (by simpa using fun i x => Or.inl x)
  have h2 : (k ||| 1) % 2 = 1 := Nat.or_mod_two_eq_one.2 (Or.inr rfl)
  omega

/-- The offset of the spiral along one dimension of length `len` with `cnt` tiles of size
`ts`, in a square of `side` cells that covers the dimension: the offset is a whole number
`a` of tiles to the left of the image, and the `cnt` tiles of the image lie within the
square. -/
theorem spiral_offset_spec (len ts side cnt : Int) (hts : 1 ≤ ts)
    (h1 : (cnt - 1) * ts < len) (hcov : len ≤ side * ts) :
    ∃ a : Int, 0 ≤ a ∧ a + cnt ≤ side ∧
      ((len - side * ts).tdiv 2).tdiv ts * ts = -(a * ts) := by
  have hD : 0 ≤ side * ts - len := by omega
  have e1 : (len - side * ts).tdiv 2 = -((side * ts - len) / 2) := by
    have : len - side * ts = -(side * ts - len) := by ring
    rw [this, Int.neg_tdiv, Int.tdiv_eq_ediv hD (by omega)]
  have hh : 0 ≤ (side * ts - len) / 2 := Int.ediv_nonneg hD (by omega)
  have e2 : (-((side * ts - len) / 2)).tdiv ts = -((side * ts - len) / 2 / ts) := by
    rw [Int.neg_tdiv, Int.tdiv_eq_ediv hh (by omega)]
  refine ⟨(side * ts - len) / 2 / ts, Int.ediv_nonneg hh (by omega), ?_, ?_⟩
  · have p1 := Int.ediv_add_emod ((side * ts - len) / 2) ts
    have p2 := Int.emod_nonneg ((side * ts - len) / 2) (show ts ≠ 0 by omega)
    have c1 : ts * ((side * ts - len) / 2 / ts) = (side * ts - len) / 2 / ts * ts := mul_comm _ _
    -- 2 * a * ts ≤ side * ts - len
    have p3 : (side * ts - len) / 2 / ts * ts * 2 ≤ side * ts - len := by omega
    by_contra hc
    have p4 : (side - (side * ts - len) / 2 / ts * 2) * ts ≤ (cnt - 1) * ts :=
      mul_le_mul_of_nonneg_right (by
        have a0 : 0 ≤ (side * ts - len) / 2 / ts := Int.ediv_nonneg hh (by omega)
        omega) (by omega)
    have c2 : (side - (side * ts - len) / 2 / ts * 2) * ts =
        side * ts - (side * ts - len) / 2 / ts * ts * 2 := by ring
    omega
  · rw [e1, e2]; ring


/-! ## The Hilbert spiral is a permutation of the tiles -/

/-- Empty queues hold no index. -/
theorem flatten_replicate_nil (k : Nat) : (List.replicate k ([] : List Int)).flatten = [] := by
  induction k with
  | zero => rfl
  | succ k ih => rw [List.replicate_succ, List.flatten_cons, ih]; rfl

/-- The locals of the Hilbert branch of `gen_tiles`: the block size is 4 or 8 tiles, the side
of the spiral is odd, and the image is a window of `tile_w` by `tile_h` cells that starts at a
cell `(a, b)` of the square of the spiral and lies within it. -/
theorem gen_tiles_window_spec (fm : TileManagerFull) (htx : 1 ≤ fm.tile_size.x)
    (hty : 1 ≤ fm.tile_size.y) :
    (gen_tiles_hilbert_size fm = 4 ∨ gen_tiles_hilbert_size fm = 8) ∧
    gen_tiles_n fm % 2 = 1 ∧ 1 ≤ gen_tiles_n fm ∧
    (∃ a : Int, 0 ≤ a ∧ a + gen_tiles_tile_w fm ≤ gen_tiles_n fm * gen_tiles_hilbert_size fm ∧
      (gen_tiles_offset fm).x = -(a * fm.tile_size.x)) ∧
    (∃ b : Int, 0 ≤ b ∧
      b + gen_tiles_tile_h fm (gen_tiles_image_h fm) ≤
        gen_tiles_n fm * gen_tiles_hilbert_size fm ∧
      (gen_tiles_offset fm).y = -(b * fm.tile_size.y)) := by
  have hw := gen_tiles_image_w_pos fm
  have hh := gen_tiles_image_h_pos fm
  have hhs : gen_tiles_hilbert_size fm = 4 ∨ gen_tiles_hilbert_size fm = 8 := by
    unfold gen_tiles_hilbert_size; split_ifs
    · exact Or.inr rfl
    · exact Or.inl rfl
  have hs1 : 1 ≤ gen_tiles_hilbert_size fm := by rcases hhs with h | h <;> omega
  have hbx : 1 ≤ (gen_tiles_block_size fm).x := by
    show 1 ≤ fm.tile_size.x * gen_tiles_hilbert_size fm
    exact one_le_mul_of_one_le_of_one_le htx hs1
  have hby : 1 ≤ (gen_tiles_block_size fm).y := by
    show 1 ≤ fm.tile_size.y * gen_tiles_hilbert_size fm
    exact one_le_mul_of_one_le_of_one_le hty hs1
  obtain ⟨bx1, -, bx3⟩ := tile_count_spec (gen_tiles_image_w fm) (gen_tiles_block_size fm).x hw hbx
  obtain ⟨by1, -, by3⟩ := tile_count_spec (gen_tiles_image_h fm) (gen_tiles_block_size fm).y hh hby
  obtain ⟨-, tw2, -⟩ := tile_count_spec (gen_tiles_image_w fm) fm.tile_size.x hw htx
  obtain ⟨-, th2, -⟩ := tile_count_spec (gen_tiles_image_h fm) fm.tile_size.y hh hty
  obtain ⟨n1, n2⟩ := lor_one_spec
    (max (gen_tiles_blocks (gen_tiles_image_w fm) (gen_tiles_block_size fm).x)
      (gen_tiles_blocks (gen_tiles_image_h fm) (gen_tiles_block_size fm).y))
    (le_trans (by omega) (le_max_of_le_left bx1))
  have nx : gen_tiles_blocks (gen_tiles_image_w fm) (gen_tiles_block_size fm).x ≤ gen_tiles_n fm :=
    le_trans (le_max_left _ _) n1
  have ny : gen_tiles_blocks (gen_tiles_image_h fm) (gen_tiles_block_size fm).y ≤ gen_tiles_n fm :=
    le_trans (le_max_right _ _) n1
  have cx : gen_tiles_image_w fm ≤
      gen_tiles_n fm * gen_tiles_hilbert_size fm * fm.tile_size.x := by
    have h1 : gen_tiles_blocks (gen_tiles_image_w fm) (gen_tiles_block_size fm).x *
        (gen_tiles_block_size fm).x ≤ gen_tiles_n fm * (gen_tiles_block_size fm).x :=
      mul_le_mul_of_nonneg_right nx (by omega)
    have h2 : gen_tiles_n fm * (gen_tiles_block_size fm).x =
        gen_tiles_n fm * gen_tiles_hilbert_size fm * fm.tile_size.x := by
      show gen_tiles_n fm * (fm.tile_size.x * gen_tiles_hilbert_size fm) = _
      ring
    have h3 : gen_tiles_image_w fm ≤ gen_tiles_blocks (gen_tiles_image_w fm)
        (gen_tiles_block_size fm).x * (gen_tiles_block_size fm).x := bx3
    omega
  have cy : gen_tiles_image_h fm ≤
      gen_tiles_n fm * gen_tiles_hilbert_size fm * fm.tile_size.y := by
    have h1 : gen_tiles_blocks (gen_tiles_image_h fm) (gen_tiles_block_size fm).y *
        (gen_tiles_block_size fm).y ≤ gen_tiles_n fm * (gen_tiles_block_size fm).y :=
      mul_le_mul_of_nonneg_right ny (by omega)
    have h2 : gen_tiles_n fm * (gen_tiles_block_size fm).y =
        gen_tiles_n fm * gen_tiles_hilbert_size fm * fm.tile_size.y := by
      show gen_tiles_n fm * (fm.tile_size.y * gen_tiles_hilbert_size fm) = _
      ring
    have h3 : gen_tiles_image_h fm ≤ gen_tiles_blocks (gen_tiles_image_h fm)
        (gen_tiles_block_size fm).y * (gen_tiles_block_size fm).y := by3
    omega
  obtain ⟨a, a0, a1, a2⟩ := spiral_offset_spec (gen_tiles_image_w fm) fm.tile_size.x
    (gen_tiles_n fm * gen_tiles_hilbert_size fm) (gen_tiles_tile_w fm) htx tw2 cx
  obtain ⟨b, b0, b1, b2⟩ := spiral_offset_spec (gen_tiles_image_h fm) fm.tile_size.y
    (gen_tiles_n fm * gen_tiles_hilbert_size fm) (gen_tiles_tile_h fm (gen_tiles_image_h fm))
    hty th2 cy
  refine ⟨hhs, n2, le_trans (le_trans bx1 (le_max_left _ _)) n1, ⟨a, a0, a1, ?_⟩, ⟨b, b0, b1, ?_⟩⟩
  · rw [← a2]
    show ((gen_tiles_image_w fm - gen_tiles_n fm *
      (fm.tile_size.x * gen_tiles_hilbert_size fm)).tdiv 2).tdiv fm.tile_size.x *
        fm.tile_size.x = _
    rw [show gen_tiles_n fm * (fm.tile_size.x * gen_tiles_hilbert_size fm) =
      gen_tiles_n fm * gen_tiles_hilbert_size fm * fm.tile_size.x by ring]
  · rw [← b2]
    show ((gen_tiles_image_h fm - gen_tiles_n fm *
      (fm.tile_size.y * gen_tiles_hilbert_size fm)).tdiv 2).tdiv fm.tile_size.y *
        fm.tile_size.y = _
    rw [show gen_tiles_n fm * (fm.tile_size.y * gen_tiles_hilbert_size fm) =
      gen_tiles_n fm * gen_tiles_hilbert_size fm * fm.tile_size.y by ring]


/-- At the start of the spiral loop no cell has been passed and no index is queued. -/
theorem gen_tiles_spiral_start_spec (junk : Tile) (fm : TileManagerFull) (a b : Int)
    (tpd : Nat) (h1 : 1 ≤ gen_tiles_n fm) :
    spiral_inv (gen_tiles_n fm) (gen_tiles_spiral_start junk fm) ∧
    spiral_left (gen_tiles_n fm) (gen_tiles_spiral_start junk fm) =
      (gen_tiles_n fm * gen_tiles_n fm + 1).toNat ∧
    hilbert_pushed (gen_tiles_tile_w fm) (gen_tiles_tile_h fm (gen_tiles_image_h fm)) a b
      (gen_tiles_num fm false).toNat tpd
      (block_cells (gen_tiles_hilbert_size fm)
        (spiral_seen (gen_tiles_n fm) (gen_tiles_spiral_start junk fm)))
      (gen_tiles_spiral_start junk fm).gen := by
  refine ⟨?_, ?_, ?_⟩
  · simp only [spiral_inv, gen_tiles_spiral_start, and_true, true_and]
    omega
  · simp only [spiral_left, gen_tiles_spiral_start]
    congr 1
    ring
  · refine ⟨by simp [gen_tiles_spiral_start], by simp [gen_tiles_spiral_start], ?_, ?_, ?_, ?_, ?_⟩
    · simp only [gen_tiles_spiral_start, flatten_replicate_nil]
      exact List.nodup_nil
    · intro idx
      simp only [gen_tiles_spiral_start, flatten_replicate_nil]
      constructor
      · intro h; cases h
      · rintro ⟨x, y, ⟨bx, by_, ⟨g0, g1, g2, g3, hna⟩, -⟩, -⟩
        exfalso
        apply hna
        simp only [spiral_ahead]
        omega
    · simp [gen_tiles_spiral_start, flatten_replicate_nil]
    · simp [gen_tiles_spiral_start, flatten_replicate_nil]
    · intro idx hm
      simp only [gen_tiles_spiral_start, flatten_replicate_nil] at hm
      cases hm

/-- The queues after all cells of the square have been passed: they hold every index of
`[0, tile_w * tile_h)` once, and the tile at each index carries that index. -/
theorem hilbert_pushed_all (tile_w tile_h a b side : Int) (num tpd : Nat) (g : GenState)
    (hw : 1 ≤ tile_w) (hh : 1 ≤ tile_h) (a0 : 0 ≤ a) (a1 : a + tile_w ≤ side)
    (b0 : 0 ≤ b) (b1 : b + tile_h ≤ side)
    (hJ : hilbert_pushed tile_w tile_h a b num tpd
      (fun x y => 0 ≤ x ∧ x < side ∧ 0 ≤ y ∧ y < side) g) :
    g.render_tiles.flatten.Perm ((List.range (tile_w * tile_h).toNat).map Int.ofNat) ∧
    g.tiles.length = (tile_w * tile_h).toNat ∧
    (∀ k : Nat, k < (tile_w * tile_h).toNat →
      ∃ t, g.tiles[k]? = some t ∧ t.index = (k : Int)) := by
  obtain ⟨j1, j2, j3, j4, j5, j6, j7⟩ := hJ
  have hT : 0 ≤ tile_w * tile_h := mul_nonneg (by omega) (by omega)
  have hmem : ∀ idx : Int, idx ∈ g.render_tiles.flatten ↔ 0 ≤ idx ∧ idx < tile_w * tile_h := by
    intro idx
    rw [j4]
    constructor
    · rintro ⟨x, y, -, x0, x1, y0, y1, rfl⟩
      exact cell_index_bounds tile_w tile_h (x - a) (y - b) (by omega) (by omega) (by omega)
        (by omega)
    · rintro ⟨i0, i1⟩
      have p1 := Int.ediv_add_emod idx tile_w
      have p2 := Int.emod_nonneg idx (show tile_w ≠ 0 by omega)
      have p3 := Int.emod_lt_of_pos idx (show 0 < tile_w by omega)
      have p4 : 0 ≤ idx / tile_w := Int.ediv_nonneg i0 (by omega)
      have p5 : idx / tile_w < tile_h := Int.ediv_lt_of_lt_mul (by omega) (by rw [mul_comm]; exact i1)
      refine ⟨a + idx % tile_w, b + idx / tile_w, ⟨by omega, by omega, by omega, by omega⟩,
        by omega, by omega, by omega, by omega, ?_⟩
      have e1 : b + idx / tile_w - b = idx / tile_w := by ring
      have e2 : a + idx % tile_w - a = idx % tile_w := by ring
      rw [e1, e2, mul_comm]
      exact p1.symm
  refine ⟨?_, j1, fun k hk => ?_⟩
  · refine (List.perm_ext_iff_of_nodup j3
      (List.Nodup.map (fun x y h => Int.ofNat.inj h) (List.nodup_range _))).2 (fun idx => ?_)
    rw [hmem, List.mem_map]
    constructor
    · rintro ⟨i0, i1⟩
      exact ⟨idx.toNat, List.mem_range.2 (by omega), Int.toNat_of_nonneg i0⟩
    · rintro ⟨k, hk, rfl⟩
      have := List.mem_range.1 hk
      exact ⟨Int.ofNat_nonneg k, by show (k : Int) < _; omega⟩
  · obtain ⟨t, ht, hti⟩ := j7 (k : Int) ((hmem _).2 ⟨Int.ofNat_nonneg k, by omega⟩)
    exact ⟨t, by simpa using ht, hti⟩

/-- The Hilbert branch of `gen_tiles` with enough fuel: it returns `tile_w * tile_h`, the
render queues hold every index of `[0, tile_w * tile_h)` once, and the tile stored at each
index carries that index. -/
theorem gen_tiles_hilbert_perm (junk : Tile) (fm : TileManagerFull)
    (htx : 1 ≤ fm.tile_size.x) (hty : 1 ≤ fm.tile_size.y)
    (hnum : 1 ≤ gen_tiles_num fm false)
    (hord : fm.tile_order = TileOrder.TILE_HILBERT_SPIRAL) (hov : fm.slice_overlap = 0) :
    ∃ fuel0 : Nat, ∀ fuel : Nat, fuel0 ≤ fuel →
      ∃ fm', gen_tiles fuel junk fm false =
          some (gen_tiles_tile_w fm * gen_tiles_tile_h fm (gen_tiles_image_h fm), fm') ∧
        fm'.render_tiles.flatten.Perm
          ((List.range
            (gen_tiles_tile_w fm * gen_tiles_tile_h fm (gen_tiles_image_h fm)).toNat).map
              Int.ofNat) ∧
        fm'.tiles.length =
          (gen_tiles_tile_w fm * gen_tiles_tile_h fm (gen_tiles_image_h fm)).toNat ∧
        (∀ k : Nat,
          k < (gen_tiles_tile_w fm * gen_tiles_tile_h fm (gen_tiles_image_h fm)).toNat →
          ∃ t, fm'.tiles[k]? = some t ∧ t.index = (k : Int)) := by
  obtain ⟨hhs, n2, n1, ⟨a, a0, a1, a2⟩, ⟨b, b0, b1, b2⟩⟩ := gen_tiles_window_spec fm htx hty
  obtain ⟨tw1, tw2, tw3⟩ := tile_count_spec (gen_tiles_image_w fm) fm.tile_size.x
    (gen_tiles_image_w_pos fm) htx
  obtain ⟨th1, th2, th3⟩ := tile_count_spec (gen_tiles_image_h fm) fm.tile_size.y
    (gen_tiles_image_h_pos fm) hty
  have htw : 1 ≤ gen_tiles_tile_w fm := tw1
  have hth : 1 ≤ gen_tiles_tile_h fm (gen_tiles_image_h fm) := th1
  have hT : 1 ≤ gen_tiles_tile_w fm * gen_tiles_tile_h fm (gen_tiles_image_h fm) :=
    one_le_mul_of_one_le_of_one_le htw hth
  obtain ⟨d1, d2, d3⟩ := divide_up_spec
    (gen_tiles_tile_w fm * gen_tiles_tile_h fm (gen_tiles_image_h fm)) (gen_tiles_num fm false)
    (by omega) hnum
  have hcast : (((divide_up
      (gen_tiles_tile_w fm * gen_tiles_tile_h fm (gen_tiles_image_h fm))
      (gen_tiles_num fm false)).toNat : Nat) : Int) = divide_up
      (gen_tiles_tile_w fm * gen_tiles_tile_h fm (gen_tiles_image_h fm))
      (gen_tiles_num fm false) := Int.toNat_of_nonneg d3
  have htpd : 0 < (divide_up
      (gen_tiles_tile_w fm * gen_tiles_tile_h fm (gen_tiles_image_h fm))
      (gen_tiles_num fm false)).toNat := by
    rcases Nat.eq_zero_or_pos (divide_up
      (gen_tiles_tile_w fm * gen_tiles_tile_h fm (gen_tiles_image_h fm))
      (gen_tiles_num fm false)).toNat with h | h
    · rw [h] at hcast
      rw [← hcast] at d1
      simp at d1
      omega
    · exact h
  have htot : (gen_tiles_tile_w fm * gen_tiles_tile_h fm (gen_tiles_image_h fm)).toNat ≤
      (divide_up (gen_tiles_tile_w fm * gen_tiles_tile_h fm (gen_tiles_image_h fm))
        (gen_tiles_num fm false)).toNat * (gen_tiles_num fm false).toNat := by
    have : ((gen_tiles_tile_w fm * gen_tiles_tile_h fm (gen_tiles_image_h fm)).toNat : Int) ≤
        (((divide_up (gen_tiles_tile_w fm * gen_tiles_tile_h fm (gen_tiles_image_h fm))
          (gen_tiles_num fm false)).toNat * (gen_tiles_num fm false).toNat : Nat) : Int) := by
      push_cast
      rw [hcast, Int.toNat_of_nonneg (by omega), Int.toNat_of_nonneg (by omega)]
      exact d1
    exact_mod_cast this
  obtain ⟨hinv0, hleft0, hJ0⟩ := gen_tiles_spiral_start_spec junk fm a b
    (divide_up (gen_tiles_tile_w fm * gen_tiles_tile_h fm (gen_tiles_image_h fm))
      (gen_tiles_num fm false)).toNat n1
  refine ⟨(gen_tiles_n fm * gen_tiles_n fm + 1).toNat + 3, fun fuel hfuel => ?_⟩
  obtain ⟨s1, hrun, hJ1⟩ := gen_tiles_spiral_spec fuel (by omega) fm (gen_tiles_image_w fm)
    (gen_tiles_image_h fm) (gen_tiles_tile_w fm) (gen_tiles_tile_h fm (gen_tiles_image_h fm))
    a b (gen_tiles_hilbert_size fm) hhs (gen_tiles_num fm false).toNat
    (divide_up (gen_tiles_tile_w fm * gen_tiles_tile_h fm (gen_tiles_image_h fm))
      (gen_tiles_num fm false)).toNat
    (gen_tiles_block_size fm) (gen_tiles_offset fm) (gen_tiles_n fm) n2 n1 htx hty tw2 tw3
    th2 th3 rfl rfl a2 b2 htpd htot fuel (gen_tiles_spiral_start junk fm) hinv0 (by omega) hJ0
  rw [hcast] at hrun
  obtain ⟨fm', hgen, e1, e2⟩ := gen_tiles_hilbert_run fuel junk fm hord hov (by omega)
    (by omega) s1 hrun
  obtain ⟨r1, r2, r3⟩ := hilbert_pushed_all _ _ a b _ _ _ s1.gen htw hth a0 a1 b0 b1 hJ1
  exact ⟨fm', hgen, by rw [e2]; exact r1, by rw [e1]; exact r2, by rw [e1]; exact r3⟩

/-- C17: Hilbert-spiral generation is a permutation of all tiles.  For a tile size of at
least (1, 1) and at least one worker queue (the image size `image_w`, `image_h` is at least 1
by construction), there is an amount of fuel from which on `gen_tiles` in
`TILE_HILBERT_SPIRAL` order returns `tile_w * tile_h`: the spiral loop ends, no assignment
falls outside `state.tiles` and the queue iterator never passes the last queue.  The render
queues then hold, taken together, every index of `[0, tile_w * tile_h)` exactly once (each
assignment to `state.tiles` is paired with one `push_front`), and the tile stored at each
index carries that index. -/
theorem gen_tiles_hilbert_spiral_permutation (junk : Tile) (fm : TileManagerFull)
    (htx : 1 ≤ fm.tile_size.x) (hty : 1 ≤ fm.tile_size.y)
    (hnum : 1 ≤ gen_tiles_num fm false)
    (hord : fm.tile_order = TileOrder.TILE_HILBERT_SPIRAL) (hov : fm.slice_overlap = 0) :
    ∃ fuel0 : Nat, ∀ fuel : Nat, fuel0 ≤ fuel →
      ∃ fm', gen_tiles fuel junk fm false =
          some (gen_tiles_tile_w fm * gen_tiles_tile_h fm (gen_tiles_image_h fm), fm') ∧
        fm'.render_tiles.flatten.Perm
          ((List.range
            (gen_tiles_tile_w fm * gen_tiles_tile_h fm (gen_tiles_image_h fm)).toNat).map
              Int.ofNat) ∧
        fm'.tiles.length =
          (gen_tiles_tile_w fm * gen_tiles_tile_h fm (gen_tiles_image_h fm)).toNat ∧
        (∀ k : Nat,
          k < (gen_tiles_tile_w fm * gen_tiles_tile_h fm (gen_tiles_image_h fm)).toNat →
          ∃ t, fm'.tiles[k]? = some t ∧ t.index = (k : Int)) :=
  gen_tiles_hilbert_perm junk fm htx hty hnum hord hov

theorem gen_tiles_hilbert_spiral_permutation_witness :
    ∃ fuel0 : Nat, ∀ fuel : Nat, fuel0 ≤ fuel →
      ∃ fm', gen_tiles fuel junk_tile hilbert_fixture false =
          some (gen_tiles_tile_w hilbert_fixture *
            gen_tiles_tile_h hilbert_fixture (gen_tiles_image_h hilbert_fixture), fm') ∧
        fm'.render_tiles.flatten.Perm
          ((List.range
            (gen_tiles_tile_w hilbert_fixture *
              gen_tiles_tile_h hilbert_fixture (gen_tiles_image_h hilbert_fixture)).toNat).map
              Int.ofNat) ∧
        fm'.tiles.length =
          (gen_tiles_tile_w hilbert_fixture *
            gen_tiles_tile_h hilbert_fixture (gen_tiles_image_h hilbert_fixture)).toNat ∧
        (∀ k : Nat,
          k < (gen_tiles_tile_w hilbert_fixture *
            gen_tiles_tile_h hilbert_fixture (gen_tiles_image_h hilbert_fixture)).toNat →
          ∃ t, fm'.tiles[k]? = some t ∧ t.index = (k : Int)) :=
  gen_tiles_hilbert_spiral_permutation junk_tile hilbert_fixture (by decide) (by decide)
    (by decide) rfl rfl


end TileManager

end Cycles

namespace blender

namespace generational_arena

/-! ## `Arena::try_insert` -/

/-- C30: `try_insert` pops the head of the free list.  If `next_free_head` is a slot `p` that
holds a free entry with link `nf`, then `try_insert(v)` returns `Index(p, generation)`, slot
`p` becomes occupied with `v` and the current generation, `next_free_head` becomes `nf`,
`length` is incremented (modulo `2 ^ 64`, so by one unless it was `2 ^ 64 - 1`), and the
generation, the number of slots and every other slot are unchanged; if `next_free_head` is
empty, `try_insert` returns `nullopt` and the arena is unchanged. -/
theorem try_insert_pops_free_head {T : Type} (a : Arena T) (v : T) :
    (∀ (p : Nat) (nf : Option Nat), a.next_free_head = some p →
      a.data[p]? = some (Entry.EntryNoExist nf) →
      ∃ a', try_insert a v = some (some { index := p, generation := a.generation }, a') ∧
        a'.data[p]? = some (Entry.EntryExist v a.generation) ∧
        a'.next_free_head = nf ∧
        a'.length = (a.length + 1) % 2 ^ 64 ∧
        (a.length + 1 < 2 ^ 64 → a'.length = a.length + 1) ∧
        a'.generation = a.generation ∧
        a'.data.length = a.data.length ∧
        (∀ k, k ≠ p → a'.data[k]? = a.data[k]?)) ∧
    (a.next_free_head = none → try_insert a v = some (none, a)) := by
  constructor
  · intro p nf hp hd
    have hlt : p < a.data.length := by
      rcases Nat.lt_or_ge p a.data.length with h | h
      · exact h
      · rw [List.getElem?_eq_none h] at hd; cases hd
    refine ⟨{ a with next_free_head := nf
                     data := a.data.set p (Entry.EntryExist v a.generation)
                     length := (a.length + 1) % 2 ^ 64 },
      by simp only [try_insert, hp, hd], ?_, rfl, rfl, ?_, rfl, ?_, ?_⟩
    · simp [List.getElem?_set, hlt]
    · intro h
      exact Nat.mod_eq_of_lt h
    · simp
    · intro k hk
      simp [List.getElem?_set, Ne.symm hk]
  · intro h
    simp only [try_insert, h]

theorem try_insert_pops_free_head_witness :
    ∃ a', try_insert arena_fixture 7 = some (some { index := 2, generation := 5 }, a') ∧
      a'.data[2]? = some (Entry.EntryExist 7 5) ∧
      a'.next_free_head = some 0 ∧
      a'.length = (1 + 1) % 2 ^ 64 ∧
      (1 + 1 < 2 ^ 64 → a'.length = 1 + 1) ∧
      a'.generation = 5 ∧
      a'.data.length = 3 ∧
      (∀ k, k ≠ 2 → a'.data[k]? = arena_fixture.data[k]?) :=
  (try_insert_pops_free_head arena_fixture 7).1 2 (some 0) rfl rfl

/-! ## The free list -/

theorem free_chain_lt {T : Type} (data : List (Entry T)) :
    ∀ (l : List Nat) (h : Option Nat), free_chain data h l → ∀ p, p ∈ l → p < data.length := by
  intro l
  induction l with
  | nil => intro h _ p hp; cases hp
  | cons q l ih =>
    intro h hc p hp
    obtain ⟨-, nf, hq, hrest⟩ := hc
    rcases List.mem_cons.1 hp with rfl | hp
    · exact (List.getElem?_eq_some.1 hq).1
    · exact ih nf hrest p hp

theorem free_chain_free {T : Type} (data : List (Entry T)) :
    ∀ (l : List Nat) (h : Option Nat), free_chain data h l →
      ∀ p, p ∈ l → ∃ nf, data[p]? = some (Entry.EntryNoExist nf) := by
  intro l
  induction l with
  | nil => intro h _ p hp; cases hp
  | cons q l ih =>
    intro h hc p hp
    obtain ⟨-, nf, hq, hrest⟩ := hc
    rcases List.mem_cons.1 hp with rfl | hp
    · exact ⟨nf, hq⟩
    · exact ih nf hrest p hp

theorem free_chain_append {T : Type} (data ext : List (Entry T)) :
    ∀ (l : List Nat) (h : Option Nat), free_chain data h l → free_chain (data ++ ext) h l := by
  intro l
  induction l with
  | nil => intro h hc; exact hc
  | cons q l ih =>
    intro h hc
    obtain ⟨hh, nf, hq, hrest⟩ := hc
    refine ⟨hh, nf, ?_, ih nf hrest⟩
    rw [List.getElem?_append_left (List.getElem?_eq_some.1 hq).1]
    exact hq

theorem free_chain_set {T : Type} (data : List (Entry T)) (q : Nat) (e : Entry T) :
    ∀ (l : List Nat) (h : Option Nat), free_chain data h l → q ∉ l →
      free_chain (data.set q e) h l := by
  intro l
  induction l with
  | nil => intro h hc _; exact hc
  | cons p l ih =>
    intro h hc hq
    obtain ⟨hh, nf, hp, hrest⟩ := hc
    have hne : q ≠ p := fun e => hq (by rw [e]; exact List.mem_cons_self _ _)
    refine ⟨hh, nf, ?_, ih nf hrest (fun hm => hq (List.mem_cons_of_mem _ hm))⟩
    rw [List.getElem?_set_ne hne]
    exact hp

/-- A walk with enough fuel returns the linked list. -/
theorem free_walk_of_chain {T : Type} (data : List (Entry T)) :
    ∀ (l : List Nat) (h : Option Nat) (fuel : Nat), free_chain data h l → l.length ≤ fuel →
      free_walk data fuel h = some l := by
  intro l
  induction l with
  | nil =>
    intro h fuel hc _
    have : h = none := hc
    subst this
    cases fuel <;> rfl
  | cons p l ih =>
    intro h fuel hc hf
    obtain ⟨hh, nf, hp, hrest⟩ := hc
    subst hh
    cases fuel with
    | zero => simp at hf
    | succ f =>
      simp only [free_walk, hp]
      rw [ih nf f hrest (by simpa using hf)]
      rfl

theorem nodup_length_le (l : List Nat) (n : Nat) (hn : l.Nodup) (hl : ∀ p, p ∈ l → p < n) :
    l.length ≤ n := by
  have h1 : l.toFinset.card = l.length := List.toFinset_card_of_nodup hn
  have h2 : l.toFinset ⊆ Finset.range n := by
    intro p hp
    rw [List.mem_toFinset] at hp
    exact Finset.mem_range.2 (hl p hp)
  have h3 := Finset.card_le_card h2
  rw [Finset.card_range] at h3
  omega

theorem free_list_of_chain {T : Type} (a : Arena T) (l : List Nat)
    (hc : free_chain a.data a.next_free_head l) (hn : l.Nodup) : free_list a = some l :=
  free_walk_of_chain a.data l _ _ hc
    (nodup_length_le l _ hn (free_chain_lt a.data l _ hc))

theorem occupied_append_free {T : Type} (ext : List (Entry T))
    (hext : ∀ e, e ∈ ext → ∃ nf, e = Entry.EntryNoExist nf) :
    ∀ data : List (Entry T), occupied (data ++ ext) = occupied data := by
  have h0 : occupied ext = 0 := by
    induction ext with
    | nil => rfl
    | cons e es ih =>
      obtain ⟨nf, rfl⟩ := hext e (List.mem_cons_self _ _)
      simp only [occupied]
      exact ih (fun e he => hext e (List.mem_cons_of_mem _ he))
  intro data
  induction data with
  | nil => simpa [occupied] using h0
  | cons e es ih =>
    cases e with
    | EntryNoExist nf => simpa [occupied] using ih
    | EntryExist v g => simpa [occupied] using ih

theorem occupied_set {T : Type} (v : T) (g : Nat) :
    ∀ (data : List (Entry T)) (p : Nat) (nf : Option Nat),
      data[p]? = some (Entry.EntryNoExist nf) →
      occupied (data.set p (Entry.EntryExist v g)) = occupied data + 1 := by
  intro data
  induction data with
  | nil => intro p nf h; simp at h
  | cons e es ih =>
    intro p nf h
    cases p with
    | zero =>
      simp only [List.getElem?_cons_zero, Option.some.injEq] at h
      subst h
      simp [occupied]
    | succ p =>
      simp only [List.getElem?_cons_succ] at h
      cases e with
      | EntryNoExist nf2 => simpa [occupied] using ih p nf h
      | EntryExist v2 g2 => simpa [occupied] using ih p nf h

/-! ## `Arena::reserve` -/

/-- The slots `reserve` appends: `m` free slots linked to their successor and one linked to
`old`. -/
theorem reserve_block_getElem {T : Type} (data : List (Entry T)) (m : Nat) (old : Option Nat) :
    (∀ t, t < m →
      (data ++ (List.range' data.length m).map (fun i => Entry.EntryNoExist (T := T) (some (i + 1))) ++
        [Entry.EntryNoExist old])[data.length + t]? =
        some (Entry.EntryNoExist (some (data.length + t + 1)))) ∧
    (data ++ (List.range' data.length m).map (fun i => Entry.EntryNoExist (T := T) (some (i + 1))) ++
        [Entry.EntryNoExist old])[data.length + m]? = some (Entry.EntryNoExist old) ∧
    (∀ k, k < data.length →
      (data ++ (List.range' data.length m).map (fun i => Entry.EntryNoExist (T := T) (some (i + 1))) ++
        [Entry.EntryNoExist old])[k]? = data[k]?) := by
  refine ⟨fun t ht => ?_, ?_, fun k hk => ?_⟩
  · rw [List.getElem?_append_left (by simp; omega), List.getElem?_append_right (by omega)]
    simp [List.getElem?_range', ht]
  · rw [List.getElem?_append_right (by simp)]
    simp
  · rw [List.append_assoc, List.getElem?_append_left hk]

theorem reserve_block_chain {T : Type} (data : List (Entry T)) (m : Nat) (old : Option Nat)
    (l : List Nat) (hc : free_chain data old l) :
    ∀ k t, t + k = m →
      free_chain
        (data ++ (List.range' data.length m).map (fun i => Entry.EntryNoExist (T := T) (some (i + 1))) ++
          [Entry.EntryNoExist old])
        (some (data.length + t)) (List.range' (data.length + t) (k + 1) ++ l) := by
  obtain ⟨g1, g2, -⟩ := reserve_block_getElem data m old
  have hl : free_chain
      (data ++ (List.range' data.length m).map (fun i => Entry.EntryNoExist (T := T) (some (i + 1))) ++
        [Entry.EntryNoExist old]) old l := by
    rw [List.append_assoc]
    exact free_chain_append _ _ l old hc
  intro k
  induction k with
  | zero =>
    intro t ht
    obtain rfl : t = m := by omega
    exact ⟨rfl, old, g2, hl⟩
  | succ k ih =>
    intro t ht
    rw [List.range'_succ]
    exact ⟨rfl, some (data.length + t + 1), g1 t (by omega), ih (t + 1) (by omega)⟩

theorem reserve_eq_of_lt {T : Type} (a : Arena T) (n : Nat) (h : n < a.data.length) :
    reserve a n = a := by
  simp [reserve, h]

theorem reserve_eq_of_ge {T : Type} (a : Arena T) (n : Nat) (h : ¬ n < a.data.length) :
    reserve a n =
      { a with
        data := a.data ++
          (List.range' a.data.length ((n + 2 ^ 64 - 1) % 2 ^ 64 - a.data.length)).map
            (fun i => Entry.EntryNoExist (some (i + 1))) ++
          [Entry.EntryNoExist a.next_free_head]
        next_free_head := some a.data.length } := by
  simp [reserve, h]

theorem reserve_length_le {T : Type} (a : Arena T) (n : Nat) :
    a.data.length ≤ (reserve a n).data.length := by
  by_cases h : n < a.data.length
  · rw [reserve_eq_of_lt a n h]
  · rw [reserve_eq_of_ge a n h]
    simp

theorem reserve_getElem {T : Type} (a : Arena T) (n k : Nat) (hk : k < a.data.length) :
    (reserve a n).data[k]? = a.data[k]? := by
  by_cases h : n < a.data.length
  · rw [reserve_eq_of_lt a n h]
  · rw [reserve_eq_of_ge a n h]
    exact (reserve_block_getElem a.data _ a.next_free_head).2.2 k hk

theorem arena_ok_reserve {T : Type} (a : Arena T) (n : Nat) (h : arena_ok a) :
    arena_ok (reserve a n) := by
  by_cases hlt : n < a.data.length
  · rw [reserve_eq_of_lt a n hlt]
    exact h
  · rw [reserve_eq_of_ge a n hlt]
    obtain ⟨l, hc, hn, hall, hlen⟩ := h
    have hb := free_chain_lt a.data l _ hc
    refine ⟨List.range' a.data.length ((n + 2 ^ 64 - 1) % 2 ^ 64 - a.data.length + 1) ++ l,
      ?_, ?_, ?_, ?_⟩
    · exact reserve_block_chain a.data _ a.next_free_head l hc _ 0 (by omega)
    · rw [List.nodup_append]
      refine ⟨List.nodup_range' _ _, hn, ?_⟩
      intro p hp1 hp2
      have := hb p hp2
      rw [List.mem_range'_1] at hp1
      omega
    · intro p nf hp
      rw [List.mem_append]
      rcases Nat.lt_or_ge p a.data.length with hlt2 | hge
      · right
        simp only at hp
        rw [(reserve_block_getElem a.data _ a.next_free_head).2.2 p hlt2] at hp
        exact hall p nf hp
      · left
        have hlen2 := (List.getElem?_eq_some.1 hp).1
        simp at hlen2
        rw [List.mem_range'_1]
        omega
    · show a.length = _
      rw [hlen, List.append_assoc, occupied_append_free]
      intro e he
      rcases List.mem_append.1 he with he | he
      · obtain ⟨i, -, rfl⟩ := List.mem_map.1 he
        exact ⟨_, rfl⟩
      · rw [List.mem_singleton] at he
        exact ⟨_, he⟩

/-! ## `Arena::try_insert` and `Arena::insert` -/

/-- With the invariant, `try_insert` never reaches `BLI_assert_unreachable()`: it pops the
head of the free list if there is one and keeps the invariant. -/
theorem arena_ok_try_insert {T : Type} (a : Arena T) (v : T) (h : arena_ok a) :
    (a.next_free_head = none ∧ try_insert a v = some (none, a)) ∨
    ∃ p nf, a.next_free_head = some p ∧ a.data[p]? = some (Entry.EntryNoExist nf) ∧
      try_insert a v = some (some { index := p, generation := a.generation },
        { a with next_free_head := nf
                 data := a.data.set p (Entry.EntryExist v a.generation)
                 length := (a.length + 1) % 2 ^ 64 }) ∧
      arena_ok { a with next_free_head := nf
                        data := a.data.set p (Entry.EntryExist v a.generation)
                        length := (a.length + 1) % 2 ^ 64 } := by
  obtain ⟨l, hc, hn, hall, hlen⟩ := h
  cases l with
  | nil =>
    left
    have : a.next_free_head = none := hc
    exact ⟨this, by simp only [try_insert, this]⟩
  | cons p l =>
    right
    obtain ⟨hh, nf, hp, hrest⟩ := hc
    have hpl : p ∉ l := (List.nodup_cons.1 hn).1
    have hlt : p < a.data.length := (List.getElem?_eq_some.1 hp).1
    refine ⟨p, nf, hh, hp, by simp only [try_insert, hh, hp], l, ?_, (List.nodup_cons.1 hn).2,
      ?_, ?_⟩
    · exact free_chain_set a.data p _ l nf hrest hpl
    · intro q nf2 hq
      simp only at hq
      have hne : p ≠ q := by
        intro e
        rw [e, List.getElem?_set_self (by rw [← e]; exact hlt)] at hq
        cases hq
      rw [List.getElem?_set_ne hne] at hq
      rcases List.mem_cons.1 (hall q nf2 hq) with e | hm
      · exact absurd e.symm hne
      · exact hm
    · show (a.length + 1) % 2 ^ 64 = _
      rw [occupied_set v a.generation a.data p nf hp, hlen]
      omega

theorem try_insert_length {T : Type} (a b : Arena T) (v : T) (r : Option Index)
    (h : try_insert a v = some (r, b)) : b.data.length = a.data.length := by
  unfold try_insert at h
  split at h
  · split at h
    · cases h
      simp
    · cases h
    · cases h
  · cases h
    rfl

/-- A successful `try_insert` leaves every occupied slot as it is. -/
theorem try_insert_keeps {T : Type} (a b : Arena T) (v : T) (r : Option Index)
    (h : try_insert a v = some (r, b)) (k : Nat) (w : T) (g : Nat)
    (hk : a.data[k]? = some (Entry.EntryExist w g)) : b.data[k]? = some (Entry.EntryExist w g) := by
  unfold try_insert at h
  split at h
  · rename_i loc hloc
    split at h
    · rename_i nf hnf
      cases h
      simp only
      have hne : loc ≠ k := by
        intro e
        rw [e, hk] at hnf
        cases hnf
      rw [List.getElem?_set_ne hne]
      exact hk
    · cases h
    · cases h
  · cases h
    exact hk

/-- What a successful `try_insert` returns is the slot it has filled. -/
theorem try_insert_stores {T : Type} (a b : Arena T) (v : T) (i : Index)
    (h : try_insert a v = some (some i, b)) :
    b.data[i.index]? = some (Entry.EntryExist v i.generation) := by
  unfold try_insert at h
  split at h
  · rename_i loc hloc
    split at h
    · rename_i nf hnf
      cases h
      simp only
      rw [List.getElem?_set_self (List.getElem?_eq_some.1 hnf).1]
    · cases h
    · cases h
  · cases h

theorem insert_cases {T : Type} (a b : Arena T) (v : T) (i : Index)
    (h : insert a v = some (i, b)) :
    try_insert a v = some (some i, b) ∨
    (try_insert a v = some (none, a) ∧
      try_insert (reserve a (a.data.length * 2 % 2 ^ 64)) v = some (some i, b)) := by
  unfold insert at h
  split at h
  · cases h
  · rename_i idx a1 h1
    cases h
    exact Or.inl h1
  · rename_i a1 h1
    have ha1 : a1 = a := by
      unfold try_insert at h1
      split at h1
      · split at h1 <;> cases h1
      · cases h1
        rfl
    subst ha1
    split at h
    · rename_i idx a2 h2
      cases h
      exact Or.inr ⟨h1, h2⟩
    · cases h

theorem occupied_le {T : Type} : ∀ data : List (Entry T), occupied data ≤ data.length := by
  intro data
  induction data with
  | nil => exact le_refl _
  | cons e es ih =>
    cases e with
    | EntryNoExist nf => simp only [occupied, List.length_cons]; omega
    | EntryExist v g => simp only [occupied, List.length_cons]; omega

theorem arena_ok_empty (T : Type) : arena_ok (empty_arena T) :=
  ⟨[], rfl, List.nodup_nil, fun p nf h => by simp [empty_arena] at h, rfl⟩

theorem arena_ok_try_insert_result {T : Type} (a b : Arena T) (v : T) (r : Option Index)
    (h : arena_ok a) (hr : try_insert a v = some (r, b)) : arena_ok b := by
  rcases arena_ok_try_insert a v h with ⟨-, h1⟩ | ⟨p, nf, -, -, h1, h2⟩
  · rw [h1] at hr
    cases hr
    exact h
  · rw [h1] at hr
    cases hr
    exact h2

theorem arena_ok_insert_result {T : Type} (a b : Arena T) (v : T) (i : Index)
    (h : arena_ok a) (hr : insert a v = some (i, b)) : arena_ok b := by
  rcases insert_cases a b v i hr with h1 | ⟨-, h2⟩
  · exact arena_ok_try_insert_result a b v _ h h1
  · exact arena_ok_try_insert_result _ b v _ (arena_ok_reserve a _ h) h2

theorem arena_ok_of_reaches {T : Type} (a b : Arena T) (h : arena_ok a) (hr : reaches a b) :
    arena_ok b := by
  induction hr with
  | refl => exact h
  | reserve n _ _ _ ih => exact arena_ok_reserve _ n ih
  | try_insert _ ht ih => exact arena_ok_try_insert_result _ _ _ _ ih ht
  | insert _ _ hi ih => exact arena_ok_insert_result _ _ _ _ ih hi

/-- With the invariant, `insert` on an arena of at least one slot returns. -/
theorem arena_ok_insert {T : Type} (a : Arena T) (v : T) (h : arena_ok a)
    (hs : 1 ≤ a.data.length) (hb : a.data.length < 2 ^ 63) :
    ∃ i b, insert a v = some (i, b) := by
  rcases arena_ok_try_insert a v h with ⟨h0, h1⟩ | ⟨p, nf, -, -, h1, -⟩
  · have hm : a.data.length * 2 % 2 ^ 64 = a.data.length * 2 := Nat.mod_eq_of_lt (by omega)
    have hge : ¬ a.data.length * 2 < a.data.length := by omega
    rcases arena_ok_try_insert (reserve a (a.data.length * 2)) v (arena_ok_reserve a _ h) with
      ⟨h2, -⟩ | ⟨p, nf, -, -, h2, -⟩
    · rw [reserve_eq_of_ge a _ hge] at h2
      cases h2
    · exact ⟨_, _, by simp only [insert, h1, hm, h2]; rfl⟩
  · exact ⟨_, _, by simp only [insert, h1]; rfl⟩

theorem get_eq_some_iff {T : Type} (a : Arena T) (idx : Index) (w : T) :
    get a idx = some w ↔ a.data[idx.index]? = some (Entry.EntryExist w idx.generation) := by
  unfold get
  by_cases hge : idx.index ≥ a.data.length
  · rw [if_pos hge, List.getElem?_eq_none hge]
    simp
  · rw [if_neg hge]
    cases hd : a.data[idx.index]? with
    | none => simp
    | some e =>
      cases e with
      | EntryNoExist nf => simp
      | EntryExist v g =>
        by_cases hg : idx.generation = g
        · subst hg
          simp
        · simp only [ne_eq, hg, not_false_eq_true, if_true, Option.some.injEq,
            Entry.EntryExist.injEq]
          constructor
          · intro h; cases h
          · intro h; exact absurd h.2.symm hg

theorem slot_kept_of_reaches {T : Type} (a b : Arena T) (hr : reaches a b) (k : Nat) (w : T)
    (g : Nat) (hk : a.data[k]? = some (Entry.EntryExist w g)) :
    b.data[k]? = some (Entry.EntryExist w g) := by
  induction hr with
  | refl => exact hk
  | reserve n _ _ _ ih =>
    rw [reserve_getElem _ n k (List.getElem?_eq_some.1 ih).1]
    exact ih
  | try_insert _ ht ih => exact try_insert_keeps _ _ _ _ ht k w g ih
  | insert _ _ hi ih =>
    rcases insert_cases _ _ _ _ hi with h1 | ⟨-, h2⟩
    · exact try_insert_keeps _ _ _ _ h1 k w g ih
    · refine try_insert_keeps _ _ _ _ h2 k w g ?_
      rw [reserve_getElem _ _ k (List.getElem?_eq_some.1 ih).1]
      exact ih

theorem insert_stores {T : Type} (a b : Arena T) (v : T) (i : Index)
    (h : insert a v = some (i, b)) :
    b.data[i.index]? = some (Entry.EntryExist v i.generation) := by
  rcases insert_cases a b v i h with h1 | ⟨-, h2⟩
  · exact try_insert_stores a b v i h1
  · exact try_insert_stores _ b v i h2

theorem insert_length_le {T : Type} (a b : Arena T) (v : T) (i : Index)
    (h : insert a v = some (i, b)) : a.data.length ≤ b.data.length := by
  rcases insert_cases a b v i h with h1 | ⟨-, h2⟩
  · rw [try_insert_length a b v _ h1]
  · rw [try_insert_length _ b v _ h2]
    exact reserve_length_le a _

/-- C31: arena lookup round trip.  If `insert(v)` returns the index `idx`, then `get(idx)`
returns `v` in the arena after the call and in every arena reached from it by further calls
of `insert`, `try_insert` and `reserve`; on an arena with at least one slot (and fewer than
`2^63`) that satisfies the free-list invariant `insert` does return an index; and `get(idx)`
returns `nullopt` when `idx.index >= data.size()` and when the slot is occupied with a
generation other than `idx.generation`. -/
theorem get_after_insert_round_trip {T : Type} (a : Arena T) (v : T) :
    (∀ idx b, insert a v = some (idx, b) →
      get b idx = some v ∧ ∀ c, reaches b c → get c idx = some v) ∧
    (arena_ok a → 1 ≤ a.data.length → a.data.length < 2 ^ 63 →
      ∃ idx b, insert a v = some (idx, b)) ∧
    (∀ idx : Index, idx.index ≥ a.data.length → get a idx = none) ∧
    (∀ (idx : Index) (w : T) (g : Nat), a.data[idx.index]? = some (Entry.EntryExist w g) →
      idx.generation ≠ g → get a idx = none) := by
  refine ⟨fun idx b h => ?_, fun h hs hb => arena_ok_insert a v h hs hb, fun idx h => ?_,
    fun idx w g h hg => ?_⟩
  · have hst := insert_stores a b v idx h
    exact ⟨(get_eq_some_iff b idx v).2 hst,
      fun c hc => (get_eq_some_iff c idx v).2 (slot_kept_of_reaches b c hc _ _ _ hst)⟩
  · unfold get
    rw [if_pos h]
  · unfold get
    have hlt := (List.getElem?_eq_some.1 h).1
    rw [if_neg (by omega), h]
    simp [hg]

theorem get_after_insert_round_trip_witness :
    ∃ idx b, insert full_fixture 7 = some (idx, b) ∧ get b idx = some 7 ∧
      get (reserve b 5) idx = some 7 ∧
      get full_fixture { index := 1, generation := 0 } = none ∧
      get full_fixture { index := 0, generation := 3 } = none :=
  ⟨{ index := 1, generation := 0 },
    { data := [Entry.EntryExist 10 0, Entry.EntryExist 7 0], next_free_head := none,
      generation := 0, length := 2 },
    by decide,
    ((get_after_insert_round_trip full_fixture 7).1 _ _ (by decide)).1,
    ((get_after_insert_round_trip full_fixture 7).1 _ _ (by decide)).2 _
      (reaches.reserve 5 (reaches.refl _) (by decide) (by decide)),
    (get_after_insert_round_trip full_fixture 7).2.2.1 _ (by decide),
    (get_after_insert_round_trip full_fixture 7).2.2.2 _ 10 0 (by decide) (by decide)⟩

/-- C32: arena growth is by doubling and keeps indices stable.  On an arena with `s >= 1`
slots (fewer than `2^63`) and an empty free list, `insert(v)` returns the index `s` with the
current generation; afterwards the arena has exactly `2 * s` slots, slot `s` holds `v`, the
slots `0 .. s-1` are unchanged, and the free list is `s+1, s+2, ..., 2s-1` in that order.
And no operation reduces the number of slots: not `reserve`, not `try_insert`, not
`insert`. -/
theorem insert_grows_by_doubling {T : Type} (a : Arena T) (v : T)
    (hh : a.next_free_head = none) (hs : 1 ≤ a.data.length) (hb : a.data.length < 2 ^ 63) :
    (∃ b, insert a v = some ({ index := a.data.length, generation := a.generation }, b) ∧
      b.data.length = 2 * a.data.length ∧
      b.data[a.data.length]? = some (Entry.EntryExist v a.generation) ∧
      (∀ k, k < a.data.length → b.data[k]? = a.data[k]?) ∧
      free_list b = some (List.range' (a.data.length + 1) (a.data.length - 1))) ∧
    (∀ (c : Arena T) (n : Nat), c.data.length ≤ (reserve c n).data.length) ∧
    (∀ (c d : Arena T) (w : T) (r : Option Index), try_insert c w = some (r, d) →
      d.data.length = c.data.length) ∧
    (∀ (c d : Arena T) (w : T) (i : Index), insert c w = some (i, d) →
      c.data.length ≤ d.data.length) := by
  refine ⟨?_, reserve_length_le, try_insert_length, insert_length_le⟩
  have h1 : try_insert a v = some (none, a) := by simp only [try_insert, hh]
  have hm : a.data.length * 2 % 2 ^ 64 = a.data.length * 2 := Nat.mod_eq_of_lt (by omega)
  have hge : ¬ a.data.length * 2 < a.data.length := by omega
  have hbound : (a.data.length * 2 + 2 ^ 64 - 1) % 2 ^ 64 - a.data.length =
      a.data.length - 1 := by
    have : (a.data.length * 2 + 2 ^ 64 - 1) % 2 ^ 64 = a.data.length * 2 - 1 := by omega
    rw [this]
    omega
  have hres := reserve_eq_of_ge a _ hge
  rw [hbound, hh] at hres
  have hchain := reserve_block_chain a.data (a.data.length - 1) none [] rfl
    (a.data.length - 1) 0 (by omega)
  rw [List.append_nil, Nat.add_zero, List.range'_succ] at hchain
  obtain ⟨-, nf, hslot, hrest⟩ := hchain
  have h2 : try_insert (reserve a (a.data.length * 2)) v =
      some (some { index := a.data.length, generation := a.generation },
        { reserve a (a.data.length * 2) with
          next_free_head := nf
          data := (reserve a (a.data.length * 2)).data.set a.data.length
            (Entry.EntryExist v a.generation)
          length := (a.length + 1) % 2 ^ 64 }) := by
    rw [hres]
    simp only [try_insert, hslot]
  refine ⟨_, by simp only [insert, h1, hm, h2]; rfl, ?_, ?_, ?_, ?_⟩
  · rw [hres]
    simp
    omega
  · rw [hres]
    simp only
    rw [List.getElem?_set_self (by simp)]
  · intro k hk
    rw [hres]
    simp only
    rw [List.getElem?_set_ne (by omega)]
    exact (reserve_block_getElem a.data _ none).2.2 k hk
  · apply free_list_of_chain
    · rw [hres]
      simp only
      exact free_chain_set _ _ _ _ _ hrest (by rw [List.mem_range'_1]; omega)
    · exact List.nodup_range' _ _

theorem insert_grows_by_doubling_witness :
    (∃ b, insert full_fixture 7 =
        some ({ index := full_fixture.data.length, generation := full_fixture.generation }, b) ∧
      b.data.length = 2 * full_fixture.data.length ∧
      b.data[full_fixture.data.length]? = some (Entry.EntryExist 7 full_fixture.generation) ∧
      (∀ k, k < full_fixture.data.length → b.data[k]? = full_fixture.data[k]?) ∧
      free_list b =
        some (List.range' (full_fixture.data.length + 1) (full_fixture.data.length - 1))) ∧
    (∀ (c : Arena Nat) (n : Nat), c.data.length ≤ (reserve c n).data.length) ∧
    (∀ (c d : Arena Nat) (w : Nat) (r : Option Index), try_insert c w = some (r, d) →
      d.data.length = c.data.length) ∧
    (∀ (c d : Arena Nat) (w : Nat) (i : Index), insert c w = some (i, d) →
      c.data.length ≤ d.data.length) :=
  insert_grows_by_doubling full_fixture 7 (by decide) (by decide) (by decide)

/-- C40: the free-list invariant.  In every arena reached from the empty arena by calls of
`reserve(n)` with `n >= 1`, of `try_insert`, and of `insert` on an arena with at least one
slot, following `next_free` from `next_free_head` ends at an empty link and visits a list of
slots without repetition that consists of exactly the free slots, so every free slot once and
no occupied slot; `length` is the number of occupied slots (as a 64 bit number, and exactly
when the arena has fewer than `2^64` slots); `try_insert` never takes its unreachable branch,
it returns; and so does `insert` on an arena of at least one and fewer than `2^63` slots. -/
theorem reachable_arena_free_list {T : Type} (a : Arena T) (h : reaches (empty_arena T) a) :
    (∃ l, free_list a = some l ∧ l.Nodup ∧
      ∀ p, p ∈ l ↔ ∃ next_free, a.data[p]? = some (Entry.EntryNoExist next_free)) ∧
    a.length = occupied a.data % 2 ^ 64 ∧
    (a.data.length < 2 ^ 64 → a.length = occupied a.data) ∧
    (∀ v, ∃ r b, try_insert a v = some (r, b)) ∧
    (∀ v, 1 ≤ a.data.length → a.data.length < 2 ^ 63 → ∃ i b, insert a v = some (i, b)) := by
  have hok := arena_ok_of_reaches _ a (arena_ok_empty T) h
  obtain ⟨l, hc, hn, hall, hlen⟩ := hok
  refine ⟨⟨l, free_list_of_chain a l hc hn, hn, fun p => ⟨free_chain_free a.data l _ hc p,
    fun ⟨nf, hp⟩ => hall p nf hp⟩⟩, hlen, fun hlt => ?_, fun v => ?_, fun v hs hb => ?_⟩
  · rw [hlen]
    exact Nat.mod_eq_of_lt (lt_of_le_of_lt (occupied_le a.data) hlt)
  · rcases arena_ok_try_insert a v ⟨l, hc, hn, hall, hlen⟩ with ⟨-, h1⟩ | ⟨p, nf, -, -, h1, -⟩
    · exact ⟨_, _, h1⟩
    · exact ⟨_, _, h1⟩
  · exact arena_ok_insert a v ⟨l, hc, hn, hall, hlen⟩ hs hb

theorem reachable_arena_free_list_witness :
    (∃ l, free_list (reserve (empty_arena Nat) 3) = some l ∧ l.Nodup ∧
      ∀ p, p ∈ l ↔
        ∃ next_free, (reserve (empty_arena Nat) 3).data[p]? =
          some (Entry.EntryNoExist next_free)) ∧
    (reserve (empty_arena Nat) 3).length = occupied (reserve (empty_arena Nat) 3).data % 2 ^ 64 ∧
    ((reserve (empty_arena Nat) 3).data.length < 2 ^ 64 →
      (reserve (empty_arena Nat) 3).length = occupied (reserve (empty_arena Nat) 3).data) ∧
    (∀ v, ∃ r b, try_insert (reserve (empty_arena Nat) 3) v = some (r, b)) ∧
    (∀ v, 1 ≤ (reserve (empty_arena Nat) 3).data.length →
      (reserve (empty_arena Nat) 3).data.length < 2 ^ 63 →
      ∃ i b, insert (reserve (empty_arena Nat) 3) v = some (i, b)) :=
  reachable_arena_free_list _ (reaches.reserve 3 (reaches.refl _) (by decide) (by decide))

end generational_arena

end blender

namespace Cycles

namespace TileManager

/-! ## Neighbours and the closure check -/

/-- The tables `dx`, `dy` hold the offsets of the 3 x 3 neighbourhood in row-major order. -/
theorem neighbor_offsets (n : Nat) (hn : n < 9) :
    neighbor_dx.getD ((n : Int).toNat) 0 = ((n % 3 : Nat) : Int) - 1 ∧
    neighbor_dy.getD ((n : Int).toNat) 0 = ((n / 3 : Nat) : Int) - 1 := by
  rw [Int.toNat_ofNat]
  interval_cases n <;> exact ⟨rfl, rfl⟩

/-- The value of `get_neighbor_index` in terms of its locals. -/
theorem get_neighbor_index_eq (fm : TileManagerFull) (index : Int) (n : Nat) (hn : n < 9) :
    get_neighbor_index fm index (n : Int) =
      (if 0 ≤ index.tmod (neighbor_tile_w fm) + (((n % 3 : Nat) : Int) - 1) ∧
          index.tmod (neighbor_tile_w fm) + (((n % 3 : Nat) : Int) - 1) < neighbor_tile_w fm ∧
          0 ≤ index.tdiv (neighbor_tile_w fm) + (((n / 3 : Nat) : Int) - 1) ∧
          index.tdiv (neighbor_tile_w fm) + (((n / 3 : Nat) : Int) - 1) <
            neighbor_tile_h fm * neighbor_slice_num fm then
        (index.tdiv (neighbor_tile_w fm) + (((n / 3 : Nat) : Int) - 1)) * fm.tile_stride +
          (index.tmod (neighbor_tile_w fm) + (((n % 3 : Nat) : Int) - 1))
      else -1) := by
  obtain ⟨hx, hy⟩ := neighbor_offsets n hn
  unfold get_neighbor_index
  simp only [hx, hy]
  show (if _ then _ else _) = _
  simp only [neighbor_tile_w, neighbor_tile_h, neighbor_slice_num, gen_tiles_image_w,
    gen_tiles_image_h]
  split_ifs <;> first | rfl | omega

/-- A loop that stops with `false` at the first check that fails: it ends with `true`
exactly when every check succeeds. -/
theorem foldlM_all_true (g : Nat → Option Bool) (l : List Nat) :
    (l.foldlM (fun (ok : Bool) (n : Nat) => if ok then g n else some false) true = some true ↔
      ∀ n ∈ l, g n = some true) := by
  have hfalse : ∀ l : List Nat,
      l.foldlM (fun (ok : Bool) (n : Nat) => if ok then g n else some false) false =
        some false := by
    intro l
    induction l with
    | nil => rfl
    | cons a l ih => simp only [List.foldlM_cons]; simpa using ih
  induction l with
  | nil => simp
  | cons a l ih =>
    simp only [List.foldlM_cons, if_true, List.mem_cons, forall_eq_or_imp]
    cases hg : g a with
    | none => simp
    | some b =>
      cases b with
      | false =>
        simp only [Option.some_bind, Option.bind_eq_bind]
        rw [hfalse]
        simp
      | true =>
        simp only [Option.some_bind, Option.bind_eq_bind]
        simpa using ih

/-- `check_neighbor_state` returns true exactly when the closure check in words holds. -/
theorem check_neighbor_state_true (fm : TileManagerFull) (index : Int)
    (min_state : Tile.State) :
    check_neighbor_state fm index min_state = some true ↔ closure_ok fm index min_state := by
  unfold check_neighbor_state closure_ok
  by_cases hneg : index < 0
  · simp only [if_pos hneg]
    constructor
    · intro h; cases h
    · rintro ⟨h, -⟩; omega
  · rw [if_neg hneg]
    cases ht : tile_at fm index with
    | none => simp
    | some t =>
      simp only
      by_cases hlt : t.state.rank < min_state.rank
      · rw [if_pos hlt]
        constructor
        · intro h; cases h
        · rintro ⟨-, ⟨t', ht', hle⟩, -⟩
          cases ht'
          omega
      · rw [if_neg hlt]
        rw [foldlM_all_true]
        constructor
        · intro h
          refine ⟨by omega, ⟨t, rfl, by omega⟩, fun n hn hnn => ?_⟩
          have := h n (List.mem_range.2 hn)
          rw [if_pos hnn] at this
          cases hnt : tile_at fm (get_neighbor_index fm index (n : Int)) with
          | none => rw [hnt] at this; cases this
          | some nt =>
            rw [hnt] at this
            refine ⟨nt, rfl, ?_⟩
            simp at this
            exact this
        · rintro ⟨-, -, h⟩ n hn
          by_cases hnn : get_neighbor_index fm index (n : Int) ≥ 0
          · rw [if_pos hnn]
            obtain ⟨nt, hnt, hle⟩ := h n (List.mem_range.1 hn) hnn
            rw [hnt]
            simp
            exact hle
          · rw [if_neg hnn]

/-- C25: `get_neighbor_index(index, n)` for `n` in 0 .. 8 is `ny * tile_stride + nx` with
`nx = index mod tile_w + dx[n]`, `ny = index div tile_w + dy[n]` (`mod` and `div` being the
C++ `%` and `/`, which are the mathematical ones for a non-negative index) and the offsets
`dx[n] = n mod 3 - 1`, `dy[n] = n div 3 - 1`, if `0 <= nx < tile_w` and
`0 <= ny < tile_h * slice_num`, and `-1` otherwise; `check_neighbor_state` returns false
for a negative index, and returns true exactly when the tile and those of its neighbours
whose index is not negative are at least in `min_state`, so a neighbour `-1` never blocks. -/
theorem get_neighbor_index_grid (fm : TileManagerFull) (index : Int) (n : Nat) (hn : n < 9) :
    get_neighbor_index fm index (n : Int) =
      (if 0 ≤ index.tmod (neighbor_tile_w fm) + (((n % 3 : Nat) : Int) - 1) ∧
          index.tmod (neighbor_tile_w fm) + (((n % 3 : Nat) : Int) - 1) < neighbor_tile_w fm ∧
          0 ≤ index.tdiv (neighbor_tile_w fm) + (((n / 3 : Nat) : Int) - 1) ∧
          index.tdiv (neighbor_tile_w fm) + (((n / 3 : Nat) : Int) - 1) <
            neighbor_tile_h fm * neighbor_slice_num fm then
        (index.tdiv (neighbor_tile_w fm) + (((n / 3 : Nat) : Int) - 1)) * fm.tile_stride +
          (index.tmod (neighbor_tile_w fm) + (((n % 3 : Nat) : Int) - 1))
      else -1) ∧
    (0 ≤ index → 0 ≤ neighbor_tile_w fm →
      index.tmod (neighbor_tile_w fm) = index % neighbor_tile_w fm) ∧
    (0 ≤ index → 0 ≤ neighbor_tile_w fm →
      index.tdiv (neighbor_tile_w fm) = index / neighbor_tile_w fm) ∧
    (∀ min_state, index < 0 → check_neighbor_state fm index min_state = some false) ∧
    (∀ min_state, check_neighbor_state fm index min_state = some true ↔
      (0 ≤ index ∧
        (∃ t, tile_at fm index = some t ∧ min_state.rank ≤ t.state.rank) ∧
        ∀ m : Nat, m < 9 → 0 ≤ get_neighbor_index fm index (m : Int) →
          ∃ t, tile_at fm (get_neighbor_index fm index (m : Int)) = some t ∧
            min_state.rank ≤ t.state.rank)) := by
  refine ⟨get_neighbor_index_eq fm index n hn, fun h hw => ?_, fun h hw => ?_,
    fun min_state h => ?_, fun min_state => check_neighbor_state_true fm index min_state⟩
  · exact Int.tmod_eq_emod h hw
  · exact Int.tdiv_eq_ediv h hw
  · unfold check_neighbor_state
    rw [if_pos h]

theorem get_neighbor_index_grid_witness :
    get_neighbor_index queue_fixture 0 ((5 : Nat) : Int) =
      (if 0 ≤ (0 : Int).tmod (neighbor_tile_w queue_fixture) + (((5 % 3 : Nat) : Int) - 1) ∧
          (0 : Int).tmod (neighbor_tile_w queue_fixture) + (((5 % 3 : Nat) : Int) - 1) <
            neighbor_tile_w queue_fixture ∧
          0 ≤ (0 : Int).tdiv (neighbor_tile_w queue_fixture) + (((5 / 3 : Nat) : Int) - 1) ∧
          (0 : Int).tdiv (neighbor_tile_w queue_fixture) + (((5 / 3 : Nat) : Int) - 1) <
            neighbor_tile_h queue_fixture * neighbor_slice_num queue_fixture then
        ((0 : Int).tdiv (neighbor_tile_w queue_fixture) + (((5 / 3 : Nat) : Int) - 1)) *
            queue_fixture.tile_stride +
          ((0 : Int).tmod (neighbor_tile_w queue_fixture) + (((5 % 3 : Nat) : Int) - 1))
      else -1) :=
  (get_neighbor_index_grid queue_fixture 0 5 (by decide)).1


/-! ## `next_tile` -/

/-- The scan of `next_tile` without device preservation, from queue `k` on: it takes the
front of the first queue at or after `k` that is not empty. -/
theorem next_tile_loop_scan (queues : List (List Int)) (hlen : queues.length < 2 ^ 63)
    (fuel : Nat) :
    ∀ k : Nat, k ≤ queues.length → queues.length - k ≤ fuel →
      next_tile_loop false fuel (k : Int) queues =
        some (match (queues.drop k).findIdx? (fun q => !q.isEmpty) with
          | some j => (queue_front queues (k + j), queue_pop queues (k + j))
          | none => (-1, queues)) := by
  induction fuel with
  | zero =>
    intro k hk hf
    have hkl : k = queues.length := by omega
    have hmod : ((k : Int) % 2 ^ 64).toNat = k := by
      rw [Int.emod_eq_of_lt (by omega) (by omega)]; simp
    unfold next_tile_loop
    rw [hmod, if_neg (by omega), hkl, List.drop_length]
    rfl
  | succ f ih =>
    intro k hk hf
    have hmod : ((k : Int) % 2 ^ 64).toNat = k := by
      rw [Int.emod_eq_of_lt (by omega) (by omega)]; simp
    unfold next_tile_loop
    rw [hmod]
    by_cases hlt : k < queues.length
    · rw [if_pos hlt]
      have hdrop : queues.drop k = queues.getD k [] :: queues.drop (k + 1) := by
        rw [List.getD_eq_getElem _ _ hlt]
        exact List.drop_eq_getElem_cons hlt
      rw [hdrop]
      cases hq : queues.getD k [] with
      | nil =>
        simp only [Bool.false_eq_true, if_false]
        have := ih (k + 1) (by omega) (by omega)
        rw [show ((k : Int) + 1) = ((k + 1 : Nat) : Int) by push_cast; rfl, this]
        simp only [List.findIdx?_cons, List.isEmpty_nil, Bool.not_true, Bool.false_eq_true,
          if_false]
        cases hfi : List.findIdx? (fun q => !q.isEmpty) (List.drop (k + 1) queues) with
        | none => simp [hfi]
        | some j =>
          have e : k + 1 + j = k + (j + 1) := by omega
          simp [hfi, e]
      | cons x rest =>
        simp only [List.findIdx?_cons, List.isEmpty_cons, Bool.not_false, if_true]
        simp only [queue_front, queue_pop, Nat.add_zero, hq, List.headD_cons, List.tail_cons]
    · rw [if_neg hlt]
      have hkl : k = queues.length := by omega
      rw [hkl, List.drop_length]
      rfl

/-- The loop of `next_tile` takes the front of the eligible queue, if there is one. -/
theorem next_tile_loop_eq (preserve_device : Bool) (device : Int) (queues : List (List Int))
    (hlen : queues.length < 2 ^ 63) (hdev : -(2 ^ 63 : Int) ≤ device) (hdev2 : device < 2 ^ 63)
    (fuel : Nat) (hfuel : queues.length + 1 ≤ fuel) :
    next_tile_loop preserve_device fuel (if preserve_device then device else 0) queues =
      some (match eligible_queue preserve_device device queues with
        | some i => (queue_front queues i, queue_pop queues i)
        | none => (-1, queues)) := by
  cases preserve_device with
  | false =>
    have := next_tile_loop_scan queues hlen fuel 0 (by omega) (by omega)
    simp only [Bool.false_eq_true, if_false, eligible_queue]
    simp only [Nat.cast_zero, List.drop_zero, Nat.zero_add] at this
    exact this
  | true =>
    simp only [if_true, eligible_queue]
    obtain ⟨f, rfl⟩ : ∃ f, fuel = f + 1 := ⟨fuel - 1, by omega⟩
    unfold next_tile_loop
    by_cases hneg : device < 0
    · have hmod : (device % 2 ^ 64).toNat = (device + 2 ^ 64).toNat := by
        rw [← Int.add_emod_self, Int.emod_eq_of_lt (by omega) (by omega)]
      rw [hmod, if_neg (by omega), if_neg (by omega)]
    · have hmod : (device % 2 ^ 64).toNat = device.toNat := by
        rw [Int.emod_eq_of_lt (by omega) (by omega)]
      rw [hmod]
      by_cases hlt : device.toNat < queues.length
      · rw [if_pos hlt]
        cases hq : queues.getD device.toNat [] with
        | nil => simp [hq]
        | cons x rest =>
          have h0 : (0 : Int) ≤ device := by omega
          have hq2 : queues[device.toNat] = x :: rest := by
            rw [List.getD_eq_getElem _ _ hlt] at hq; exact hq
          simp [hq, h0, hlt, queue_front, queue_pop, hq2]
      · rw [if_neg hlt, if_neg (by tauto)]

/-- The eligible queue, if there is one, exists and is not empty; with device preservation
it is the worker's own queue, otherwise every queue before it is empty. -/
theorem eligible_queue_some (preserve_device : Bool) (device : Int)
    (queues : List (List Int)) (i : Nat) :
    eligible_queue preserve_device device queues = some i ↔
      (i < queues.length ∧ queues.getD i [] ≠ [] ∧
        (if preserve_device then 0 ≤ device ∧ i = device.toNat
         else ∀ j, j < i → queues.getD j [] = [])) := by
  unfold eligible_queue
  cases preserve_device with
  | true =>
    simp only [if_true]
    by_cases h : 0 ≤ device ∧ device.toNat < queues.length ∧ queues.getD device.toNat [] ≠ []
    · rw [if_pos h]
      constructor
      · intro e
        cases e
        exact ⟨h.2.1, h.2.2, h.1, rfl⟩
      · rintro ⟨-, -, -, e⟩
        rw [e]
    · rw [if_neg h]
      constructor
      · intro e; cases e
      · rintro ⟨a, b, c, e⟩
        subst e
        exact absurd ⟨c, a, b⟩ h
  | false =>
    simp only [Bool.false_eq_true, if_false]
    rw [List.findIdx?_eq_some_iff_getElem]
    constructor
    · rintro ⟨h, hp, hall⟩
      refine ⟨h, ?_, fun j hj => ?_⟩
      · rw [List.getD_eq_getElem _ _ h]
        intro e
        rw [e] at hp
        simp at hp
      · have := hall j hj
        rw [List.getD_eq_getElem _ _ (Nat.lt_trans hj h)]
        simpa using this
    · rintro ⟨h, hp, hall⟩
      refine ⟨h, ?_, fun j hj => ?_⟩
      · rw [List.getD_eq_getElem _ _ h] at hp
        cases hq : queues[i] with
        | nil => exact absurd hq hp
        | cons x r => simp
      · have := hall j hj
        rw [List.getD_eq_getElem _ _ (Nat.lt_trans hj h)] at this
        simp [this]

/-- There is no eligible queue exactly when the worker's own queue is missing or empty (with
device preservation), or every queue is empty (without). -/
theorem eligible_queue_none (preserve_device : Bool) (device : Int)
    (queues : List (List Int)) :
    eligible_queue preserve_device device queues = none ↔
      (if preserve_device then
        ¬ (0 ≤ device ∧ device.toNat < queues.length ∧ queues.getD device.toNat [] ≠ [])
       else ∀ q ∈ queues, q = []) := by
  unfold eligible_queue
  cases preserve_device with
  | true =>
    simp only [if_true]
    by_cases h : 0 ≤ device ∧ device.toNat < queues.length ∧ queues.getD device.toNat [] ≠ []
    · rw [if_pos h]
      constructor
      · intro e; cases e
      · intro hn; exact absurd h hn
    · rw [if_neg h]
      exact ⟨fun _ => h, fun _ => rfl⟩
  | false =>
    simp only [Bool.false_eq_true, if_false]
    rw [List.findIdx?_eq_none_iff]
    constructor
    · intro h q hq
      have := h q hq
      cases q with
      | nil => rfl
      | cons x r => simp at this
    · intro h q hq
      rw [h q hq]
      simp

/-- The front of a queue that is not empty is its first entry, and popping leaves the
rest. -/
theorem queue_front_pop (queues : List (List Int)) (i : Nat) (hi : i < queues.length)
    (hne : queues.getD i [] ≠ []) :
    queues.getD i [] = queue_front queues i :: (queue_pop queues i).getD i [] ∧
    (queue_pop queues i).length = queues.length ∧
    (∀ j, j ≠ i → (queue_pop queues i).getD j [] = queues.getD j []) := by
  unfold queue_front queue_pop
  refine ⟨?_, by simp, fun j hj => ?_⟩
  · rw [getD_set_append _ _ _ hi, if_pos rfl]
    cases hq : queues.getD i [] with
    | nil => exact absurd hq hne
    | cons x r => simp
  · rw [getD_set_append _ _ _ hi, if_neg hj]

/-- With enough fuel and queues that hold tile indices, `next_tile` does what
`next_tile_served` describes. -/
theorem next_tile_eq (fuel : Nat) (fm : TileManagerFull) (device : Int)
    (denoise path_trace : Bool)
    (hdev : -(2 ^ 63 : Int) ≤ device) (hdev2 : device < 2 ^ 63)
    (hd : denoise = true → fm.denoising_tiles.length + 1 ≤ fuel ∧
      fm.denoising_tiles.length < 2 ^ 63 ∧ queues_valid fm fm.denoising_tiles)
    (hr : path_trace = true → fm.render_tiles.length + 1 ≤ fuel ∧
      fm.render_tiles.length < 2 ^ 63 ∧ queues_valid fm fm.render_tiles) :
    next_tile fuel fm device denoise path_trace =
      some (next_tile_served fm device denoise path_trace) := by
  have hres : ∀ (queues : List (List Int)) (i : Nat), queues_valid fm queues →
      eligible_queue (fm.preserve_tile_device && decide (device < fm.num_devices)) device
        queues = some i →
      next_tile_result fm (queue_front queues i) = some (some (queue_front queues i)) := by
    intro queues i hv he
    obtain ⟨h1, h2, -⟩ := (eligible_queue_some _ _ _ _).1 he
    obtain ⟨e, -, -⟩ := queue_front_pop queues i h1 h2
    have hmem : queues.getD i [] ∈ queues := by
      rw [List.getD_eq_getElem _ _ h1]; exact List.getElem_mem h1
    obtain ⟨v0, v1⟩ := hv _ hmem (queue_front queues i) (by rw [e]; exact List.mem_cons_self _ _)
    unfold next_tile_result
    rw [if_pos v0, if_pos v1]
  have hrender : (if path_trace = true then
        match next_tile_loop (fm.preserve_tile_device && decide (device < fm.num_devices)) fuel
            (if (fm.preserve_tile_device && decide (device < fm.num_devices)) = true
              then device else 0) fm.render_tiles with
        | none => none
        | some (tile_index, queues) =>
          match next_tile_result fm tile_index with
          | none => none
          | some r => some (r, { fm with render_tiles := queues })
      else some (none, fm)) =
      some (match (if path_trace then
          eligible_queue (fm.preserve_tile_device && decide (device < fm.num_devices)) device
            fm.render_tiles
        else none) with
      | some i =>
        (some (queue_front fm.render_tiles i),
          { fm with render_tiles := queue_pop fm.render_tiles i })
      | none => (none, fm)) := by
    cases path_trace with
    | false => simp
    | true =>
      obtain ⟨hfr, hlr, hvr⟩ := hr rfl
      simp only [if_true]
      rw [next_tile_loop_eq _ device _ hlr hdev hdev2 fuel hfr]
      cases he : eligible_queue (fm.preserve_tile_device && decide (device < fm.num_devices))
          device fm.render_tiles with
      | none =>
        simp only [next_tile_result]
        simp
      | some i =>
        simp only
        rw [hres _ i hvr he]
  unfold next_tile next_tile_served next_tile_preserve
  cases denoise with
  | false =>
    simp only [Bool.false_eq_true, if_false]
    exact hrender
  | true =>
    obtain ⟨hfd, hld, hvd⟩ := hd rfl
    simp only [if_true]
    rw [next_tile_loop_eq _ device _ hld hdev hdev2 fuel hfd]
    cases he : eligible_queue (fm.preserve_tile_device && decide (device < fm.num_devices))
        device fm.denoising_tiles with
    | none =>
      simp only [next_tile_result]
      simp only [ge_iff_le, Left.nonneg_neg_iff, Int.reduceLE, if_false]
      exact hrender
    | some i =>
      simp only
      rw [hres _ i hvd he]

/-- C26: queue selection of `next_tile`.  With enough fuel for the scan and queues that hold
tile indices the call does not fail, and for each requested kind: with
`preserve_device` (that is `preserve_tile_device && device < num_devices`) the only queue
looked at is `queue[device]`, and nothing is taken for that kind when it is missing or empty;
otherwise the front of the first queue that is not empty is taken.  The call returns false
exactly when no requested kind has an eligible queue, and then nothing changes; when it
returns a tile, one queue has lost its front, which is that tile, and every other queue of
both kinds is as before. -/
theorem next_tile_queue_selection (fuel : Nat) (fm : TileManagerFull) (device : Int)
    (denoise path_trace : Bool)
    (hfd : fm.denoising_tiles.length + 1 ≤ fuel) (hfr : fm.render_tiles.length + 1 ≤ fuel)
    (hld : fm.denoising_tiles.length < 2 ^ 63) (hlr : fm.render_tiles.length < 2 ^ 63)
    (hdev : -(2 ^ 63 : Int) ≤ device) (hdev2 : device < 2 ^ 63)
    (hvd : queues_valid fm fm.denoising_tiles) (hvr : queues_valid fm fm.render_tiles) :
    next_tile fuel fm device denoise path_trace =
      some (next_tile_served fm device denoise path_trace) ∧
    (∀ (queues : List (List Int)) (i : Nat),
      eligible_queue (next_tile_preserve fm device) device queues = some i ↔
        (i < queues.length ∧ queues.getD i [] ≠ [] ∧
          (if next_tile_preserve fm device then 0 ≤ device ∧ i = device.toNat
           else ∀ j, j < i → queues.getD j [] = []))) ∧
    (∀ queues : List (List Int),
      eligible_queue (next_tile_preserve fm device) device queues = none ↔
        (if next_tile_preserve fm device then
          ¬ (0 ≤ device ∧ device.toNat < queues.length ∧ queues.getD device.toNat [] ≠ [])
         else ∀ q ∈ queues, q = [])) ∧
    (∀ r fm', next_tile fuel fm device denoise path_trace = some (r, fm') →
      (r = none ↔
        ((denoise = true →
            eligible_queue (next_tile_preserve fm device) device fm.denoising_tiles = none) ∧
          (path_trace = true →
            eligible_queue (next_tile_preserve fm device) device fm.render_tiles = none))) ∧
      (r = none → fm' = fm) ∧
      (∀ x, r = some x →
        (∃ i, denoise = true ∧
            eligible_queue (next_tile_preserve fm device) device fm.denoising_tiles = some i ∧
            fm.denoising_tiles.getD i [] = x :: fm'.denoising_tiles.getD i [] ∧
            fm'.denoising_tiles.length = fm.denoising_tiles.length ∧
            (∀ j, j ≠ i → fm'.denoising_tiles.getD j [] = fm.denoising_tiles.getD j []) ∧
            fm'.render_tiles = fm.render_tiles) ∨
        (∃ i, path_trace = true ∧
            eligible_queue (next_tile_preserve fm device) device fm.render_tiles = some i ∧
            fm.render_tiles.getD i [] = x :: fm'.render_tiles.getD i [] ∧
            fm'.render_tiles.length = fm.render_tiles.length ∧
            (∀ j, j ≠ i → fm'.render_tiles.getD j [] = fm.render_tiles.getD j []) ∧
            fm'.denoising_tiles = fm.denoising_tiles))) := by
  have heq := next_tile_eq fuel fm device denoise path_trace hdev hdev2
    (fun _ => ⟨hfd, hld, hvd⟩) (fun _ => ⟨hfr, hlr, hvr⟩)
  refine ⟨heq, fun queues i => eligible_queue_some _ _ _ _,
    fun queues => eligible_queue_none _ _ _, ?_⟩
  intro r fm' hrun
  rw [heq] at hrun
  have hrun2 : next_tile_served fm device denoise path_trace = (r, fm') := Option.some.inj hrun
  unfold next_tile_served at hrun2
  cases hd : (if denoise = true then
      eligible_queue (next_tile_preserve fm device) device fm.denoising_tiles else none) with
  | some i =>
    rw [hd] at hrun2
    simp only [Prod.mk.injEq] at hrun2
    obtain ⟨hr, hfm⟩ := hrun2
    have hden : denoise = true := by
      cases denoise with
      | true => rfl
      | false => simp at hd
    rw [hden, if_pos rfl] at hd
    obtain ⟨h1, h2, -⟩ := (eligible_queue_some _ _ _ _).1 hd
    obtain ⟨e, l, o⟩ := queue_front_pop fm.denoising_tiles i h1 h2
    refine ⟨?_, ?_, ?_⟩
    · rw [← hr]
      constructor
      · intro h; cases h
      · rintro ⟨h, -⟩
        rw [h hden] at hd
        cases hd
    · intro h
      rw [← hr] at h
      cases h
    · intro x hx
      left
      rw [← hr] at hx
      cases hx
      rw [← hfm]
      exact ⟨i, hden, hd, e, l, o, rfl⟩
  | none =>
    rw [hd] at hrun2
    simp only at hrun2
    have hdn : denoise = true →
        eligible_queue (next_tile_preserve fm device) device fm.denoising_tiles = none := by
      intro h
      rw [h, if_pos rfl] at hd
      exact hd
    cases hp : (if path_trace = true then
        eligible_queue (next_tile_preserve fm device) device fm.render_tiles else none) with
    | some i =>
      rw [hp] at hrun2
      simp only [Prod.mk.injEq] at hrun2
      obtain ⟨hr, hfm⟩ := hrun2
      have hpt : path_trace = true := by
        cases path_trace with
        | true => rfl
        | false => simp at hp
      rw [hpt, if_pos rfl] at hp
      obtain ⟨h1, h2, -⟩ := (eligible_queue_some _ _ _ _).1 hp
      obtain ⟨e, l, o⟩ := queue_front_pop fm.render_tiles i h1 h2
      refine ⟨?_, ?_, ?_⟩
      · rw [← hr]
        constructor
        · intro h; cases h
        · rintro ⟨-, h⟩
          rw [h hpt] at hp
          cases hp
      · intro h
        rw [← hr] at h
        cases h
      · intro x hx
        right
        rw [← hr] at hx
        cases hx
        rw [← hfm]
        exact ⟨i, hpt, hp, e, l, o, rfl⟩
    | none =>
      rw [hp] at hrun2
      simp only [Prod.mk.injEq] at hrun2
      obtain ⟨hr, hfm⟩ := hrun2
      have hpn : path_trace = true →
          eligible_queue (next_tile_preserve fm device) device fm.render_tiles = none := by
        intro h
        rw [h, if_pos rfl] at hp
        exact hp
      refine ⟨⟨fun _ => ⟨hdn, hpn⟩, fun _ => hr.symm⟩, fun _ => hfm.symm, ?_⟩
      intro x hx
      rw [← hr] at hx
      cases hx

theorem next_tile_queue_selection_witness :
    next_tile 3 queue_fixture 0 true true =
      some (next_tile_served queue_fixture 0 true true) ∧
    next_tile_served queue_fixture 0 true true =
      (some 1, { queue_fixture with denoising_tiles := [[], []] }) :=
  ⟨(next_tile_queue_selection 3 queue_fixture 0 true true (by decide) (by decide) (by decide)
    (by decide) (by decide) (by decide) (by unfold queues_valid; decide)
    (by unfold queues_valid; decide)).1, by decide⟩

/-- C27: `DENOISE` is preferred over `PATH_TRACE`.  When both kinds are requested and there
is an eligible denoising queue, `next_tile` returns the front of that queue, pops it, and
leaves every render queue as it was; when the call returns a tile and a render queue has
changed, there was no eligible denoising queue. -/
theorem next_tile_prefers_denoise (fuel : Nat) (fm : TileManagerFull) (device : Int)
    (hfd : fm.denoising_tiles.length + 1 ≤ fuel) (hfr : fm.render_tiles.length + 1 ≤ fuel)
    (hld : fm.denoising_tiles.length < 2 ^ 63) (hlr : fm.render_tiles.length < 2 ^ 63)
    (hdev : -(2 ^ 63 : Int) ≤ device) (hdev2 : device < 2 ^ 63)
    (hvd : queues_valid fm fm.denoising_tiles) (hvr : queues_valid fm fm.render_tiles) :
    (∀ i, eligible_queue (next_tile_preserve fm device) device fm.denoising_tiles = some i →
      ∃ fm', next_tile fuel fm device true true =
          some (some (queue_front fm.denoising_tiles i), fm') ∧
        fm.denoising_tiles.getD i [] =
          queue_front fm.denoising_tiles i :: fm'.denoising_tiles.getD i [] ∧
        fm'.denoising_tiles = queue_pop fm.denoising_tiles i ∧
        fm'.render_tiles = fm.render_tiles) ∧
    (∀ r fm', next_tile fuel fm device true true = some (r, fm') →
      fm'.render_tiles ≠ fm.render_tiles →
      eligible_queue (next_tile_preserve fm device) device fm.denoising_tiles = none) := by
  have heq := next_tile_eq fuel fm device true true hdev hdev2
    (fun _ => ⟨hfd, hld, hvd⟩) (fun _ => ⟨hfr, hlr, hvr⟩)
  constructor
  · intro i hi
    obtain ⟨h1, h2, -⟩ := (eligible_queue_some _ _ _ _).1 hi
    obtain ⟨e, -, -⟩ := queue_front_pop fm.denoising_tiles i h1 h2
    refine ⟨{ fm with denoising_tiles := queue_pop fm.denoising_tiles i }, ?_, e, rfl, rfl⟩
    rw [heq]
    unfold next_tile_served
    rw [if_pos rfl, hi]
  · intro r fm' hrun hne
    rw [heq] at hrun
    have hrun2 : next_tile_served fm device true true = (r, fm') := Option.some.inj hrun
    unfold next_tile_served at hrun2
    rw [if_pos rfl] at hrun2
    cases hd : eligible_queue (next_tile_preserve fm device) device fm.denoising_tiles with
    | none => rfl
    | some i =>
      rw [hd] at hrun2
      simp only [Prod.mk.injEq] at hrun2
      exact absurd (by rw [← hrun2.2]) hne

theorem next_tile_prefers_denoise_witness :
    ∃ fm', next_tile 3 queue_fixture 0 true true =
        some (some (queue_front queue_fixture.denoising_tiles 1), fm') ∧
      queue_fixture.denoising_tiles.getD 1 [] =
        queue_front queue_fixture.denoising_tiles 1 :: fm'.denoising_tiles.getD 1 [] ∧
      fm'.denoising_tiles = queue_pop queue_fixture.denoising_tiles 1 ∧
      fm'.render_tiles = queue_fixture.render_tiles :=
  (next_tile_prefers_denoise 3 queue_fixture 0 (by decide) (by decide) (by decide)
    (by decide) (by decide) (by decide) (by unfold queues_valid; decide)
    (by unfold queues_valid; decide)).1 1 (by decide)


/-! ## Draining the render queues -/

/-- The first queue that is not empty holds the first of all queued indices. -/
theorem flatten_front_pop (qs : List (List Int)) :
    ∀ i : Nat, i < qs.length → qs.getD i [] ≠ [] → (∀ j, j < i → qs.getD j [] = []) →
      qs.flatten = queue_front qs i :: (queue_pop qs i).flatten := by
  induction qs with
  | nil => intro i hi; simp at hi
  | cons a t ih =>
    intro i hi hne hall
    cases i with
    | zero =>
      cases a with
      | nil => simp at hne
      | cons x r => simp [queue_front, queue_pop]
    | succ j =>
      have ha : a = [] := by simpa using hall 0 (by omega)
      have := ih j (by simpa using hi) (by simpa using hne)
        (fun k hk => by simpa using hall (k + 1) (by omega))
      subst ha
      simp only [List.flatten_cons, List.nil_append]
      rw [this]
      simp [queue_front, queue_pop]

/-- The queues hold tile indices exactly when every queued index is one. -/
theorem queues_valid_flatten (fm : TileManagerFull) (queues : List (List Int)) :
    queues_valid fm queues ↔ ∀ x ∈ queues.flatten, 0 ≤ x ∧ x.toNat < fm.tiles.length := by
  unfold queues_valid
  constructor
  · intro h x hx
    obtain ⟨q, hq, hxq⟩ := List.mem_flatten.1 hx
    exact h q hq x hxq
  · intro h q hq x hx
    exact h x (List.mem_flatten.2 ⟨q, hq, hx⟩)

/-- Without device preservation, as many `next_tile(PATH_TRACE)` calls as there are queued
render tiles return the queued indices queue by queue, each queue front to back, and leave
every queue empty. -/
theorem next_tiles_drain (fuel : Nat) :
    ∀ (ds : List Int) (fm : TileManagerFull),
      ds.length = fm.render_tiles.flatten.length →
      fm.render_tiles.length + 1 ≤ fuel → fm.render_tiles.length < 2 ^ 63 →
      queues_valid fm fm.render_tiles →
      (∀ d ∈ ds, next_tile_preserve fm d = false ∧ -(2 ^ 63 : Int) ≤ d ∧ d < 2 ^ 63) →
      ∃ fm', next_tiles fuel false true ds fm = some (fm.render_tiles.flatten.map some, fm') ∧
        fm'.render_tiles.flatten = [] ∧ fm'.render_tiles.length = fm.render_tiles.length ∧
        fm'.tiles = fm.tiles ∧ fm'.preserve_tile_device = fm.preserve_tile_device ∧
        fm'.num_devices = fm.num_devices ∧ fm'.denoising_tiles = fm.denoising_tiles := by
  intro ds
  induction ds with
  | nil =>
    intro fm hlen _ _ _ _
    have hnil : fm.render_tiles.flatten = [] := List.length_eq_zero.1 hlen.symm
    exact ⟨fm, by rw [hnil]; rfl, hnil, rfl, rfl, rfl, rfl, rfl⟩
  | cons d ds ih =>
    intro fm hlen hfuel hl hv hds
    obtain ⟨hp, hd1, hd2⟩ := hds d (List.mem_cons_self _ _)
    have heq := next_tile_eq fuel fm d false true hd1 hd2 (fun h => by cases h)
      (fun _ => ⟨hfuel, hl, hv⟩)
    cases he : eligible_queue false d fm.render_tiles with
    | none =>
      have hall := (eligible_queue_none false d fm.render_tiles).1 he
      simp only [Bool.false_eq_true, if_false] at hall
      have hnil : fm.render_tiles.flatten = [] := by
        rw [List.flatten_eq_nil_iff]
        exact hall
      rw [hnil] at hlen
      simp at hlen
    | some i =>
      obtain ⟨h1, h2, h3⟩ := (eligible_queue_some false d fm.render_tiles i).1 he
      simp only [Bool.false_eq_true, if_false] at h3
      have hflat := flatten_front_pop fm.render_tiles i h1 h2 h3
      have hserved : next_tile_served fm d false true =
          (some (queue_front fm.render_tiles i),
            { fm with render_tiles := queue_pop fm.render_tiles i }) := by
        unfold next_tile_served
        rw [hp]
        simp only [Bool.false_eq_true, if_false, if_true, he]
      obtain ⟨-, lpop, -⟩ := queue_front_pop fm.render_tiles i h1 h2
      obtain ⟨fm', hrun, r1, r2, r3, r4, r5, r6⟩ := ih
        { fm with render_tiles := queue_pop fm.render_tiles i }
        (by
          show ds.length = (queue_pop fm.render_tiles i).flatten.length
          have := congrArg List.length hflat
          simp only [List.length_cons] at this hlen
          omega)
        (by show (queue_pop fm.render_tiles i).length + 1 ≤ fuel; rw [lpop]; exact hfuel)
        (by show (queue_pop fm.render_tiles i).length < 2 ^ 63; rw [lpop]; exact hl)
        (by
          rw [queues_valid_flatten] at hv ⊢
          intro x hx
          exact hv x (by rw [hflat]; exact List.mem_cons_of_mem _ hx))
        (fun d' hd' => hds d' (List.mem_cons_of_mem _ hd'))
      refine ⟨fm', ?_, r1, by rw [r2]; exact lpop, r3, r4, r5, r6⟩
      simp only [next_tiles, heq, hserved, hrun]
      rw [hflat]
      rfl

/-- With every queue empty `next_tile(PATH_TRACE)` returns false and changes nothing. -/
theorem next_tile_drained (fuel : Nat) (fm : TileManagerFull) (d : Int)
    (hnil : fm.render_tiles.flatten = []) (hfuel : fm.render_tiles.length + 1 ≤ fuel)
    (hl : fm.render_tiles.length < 2 ^ 63)
    (hd : next_tile_preserve fm d = false ∧ -(2 ^ 63 : Int) ≤ d ∧ d < 2 ^ 63) :
    next_tile fuel fm d false true = some (none, fm) := by
  have hv : queues_valid fm fm.render_tiles := by
    rw [queues_valid_flatten, hnil]
    intro x hx
    cases hx
  rw [next_tile_eq fuel fm d false true hd.2.1 hd.2.2 (fun h => by cases h)
    (fun _ => ⟨hfuel, hl, hv⟩)]
  have he : eligible_queue false d fm.render_tiles = none := by
    rw [eligible_queue_none]
    simp only [Bool.false_eq_true, if_false]
    exact List.flatten_eq_nil_iff.1 hnil
  unfold next_tile_served
  rw [hd.1]
  simp only [Bool.false_eq_true, if_false, if_true, he]


/-! ## The queued indices of the raster generator -/

/-- Queues that agree up to the order within each queue hold the same indices. -/
theorem flatten_perm_pointwise (qs : List (List Int)) :
    ∀ qs' : List (List Int), qs'.length = qs.length →
      (∀ q, (qs'.getD q []).Perm (qs.getD q [])) → qs'.flatten.Perm qs.flatten := by
  induction qs with
  | nil =>
    intro qs' hlen _
    rw [List.length_eq_zero.1 hlen]
  | cons a t ih =>
    intro qs' hlen h
    cases qs' with
    | nil => simp at hlen
    | cons a' t' =>
      have h0 : a'.Perm a := by simpa using h 0
      have ht := ih t' (by simpa using hlen) (fun q => by simpa using h (q + 1))
      simp only [List.flatten_cons]
      exact h0.append ht

/-- Appending `x` to queue `i` adds `x` to the queued indices. -/
theorem flatten_set_append_perm (qs : List (List Int)) (i : Nat) (x : Int)
    (hi : i < qs.length) :
    (qs.set i (qs.getD i [] ++ [x])).flatten.Perm (qs.flatten ++ [x]) := by
  induction qs generalizing i with
  | nil => simp at hi
  | cons q qs ih =>
    cases i with
    | zero =>
      simp only [List.set_cons_zero, List.flatten_cons, List.getD_cons_zero]
      rw [List.append_assoc, List.append_assoc]
      exact List.Perm.append_left q List.perm_append_comm
    | succ j =>
      have h := ih j (by simpa using hi)
      simp only [List.set_cons_succ, List.flatten_cons, List.getD_cons_succ]
      rw [List.append_assoc]
      exact List.Perm.append_left q h

/-- One pass through the body of the innermost raster loop queues the index `idx`. -/
theorem gen_tiles_tile_queued {fm : TileManagerFull} {sliced : Bool} {image_w : Int}
    {center : int2} {tile_w tile_h slice slice_y slice_h tpd tile_y tile_x : Int}
    {s s' : GenState}
    (h : gen_tiles_tile fm sliced image_w center tile_w tile_h slice slice_y slice_h tpd
      tile_y tile_x s = some s') (hQ : raster_queued s) : raster_queued s' := by
  obtain ⟨hlt, t1, t2, t3, t4, -, -, -⟩ := gen_tiles_tile_some h
  obtain ⟨c, c1, c2, c3⟩ := hQ
  refine ⟨c + 1, by rw [t2, c1]; push_cast; rfl, by rw [t1]; simp [c2], ?_⟩
  have hp1 : s'.render_tiles.flatten.Perm
      (s.render_tiles.set s.tile_list (s.render_tiles.getD s.tile_list [] ++ [s.idx])).flatten := by
    apply flatten_perm_pointwise
    · simp [t3]
    · intro q
      rw [getD_set_append _ _ _ hlt]
      by_cases hq : q = s.tile_list
      · rw [if_pos hq]
        have := t4 q
        rw [if_pos hq, hq] at this
        rw [hq]
        exact this
      · rw [if_neg hq]
        have := t4 q
        rw [if_neg hq] at this
        exact this
  refine hp1.trans ((flatten_set_append_perm _ _ _ hlt).trans ?_)
  rw [List.range_succ, List.map_append, c1]
  exact List.Perm.append_right _ c3

/-- A row of the raster loops keeps `raster_queued`. -/
theorem gen_tiles_row_queued {fm : TileManagerFull} {sliced : Bool} {image_w : Int}
    {center : int2} {tile_w tile_h slice slice_y slice_h tpd tile_y : Int} {s s' : GenState}
    (h : gen_tiles_row fm sliced image_w center tile_w tile_h slice slice_y slice_h tpd tile_y
      s = some s') (hQ : raster_queued s) : raster_queued s' := by
  unfold gen_tiles_row at h
  refine foldlM_range_preserves _ (fun _ st => raster_queued st) _ s s' hQ ?_ h
  exact fun k st st' _ hP hb => gen_tiles_tile_queued hb hP

/-- A slice of the raster loops keeps `raster_queued`. -/
theorem gen_tiles_slice_queued {fm : TileManagerFull} {sliced : Bool} {image_w image_h : Int}
    {center : int2} {num slice_num tile_w slice : Int} {s s' : GenState}
    (h : gen_tiles_slice fm sliced image_w image_h center num slice_num tile_w slice s =
      some s') (hQ : raster_queued s) : raster_queued s' := by
  unfold gen_tiles_slice at h
  simp only at h
  split at h
  · cases h
  · rename_i s1 hs1
    have hQ' : raster_queued { s with cur_device := 0, cur_tiles := 0 } := hQ
    have h1 : raster_queued s1 := by
      refine foldlM_range_preserves _ (fun _ st => raster_queued st) _ _ s1 hQ' ?_ hs1
      exact fun k st st' _ hP hb => gen_tiles_row_queued hb hP
    cases Option.some.inj h
    split_ifs
    · exact h1
    · exact h1

/-- The raster branch of `gen_tiles`, when it returns, returns the number of tiles and
leaves each of their indices once in the render queues. -/
theorem gen_tiles_raster_queued (fuel : Nat) (junk : Tile) (fm : TileManagerFull)
    (sliced : Bool) (T : Int) (fm1 : TileManagerFull)
    (hord : fm.tile_order ≠ TileOrder.TILE_HILBERT_SPIRAL)
    (hrun : gen_tiles fuel junk fm sliced = some (T, fm1)) :
    0 ≤ T ∧ fm1.tiles.length = T.toNat ∧
    fm1.render_tiles.flatten.Perm ((List.range T.toNat).map Int.ofNat) := by
  by_cases hnum : gen_tiles_num fm sliced < 0
  · unfold gen_tiles at hrun
    simp only [gen_tiles_num, gen_tiles_image_h] at hnum
    simp only [hnum, if_true] at hrun
    cases hrun
  · cases hs : (List.range (gen_tiles_slice_num fm sliced).toNat).foldlM
        (fun st (slice : Nat) => gen_tiles_slice fm sliced (gen_tiles_image_w fm)
          (gen_tiles_image_h fm)
          { x := (gen_tiles_image_w fm).tdiv 2, y := (gen_tiles_image_h fm).tdiv 2 }
          (gen_tiles_num fm sliced) (gen_tiles_slice_num fm sliced) (gen_tiles_tile_w fm)
          (slice : Int) st) (gen_tiles_start fm sliced) with
    | none =>
      unfold gen_tiles at hrun
      simp only [gen_tiles_num, gen_tiles_slice_num, gen_tiles_image_w, gen_tiles_image_h,
        gen_tiles_tile_w, gen_tiles_start] at hnum hs
      simp only [hord, if_false, hnum, device_free, hs] at hrun
      cases hrun
    | some s1 =>
      obtain ⟨fm', g1, g2, g3, -⟩ := gen_tiles_raster_run fuel junk fm sliced hord
        (by omega) s1 hs
      rw [hrun] at g1
      obtain ⟨e1, e2⟩ := Prod.mk.inj (Option.some.inj g1)
      have hQ0 : raster_queued (gen_tiles_start fm sliced) := by
        refine ⟨0, rfl, rfl, ?_⟩
        show (List.replicate _ ([] : List Int)).flatten.Perm _
        rw [flatten_replicate_nil]
        exact List.Perm.refl _
      obtain ⟨c, c1, c2, c3⟩ : raster_queued s1 := by
        refine foldlM_range_preserves _ (fun _ st => raster_queued st) _ _ s1 hQ0 ?_ hs
        exact fun k st st' _ hP hb => gen_tiles_slice_queued hb hP
      rw [e1, c1, e2, g2, g3]
      exact ⟨Int.ofNat_nonneg c, by simpa using c2, by simpa using c3⟩


/-! ## More fuel does not change `gen_tiles` -/

/-- More fuel does not change a result of `hilbert_index_to_pos`. -/
theorem hilbert_index_to_pos_fuel_le (n d : Int) (r : int2) (f f' : Nat) (hff : f ≤ f')
    (h : hilbert_index_to_pos f n d = some r) : hilbert_index_to_pos f' n d = some r := by
  induction f', hff using Nat.le_induction with
  | base => exact h
  | succ k _ ih => exact hilbert_index_to_pos_loop_mono n k _ _ _ _ ih

/-- A loop whose body is replaced by one that returns at least the same results returns the
same result. -/
theorem foldlM_some_mono {σ α : Type} (body body' : σ → α → Option σ)
    (hb : ∀ s x s', body s x = some s' → body' s x = some s') (l : List α) :
    ∀ s r, l.foldlM body s = some r → l.foldlM body' s = some r := by
  induction l with
  | nil => intro s r h; exact h
  | cons x l ih =>
    intro s r h
    simp only [List.foldlM_cons] at h ⊢
    cases hx : body s x with
    | none => rw [hx] at h; cases h
    | some s1 =>
      rw [hx] at h
      rw [hb s x s1 hx]
      exact ih s1 r h

/-- More fuel for the Hilbert curve does not change the body of the loop over
`hilbert_index`. -/
theorem gen_tiles_hilbert_tile_mono (f f' : Nat) (hff : f ≤ f') (fm : TileManagerFull)
    (image_w image_h tile_w hs tpd : Int) (block_size offset block : int2)
    (prev_dir dir : SpiralDirection) (k : Int) (s s' : GenState)
    (h : gen_tiles_hilbert_tile f fm image_w image_h tile_w hs tpd block_size offset block
      prev_dir dir k s = some s') :
    gen_tiles_hilbert_tile f' fm image_w image_h tile_w hs tpd block_size offset block
      prev_dir dir k s = some s' := by
  unfold gen_tiles_hilbert_tile at h ⊢
  cases hp : hilbert_index_to_pos f hs k with
  | none => rw [hp] at h; cases h
  | some p =>
    rw [hp] at h
    rw [hilbert_index_to_pos_fuel_le hs k p f f' hff hp]
    exact h

/-- More fuel does not change a result of the spiral loop. -/
theorem gen_tiles_spiral_mono (hf hf' : Nat) (hff : hf ≤ hf') (fm : TileManagerFull)
    (image_w image_h tile_w hs tpd : Int) (block_size offset : int2) (n : Int) (fuel : Nat) :
    ∀ (fuel' : Nat) (s r : SpiralState), fuel ≤ fuel' →
      gen_tiles_spiral hf fm image_w image_h tile_w hs tpd block_size offset n fuel s =
        some r →
      gen_tiles_spiral hf' fm image_w image_h tile_w hs tpd block_size offset n fuel' s =
        some r := by
  induction fuel with
  | zero =>
    intro fuel' s r _ h
    unfold gen_tiles_spiral at h
    cases h
  | succ f ih =>
    intro fuel' s r hle h
    obtain ⟨f', rfl⟩ : ∃ f', fuel' = f' + 1 := ⟨fuel' - 1, by omega⟩
    unfold gen_tiles_spiral at h ⊢
    cases hb : (List.range (hs * hs).toNat).foldlM
        (fun st (hilbert_index : Nat) => gen_tiles_hilbert_tile hf fm image_w image_h tile_w
          hs tpd block_size offset s.block s.prev_dir s.dir (hilbert_index : Int) st)
        s.gen with
    | none => rw [hb] at h; cases h
    | some g =>
      rw [hb] at h
      have hb' := foldlM_some_mono _
        (fun st (hilbert_index : Nat) => gen_tiles_hilbert_tile hf' fm image_w image_h tile_w
          hs tpd block_size offset s.block s.prev_dir s.dir (hilbert_index : Int) st)
        (fun st x st' hx => gen_tiles_hilbert_tile_mono hf hf' hff fm image_w image_h tile_w
          hs tpd block_size offset s.block s.prev_dir s.dir (x : Int) st st' hx) _ _ _ hb
      rw [hb']
      simp only at h ⊢
      split_ifs at h ⊢ with hc
      · exact h
      · exact ih f' _ r (by omega) h

/-- The Hilbert branch of `gen_tiles` returns only in non-sliced mode without overlap, and
only when the spiral loop returns. -/
theorem gen_tiles_hilbert_some (fuel : Nat) (junk : Tile) (fm : TileManagerFull)
    (sliced : Bool) (r : Int × TileManagerFull)
    (hord : fm.tile_order = TileOrder.TILE_HILBERT_SPIRAL)
    (h : gen_tiles fuel junk fm sliced = some r) :
    sliced = false ∧ fm.slice_overlap = 0 ∧ 0 ≤ gen_tiles_num fm false ∧
    0 ≤ gen_tiles_tile_w fm * gen_tiles_tile_h fm (gen_tiles_image_h fm) ∧
    ∃ s1, gen_tiles_spiral fuel fm (gen_tiles_image_w fm) (gen_tiles_image_h fm)
        (gen_tiles_tile_w fm) (gen_tiles_hilbert_size fm)
        (divide_up (gen_tiles_tile_w fm * gen_tiles_tile_h fm (gen_tiles_image_h fm))
          (gen_tiles_num fm false))
        (gen_tiles_block_size fm) (gen_tiles_offset fm) (gen_tiles_n fm) fuel
        (gen_tiles_spiral_start junk fm) = some s1 := by
  have hsl : sliced = false := by
    cases hs : sliced with
    | false => rfl
    | true =>
      rw [hs] at h
      unfold gen_tiles at h
      simp only [hord, if_true, true_or] at h
      split_ifs at h
  subst hsl
  have hov : fm.slice_overlap = 0 := by
    by_contra hne
    unfold gen_tiles at h
    simp only [hord, if_true, hne, ne_eq, not_false_eq_true, or_true] at h
    split_ifs at h
  have hnum : 0 ≤ gen_tiles_num fm false := by
    by_contra hneg
    have hlt : gen_tiles_num fm false < 0 := by omega
    unfold gen_tiles at h
    simp only [gen_tiles_num, gen_tiles_image_h] at hlt
    simp only [hlt, if_true] at h
    cases h
  have hT : 0 ≤ gen_tiles_tile_w fm * gen_tiles_tile_h fm (gen_tiles_image_h fm) := by
    by_contra hneg
    have hlt : gen_tiles_tile_w fm * gen_tiles_tile_h fm (gen_tiles_image_h fm) < 0 := by omega
    have hge := not_lt.2 hnum
    unfold gen_tiles at h
    simp only [gen_tiles_num, gen_tiles_image_w, gen_tiles_image_h, gen_tiles_tile_w,
      gen_tiles_tile_h] at hlt hge
    simp only [hord, hov, if_true, hge, hlt, if_false, Bool.false_eq_true, false_or, ne_eq,
      not_true_eq_false] at h
    cases h
  refine ⟨rfl, hov, hnum, hT, ?_⟩
  cases hs : gen_tiles_spiral fuel fm (gen_tiles_image_w fm) (gen_tiles_image_h fm)
      (gen_tiles_tile_w fm) (gen_tiles_hilbert_size fm)
      (divide_up (gen_tiles_tile_w fm * gen_tiles_tile_h fm (gen_tiles_image_h fm))
        (gen_tiles_num fm false))
      (gen_tiles_block_size fm) (gen_tiles_offset fm) (gen_tiles_n fm) fuel
      (gen_tiles_spiral_start junk fm) with
  | some s1 => exact ⟨s1, rfl⟩
  | none =>
    exfalso
    have hge := not_lt.2 hnum
    have hTge := not_lt.2 hT
    unfold gen_tiles at h
    simp only [gen_tiles_num, gen_tiles_image_w, gen_tiles_image_h, gen_tiles_tile_w,
      gen_tiles_tile_h, gen_tiles_hilbert_size, gen_tiles_block_size, gen_tiles_offset,
      gen_tiles_n, gen_tiles_blocks, gen_tiles_spiral_start] at hge hTge hs
    simp only [hord, hov, if_true, hge, hTge, device_free, hs, if_false,
      Bool.false_eq_true, false_or, ne_eq, not_true_eq_false] at h
    cases h

/-- The render queues and the tiles after `gen_tiles`, for every tile order and both modes:
when `gen_tiles` returns `T`, there are `T` tiles and the render queues hold, taken
together, each index of `[0, T)` once. -/
theorem gen_tiles_queued (fuel : Nat) (junk : Tile) (fm : TileManagerFull) (sliced : Bool)
    (T : Int) (fm1 : TileManagerFull)
    (htx : 1 ≤ fm.tile_size.x) (hty : 1 ≤ fm.tile_size.y)
    (hnum : 1 ≤ gen_tiles_num fm sliced)
    (hrun : gen_tiles fuel junk fm sliced = some (T, fm1)) :
    0 ≤ T ∧ fm1.tiles.length = T.toNat ∧
    fm1.render_tiles.flatten.Perm ((List.range T.toNat).map Int.ofNat) := by
  by_cases hord : fm.tile_order = TileOrder.TILE_HILBERT_SPIRAL
  · obtain ⟨hsl, hov, hn0, hT, s1, hs1⟩ := gen_tiles_hilbert_some fuel junk fm sliced _ hord hrun
    subst hsl
    obtain ⟨fm', g1, g2, g3⟩ := gen_tiles_hilbert_run fuel junk fm hord hov hn0 hT s1 hs1
    rw [hrun] at g1
    obtain ⟨e1, e2⟩ := Prod.mk.inj (Option.some.inj g1)
    obtain ⟨fuel0, hall⟩ := gen_tiles_hilbert_perm junk fm htx hty hnum hord hov
    obtain ⟨fm2, k1, k2, k3, -⟩ := hall (max fuel fuel0) (le_max_right _ _)
    have hs2 := gen_tiles_spiral_mono fuel (max fuel fuel0) (le_max_left _ _) fm
      (gen_tiles_image_w fm) (gen_tiles_image_h fm) (gen_tiles_tile_w fm)
      (gen_tiles_hilbert_size fm)
      (divide_up (gen_tiles_tile_w fm * gen_tiles_tile_h fm (gen_tiles_image_h fm))
        (gen_tiles_num fm false))
      (gen_tiles_block_size fm) (gen_tiles_offset fm) (gen_tiles_n fm) fuel
      (max fuel fuel0) (gen_tiles_spiral_start junk fm) s1 (le_max_left _ _) hs1
    obtain ⟨fm3, m1, m2, m3⟩ := gen_tiles_hilbert_run (max fuel fuel0) junk fm hord hov hn0 hT
      s1 hs2
    rw [k1] at m1
    obtain ⟨-, e3⟩ := Prod.mk.inj (Option.some.inj m1)
    rw [e3, m3] at k2
    rw [e3, m2] at k3
    rw [e1, e2, g2, g3]
    exact ⟨hT, k3, k2⟩
  · exact gen_tiles_raster_queued fuel junk fm sliced T fm1 hord hrun


/-! ## Every tile is handed out once -/

/-- C28: each tile is handed out exactly once, in queue order.  When `gen_tiles` has returned
`T` (any tile order, sliced or not), `T` consecutive calls `next_tile(PATH_TRACE)` without
device preservation all return a tile; the tiles returned are the entries of the render
queues, queue after queue and each queue from front to back; together they are every index
of `[0, T)` exactly once; and the next call returns false and changes nothing. -/
theorem next_tile_hands_out_each_tile_once (fuel nfuel : Nat) (junk : Tile)
    (fm : TileManagerFull) (sliced : Bool) (T : Int) (fm1 : TileManagerFull)
    (ds : List Int) (d : Int)
    (htx : 1 ≤ fm.tile_size.x) (hty : 1 ≤ fm.tile_size.y)
    (hnum : 1 ≤ gen_tiles_num fm sliced)
    (hrun : gen_tiles fuel junk fm sliced = some (T, fm1))
    (hds : ds.length = T.toNat)
    (hdev : ∀ d' ∈ d :: ds,
      next_tile_preserve fm1 d' = false ∧ -(2 ^ 63 : Int) ≤ d' ∧ d' < 2 ^ 63)
    (hnf : fm1.render_tiles.length + 1 ≤ nfuel) (hlen : fm1.render_tiles.length < 2 ^ 63) :
    0 ≤ T ∧
    ∃ fm2, next_tiles nfuel false true ds fm1 =
        some (fm1.render_tiles.flatten.map some, fm2) ∧
      fm1.render_tiles.flatten.Perm ((List.range T.toNat).map Int.ofNat) ∧
      next_tile nfuel fm2 d false true = some (none, fm2) := by
  obtain ⟨hT, htl, hperm⟩ := gen_tiles_queued fuel junk fm sliced T fm1 htx hty hnum hrun
  have hv : queues_valid fm1 fm1.render_tiles := by
    rw [queues_valid_flatten]
    intro x hx
    obtain ⟨k, hk, rfl⟩ := List.mem_map.1 (hperm.mem_iff.1 hx)
    have := List.mem_range.1 hk
    refine ⟨Int.ofNat_nonneg k, ?_⟩
    rw [htl]
    simpa using this
  obtain ⟨fm2, r0, r1, r2, r3, r4, r5, r6⟩ := next_tiles_drain nfuel ds fm1
    (by rw [hds, hperm.length_eq]; simp) hnf hlen hv
    (fun d' hd' => hdev d' (List.mem_cons_of_mem _ hd'))
  refine ⟨hT, fm2, r0, hperm, ?_⟩
  obtain ⟨p1, p2, p3⟩ := hdev d (List.mem_cons_self _ _)
  refine next_tile_drained nfuel fm2 d r1 (by rw [r2]; exact hnf) (by rw [r2]; exact hlen)
    ⟨?_, p2, p3⟩
  unfold next_tile_preserve at p1 ⊢
  rw [r4, r5]
  exact p1

theorem next_tile_hands_out_each_tile_once_witness :
    0 ≤ (5 : Int) ∧
    ∃ fm2, next_tiles 3 false true [2, 2, 2, 2, 2] raster_generated =
        some (raster_generated.render_tiles.flatten.map some, fm2) ∧
      raster_generated.render_tiles.flatten.Perm
        ((List.range (5 : Int).toNat).map Int.ofNat) ∧
      next_tile 3 fm2 2 false true = some (none, fm2) :=
  next_tile_hands_out_each_tile_once 0 3 junk_tile raster_fixture false 5 raster_generated
    [2, 2, 2, 2, 2] 2 (by decide) (by decide) (by decide) (by decide) (by decide) (by decide)
    (by decide) (by decide)


/-! ## The steps of `finish_tile` -/

theorem frame_eq_refl (fm : TileManagerFull) : frame_eq fm fm := rfl

theorem frame_eq_trans {a b c : TileManagerFull} (h1 : frame_eq a b) (h2 : frame_eq b c) :
    frame_eq a c := by
  unfold frame_eq at *
  rw [h2, h1]

/-- What `frame_eq` keeps: the neighbour function and the flags of `finish_tile`. -/
theorem frame_eq_spec {fm fm' : TileManagerFull} (h : frame_eq fm fm') :
    (∀ i n, get_neighbor_index fm' i n = get_neighbor_index fm i n) ∧
    fm'.progressive = fm.progressive ∧ fm'.schedule_denoising = fm.schedule_denoising ∧
    fm'.render_tiles = fm.render_tiles ∧
    neighbor_tile_w fm' = neighbor_tile_w fm ∧ neighbor_tile_h fm' = neighbor_tile_h fm ∧
    neighbor_slice_num fm' = neighbor_slice_num fm ∧ fm'.tile_stride = fm.tile_stride := by
  unfold frame_eq at h
  rw [h]
  exact ⟨fun i n => rfl, rfl, rfl, rfl, rfl, rfl, rfl, rfl⟩

theorem frame_eq_set_tile_state (fm : TileManagerFull) (j : Int) (st : Tile.State) :
    frame_eq fm (set_tile_state fm j st) := rfl

/-- The tile at `k` after the assignment `state.tiles[j].state = st`. -/
theorem tile_at_set_tile_state (fm : TileManagerFull) (j k : Int) (st : Tile.State)
    (hj : 0 ≤ j) :
    tile_at (set_tile_state fm j st) k =
      if k = j then (tile_at fm j).map (fun t => { t with state := st }) else tile_at fm k := by
  unfold tile_at set_tile_state
  by_cases hk : 0 ≤ k
  · simp only [hk, hj, if_true]
    by_cases e : k = j
    · subst e
      simp [List.getElem?_modify]
    · have hne : j.toNat ≠ k.toNat := by omega
      rw [if_neg e]
      simp [List.getElem?_modify, hne]
  · have e : k ≠ j := by omega
    simp [hk, e]

/-- The tile at `k` after the buffers of tile `j` are deleted. -/
theorem tile_at_free (fm : TileManagerFull) (j k : Int) (hj : 0 ≤ j) :
    tile_at { fm with tiles := fm.tiles.modify (fun t => { t with buffers := false }) j.toNat }
        k =
      if k = j then (tile_at fm j).map (fun t => { t with buffers := false })
      else tile_at fm k := by
  unfold tile_at
  by_cases hk : 0 ≤ k
  · simp only [hk, hj, if_true]
    by_cases e : k = j
    · subst e
      simp [List.getElem?_modify]
    · have hne : j.toNat ≠ k.toNat := by omega
      rw [if_neg e]
      simp [List.getElem?_modify, hne]
  · have e : k ≠ j := by omega
    simp [hk, e]

/-- `state_at_least` in terms of the tile. -/
theorem state_at_least_iff (fm : TileManagerFull) (j : Int) (m : Tile.State) :
    state_at_least fm j m = true ↔ ∃ t, tile_at fm j = some t ∧ m.rank ≤ t.state.rank := by
  unfold state_at_least
  cases h : tile_at fm j with
  | none => simp
  | some t => simp

/-- The test `closure_check` decides the closure check in words. -/
theorem closure_check_iff (fm : TileManagerFull) (j : Int) (m : Tile.State) :
    closure_check fm j m = true ↔ closure_ok fm j m := by
  unfold closure_check closure_ok
  simp only [Bool.and_eq_true, decide_eq_true_eq, List.all_eq_true, List.mem_range,
    Bool.or_eq_true, state_at_least_iff]
  constructor
  · rintro ⟨⟨h0, h1⟩, h2⟩
    refine ⟨h0, h1, fun n hn hnn => ?_⟩
    rcases h2 n hn with h | h
    · omega
    · exact h
  · rintro ⟨h0, h1, h2⟩
    refine ⟨⟨h0, h1⟩, fun n hn => ?_⟩
    by_cases hnn : get_neighbor_index fm j (n : Int) < 0
    · exact Or.inl hnn
    · exact Or.inr (h2 n hn (by omega))

/-- When `check_neighbor_state` returns, it returns the value of `closure_check`. -/
theorem check_neighbor_state_some {fm : TileManagerFull} {j : Int} {m : Tile.State} {b : Bool}
    (h : check_neighbor_state fm j m = some b) : b = closure_check fm j m := by
  cases b with
  | true =>
    exact ((closure_check_iff fm j m).2 ((check_neighbor_state_true fm j m).1 h)).symm
  | false =>
    cases hc : closure_check fm j m with
    | false => rfl
    | true =>
      have := (check_neighbor_state_true fm j m).2 ((closure_check_iff fm j m).1 hc)
      rw [this] at h
      cases h

/-- The promotion step of `finish_tile`, when it returns, promotes the neighbour if its
closure check holds and changes nothing otherwise. -/
theorem finish_tile_promote_some {index : Int} {fm fm' : TileManagerFull} {n : Nat}
    (h : finish_tile_promote index fm n = some fm') :
    fm' = (if closure_check fm (get_neighbor_index fm index (n : Int)) Tile.State.RENDERED
      then promote_tile fm (get_neighbor_index fm index (n : Int)) else fm) := by
  unfold finish_tile_promote at h
  simp only at h
  cases hc : check_neighbor_state fm (get_neighbor_index fm index (n : Int))
      Tile.State.RENDERED with
  | none => rw [hc] at h; cases h
  | some b =>
    have hb := check_neighbor_state_some hc
    rw [hc] at h
    cases b with
    | false =>
      simp only at h
      rw [← hb]
      simp only [Bool.false_eq_true, if_false]
      exact (Option.some.inj h).symm
    | true =>
      simp only at h
      rw [← hb, if_pos rfl]
      unfold promote_tile
      simp only
      cases ht : tile_at (set_tile_state fm (get_neighbor_index fm index (n : Int))
          Tile.State.DENOISE) (get_neighbor_index fm index (n : Int)) with
      | none => rw [ht] at h; cases h
      | some nt =>
        rw [ht] at h
        simp only at h
        split_ifs at h
        exact (Option.some.inj h).symm

/-- The release step of `finish_tile`, when it returns, releases the neighbour if its closure
check holds and changes nothing otherwise; `delete_tile` is set for the tile itself. -/
theorem finish_tile_release_some {index : Int} {acc acc' : Bool × TileManagerFull} {n : Nat}
    (h : finish_tile_release index acc n = some acc') :
    acc' = (if closure_check acc.2 (get_neighbor_index acc.2 index (n : Int))
        Tile.State.DENOISED then
      (if !acc.2.progressive ∧ n = 4 then true else acc.1,
        release_tile acc.2 (get_neighbor_index acc.2 index (n : Int))
          (!acc.2.progressive && decide (n ≠ 4)))
      else acc) := by
  unfold finish_tile_release at h
  simp only at h
  cases hc : check_neighbor_state acc.2 (get_neighbor_index acc.2 index (n : Int))
      Tile.State.DENOISED with
  | none => rw [hc] at h; cases h
  | some b =>
    have hb := check_neighbor_state_some hc
    rw [hc] at h
    cases b with
    | false =>
      simp only at h
      rw [← hb]
      simp only [Bool.false_eq_true, if_false]
      exact (Option.some.inj h).symm
    | true =>
      simp only at h
      rw [← hb, if_pos rfl]
      unfold release_tile
      have hp : (set_tile_state acc.2 (get_neighbor_index acc.2 index (n : Int))
          Tile.State.DONE).progressive = acc.2.progressive := rfl
      rw [hp] at h
      cases hpr : acc.2.progressive with
      | true =>
        rw [hpr] at h
        simp only [Bool.not_true, Bool.false_eq_true, if_false] at h
        simp only [Bool.not_true, Bool.false_eq_true, false_and, if_false, Bool.false_and]
        exact (Option.some.inj h).symm
      | false =>
        rw [hpr] at h
        simp only [Bool.not_false, if_true] at h
        by_cases h4 : n = 4
        · rw [if_pos h4] at h
          simp only [Bool.not_false, true_and, h4, if_true, ne_eq, not_true_eq_false,
            decide_False, Bool.and_false, Bool.false_eq_true, if_false]
          rw [h4] at h
          exact (Option.some.inj h).symm
        · rw [if_neg h4] at h
          simp only [Bool.not_false, true_and, h4, if_false, ne_eq, not_false_eq_true,
            decide_True, Bool.and_true, if_true]
          exact (Option.some.inj h).symm


/-! ## The effect of `finish_tile` on the tile states -/

theorem states_step_refl (lo : Nat) (new : Tile.State) (fm : TileManagerFull) :
    states_step lo new fm fm :=
  ⟨frame_eq_refl fm, rfl, fun _ => Or.inl rfl⟩

theorem states_step_trans {lo : Nat} {new : Tile.State} {a b c : TileManagerFull}
    (h1 : states_step lo new a b) (h2 : states_step lo new b c) : states_step lo new a c := by
  obtain ⟨f1, l1, s1⟩ := h1
  obtain ⟨f2, l2, s2⟩ := h2
  refine ⟨frame_eq_trans f1 f2, by rw [l2, l1], fun k => ?_⟩
  rcases s2 k with e2 | ⟨s, hs, hlo, hn⟩
  · rcases s1 k with e1 | ⟨s', hs', hlo', hn'⟩
    · exact Or.inl (by rw [e2, e1])
    · exact Or.inr ⟨s', hs', hlo', by rw [e2, hn']⟩
  · rcases s1 k with e1 | ⟨s', hs', hlo', hn'⟩
    · exact Or.inr ⟨s, by rw [← e1]; exact hs, hlo, hn⟩
    · exact Or.inr ⟨s', hs', hlo', hn⟩

/-- The state at `k` after the assignment `state.tiles[j].state = st`. -/
theorem tile_state_set_tile_state (fm : TileManagerFull) (j k : Int) (st : Tile.State)
    (hj : 0 ≤ j) :
    tile_state (set_tile_state fm j st) k =
      if k = j then (tile_state fm j).map (fun _ => st) else tile_state fm k := by
  unfold tile_state
  rw [tile_at_set_tile_state fm j k st hj]
  split_ifs
  · simp [Option.map_map, Function.comp_def]
  · rfl

/-- A closure check that holds is about an existing tile of the required rank. -/
theorem closure_check_tile {fm : TileManagerFull} {j : Int} {m : Tile.State}
    (h : closure_check fm j m = true) :
    0 ≤ j ∧ ∃ t, tile_at fm j = some t ∧ m.rank ≤ t.state.rank := by
  obtain ⟨h0, h1, -⟩ := (closure_check_iff fm j m).1 h
  exact ⟨h0, h1⟩

/-- The promotion of a tile whose closure check holds. -/
theorem promote_tile_step (fm : TileManagerFull) (j : Int)
    (h : closure_check fm j Tile.State.RENDERED = true) :
    states_step 1 Tile.State.DENOISE fm (promote_tile fm j) ∧
    tile_state (promote_tile fm j) j = some Tile.State.DENOISE := by
  obtain ⟨h0, t, ht, hr⟩ := closure_check_tile h
  have htile : ∀ k, tile_at (promote_tile fm j) k =
      tile_at (set_tile_state fm j Tile.State.DENOISE) k := by
    intro k
    unfold promote_tile
    simp only
    split <;> rfl
  have hst : ∀ k, tile_state (promote_tile fm j) k =
      if k = j then (tile_state fm j).map (fun _ => Tile.State.DENOISE)
      else tile_state fm k := by
    intro k
    rw [← tile_state_set_tile_state fm j k _ h0]
    unfold tile_state
    rw [htile]
  have hsj : tile_state fm j = some t.state := by
    unfold tile_state; rw [ht]; rfl
  refine ⟨⟨?_, ?_, fun k => ?_⟩, ?_⟩
  · unfold promote_tile
    simp only
    split <;> rfl
  · unfold promote_tile
    simp only
    split <;> simp [set_tile_state]
  · rw [hst]
    by_cases e : k = j
    · rw [if_pos e, e, hsj]
      exact Or.inr ⟨t.state, rfl, hr, rfl⟩
    · rw [if_neg e]
      exact Or.inl rfl
  · rw [hst, if_pos rfl, hsj]
    rfl

/-- The release of a tile whose closure check holds. -/
theorem release_tile_step (fm : TileManagerFull) (j : Int) (free : Bool)
    (h : closure_check fm j Tile.State.DENOISED = true) :
    states_step 3 Tile.State.DONE fm (release_tile fm j free) ∧
    tile_state (release_tile fm j free) j = some Tile.State.DONE := by
  obtain ⟨h0, t, ht, hr⟩ := closure_check_tile h
  have hst : ∀ k, tile_state (release_tile fm j free) k =
      if k = j then (tile_state fm j).map (fun _ => Tile.State.DONE)
      else tile_state fm k := by
    intro k
    rw [← tile_state_set_tile_state fm j k _ h0]
    unfold release_tile
    simp only
    cases free with
    | false => rfl
    | true =>
      simp only [if_true]
      unfold tile_state
      rw [tile_at_free _ j k h0]
      split_ifs with e
      · subst e
        simp [Option.map_map, Function.comp_def]
      · rfl
  have hsj : tile_state fm j = some t.state := by
    unfold tile_state; rw [ht]; rfl
  refine ⟨⟨?_, ?_, fun k => ?_⟩, ?_⟩
  · unfold release_tile
    simp only
    split <;> rfl
  · unfold release_tile
    simp only
    split <;> simp [set_tile_state]
  · rw [hst]
    by_cases e : k = j
    · rw [if_pos e, e, hsj]
      exact Or.inr ⟨t.state, rfl, hr, rfl⟩
    · rw [if_neg e]
      exact Or.inl rfl
  · rw [hst, if_pos rfl, hsj]
    rfl


/-! ## `finish_tile` against its description -/

/-- `state_at_least` in terms of the state. -/
theorem state_at_least_state (fm : TileManagerFull) (j : Int) (m : Tile.State) :
    state_at_least fm j m = true ↔ ∃ s, tile_state fm j = some s ∧ m.rank ≤ s.rank := by
  rw [state_at_least_iff]
  unfold tile_state
  constructor
  · rintro ⟨t, ht, h⟩
    exact ⟨t.state, by rw [ht]; rfl, h⟩
  · rintro ⟨s, hs, h⟩
    cases ht : tile_at fm j with
    | none => rw [ht] at hs; cases hs
    | some t =>
      rw [ht] at hs
      cases hs
      exact ⟨t, rfl, h⟩

/-- Setting tiles of rank at least `lo` to a state of rank at least that of `m` does not
change which tiles are at least in `m`, when `m` is at most of rank `lo`. -/
theorem states_step_at_least {lo : Nat} {new m : Tile.State} {fm fm' : TileManagerFull}
    (h : states_step lo new fm fm') (h1 : m.rank ≤ lo) (h2 : m.rank ≤ new.rank) (k : Int) :
    state_at_least fm' k m = state_at_least fm k m := by
  obtain ⟨-, -, hs⟩ := h
  rw [Bool.eq_iff_iff, state_at_least_state, state_at_least_state]
  rcases hs k with e | ⟨s, hs1, hlo, hn⟩
  · rw [e]
  · rw [hs1, hn]
    constructor
    · rintro ⟨s', e, _⟩
      exact ⟨s, rfl, by omega⟩
    · rintro ⟨s', e, _⟩
      exact ⟨new, rfl, h2⟩

/-- Under the hypotheses of `states_step_at_least` the closure checks do not change. -/
theorem states_step_closure {lo : Nat} {new m : Tile.State} {fm fm' : TileManagerFull}
    (h : states_step lo new fm fm') (h1 : m.rank ≤ lo) (h2 : m.rank ≤ new.rank) (j : Int) :
    closure_check fm' j m = closure_check fm j m := by
  obtain ⟨hn, -⟩ := frame_eq_spec h.1
  unfold closure_check
  simp only [hn, states_step_at_least h h1 h2]

/-- The promotion loop of `finish_tile`, when it returns, has done what
`finish_render_spec` describes. -/
theorem finish_tile_promote_fold (fm : TileManagerFull) (index : Int) (fm2 : TileManagerFull)
    (h : (List.range 9).foldlM (finish_tile_promote index)
      (set_tile_state fm index Tile.State.RENDERED) = some fm2) :
    fm2 = finish_render_spec fm index ∧
    states_step 1 Tile.State.DENOISE (set_tile_state fm index Tile.State.RENDERED) fm2 := by
  have hnb : ∀ i n, get_neighbor_index (set_tile_state fm index Tile.State.RENDERED) i n =
      get_neighbor_index fm i n := fun i n => rfl
  have key := foldlM_range_preserves (finish_tile_promote index)
    (fun k fm' =>
      fm' = (List.range k).foldl
        (fun acc (n : Nat) =>
          if closure_check (set_tile_state fm index Tile.State.RENDERED)
              (get_neighbor_index fm index (n : Int)) Tile.State.RENDERED then
            promote_tile acc (get_neighbor_index fm index (n : Int))
          else acc)
        (set_tile_state fm index Tile.State.RENDERED) ∧
      states_step 1 Tile.State.DENOISE (set_tile_state fm index Tile.State.RENDERED) fm')
    9 _ fm2 ⟨rfl, states_step_refl _ _ _⟩
    (by
      intro k s s' hk hP hb
      obtain ⟨he, hst⟩ := hP
      have hstep := finish_tile_promote_some hb
      obtain ⟨hn, -⟩ := frame_eq_spec hst.1
      rw [hn, hnb, states_step_closure hst (by decide) (by decide)] at hstep
      refine ⟨?_, ?_⟩
      · rw [List.range_succ, List.foldl_append, ← he]
        exact hstep
      · rw [hstep]
        split_ifs with hc
        · have hc' : closure_check s (get_neighbor_index fm index (k : Int))
              Tile.State.RENDERED = true := by
            rw [states_step_closure hst (by decide) (by decide)]; exact hc
          exact states_step_trans hst (promote_tile_step s _ hc').1
        · exact hst) h
  exact key

/-- The release loop of `finish_tile`, when it returns, has done what `finish_denoise_spec`
describes. -/
theorem finish_tile_release_fold (fm : TileManagerFull) (index : Int)
    (r : Bool × TileManagerFull)
    (h : (List.range 9).foldlM (finish_tile_release index)
      (false, set_tile_state fm index Tile.State.DENOISED) = some r) :
    r = finish_denoise_spec fm index ∧
    states_step 3 Tile.State.DONE (set_tile_state fm index Tile.State.DENOISED) r.2 := by
  have hnb : ∀ i n, get_neighbor_index (set_tile_state fm index Tile.State.DENOISED) i n =
      get_neighbor_index fm i n := fun i n => rfl
  have hpr : (set_tile_state fm index Tile.State.DENOISED).progressive = fm.progressive := rfl
  have key := foldlM_range_preserves (finish_tile_release index)
    (fun k (acc : Bool × TileManagerFull) =>
      acc = (List.range k).foldl
        (fun (acc : Bool × TileManagerFull) (n : Nat) =>
          if closure_check (set_tile_state fm index Tile.State.DENOISED)
              (get_neighbor_index fm index (n : Int)) Tile.State.DENOISED then
            (if !fm.progressive ∧ n = 4 then true else acc.1,
              release_tile acc.2 (get_neighbor_index fm index (n : Int))
                (!fm.progressive && decide (n ≠ 4)))
          else acc)
        (false, set_tile_state fm index Tile.State.DENOISED) ∧
      states_step 3 Tile.State.DONE (set_tile_state fm index Tile.State.DENOISED) acc.2)
    9 _ r ⟨rfl, states_step_refl _ _ _⟩
    (by
      intro k s s' hk hP hb
      obtain ⟨he, hst⟩ := hP
      have hstep := finish_tile_release_some hb
      obtain ⟨hn, hp, -⟩ := frame_eq_spec hst.1
      rw [hn, hnb, hp, hpr, states_step_closure hst (by decide) (by decide)] at hstep
      refine ⟨?_, ?_⟩
      · rw [List.range_succ, List.foldl_append, ← he]
        exact hstep
      · rw [hstep]
        split_ifs with hc
        all_goals first
          | exact hst
          | (have hc' : closure_check s.2 (get_neighbor_index fm index (k : Int))
                Tile.State.DENOISED = true := by
              rw [states_step_closure hst (by decide) (by decide)]; exact hc
             exact states_step_trans hst (release_tile_step s.2 _ _ hc').1)) h
  exact key


/-- The three ways in which a call of `finish_tile` returns. -/
theorem finish_tile_cases {fm : TileManagerFull} {index : Int} {nd w d : Bool}
    {fm' : TileManagerFull} (h : finish_tile fm index nd = some (w, d, fm')) :
    0 ≤ index ∧
    ((tile_state fm index = some Tile.State.RENDER ∧
        (fm.schedule_denoising && nd) = false ∧ w = true ∧ d = !fm.progressive ∧
        fm' = set_tile_state fm index Tile.State.DONE) ∨
     (tile_state fm index = some Tile.State.RENDER ∧
        (fm.schedule_denoising && nd) = true ∧ w = false ∧ d = false ∧
        fm' = finish_render_spec fm index ∧
        states_step 1 Tile.State.DENOISE (set_tile_state fm index Tile.State.RENDERED) fm') ∨
     (tile_state fm index = some Tile.State.DENOISE ∧ w = true ∧
        (d, fm') = finish_denoise_spec fm index ∧
        states_step 3 Tile.State.DONE (set_tile_state fm index Tile.State.DENOISED) fm')) := by
  unfold finish_tile at h
  cases ht : tile_at fm index with
  | none => rw [ht] at h; cases h
  | some t =>
    have h0 : 0 ≤ index := by
      unfold tile_at at ht
      by_contra hn
      rw [if_neg hn] at ht
      cases ht
    have hs : tile_state fm index = some t.state := by
      unfold tile_state; rw [ht]; rfl
    rw [ht] at h
    refine ⟨h0, ?_⟩
    cases hst : t.state with
    | RENDER =>
      rw [hst] at hs
      simp only [hst] at h
      cases hc : (fm.schedule_denoising && nd) with
      | false =>
        rw [hc] at h
        simp only [Bool.not_false, if_true, Option.some.injEq, Prod.mk.injEq] at h
        obtain ⟨rfl, rfl, rfl⟩ := h
        exact Or.inl ⟨hs, rfl, rfl, rfl, rfl⟩
      | true =>
        rw [hc] at h
        simp only [Bool.not_true, Bool.false_eq_true, if_false] at h
        cases hf : (List.range 9).foldlM (finish_tile_promote index)
            (set_tile_state fm index Tile.State.RENDERED) with
        | none => rw [hf] at h; cases h
        | some fm2 =>
          rw [hf] at h
          simp only [Option.some.injEq, Prod.mk.injEq] at h
          obtain ⟨rfl, rfl, rfl⟩ := h
          obtain ⟨e, hstep⟩ := finish_tile_promote_fold fm index fm2 hf
          exact Or.inr (Or.inl ⟨hs, rfl, rfl, rfl, e, hstep⟩)
    | DENOISE =>
      rw [hst] at hs
      simp only [hst] at h
      cases hf : (List.range 9).foldlM (finish_tile_release index)
          (false, set_tile_state fm index Tile.State.DENOISED) with
      | none => rw [hf] at h; cases h
      | some r =>
        rw [hf] at h
        obtain ⟨d2, fm2⟩ := r
        simp only [Option.some.injEq, Prod.mk.injEq] at h
        obtain ⟨rfl, rfl, rfl⟩ := h
        obtain ⟨e, hstep⟩ := finish_tile_release_fold fm index _ hf
        exact Or.inr (Or.inr ⟨hs, rfl, e, hstep⟩)
    | RENDERED => simp only [hst] at h; cases h
    | DENOISED => simp only [hst] at h; cases h
    | DONE => simp only [hst] at h; cases h

/-- What a call of `finish_tile` does to the state of one tile `k`: nothing, or one of the
five transitions of the state machine. -/
theorem finish_tile_transition {fm : TileManagerFull} {index : Int} {nd w d : Bool}
    {fm' : TileManagerFull} (h : finish_tile fm index nd = some (w, d, fm')) (k : Int) :
    frame_eq fm fm' ∧
    ((k ≠ index ∧ tile_state fm' k = tile_state fm k) ∨
     (k = index ∧ tile_state fm k = some Tile.State.RENDER ∧
        (fm.schedule_denoising && nd) = false ∧ tile_state fm' k = some Tile.State.DONE) ∨
     (k = index ∧ tile_state fm k = some Tile.State.RENDER ∧
        (fm.schedule_denoising && nd) = true ∧
        (tile_state fm' k = some Tile.State.RENDERED ∨
          tile_state fm' k = some Tile.State.DENOISE)) ∨
     (k ≠ index ∧ (∃ s, tile_state fm k = some s ∧ 1 ≤ s.rank) ∧
        tile_state fm index = some Tile.State.RENDER ∧
        (fm.schedule_denoising && nd) = true ∧ tile_state fm' k = some Tile.State.DENOISE) ∨
     (k = index ∧ tile_state fm k = some Tile.State.DENOISE ∧
        (tile_state fm' k = some Tile.State.DENOISED ∨
          tile_state fm' k = some Tile.State.DONE)) ∨
     (k ≠ index ∧ (∃ s, tile_state fm k = some s ∧ 3 ≤ s.rank) ∧
        tile_state fm index = some Tile.State.DENOISE ∧
        tile_state fm' k = some Tile.State.DONE)) := by
  obtain ⟨h0, hc⟩ := finish_tile_cases h
  rcases hc with ⟨hs, hnd, -, -, rfl⟩ | ⟨hs, hnd, -, -, -, hstep⟩ | ⟨hs, -, -, hstep⟩
  · refine ⟨frame_eq_set_tile_state _ _ _, ?_⟩
    rw [tile_state_set_tile_state fm index k _ h0]
    by_cases e : k = index
    · subst e
      rw [if_pos rfl, hs]
      exact Or.inr (Or.inl ⟨rfl, rfl, hnd, rfl⟩)
    · rw [if_neg e]
      exact Or.inl ⟨e, rfl⟩
  · refine ⟨frame_eq_trans (frame_eq_set_tile_state _ _ _) hstep.1, ?_⟩
    have h1 := hstep.2.2 k
    rw [tile_state_set_tile_state fm index k _ h0] at h1
    by_cases e : k = index
    · subst e
      simp only [if_true, hs, Option.map_some'] at h1
      rcases h1 with h1 | ⟨s, -, -, h1⟩
      · exact Or.inr (Or.inr (Or.inl ⟨rfl, hs, hnd, Or.inl h1⟩))
      · exact Or.inr (Or.inr (Or.inl ⟨rfl, hs, hnd, Or.inr h1⟩))
    · simp only [if_neg e] at h1
      rcases h1 with h1 | ⟨s, h2, h3, h1⟩
      · exact Or.inl ⟨e, h1⟩
      · exact Or.inr (Or.inr (Or.inr (Or.inl ⟨e, ⟨s, h2, h3⟩, hs, hnd, h1⟩)))
  · refine ⟨frame_eq_trans (frame_eq_set_tile_state _ _ _) hstep.1, ?_⟩
    have h1 := hstep.2.2 k
    rw [tile_state_set_tile_state fm index k _ h0] at h1
    by_cases e : k = index
    · subst e
      simp only [if_true, hs, Option.map_some'] at h1
      rcases h1 with h1 | ⟨s, -, -, h1⟩
      · exact Or.inr (Or.inr (Or.inr (Or.inr (Or.inl ⟨rfl, hs, Or.inl h1⟩))))
      · exact Or.inr (Or.inr (Or.inr (Or.inr (Or.inl ⟨rfl, hs, Or.inr h1⟩))))
    · simp only [if_neg e] at h1
      rcases h1 with h1 | ⟨s, h2, h3, h1⟩
      · exact Or.inl ⟨e, h1⟩
      · exact Or.inr (Or.inr (Or.inr (Or.inr (Or.inr ⟨e, ⟨s, h2, h3⟩, hs, h1⟩))))


/-! ## Promotion and release, tile by tile -/

/-- The tile at `k` after the promotion of tile `j`. -/
theorem tile_at_promote_tile (fm : TileManagerFull) (j k : Int) (hj : 0 ≤ j) :
    tile_at (promote_tile fm j) k =
      if k = j then (tile_at fm j).map (fun t => { t with state := Tile.State.DENOISE })
      else tile_at fm k := by
  rw [← tile_at_set_tile_state fm j k _ hj]
  unfold promote_tile
  simp only
  split <;> rfl

/-- The tile at `k` after the release of tile `j`. -/
theorem tile_at_release_tile (fm : TileManagerFull) (j k : Int) (free : Bool) (hj : 0 ≤ j) :
    tile_at (release_tile fm j free) k =
      if k = j then
        (tile_at fm j).map (fun t =>
          { t with state := Tile.State.DONE, buffers := if free then false else t.buffers })
      else tile_at fm k := by
  unfold release_tile
  simp only
  cases free with
  | false =>
    simp only [Bool.false_eq_true, if_false]
    rw [tile_at_set_tile_state fm j k _ hj]
  | true =>
    simp only [if_true]
    rw [tile_at_free _ j k hj, tile_at_set_tile_state fm j k _ hj,
      tile_at_set_tile_state fm j j _ hj, if_pos rfl]
    split_ifs with e
    · simp [Option.map_map, Function.comp_def]
    · rfl

/-- The tile at `k` after the promotions of the `RENDER` case, in terms of the closure checks
`c`. -/
theorem promote_foldl_tile_at (c : Int → Bool) (hc : ∀ j, c j = true → 0 ≤ j) (k : Int) :
    ∀ (js : List Int) (acc : TileManagerFull),
      tile_at (js.foldl (fun acc j => if c j = true then promote_tile acc j else acc) acc) k =
        if k ∈ js ∧ c k = true then
          (tile_at acc k).map (fun t => { t with state := Tile.State.DENOISE })
        else tile_at acc k
  | [], acc => by simp
  | j :: js, acc => by
    rw [List.foldl_cons, promote_foldl_tile_at c hc k js]
    by_cases hcj : c j = true
    · rw [if_pos hcj, tile_at_promote_tile acc j k (hc j hcj)]
      by_cases e : k = j
      · subst e
        simp [hcj, Option.map_map, Function.comp_def]
      · simp [e]
    · rw [if_neg hcj]
      by_cases e : k = j
      · subst e
        simp [hcj]
      · simp [e]

/-- The tile at `k` after the releases of the `DENOISE` case, in terms of the closure checks
`c`: a released tile is `DONE`, and its buffers are gone if one of its releases is in
place. -/
theorem release_foldl_tile_at (c : Int → Bool) (hc : ∀ j, c j = true → 0 ≤ j) (k : Int) :
    ∀ (js : List (Int × Bool)) (acc : TileManagerFull),
      tile_at (js.foldl (fun acc j => if c j.1 = true then release_tile acc j.1 j.2 else acc)
          acc) k =
        if (∃ f, (k, f) ∈ js) ∧ c k = true then
          (tile_at acc k).map (fun t =>
            { t with state := Tile.State.DONE,
                     buffers := if (k, true) ∈ js then false else t.buffers })
        else tile_at acc k
  | [], acc => by simp
  | j :: js, acc => by
    rw [List.foldl_cons, release_foldl_tile_at c hc k js]
    obtain ⟨j, f⟩ := j
    by_cases hcj : c j = true
    · simp only [hcj, if_true]
      rw [tile_at_release_tile acc j k f (hc j hcj)]
      by_cases e : k = j
      · subst e
        cases f <;> by_cases h1 : (k, true) ∈ js <;> by_cases h2 : (k, false) ∈ js <;>
          simp [hcj, h1, h2, Option.map_map, Function.comp_def]
      · simp [e]
    · simp only [hcj, Bool.false_eq_true, if_false]
      by_cases e : k = j
      · subst e
        simp [hcj]
      · simp [e]


/-! ## The tiles after a call of `finish_tile` -/

theorem mem_neighborhood (fm : TileManagerFull) (index k : Int) :
    k ∈ neighborhood fm index ↔ ∃ n : Nat, n < 9 ∧ get_neighbor_index fm index (n : Int) = k := by
  unfold neighborhood
  simp [List.mem_map, List.mem_range]

/-- A fold over pairs whose components do not look at each other. -/
theorem foldl_pair {α β γ : Type} (c : γ → Bool) (g : α → γ → α) (h : β → γ → β) :
    ∀ (l : List γ) (a : α) (b : β),
      l.foldl (fun (acc : α × β) n => if c n = true then (g acc.1 n, h acc.2 n) else acc) (a, b) =
        (l.foldl (fun a n => if c n = true then g a n else a) a,
          l.foldl (fun b n => if c n = true then h b n else b) b)
  | [], a, b => rfl
  | n :: l, a, b => by
    rw [List.foldl_cons, List.foldl_cons, List.foldl_cons]
    by_cases hc : c n = true
    · simp only [hc, if_true]
      exact foldl_pair c g h l _ _
    · simp only [hc, Bool.false_eq_true, if_false]
      exact foldl_pair c g h l _ _

/-- The tile at `k` after the `RENDER` case with denoising. -/
theorem finish_render_spec_tile_at (fm : TileManagerFull) (index k : Int) :
    tile_at (finish_render_spec fm index) k =
      if k ∈ neighborhood fm index ∧
          closure_check (set_tile_state fm index Tile.State.RENDERED) k Tile.State.RENDERED
            = true then
        (tile_at (set_tile_state fm index Tile.State.RENDERED) k).map
          (fun t => { t with state := Tile.State.DENOISE })
      else tile_at (set_tile_state fm index Tile.State.RENDERED) k := by
  have key := promote_foldl_tile_at
    (fun j => closure_check (set_tile_state fm index Tile.State.RENDERED) j Tile.State.RENDERED)
    (fun j hj => (closure_check_tile hj).1) k (neighborhood fm index)
    (set_tile_state fm index Tile.State.RENDERED)
  rw [← key]
  unfold finish_render_spec neighborhood
  rw [List.foldl_map]

/-- The value of `delete_tile` and the object after the `DENOISE` case. -/
theorem finish_denoise_spec_eq (fm : TileManagerFull) (index : Int) :
    finish_denoise_spec fm index =
      (!fm.progressive &&
          closure_check (set_tile_state fm index Tile.State.DENOISED)
            (get_neighbor_index fm index 4) Tile.State.DENOISED,
        ((List.range 9).map (fun (n : Nat) =>
            (get_neighbor_index fm index (n : Int), !fm.progressive && decide (n ≠ 4)))).foldl
          (fun acc j =>
            if closure_check (set_tile_state fm index Tile.State.DENOISED) j.1
                Tile.State.DENOISED = true then release_tile acc j.1 j.2
            else acc)
          (set_tile_state fm index Tile.State.DENOISED)) := by
  unfold finish_denoise_spec
  have key := foldl_pair
    (fun (n : Nat) => closure_check (set_tile_state fm index Tile.State.DENOISED)
      (get_neighbor_index fm index (n : Int)) Tile.State.DENOISED)
    (fun (a : Bool) (n : Nat) => if !fm.progressive ∧ n = 4 then true else a)
    (fun (b : TileManagerFull) (n : Nat) =>
      release_tile b (get_neighbor_index fm index (n : Int)) (!fm.progressive && decide (n ≠ 4)))
    (List.range 9) false (set_tile_state fm index Tile.State.DENOISED)
  simp only at key
  rw [key, List.foldl_map]
  refine Prod.ext ?_ rfl
  simp only [List.range_succ, List.range_zero, List.nil_append, List.cons_append,
    List.foldl_cons, List.foldl_nil]
  cases fm.progressive <;>
    cases closure_check (set_tile_state fm index Tile.State.DENOISED)
      (get_neighbor_index fm index ((4 : Nat) : Int)) Tile.State.DENOISED <;> simp

theorem mem_finish_denoise_freed (fm : TileManagerFull) (index k : Int) :
    k ∈ finish_denoise_freed fm index ↔
      fm.progressive = false ∧
      closure_check (set_tile_state fm index Tile.State.DENOISED) k Tile.State.DENOISED = true ∧
      ∃ n : Nat, n < 9 ∧ n ≠ 4 ∧ get_neighbor_index fm index (n : Int) = k := by
  unfold finish_denoise_freed
  simp only [List.mem_map, List.mem_filter, List.mem_range, Bool.and_eq_true,
    decide_eq_true_eq, Bool.not_eq_true']
  constructor
  · rintro ⟨n, ⟨hn, ⟨h4, hp⟩, hc⟩, rfl⟩
    exact ⟨hp, hc, n, hn, h4, rfl⟩
  · rintro ⟨hp, hc, n, hn, h4, rfl⟩
    exact ⟨n, ⟨hn, ⟨h4, hp⟩, hc⟩, rfl⟩

/-- The tile at `k` after the `DENOISE` case. -/
theorem finish_denoise_spec_tile_at (fm : TileManagerFull) (index k : Int) :
    tile_at (finish_denoise_spec fm index).2 k =
      if k ∈ neighborhood fm index ∧
          closure_check (set_tile_state fm index Tile.State.DENOISED) k Tile.State.DENOISED
            = true then
        (tile_at (set_tile_state fm index Tile.State.DENOISED) k).map
          (fun t => { t with
            state := Tile.State.DONE,
            buffers := if k ∈ finish_denoise_freed fm index then false else t.buffers })
      else tile_at (set_tile_state fm index Tile.State.DENOISED) k := by
  rw [finish_denoise_spec_eq]
  simp only
  rw [release_foldl_tile_at
    (fun j => closure_check (set_tile_state fm index Tile.State.DENOISED) j Tile.State.DENOISED)
    (fun j hj => (closure_check_tile hj).1) k]
  have h1 : (∃ f, (k, f) ∈ (List.range 9).map (fun (n : Nat) =>
      (get_neighbor_index fm index (n : Int), !fm.progressive && decide (n ≠ 4)))) ↔
      k ∈ neighborhood fm index := by
    rw [mem_neighborhood]
    simp only [List.mem_map, List.mem_range, Prod.mk.injEq]
    constructor
    · rintro ⟨f, n, hn, e, -⟩
      exact ⟨n, hn, e⟩
    · rintro ⟨n, hn, e⟩
      exact ⟨_, n, hn, e, rfl⟩
  by_cases hc : closure_check (set_tile_state fm index Tile.State.DENOISED) k
      Tile.State.DENOISED = true
  · have h2 : ((k, true) ∈ (List.range 9).map (fun (n : Nat) =>
        (get_neighbor_index fm index (n : Int), !fm.progressive && decide (n ≠ 4)))) ↔
        k ∈ finish_denoise_freed fm index := by
      rw [mem_finish_denoise_freed]
      simp only [List.mem_map, List.mem_range, Prod.mk.injEq, Bool.and_eq_true,
        decide_eq_true_eq, Bool.not_eq_true']
      constructor
      · rintro ⟨n, hn, e, hp, h4⟩
        exact ⟨hp, hc, n, hn, h4, e⟩
      · rintro ⟨hp, -, n, hn, h4, e⟩
        exact ⟨n, hn, e, hp, h4⟩
    simp only [h1, h2]
  · simp only [hc, and_false, if_false, Bool.false_eq_true]

/-- The state of the tile at `k` after the `RENDER` case with denoising. -/
theorem finish_render_spec_state (fm : TileManagerFull) (index k : Int) :
    tile_state (finish_render_spec fm index) k =
      if k ∈ neighborhood fm index ∧
          closure_check (set_tile_state fm index Tile.State.RENDERED) k Tile.State.RENDERED
            = true then some Tile.State.DENOISE
      else tile_state (set_tile_state fm index Tile.State.RENDERED) k := by
  unfold tile_state
  rw [finish_render_spec_tile_at]
  split_ifs with h
  · obtain ⟨-, t, ht, -⟩ := closure_check_tile h.2
    rw [ht]
    rfl
  · rfl

/-- The state of the tile at `k` after the `DENOISE` case. -/
theorem finish_denoise_spec_state (fm : TileManagerFull) (index k : Int) :
    tile_state (finish_denoise_spec fm index).2 k =
      if k ∈ neighborhood fm index ∧
          closure_check (set_tile_state fm index Tile.State.DENOISED) k Tile.State.DENOISED
            = true then some Tile.State.DONE
      else tile_state (set_tile_state fm index Tile.State.DENOISED) k := by
  unfold tile_state
  rw [finish_denoise_spec_tile_at]
  by_cases h : k ∈ neighborhood fm index ∧
      closure_check (set_tile_state fm index Tile.State.DENOISED) k Tile.State.DENOISED = true
  · obtain ⟨-, t, ht, -⟩ := closure_check_tile h.2
    rw [if_pos h, if_pos h, ht]
    rfl
  · rw [if_neg h, if_neg h]


/-! ## Runs of `finish_tile` -/

/-- A run that returns starts with a call that returns, followed by a run that returns. -/
theorem finish_run_cons {fm : TileManagerFull} {index : Int} {nd : Bool}
    {calls : List (Int × Bool)} {record : List FinishCall} {fm2 : TileManagerFull}
    (h : finish_run fm ((index, nd) :: calls) = some (record, fm2)) :
    ∃ w d fm1 freed rest,
      finish_tile fm index nd = some (w, d, fm1) ∧ finish_tile_freed fm index = some freed ∧
      finish_run fm1 calls = some (rest, fm2) ∧
      record = { before := fm, index := index, need_denoise := nd, write := w,
                 delete_tile := d, freed := freed, after := fm1 } :: rest := by
  unfold finish_run at h
  cases hf : finish_tile fm index nd with
  | none => simp [hf] at h
  | some r =>
    obtain ⟨w, d, fm1⟩ := r
    cases hl : finish_tile_freed fm index with
    | none => simp [hf, hl] at h
    | some freed =>
      cases hr : finish_run fm1 calls with
      | none => simp [hf, hl, hr] at h
      | some r2 =>
        obtain ⟨rest, fm3⟩ := r2
        simp only [hf, hl, hr, Option.some.injEq, Prod.mk.injEq] at h
        obtain ⟨rfl, rfl⟩ := h
        exact ⟨w, d, fm1, freed, rest, rfl, rfl, hr, rfl⟩

/-- A closure check keeps holding when no tile falls below the required state. -/
theorem closure_check_mono {fm fm' : TileManagerFull} {m : Tile.State} (hf : frame_eq fm fm')
    (h : ∀ k, state_at_least fm k m = true → state_at_least fm' k m = true) (j : Int)
    (hc : closure_check fm j m = true) : closure_check fm' j m = true := by
  obtain ⟨hn, -⟩ := frame_eq_spec hf
  unfold closure_check at hc ⊢
  simp only [Bool.and_eq_true, decide_eq_true_eq, List.all_eq_true, Bool.or_eq_true, hn]
    at hc ⊢
  obtain ⟨⟨h0, h1⟩, h2⟩ := hc
  refine ⟨⟨h0, h _ h1⟩, fun n hn' => ?_⟩
  rcases h2 n hn' with h3 | h3
  · exact Or.inl h3
  · exact Or.inr (h _ h3)

/-- A call of `finish_tile` leaves every tile that is at least `RENDERED` at least
`RENDERED`. -/
theorem finish_tile_keeps_rendered {fm : TileManagerFull} {index : Int} {nd w d : Bool}
    {fm' : TileManagerFull} (h : finish_tile fm index nd = some (w, d, fm')) (k : Int)
    (hk : state_at_least fm k Tile.State.RENDERED = true) :
    state_at_least fm' k Tile.State.RENDERED = true := by
  rw [state_at_least_state] at hk ⊢
  obtain ⟨s, hs, hr⟩ := hk
  rcases (finish_tile_transition h k).2 with ⟨-, e⟩ | ⟨-, -, -, e⟩ | ⟨-, -, -, e | e⟩ |
    ⟨-, -, -, -, e⟩ | ⟨-, -, e | e⟩ | ⟨-, -, -, e⟩
  · exact ⟨s, by rw [e, hs], hr⟩
  all_goals exact ⟨_, e, by decide⟩

/-- A run of `finish_tile` leaves a closure at `RENDERED` complete. -/
theorem finish_run_keeps_closure (k : Int) :
    ∀ (calls : List (Int × Bool)) (fm : TileManagerFull) (record : List FinishCall)
      (fm2 : TileManagerFull), finish_run fm calls = some (record, fm2) →
      closure_check fm k Tile.State.RENDERED = true →
      closure_check fm2 k Tile.State.RENDERED = true
  | [], fm, record, fm2, h, hc => by
    unfold finish_run at h
    simp only [Option.some.injEq, Prod.mk.injEq] at h
    rw [← h.2]
    exact hc
  | (index, nd) :: calls, fm, record, fm2, h, hc => by
    obtain ⟨w, d, fm1, freed, rest, hf, -, hr, -⟩ := finish_run_cons h
    exact finish_run_keeps_closure k calls fm1 rest fm2 hr
      (closure_check_mono (finish_tile_transition hf 0).1
        (fun j => finish_tile_keeps_rendered hf j) k hc)

/-- C24: a call of `finish_tile` leaves the state of each tile as it is or sets it to a
state that is at least `RENDERED`; and when a call has promoted the tile `k` to `DENOISE`,
then after every further run of `finish_tile` calls the tile `k` and each of its in-grid
neighbours is still at least `RENDERED`. -/
theorem finish_tile_promotion_monotonic (fm : TileManagerFull) (index : Int) (nd w d : Bool)
    (fm1 : TileManagerFull) (h : finish_tile fm index nd = some (w, d, fm1)) :
    (∀ k, tile_state fm1 k = tile_state fm k ∨
      ∃ s, tile_state fm1 k = some s ∧ Tile.State.RENDERED.rank ≤ s.rank) ∧
    ∀ k, tile_state fm1 k = some Tile.State.DENOISE → tile_state fm k ≠ some Tile.State.DENOISE →
      ∀ (calls : List (Int × Bool)) (record : List FinishCall) (fm2 : TileManagerFull),
        finish_run fm1 calls = some (record, fm2) → closure_ok fm2 k Tile.State.RENDERED := by
  refine ⟨fun k => ?_, fun k h1 h0 calls record fm2 hrun => ?_⟩
  · rcases (finish_tile_transition h k).2 with ⟨-, e⟩ | ⟨-, -, -, e⟩ | ⟨-, -, -, e | e⟩ |
      ⟨-, -, -, -, e⟩ | ⟨-, -, e | e⟩ | ⟨-, -, -, e⟩
    · exact Or.inl e
    all_goals exact Or.inr ⟨_, e, by decide⟩
  · rw [← closure_check_iff]
    refine finish_run_keeps_closure k calls fm1 record fm2 hrun ?_
    obtain ⟨hi, hc⟩ := finish_tile_cases h
    rcases hc with ⟨hs, -, -, -, rfl⟩ | ⟨hs, -, -, -, rfl, hstep⟩ | ⟨hs, -, he, -⟩
    · exfalso
      rw [tile_state_set_tile_state fm index k _ hi] at h1
      by_cases e : k = index
      · rw [if_pos e, hs] at h1
        cases h1
      · rw [if_neg e] at h1
        exact h0 h1
    · rw [states_step_closure hstep (by decide) (by decide)]
      rw [finish_render_spec_state] at h1
      by_cases hc : k ∈ neighborhood fm index ∧
          closure_check (set_tile_state fm index Tile.State.RENDERED) k Tile.State.RENDERED
            = true
      · exact hc.2
      · exfalso
        rw [if_neg hc, tile_state_set_tile_state fm index k _ hi] at h1
        by_cases e : k = index
        · rw [if_pos e, hs] at h1
          cases h1
        · rw [if_neg e] at h1
          exact h0 h1
    · exfalso
      have he2 : fm1 = (finish_denoise_spec fm index).2 := by rw [← he]
      rw [he2, finish_denoise_spec_state] at h1
      split_ifs at h1
      · cases h1
      · rw [tile_state_set_tile_state fm index k _ hi] at h1
        by_cases e : k = index
        · rw [if_pos e, hs] at h1
          cases h1
        · rw [if_neg e] at h1
          exact h0 h1

theorem finish_tile_promotion_monotonic_witness :
    finish_tile (set_tile_state pair_fixture 0 Tile.State.RENDERED) 1 true =
      some (false, false, finish_render_spec (set_tile_state pair_fixture 0 Tile.State.RENDERED) 1) ∧
    ((∀ k, tile_state (finish_render_spec (set_tile_state pair_fixture 0 Tile.State.RENDERED) 1) k
        = tile_state (set_tile_state pair_fixture 0 Tile.State.RENDERED) k ∨
      ∃ s, tile_state (finish_render_spec (set_tile_state pair_fixture 0 Tile.State.RENDERED) 1) k
        = some s ∧ Tile.State.RENDERED.rank ≤ s.rank) ∧
    ∀ k, tile_state (finish_render_spec (set_tile_state pair_fixture 0 Tile.State.RENDERED) 1) k
        = some Tile.State.DENOISE →
      tile_state (set_tile_state pair_fixture 0 Tile.State.RENDERED) k
        ≠ some Tile.State.DENOISE →
      ∀ (calls : List (Int × Bool)) (record : List FinishCall) (fm2 : TileManagerFull),
        finish_run (finish_render_spec (set_tile_state pair_fixture 0 Tile.State.RENDERED) 1)
          calls = some (record, fm2) → closure_ok fm2 k Tile.State.RENDERED) :=
  ⟨by decide, finish_tile_promotion_monotonic _ 1 true false false _ (by decide)⟩


/-! ## The path of a tile through the states -/

/-- A run of `finish_tile` creates no tile. -/
theorem finish_run_none (k : Int) :
    ∀ (calls : List (Int × Bool)) (fm : TileManagerFull) (record : List FinishCall)
      (fm2 : TileManagerFull), finish_run fm calls = some (record, fm2) →
      tile_state fm k = none → tile_state fm2 k = none
  | [], fm, record, fm2, h, hk => by
    unfold finish_run at h
    simp only [Option.some.injEq, Prod.mk.injEq] at h
    rw [← h.2]
    exact hk
  | (index, nd) :: calls, fm, record, fm2, h, hk => by
    obtain ⟨w, d, fm1, freed, rest, hf, -, hr, -⟩ := finish_run_cons h
    refine finish_run_none k calls fm1 rest fm2 hr ?_
    rcases (finish_tile_transition hf k).2 with ⟨-, e⟩ | ⟨-, e, -⟩ | ⟨-, e, -⟩ |
      ⟨-, ⟨s, e, -⟩, -⟩ | ⟨-, e, -⟩ | ⟨-, ⟨s, e, -⟩, -⟩
    · rw [e, hk]
    all_goals (rw [hk] at e; cases e)

/-- A tile in state `DENOISE` that is `DONE` after a run was finished in state `DENOISE` by a
call of the run. -/
theorem finish_run_from_denoise (k : Int) :
    ∀ (calls : List (Int × Bool)) (fm : TileManagerFull) (record : List FinishCall)
      (fm2 : TileManagerFull), finish_run fm calls = some (record, fm2) →
      tile_state fm k = some Tile.State.DENOISE → tile_state fm2 k = some Tile.State.DONE →
      ∃ l3 e2 l4, record = l3 ++ e2 :: l4 ∧ e2.index = k ∧
        tile_state e2.before k = some Tile.State.DENOISE ∧
        (tile_state e2.after k = some Tile.State.DENOISED ∨
          tile_state e2.after k = some Tile.State.DONE) ∧
        ∀ e ∈ l3, tile_state e.before k = some Tile.State.DENOISE
  | [], fm, record, fm2, h, hk, hd => by
    unfold finish_run at h
    simp only [Option.some.injEq, Prod.mk.injEq] at h
    rw [← h.2, hk] at hd
    cases hd
  | (index, nd) :: calls, fm, record, fm2, h, hk, hd => by
    obtain ⟨w, d, fm1, freed, rest, hf, -, hr, rfl⟩ := finish_run_cons h
    have ih := finish_run_from_denoise k calls fm1 rest fm2 hr
    rcases (finish_tile_transition hf k).2 with ⟨-, e⟩ | ⟨-, e, -⟩ | ⟨-, e, -⟩ |
      ⟨-, -, -, -, e⟩ | ⟨ei, -, e⟩ | ⟨-, ⟨s, e, e3⟩, -⟩
    · obtain ⟨l3, e2, l4, h1, h2, h3, h4, h5⟩ := ih (by rw [e, hk]) hd
      refine ⟨_ :: l3, e2, l4, by rw [h1]; rfl, h2, h3, h4, ?_⟩
      intro x hx
      rcases List.mem_cons.1 hx with rfl | hx
      · exact hk
      · exact h5 x hx
    · rw [hk] at e; cases e
    · rw [hk] at e; cases e
    · obtain ⟨l3, e2, l4, h1, h2, h3, h4, h5⟩ := ih e hd
      refine ⟨_ :: l3, e2, l4, by rw [h1]; rfl, h2, h3, h4, ?_⟩
      intro x hx
      rcases List.mem_cons.1 hx with rfl | hx
      · exact hk
      · exact h5 x hx
    · exact ⟨[], _, rest, rfl, ei.symm, hk, e, by simp⟩
    · rw [hk] at e
      cases e
      exact absurd e3 (by decide)

/-- A tile in state `RENDERED` that is `DONE` after a run was promoted to `DENOISE` by a call
of the run and finished in state `DENOISE` by a later call. -/
theorem finish_run_from_rendered (k : Int) :
    ∀ (calls : List (Int × Bool)) (fm : TileManagerFull) (record : List FinishCall)
      (fm2 : TileManagerFull), finish_run fm calls = some (record, fm2) →
      tile_state fm k = some Tile.State.RENDERED → tile_state fm2 k = some Tile.State.DONE →
      ∃ l3 e1 l4 e2 l5, record = l3 ++ e1 :: (l4 ++ e2 :: l5) ∧
        tile_state e1.before k = some Tile.State.RENDERED ∧
        tile_state e1.after k = some Tile.State.DENOISE ∧
        (∀ e ∈ l4, tile_state e.before k = some Tile.State.DENOISE) ∧
        e2.index = k ∧ tile_state e2.before k = some Tile.State.DENOISE ∧
        (tile_state e2.after k = some Tile.State.DENOISED ∨
          tile_state e2.after k = some Tile.State.DONE) ∧
        ∀ e ∈ l3, tile_state e.before k = some Tile.State.RENDERED
  | [], fm, record, fm2, h, hk, hd => by
    unfold finish_run at h
    simp only [Option.some.injEq, Prod.mk.injEq] at h
    rw [← h.2, hk] at hd
    cases hd
  | (index, nd) :: calls, fm, record, fm2, h, hk, hd => by
    obtain ⟨w, d, fm1, freed, rest, hf, -, hr, rfl⟩ := finish_run_cons h
    rcases (finish_tile_transition hf k).2 with ⟨-, e⟩ | ⟨-, e, -⟩ | ⟨-, e, -⟩ |
      ⟨-, -, -, -, e⟩ | ⟨-, e, -⟩ | ⟨-, ⟨s, e, e3⟩, -⟩
    · obtain ⟨l3, e1, l4, e2, l5, h1, h2, h3, h4, h5, h6, h7, h8⟩ :=
        finish_run_from_rendered k calls fm1 rest fm2 hr (by rw [e, hk]) hd
      refine ⟨_ :: l3, e1, l4, e2, l5, by rw [h1]; rfl, h2, h3, h4, h5, h6, h7, ?_⟩
      intro x hx
      rcases List.mem_cons.1 hx with rfl | hx
      · exact hk
      · exact h8 x hx
    · rw [hk] at e; cases e
    · rw [hk] at e; cases e
    · obtain ⟨l4, e2, l5, h1, h2, h3, h4, h5⟩ :=
        finish_run_from_denoise k calls fm1 rest fm2 hr e hd
      exact ⟨[], _, l4, e2, l5, by rw [h1]; rfl, hk, e, h5, h2, h3, h4, by simp⟩
    · rw [hk] at e; cases e
    · rw [hk] at e
      cases e
      exact absurd e3 (by decide)

/-- C23: in a run of `finish_tile` calls from a tiling in which every tile is in state
`RENDER` (the calls are defined, so each is on a tile in state `RENDER` or `DENOISE`), a tile
`k` that is `DONE` at the end was finished by a call `e` of the run in state `RENDER`; and if
denoising was scheduled and requested in that call, the tile was `RENDERED` or `DENOISE`
after it, a call `e1` (which may be `e`) took it to `DENOISE`, it stayed `DENOISE` until a
later call `e2` finished it in state `DENOISE`, and it was `DENOISED` or `DONE` after
`e2`. -/
theorem finish_tile_no_skipped_states (fm0 : TileManagerFull) (calls : List (Int × Bool))
    (record : List FinishCall) (fm : TileManagerFull) (k : Int)
    (hfresh : ∀ t ∈ fm0.tiles, t.state = Tile.State.RENDER)
    (hrun : finish_run fm0 calls = some (record, fm))
    (hdone : tile_state fm k = some Tile.State.DONE) :
    ∃ l1 e l2, record = l1 ++ e :: l2 ∧ e.index = k ∧
      (∀ x ∈ l1, tile_state x.before k = some Tile.State.RENDER) ∧
      tile_state e.before k = some Tile.State.RENDER ∧
      ((e.before.schedule_denoising && e.need_denoise) = false →
        tile_state e.after k = some Tile.State.DONE) ∧
      ((e.before.schedule_denoising && e.need_denoise) = true →
        (tile_state e.after k = some Tile.State.RENDERED ∨
          tile_state e.after k = some Tile.State.DENOISE) ∧
        ∃ l3 e1 l4 e2 l5, e :: l2 = l3 ++ e1 :: (l4 ++ e2 :: l5) ∧
          (∀ x ∈ l3.tail, tile_state x.before k = some Tile.State.RENDERED) ∧
          tile_state e1.before k ≠ some Tile.State.DENOISE ∧
          tile_state e1.after k = some Tile.State.DENOISE ∧
          (∀ x ∈ l4, tile_state x.before k = some Tile.State.DENOISE) ∧
          e2.index = k ∧ tile_state e2.before k = some Tile.State.DENOISE ∧
          (tile_state e2.after k = some Tile.State.DENOISED ∨
            tile_state e2.after k = some Tile.State.DONE)) := by
  have h0 : tile_state fm0 k = some Tile.State.RENDER := by
    cases ht : tile_at fm0 k with
    | none =>
      have hn : tile_state fm0 k = none := by unfold tile_state; rw [ht]; rfl
      rw [finish_run_none k calls fm0 record fm hrun hn] at hdone
      cases hdone
    | some t =>
      unfold tile_state
      rw [ht]
      have hm : t ∈ fm0.tiles := by
        unfold tile_at at ht
        split_ifs at ht
        obtain ⟨hlt, hget⟩ := List.getElem?_eq_some.1 ht
        rw [← hget]
        exact List.getElem_mem hlt
      exact congrArg some (hfresh t hm)
  clear hfresh
  induction calls generalizing fm0 record with
  | nil =>
    unfold finish_run at hrun
    simp only [Option.some.injEq, Prod.mk.injEq] at hrun
    rw [← hrun.2, h0] at hdone
    cases hdone
  | cons c calls ih =>
    obtain ⟨index, nd⟩ := c
    obtain ⟨w, d, fm1, freed, rest, hf, -, hr, rfl⟩ := finish_run_cons hrun
    rcases (finish_tile_transition hf k).2 with ⟨-, e⟩ | ⟨ei, -, hnd, e⟩ | ⟨ei, -, hnd, e⟩ |
      ⟨-, ⟨s, e, e3⟩, -⟩ | ⟨-, e, -⟩ | ⟨-, ⟨s, e, e3⟩, -⟩
    · obtain ⟨l1, e', l2, h1, h2, h3, h4, h5, h6⟩ := ih fm1 rest hr (by rw [e, h0])
      refine ⟨_ :: l1, e', l2, by rw [h1]; rfl, h2, ?_, h4, h5, h6⟩
      intro x hx
      rcases List.mem_cons.1 hx with rfl | hx
      · exact h0
      · exact h3 x hx
    · refine ⟨[], _, rest, rfl, ei.symm, by simp, h0, fun _ => e, fun hc => ?_⟩
      rw [hnd] at hc
      cases hc
    · refine ⟨[], _, rest, rfl, ei.symm, by simp, h0, fun hc => ?_, fun _ => ⟨e, ?_⟩⟩
      · rw [hnd] at hc
        cases hc
      · rcases e with e | e
        · obtain ⟨l3, e1, l4, e2, l5, h1, h2, h3, h4, h5, h6, h7, h8⟩ :=
            finish_run_from_rendered k calls fm1 rest fm hr e hdone
          refine ⟨_ :: l3, e1, l4, e2, l5, by rw [h1]; rfl, h8, ?_, h3, h4, h5, h6, h7⟩
          rw [h2]
          decide
        · obtain ⟨l4, e2, l5, h1, h2, h3, h4, h5⟩ :=
            finish_run_from_denoise k calls fm1 rest fm hr e hdone
          refine ⟨[], _, l4, e2, l5, by rw [h1]; rfl, by simp, ?_, e, h5, h2, h3, h4⟩
          show tile_state fm0 k ≠ _
          rw [h0]
          decide
    · rw [h0] at e
      cases e
      exact absurd e3 (by decide)
    · rw [h0] at e; cases e
    · rw [h0] at e
      cases e
      exact absurd e3 (by decide)

theorem finish_tile_no_skipped_states_witness :
    (∀ t ∈ pair_fixture.tiles, t.state = Tile.State.RENDER) ∧
    finish_run pair_fixture [(0, true), (1, true), (1, true), (0, true)] =
      some (pair_run.1, pair_run.2) ∧
    tile_state pair_run.2 0 = some Tile.State.DONE ∧
    ∃ l1 e l2, pair_run.1 = l1 ++ e :: l2 ∧ e.index = 0 ∧
      (∀ x ∈ l1, tile_state x.before 0 = some Tile.State.RENDER) ∧
      tile_state e.before 0 = some Tile.State.RENDER ∧
      ((e.before.schedule_denoising && e.need_denoise) = false →
        tile_state e.after 0 = some Tile.State.DONE) ∧
      ((e.before.schedule_denoising && e.need_denoise) = true →
        (tile_state e.after 0 = some Tile.State.RENDERED ∨
          tile_state e.after 0 = some Tile.State.DENOISE) ∧
        ∃ l3 e1 l4 e2 l5, e :: l2 = l3 ++ e1 :: (l4 ++ e2 :: l5) ∧
          (∀ x ∈ l3.tail, tile_state x.before 0 = some Tile.State.RENDERED) ∧
          tile_state e1.before 0 ≠ some Tile.State.DENOISE ∧
          tile_state e1.after 0 = some Tile.State.DENOISE ∧
          (∀ x ∈ l4, tile_state x.before 0 = some Tile.State.DENOISE) ∧
          e2.index = 0 ∧ tile_state e2.before 0 = some Tile.State.DENOISE ∧
          (tile_state e2.after 0 = some Tile.State.DENOISED ∨
            tile_state e2.after 0 = some Tile.State.DONE)) :=
  ⟨by decide, by decide, by decide,
    finish_tile_no_skipped_states pair_fixture [(0, true), (1, true), (1, true), (0, true)]
      pair_run.1 pair_run.2 0 (by decide)
      (by decide) (by decide)⟩


/-! ## The neighbourhood on a grid -/

/-- The tile at `j` exists exactly for `0 <= j < state.tiles.size()`. -/
theorem tile_at_some_iff (fm : TileManagerFull) (j : Int) :
    (∃ t, tile_at fm j = some t) ↔ 0 ≤ j ∧ j < (fm.tiles.length : Int) := by
  unfold tile_at
  by_cases h : 0 ≤ j
  · rw [if_pos h]
    constructor
    · rintro ⟨t, ht⟩
      obtain ⟨hlt, -⟩ := List.getElem?_eq_some.1 ht
      exact ⟨h, by omega⟩
    · rintro ⟨-, hlt⟩
      have hl : j.toNat < fm.tiles.length := by omega
      exact ⟨fm.tiles[j.toNat], List.getElem?_eq_getElem hl⟩
  · rw [if_neg h]
    constructor
    · rintro ⟨t, ht⟩
      cases ht
    · rintro ⟨h0, -⟩
      exact absurd h0 h

/-- A cell of a grid whose index is below `W * R` lies in one of the first `R` rows. -/
theorem cell_row_lt (W R x y : Int) (hW : 1 ≤ W) (hx0 : 0 ≤ x) (h : y * W + x < W * R) :
    y < R := by
  by_contra hc
  have h2 : R * W ≤ y * W := mul_le_mul_of_nonneg_right (by omega) (by omega)
  have e2 : R * W = W * R := mul_comm _ _
  omega

/-- A non-negative index is the index of a cell of the grid. -/
theorem index_cell (W i : Int) (hW : 1 ≤ W) (hi : 0 ≤ i) :
    ∃ x y, 0 ≤ x ∧ x < W ∧ 0 ≤ y ∧ i = y * W + x := by
  refine ⟨i % W, i / W, Int.emod_nonneg _ (by omega), Int.emod_lt_of_pos _ (by omega),
    Int.ediv_nonneg hi (by omega), ?_⟩
  have := Int.ediv_add_emod i W
  rw [mul_comm] at this
  exact this.symm

/-- The neighbour `n` of the cell `(x, y)` on the grid that `grid_ok` describes. -/
theorem neighbor_cell (fm : TileManagerFull) (hg : grid_ok fm) (x y : Int) (hx0 : 0 ≤ x)
    (hx : x < neighbor_tile_w fm) (hy0 : 0 ≤ y) (n : Nat) (hn : n < 9) :
    get_neighbor_index fm (y * neighbor_tile_w fm + x) (n : Int) =
      if 0 ≤ x + (((n % 3 : Nat) : Int) - 1) ∧
          x + (((n % 3 : Nat) : Int) - 1) < neighbor_tile_w fm ∧
          0 ≤ y + (((n / 3 : Nat) : Int) - 1) ∧
          y + (((n / 3 : Nat) : Int) - 1) < neighbor_tile_h fm * neighbor_slice_num fm then
        (y + (((n / 3 : Nat) : Int) - 1)) * neighbor_tile_w fm + (x + (((n % 3 : Nat) : Int) - 1))
      else -1 := by
  obtain ⟨hW, hs, -⟩ := hg
  have h0 : 0 ≤ y * neighbor_tile_w fm + x := (cell_index_bounds _ (y + 1) x y hx0 hx hy0 (by omega)).1
  have hm : (y * neighbor_tile_w fm + x).tmod (neighbor_tile_w fm) = x := by
    rw [Int.tmod_eq_emod h0 (by omega), add_comm, Int.add_mul_emod_self]
    exact Int.emod_eq_of_lt hx0 hx
  have hd : (y * neighbor_tile_w fm + x).tdiv (neighbor_tile_w fm) = y := by
    rw [Int.tdiv_eq_ediv h0 (by omega), add_comm, Int.add_mul_ediv_right _ _ (by omega),
      Int.ediv_eq_zero_of_lt hx0 hx, zero_add]
  rw [get_neighbor_index_eq fm _ n hn, hm, hd, hs]

/-- An in-grid neighbour of a tile is a tile. -/
theorem neighbor_valid (fm : TileManagerFull) (hg : grid_ok fm) (i : Int) (hi : 0 ≤ i) (n : Nat)
    (hn : n < 9) (h : 0 ≤ get_neighbor_index fm i (n : Int)) :
    ∃ t, tile_at fm (get_neighbor_index fm i (n : Int)) = some t := by
  rw [tile_at_some_iff]
  refine ⟨h, ?_⟩
  obtain ⟨x, y, hx0, hx, hy0, rfl⟩ := index_cell (neighbor_tile_w fm) i hg.1 hi
  rw [neighbor_cell fm hg x y hx0 hx hy0 n hn] at h ⊢
  split_ifs at h ⊢ with hc
  · rw [hg.2.2.2.1]
    exact (cell_index_bounds _ _ _ _ hc.1 hc.2.1 hc.2.2.1 hc.2.2.2).2
  · omega

/-- Neighbour 4 of a tile is the tile itself. -/
theorem neighbor_self (fm : TileManagerFull) (hg : grid_ok fm) (i : Int) (hi : 0 ≤ i)
    (hlt : i < (fm.tiles.length : Int)) : get_neighbor_index fm i ((4 : Nat) : Int) = i := by
  obtain ⟨x, y, hx0, hx, hy0, rfl⟩ := index_cell (neighbor_tile_w fm) i hg.1 hi
  rw [hg.2.2.2.1] at hlt
  have hy := cell_row_lt _ _ x y hg.1 hx0 hlt
  rw [neighbor_cell fm hg x y hx0 hx hy0 4 (by omega)]
  have e1 : x + (((4 % 3 : Nat) : Int) - 1) = x := by omega
  have e2 : y + (((4 / 3 : Nat) : Int) - 1) = y := by omega
  rw [e1, e2, if_pos ⟨hx0, hx, hy0, hy⟩]

/-- Two in-grid neighbours of a tile with the same index are the same neighbour. -/
theorem neighbor_inj (fm : TileManagerFull) (hg : grid_ok fm) (i : Int) (hi : 0 ≤ i)
    (n m : Nat) (hn : n < 9) (hm : m < 9) (h0 : 0 ≤ get_neighbor_index fm i (n : Int))
    (h : get_neighbor_index fm i (n : Int) = get_neighbor_index fm i (m : Int)) : n = m := by
  obtain ⟨x, y, hx0, hx, hy0, rfl⟩ := index_cell (neighbor_tile_w fm) i hg.1 hi
  have h0' := h0
  rw [h] at h0'
  rw [neighbor_cell fm hg x y hx0 hx hy0 n hn] at h h0
  rw [neighbor_cell fm hg x y hx0 hx hy0 m hm] at h h0'
  split_ifs at h h0 h0' with hc1 hc2
  · obtain ⟨e1, e2⟩ := cell_index_inj _ _ _ _ _ hc1.1 hc1.2.1 hc2.1 hc2.2.1 h
    omega
  all_goals omega

/-- The neighbour relation is symmetric: a tile is neighbour `8 - n` of its neighbour `n`. -/
theorem neighbor_symm (fm : TileManagerFull) (hg : grid_ok fm) (i : Int) (hi : 0 ≤ i)
    (hlt : i < (fm.tiles.length : Int)) (n : Nat) (hn : n < 9)
    (h0 : 0 ≤ get_neighbor_index fm i (n : Int)) :
    get_neighbor_index fm (get_neighbor_index fm i (n : Int)) ((8 - n : Nat) : Int) = i := by
  obtain ⟨x, y, hx0, hx, hy0, rfl⟩ := index_cell (neighbor_tile_w fm) i hg.1 hi
  rw [hg.2.2.2.1] at hlt
  have hy := cell_row_lt _ _ x y hg.1 hx0 hlt
  rw [neighbor_cell fm hg x y hx0 hx hy0 n hn] at h0 ⊢
  split_ifs at h0 ⊢ with hc
  · rw [neighbor_cell fm hg _ _ hc.1 hc.2.1 hc.2.2.1 (8 - n) (by omega)]
    have e1 : x + (((n % 3 : Nat) : Int) - 1) + ((((8 - n) % 3 : Nat) : Int) - 1) = x := by
      omega
    have e2 : y + (((n / 3 : Nat) : Int) - 1) + ((((8 - n) / 3 : Nat) : Int) - 1) = y := by
      omega
    rw [e1, e2, if_pos ⟨hx0, hx, hy0, hy⟩]
  · omega


/-! ## `finish_tile` returns on a grid -/

/-- The property `grid_ok` only looks at the frame, the number of tiles and queues and the
devices of the tiles. -/
theorem grid_ok_of_shape {fm fm' : TileManagerFull} (hg : grid_ok fm) (hf : frame_eq fm fm')
    (hl : fm'.tiles.length = fm.tiles.length)
    (hq : fm'.denoising_tiles.length = fm.denoising_tiles.length)
    (hd : ∀ k t', tile_at fm' k = some t' → ∃ t, tile_at fm k = some t ∧ t'.device = t.device) :
    grid_ok fm' := by
  obtain ⟨-, -, -, -, hw, hh, hs, hst⟩ := frame_eq_spec hf
  obtain ⟨g1, g2, g3, g4, g5⟩ := hg
  refine ⟨by rw [hw]; exact g1, by rw [hst, hw]; exact g2, by rw [hh, hs]; exact g3,
    by rw [hl, hw, hh, hs]; exact g4, fun k t' ht' => ?_⟩
  obtain ⟨t, ht, e⟩ := hd k t' ht'
  rw [hq, e]
  exact g5 k t ht

theorem grid_ok_set_tile_state {fm : TileManagerFull} (hg : grid_ok fm) (j : Int) (hj : 0 ≤ j)
    (st : Tile.State) : grid_ok (set_tile_state fm j st) := by
  refine grid_ok_of_shape hg (frame_eq_set_tile_state fm j st) (by simp [set_tile_state]) rfl
    (fun k t' ht' => ?_)
  rw [tile_at_set_tile_state fm j k st hj] at ht'
  split_ifs at ht' with e
  · cases h : tile_at fm j with
    | none => rw [h] at ht'; cases ht'
    | some t =>
      rw [h] at ht'
      simp only [Option.map_some', Option.some.injEq] at ht'
      subst ht'
      exact ⟨t, by rw [e, h], rfl⟩
  · exact ⟨t', ht', rfl⟩

theorem frame_eq_promote_tile (fm : TileManagerFull) (j : Int) :
    frame_eq fm (promote_tile fm j) := by
  unfold promote_tile
  simp only
  split <;> rfl

theorem frame_eq_release_tile (fm : TileManagerFull) (j : Int) (free : Bool) :
    frame_eq fm (release_tile fm j free) := by
  unfold release_tile
  simp only
  split <;> rfl

theorem grid_ok_promote_tile {fm : TileManagerFull} (hg : grid_ok fm) (j : Int) (hj : 0 ≤ j) :
    grid_ok (promote_tile fm j) := by
  refine grid_ok_of_shape hg (frame_eq_promote_tile fm j) ?_ ?_ (fun k t' ht' => ?_)
  · unfold promote_tile
    simp only
    split <;> simp [set_tile_state]
  · unfold promote_tile
    simp only
    split <;> simp [set_tile_state]
  · rw [tile_at_promote_tile fm j k hj] at ht'
    split_ifs at ht' with e
    · cases h : tile_at fm j with
      | none => rw [h] at ht'; cases ht'
      | some t =>
        rw [h] at ht'
        simp only [Option.map_some', Option.some.injEq] at ht'
        subst ht'
        exact ⟨t, by rw [e, h], rfl⟩
    · exact ⟨t', ht', rfl⟩

theorem grid_ok_release_tile {fm : TileManagerFull} (hg : grid_ok fm) (j : Int) (hj : 0 ≤ j)
    (free : Bool) : grid_ok (release_tile fm j free) := by
  refine grid_ok_of_shape hg (frame_eq_release_tile fm j free) ?_ ?_ (fun k t' ht' => ?_)
  · unfold release_tile
    simp only
    split <;> simp [set_tile_state]
  · unfold release_tile
    simp only
    split <;> rfl
  · rw [tile_at_release_tile fm j k free hj] at ht'
    by_cases e : k = j
    · rw [if_pos e] at ht'
      cases h : tile_at fm j with
      | none => rw [h] at ht'; cases ht'
      | some t =>
        rw [h] at ht'
        simp only [Option.map_some', Option.some.injEq] at ht'
        subst ht'
        exact ⟨t, by rw [e, h], rfl⟩
    · rw [if_neg e] at ht'
      exact ⟨t', ht', rfl⟩

/-- On a grid `check_neighbor_state` returns for `-1` and for every tile. -/
theorem check_neighbor_state_defined {fm : TileManagerFull} (hg : grid_ok fm) (j : Int)
    (m : Tile.State) (hj : j < 0 ∨ ∃ t, tile_at fm j = some t) :
    check_neighbor_state fm j m = some (closure_check fm j m) := by
  have hex : ∃ b, check_neighbor_state fm j m = some b := by
    unfold check_neighbor_state
    by_cases hneg : j < 0
    · exact ⟨false, by rw [if_pos hneg]⟩
    · rw [if_neg hneg]
      rcases hj with hj | ⟨t, ht⟩
      · exact absurd hj hneg
      · rw [ht]
        simp only
        by_cases hr : t.state.rank < m.rank
        · exact ⟨false, by rw [if_pos hr]⟩
        · rw [if_neg hr]
          obtain ⟨b, hb, -⟩ := foldlM_range_invariant
            (fun (ok : Bool) (neighbor : Nat) =>
              if ok then
                if get_neighbor_index fm j (neighbor : Int) ≥ 0 then
                  match tile_at fm (get_neighbor_index fm j (neighbor : Int)) with
                  | none => none
                  | some nt => some (!decide (nt.state.rank < m.rank))
                else some true
              else some false)
            (fun _ _ => True) 9 true trivial
            (by
              intro k ok hk _
              cases ok with
              | false => exact ⟨false, rfl, trivial⟩
              | true =>
                simp only [if_true]
                by_cases h0 : get_neighbor_index fm j (k : Int) ≥ 0
                · rw [if_pos h0]
                  obtain ⟨nt, hnt⟩ := neighbor_valid fm hg j (by omega) k hk h0
                  rw [hnt]
                  exact ⟨_, rfl, trivial⟩
                · rw [if_neg h0]
                  exact ⟨true, rfl, trivial⟩)
          exact ⟨b, hb⟩
  obtain ⟨b, hb⟩ := hex
  rw [hb, check_neighbor_state_some hb]

/-- On a grid the body of the promotion loop returns and keeps the grid. -/
theorem finish_tile_promote_defined {fm : TileManagerFull} (hg : grid_ok fm) (index : Int)
    (hi : 0 ≤ index) (n : Nat) (hn : n < 9) :
    ∃ fm', finish_tile_promote index fm n = some fm' ∧ grid_ok fm' := by
  have hex : ∃ fm', finish_tile_promote index fm n = some fm' := by
    have hv : get_neighbor_index fm index (n : Int) < 0 ∨
        ∃ t, tile_at fm (get_neighbor_index fm index (n : Int)) = some t := by
      by_cases h0 : 0 ≤ get_neighbor_index fm index (n : Int)
      · exact Or.inr (neighbor_valid fm hg index hi n hn h0)
      · exact Or.inl (by omega)
    unfold finish_tile_promote
    simp only
    rw [check_neighbor_state_defined hg _ _ hv]
    cases hc : closure_check fm (get_neighbor_index fm index (n : Int)) Tile.State.RENDERED with
    | false => exact ⟨fm, rfl⟩
    | true =>
      simp only
      obtain ⟨h0, t, ht, -⟩ := closure_check_tile hc
      have hg1 := grid_ok_set_tile_state hg _ h0 Tile.State.DENOISE
      have ht1 : tile_at (set_tile_state fm (get_neighbor_index fm index (n : Int))
          Tile.State.DENOISE) (get_neighbor_index fm index (n : Int)) =
          some { t with state := Tile.State.DENOISE } := by
        rw [tile_at_set_tile_state _ _ _ _ h0, if_pos rfl, ht]
        rfl
      rw [ht1]
      simp only
      have hdev := hg1.2.2.2.2 _ _ ht1
      rw [if_pos hdev]
      exact ⟨_, rfl⟩
  obtain ⟨fm', h⟩ := hex
  refine ⟨fm', h, ?_⟩
  rw [finish_tile_promote_some h]
  split_ifs with hc
  · exact grid_ok_promote_tile hg _ (closure_check_tile hc).1
  · exact hg

/-- On a grid the body of the release loop returns and keeps the grid. -/
theorem finish_tile_release_defined {acc : Bool × TileManagerFull} (hg : grid_ok acc.2)
    (index : Int) (hi : 0 ≤ index) (n : Nat) (hn : n < 9) :
    ∃ acc', finish_tile_release index acc n = some acc' ∧ grid_ok acc'.2 := by
  have hex : ∃ acc', finish_tile_release index acc n = some acc' := by
    have hv : get_neighbor_index acc.2 index (n : Int) < 0 ∨
        ∃ t, tile_at acc.2 (get_neighbor_index acc.2 index (n : Int)) = some t := by
      by_cases h0 : 0 ≤ get_neighbor_index acc.2 index (n : Int)
      · exact Or.inr (neighbor_valid acc.2 hg index hi n hn h0)
      · exact Or.inl (by omega)
    unfold finish_tile_release
    simp only
    rw [check_neighbor_state_defined hg _ _ hv]
    cases hc : closure_check acc.2 (get_neighbor_index acc.2 index (n : Int))
        Tile.State.DENOISED with
    | false => exact ⟨acc, rfl⟩
    | true =>
      simp only
      split_ifs
      all_goals exact ⟨_, rfl⟩
  obtain ⟨acc', h⟩ := hex
  refine ⟨acc', h, ?_⟩
  rw [finish_tile_release_some h]
  by_cases hc : closure_check acc.2 (get_neighbor_index acc.2 index (n : Int))
      Tile.State.DENOISED = true
  · rw [if_pos hc]
    exact grid_ok_release_tile hg _ (closure_check_tile hc).1 _
  · rw [if_neg hc]
    exact hg

/-- The tile at `index` in terms of its state. -/
theorem tile_at_of_state {fm : TileManagerFull} {index : Int} {s : Tile.State}
    (h : tile_state fm index = some s) : ∃ t, tile_at fm index = some t ∧ t.state = s := by
  unfold tile_state at h
  cases ht : tile_at fm index with
  | none => rw [ht] at h; cases h
  | some t =>
    rw [ht] at h
    simp only [Option.map_some', Option.some.injEq] at h
    exact ⟨t, rfl, h⟩

theorem tile_at_nonneg {fm : TileManagerFull} {index : Int} {t : Tile}
    (h : tile_at fm index = some t) : 0 ≤ index := by
  unfold tile_at at h
  by_contra hn
  rw [if_neg hn] at h
  cases h

/-- The call of `finish_tile` on a tile in state `RENDER` without denoising. -/
theorem finish_tile_plain {fm : TileManagerFull} {index : Int} {nd : Bool}
    (hs : tile_state fm index = some Tile.State.RENDER)
    (hd : (fm.schedule_denoising && nd) = false) :
    finish_tile fm index nd =
      some (true, !fm.progressive, set_tile_state fm index Tile.State.DONE) ∧
    finish_tile_freed fm index = some [] := by
  obtain ⟨t, ht, hst⟩ := tile_at_of_state hs
  unfold finish_tile finish_tile_freed
  rw [ht]
  simp only [hst, hd, Bool.not_false, if_true, and_self]

/-- The call of `finish_tile` on a tile of a grid in state `RENDER` with denoising. -/
theorem finish_tile_render {fm : TileManagerFull} (hg : grid_ok fm) {index : Int} {nd : Bool}
    (hs : tile_state fm index = some Tile.State.RENDER)
    (hd : (fm.schedule_denoising && nd) = true) :
    finish_tile fm index nd = some (false, false, finish_render_spec fm index) ∧
    finish_tile_freed fm index = some [] ∧ grid_ok (finish_render_spec fm index) := by
  obtain ⟨t, ht, hst⟩ := tile_at_of_state hs
  have hi := tile_at_nonneg ht
  obtain ⟨fm2, hf, hg2⟩ := foldlM_range_invariant (finish_tile_promote index)
    (fun _ fm' => grid_ok fm') 9 (set_tile_state fm index Tile.State.RENDERED)
    (grid_ok_set_tile_state hg index hi _)
    (fun k s hk hP => finish_tile_promote_defined hP index hi k hk)
  obtain ⟨e, -⟩ := finish_tile_promote_fold fm index fm2 hf
  subst e
  refine ⟨?_, ?_, hg2⟩
  · unfold finish_tile
    rw [ht]
    simp only [hst, hd, Bool.not_true, Bool.false_eq_true, if_false, hf]
  · unfold finish_tile_freed
    rw [ht]
    simp only [hst]

/-- The loop body with the log of the deletions does what the loop body does, and logs the
neighbour when it deletes its buffers in place. -/
theorem finish_tile_release_log_eq (index : Int) (log : List Int) (d : Bool)
    (fm : TileManagerFull) (n : Nat) :
    finish_tile_release_log index (log, d, fm) n =
      (finish_tile_release index (d, fm) n).map (fun r =>
        (if closure_check fm (get_neighbor_index fm index (n : Int)) Tile.State.DENOISED = true ∧
            fm.progressive = false ∧ n ≠ 4 then
          log ++ [get_neighbor_index fm index (n : Int)] else log, r.1, r.2)) := by
  unfold finish_tile_release_log finish_tile_release
  simp only
  cases hc : check_neighbor_state fm (get_neighbor_index fm index (n : Int))
      Tile.State.DENOISED with
  | none => rfl
  | some b =>
    have hb := check_neighbor_state_some hc
    cases b with
    | false =>
      simp only [Option.map_some', ← hb, Bool.false_eq_true, false_and, if_false]
    | true =>
      have hp : (set_tile_state fm (get_neighbor_index fm index (n : Int))
          Tile.State.DONE).progressive = fm.progressive := rfl
      simp only [hp, ← hb, true_and]
      cases fm.progressive <;> by_cases h4 : n = 4 <;> simp [h4]

/-- The call of `finish_tile` on a tile of a grid in state `DENOISE`. -/
theorem finish_tile_denoise {fm : TileManagerFull} (hg : grid_ok fm) {index : Int} (nd : Bool)
    (hs : tile_state fm index = some Tile.State.DENOISE) :
    finish_tile fm index nd =
      some (true, (finish_denoise_spec fm index).1, (finish_denoise_spec fm index).2) ∧
    finish_tile_freed fm index = some (finish_denoise_freed fm index) ∧
    grid_ok (finish_denoise_spec fm index).2 := by
  obtain ⟨t, ht, hst⟩ := tile_at_of_state hs
  have hi := tile_at_nonneg ht
  have hg1 := grid_ok_set_tile_state hg index hi Tile.State.DENOISED
  obtain ⟨r, hf, hg2⟩ := foldlM_range_invariant (finish_tile_release index)
    (fun _ acc => grid_ok acc.2) 9 (false, set_tile_state fm index Tile.State.DENOISED) hg1
    (fun k s hk hP => finish_tile_release_defined hP index hi k hk)
  obtain ⟨e, -⟩ := finish_tile_release_fold fm index r hf
  subst e
  have hnb : ∀ i n, get_neighbor_index (set_tile_state fm index Tile.State.DENOISED) i n =
      get_neighbor_index fm i n := fun i n => rfl
  have hpr : (set_tile_state fm index Tile.State.DENOISED).progressive = fm.progressive := rfl
  obtain ⟨acc, hl, hg3, hst3, hlog, hrel⟩ := foldlM_range_invariant
    (finish_tile_release_log index)
    (fun k acc => grid_ok acc.2.2 ∧
      states_step 3 Tile.State.DONE (set_tile_state fm index Tile.State.DENOISED) acc.2.2 ∧
      acc.1 = ((List.range k).filter
        (fun (n : Nat) => decide (n ≠ 4) && !fm.progressive &&
          closure_check (set_tile_state fm index Tile.State.DENOISED)
            (get_neighbor_index fm index (n : Int)) Tile.State.DENOISED)).map
        (fun (n : Nat) => get_neighbor_index fm index (n : Int)) ∧
      (List.range k).foldlM (finish_tile_release index)
        (false, set_tile_state fm index Tile.State.DENOISED) = some (acc.2.1, acc.2.2))
    9 ([], false, set_tile_state fm index Tile.State.DENOISED)
    ⟨hg1, states_step_refl _ _ _, rfl, rfl⟩
    (by
      rintro k ⟨log, d, s⟩ hk ⟨hP, hstep, hlog, hrel⟩
      simp only at hP hstep hlog hrel
      obtain ⟨acc', ha, hga⟩ := @finish_tile_release_defined (d, s) hP index hi k hk
      rw [finish_tile_release_log_eq, ha]
      refine ⟨_, rfl, hga, ?_, ?_, ?_⟩
      · simp only
        rw [finish_tile_release_some ha]
        by_cases hc : closure_check s (get_neighbor_index s index (k : Int))
            Tile.State.DENOISED = true
        · simp only [hc, if_true]
          exact states_step_trans hstep (release_tile_step s _ _ hc).1
        · simp only [hc, Bool.false_eq_true, if_false]
          exact hstep
      · obtain ⟨hn, hp, -⟩ := frame_eq_spec hstep.1
        simp only
        rw [hn, hnb, hp, hpr, states_step_closure hstep (by decide) (by decide), hlog,
          List.range_succ, List.filter_append, List.map_append]
        by_cases hc : closure_check (set_tile_state fm index Tile.State.DENOISED)
            (get_neighbor_index fm index (k : Int)) Tile.State.DENOISED = true
        · cases hq : fm.progressive <;> by_cases h4 : k = 4 <;> simp [hc, hq, h4]
        · simp [hc]
      · rw [List.range_succ, List.foldlM_append, hrel]
        simpa using ha)
  obtain ⟨log, d, s⟩ := acc
  simp only at hlog hrel
  rw [hf] at hrel
  refine ⟨?_, ?_, hg2⟩
  · unfold finish_tile
    rw [ht]
    simp only [hst, hf]
  · unfold finish_tile_freed
    rw [ht]
    simp only [hst, hl]
    rw [hlog]
    rfl


/-! ## The denoising queues after the `RENDER` case -/

theorem tile_device_promote_tile (fm : TileManagerFull) (j k : Int) (hj : 0 ≤ j) :
    tile_device (promote_tile fm j) k = tile_device fm k := by
  unfold tile_device
  rw [tile_at_promote_tile fm j k hj]
  split_ifs with e
  · rw [e]
    cases tile_at fm j <;> rfl
  · rfl

theorem getD_set_queue (q : List (List Int)) (i d : Nat) (v : List Int) (hi : i < q.length) :
    (q.set i v).getD d [] = if i = d then v else q.getD d [] := by
  simp only [List.getD_eq_getElem?_getD, List.getElem?_set]
  by_cases e : i = d
  · subst e
    simp [hi]
  · simp [e]

/-- The queue of device `d` after the promotion of tile `j` on a grid. -/
theorem promote_tile_queue {fm : TileManagerFull} (hg : grid_ok fm) (j : Int) (d : Nat) :
    (promote_tile fm j).denoising_tiles.getD d [] =
      fm.denoising_tiles.getD d [] ++
        (if 0 ≤ j ∧ tile_device fm j = some (d : Int) then [j] else []) := by
  unfold promote_tile
  simp only
  cases ht : tile_at (set_tile_state fm j Tile.State.DENOISE) j with
  | none =>
    simp only
    have hq : (set_tile_state fm j Tile.State.DENOISE).denoising_tiles = fm.denoising_tiles :=
      rfl
    rw [hq]
    by_cases h0 : 0 ≤ j
    · rw [tile_at_set_tile_state fm j j _ h0, if_pos rfl] at ht
      have hn : tile_device fm j = none := by
        unfold tile_device
        cases h : tile_at fm j with
        | none => rfl
        | some t => rw [h] at ht; cases ht
      simp [hn]
    · simp [h0]
  | some nt =>
    simp only
    have h0 := tile_at_nonneg ht
    rw [tile_at_set_tile_state fm j j _ h0, if_pos rfl] at ht
    cases h : tile_at fm j with
    | none => rw [h] at ht; cases ht
    | some t =>
      rw [h] at ht
      simp only [Option.map_some', Option.some.injEq] at ht
      subst ht
      obtain ⟨hd0, hd1⟩ := hg.2.2.2.2 j t h
      have hq : (set_tile_state fm j Tile.State.DENOISE).denoising_tiles = fm.denoising_tiles :=
        rfl
      have hdev : tile_device fm j = some t.device := by
        unfold tile_device; rw [h]; rfl
      simp only [hq]
      rw [getD_set_queue _ _ _ _ hd1, hdev]
      by_cases e : t.device.toNat = d
      · have e2 : t.device = (d : Int) := by omega
        simp [e, e2, h0]
      · have e2 : ¬ t.device = (d : Int) := by omega
        simp [e, e2]

/-- The queue of device `d` after the promotions of the `RENDER` case, in terms of the
closure checks `c`. -/
theorem promote_foldl_queue (c : Int → Bool) (hc : ∀ j, c j = true → 0 ≤ j) (d : Nat) :
    ∀ (js : List Int) (acc : TileManagerFull), grid_ok acc →
      (js.foldl (fun acc j => if c j = true then promote_tile acc j else acc)
          acc).denoising_tiles.getD d [] =
        acc.denoising_tiles.getD d [] ++
          js.filter (fun j => c j && decide (tile_device acc j = some (d : Int)))
  | [], acc, _ => by simp
  | j :: js, acc, hg => by
    rw [List.foldl_cons]
    by_cases hcj : c j = true
    · have h0 := hc j hcj
      rw [if_pos hcj, promote_foldl_queue c hc d js _ (grid_ok_promote_tile hg j h0),
        promote_tile_queue hg j d]
      simp only [tile_device_promote_tile acc j _ h0, List.filter_cons, hcj, Bool.true_and,
        h0, true_and]
      by_cases e : tile_device acc j = some (d : Int)
      · simp [e]
      · simp [e]
    · rw [if_neg hcj, promote_foldl_queue c hc d js _ hg]
      simp [List.filter_cons, hcj]

/-- The queue of device `d` after the `RENDER` case with denoising on a grid. -/
theorem finish_render_spec_queue {fm : TileManagerFull} (hg : grid_ok fm) (index : Int)
    (hi : 0 ≤ index) (d : Nat) :
    (finish_render_spec fm index).denoising_tiles.getD d [] =
      fm.denoising_tiles.getD d [] ++
        (neighborhood fm index).filter (fun k =>
          closure_check (set_tile_state fm index Tile.State.RENDERED) k Tile.State.RENDERED &&
            decide (tile_device fm k = some (d : Int))) := by
  have key := promote_foldl_queue
    (fun j => closure_check (set_tile_state fm index Tile.State.RENDERED) j Tile.State.RENDERED)
    (fun j hj => (closure_check_tile hj).1) d (neighborhood fm index)
    (set_tile_state fm index Tile.State.RENDERED) (grid_ok_set_tile_state hg index hi _)
  have hdev : ∀ k, tile_device (set_tile_state fm index Tile.State.RENDERED) k =
      tile_device fm k := by
    intro k
    unfold tile_device
    rw [tile_at_set_tile_state fm index k _ hi]
    split_ifs with e
    · rw [e]
      cases tile_at fm index <;> rfl
    · rfl
  simp only [hdev] at key
  have hq : (set_tile_state fm index Tile.State.RENDERED).denoising_tiles =
      fm.denoising_tiles := rfl
  rw [hq] at key
  rw [← key]
  unfold finish_render_spec neighborhood
  rw [List.foldl_map]

/-- The fixture `pair_fixture` is a grid. -/
theorem pair_fixture_grid : grid_ok pair_fixture := by
  refine ⟨by decide, by decide, by decide, by decide, fun k t ht => ?_⟩
  have hm : t ∈ pair_fixture.tiles := by
    unfold tile_at at ht
    split_ifs at ht
    obtain ⟨hlt, hget⟩ := List.getElem?_eq_some.1 ht
    rw [← hget]
    exact List.getElem_mem hlt
  have hall : ∀ t ∈ pair_fixture.tiles,
      0 ≤ t.device ∧ t.device.toNat < pair_fixture.denoising_tiles.length := by decide
  exact hall t hm

/-- C21: on a grid, `finish_tile` on a tile `index` in state `RENDER` with denoising
scheduled and requested returns false with `delete_tile = false`.  The in-grid tiles of the
3 x 3 neighbourhood are distinct and neighbour 4 is the tile itself.  With `index` set to
`RENDERED`: a tile `k` of the neighbourhood whose closure is complete (it and all its in-grid
neighbours are at least `RENDERED`) is set to `DENOISE`, every other tile is left as it is
then, and the queue of each device `d` is extended at the back by the tiles of the
neighbourhood with complete closure that belong to `d`, in the order of the neighbour numbers.
In particular a tile whose right neighbour (neighbour 5) is still `RENDER` is left as it is,
and `index` itself ends in `DENOISE` if its closure is complete and in `RENDERED` if not. -/
theorem finish_tile_render_promotes (fm : TileManagerFull) (index : Int) (hg : grid_ok fm)
    (hs : tile_state fm index = some Tile.State.RENDER) (hsd : fm.schedule_denoising = true) :
    ∃ fm2, finish_tile fm index true = some (false, false, fm2) ∧
      (∀ n m : Nat, n < 9 → m < 9 → 0 ≤ get_neighbor_index fm index (n : Int) →
        get_neighbor_index fm index (n : Int) = get_neighbor_index fm index (m : Int) → n = m) ∧
      get_neighbor_index fm index 4 = index ∧
      (∀ k, k ∈ neighborhood fm index →
        closure_ok (set_tile_state fm index Tile.State.RENDERED) k Tile.State.RENDERED →
        tile_at fm2 k = (tile_at (set_tile_state fm index Tile.State.RENDERED) k).map
          (fun t => { t with state := Tile.State.DENOISE })) ∧
      (∀ k, ¬ (k ∈ neighborhood fm index ∧
          closure_ok (set_tile_state fm index Tile.State.RENDERED) k Tile.State.RENDERED) →
        tile_at fm2 k = tile_at (set_tile_state fm index Tile.State.RENDERED) k) ∧
      (∀ d : Nat, fm2.denoising_tiles.getD d [] =
        fm.denoising_tiles.getD d [] ++
          (neighborhood fm index).filter (fun k =>
            closure_check (set_tile_state fm index Tile.State.RENDERED) k Tile.State.RENDERED &&
              decide (tile_device fm k = some (d : Int)))) ∧
      (∀ k, closure_check (set_tile_state fm index Tile.State.RENDERED) k Tile.State.RENDERED
          = true ↔
        closure_ok (set_tile_state fm index Tile.State.RENDERED) k Tile.State.RENDERED) ∧
      (∀ a, 0 ≤ get_neighbor_index fm a 5 →
        tile_state (set_tile_state fm index Tile.State.RENDERED) (get_neighbor_index fm a 5) =
          some Tile.State.RENDER →
        tile_at fm2 a = tile_at (set_tile_state fm index Tile.State.RENDERED) a) ∧
      tile_state fm2 index =
        some (if closure_check (set_tile_state fm index Tile.State.RENDERED) index
            Tile.State.RENDERED = true then Tile.State.DENOISE else Tile.State.RENDERED) := by
  obtain ⟨t, ht, hst⟩ := tile_at_of_state hs
  have hi := tile_at_nonneg ht
  have hlt : index < (fm.tiles.length : Int) := ((tile_at_some_iff fm index).1 ⟨t, ht⟩).2
  have hd : (fm.schedule_denoising && true) = true := by rw [hsd]; rfl
  obtain ⟨hf, -, -⟩ := finish_tile_render hg hs hd
  have hself := neighbor_self fm hg index hi hlt
  have hnot : ∀ k, ¬ (k ∈ neighborhood fm index ∧
      closure_ok (set_tile_state fm index Tile.State.RENDERED) k Tile.State.RENDERED) →
      tile_at (finish_render_spec fm index) k =
        tile_at (set_tile_state fm index Tile.State.RENDERED) k := by
    intro k hk
    rw [finish_render_spec_tile_at, if_neg]
    rw [closure_check_iff]
    exact hk
  refine ⟨finish_render_spec fm index, hf,
    fun n m hn hm h0 h => neighbor_inj fm hg index hi n m hn hm h0 h, hself,
    fun k hk hc => ?_, hnot, fun d => finish_render_spec_queue hg index hi d,
    fun k => closure_check_iff _ k _, fun a ha hb => ?_, ?_⟩
  · rw [finish_render_spec_tile_at, if_pos ⟨hk, (closure_check_iff _ k _).2 hc⟩]
  · refine hnot a (fun hc => ?_)
    obtain ⟨-, -, hn⟩ := hc.2
    have hnb : get_neighbor_index (set_tile_state fm index Tile.State.RENDERED) a ((5 : Nat) : Int)
        = get_neighbor_index fm a 5 := rfl
    obtain ⟨t5, ht5, hr5⟩ := hn 5 (by decide) (by rw [hnb]; exact ha)
    rw [hnb] at ht5
    unfold tile_state at hb
    rw [ht5] at hb
    simp only [Option.map_some', Option.some.injEq] at hb
    rw [hb] at hr5
    exact absurd hr5 (by decide)
  · rw [finish_render_spec_state]
    have hmem : index ∈ neighborhood fm index :=
      (mem_neighborhood fm index index).2 ⟨4, by decide, hself⟩
    by_cases hc : closure_check (set_tile_state fm index Tile.State.RENDERED) index
        Tile.State.RENDERED = true
    · rw [if_pos ⟨hmem, hc⟩, if_pos hc]
    · rw [if_neg (fun h => hc h.2), if_neg hc, tile_state_set_tile_state fm index index _ hi,
        if_pos rfl, hs]
      rfl

theorem finish_tile_render_promotes_witness :
    ∃ fm2, finish_tile pair_fixture 0 true = some (false, false, fm2) ∧
      (∀ n m : Nat, n < 9 → m < 9 → 0 ≤ get_neighbor_index pair_fixture 0 (n : Int) →
        get_neighbor_index pair_fixture 0 (n : Int) =
          get_neighbor_index pair_fixture 0 (m : Int) → n = m) ∧
      get_neighbor_index pair_fixture 0 4 = 0 ∧
      (∀ k, k ∈ neighborhood pair_fixture 0 →
        closure_ok (set_tile_state pair_fixture 0 Tile.State.RENDERED) k Tile.State.RENDERED →
        tile_at fm2 k = (tile_at (set_tile_state pair_fixture 0 Tile.State.RENDERED) k).map
          (fun t => { t with state := Tile.State.DENOISE })) ∧
      (∀ k, ¬ (k ∈ neighborhood pair_fixture 0 ∧
          closure_ok (set_tile_state pair_fixture 0 Tile.State.RENDERED) k
            Tile.State.RENDERED) →
        tile_at fm2 k = tile_at (set_tile_state pair_fixture 0 Tile.State.RENDERED) k) ∧
      (∀ d : Nat, fm2.denoising_tiles.getD d [] =
        pair_fixture.denoising_tiles.getD d [] ++
          (neighborhood pair_fixture 0).filter (fun k =>
            closure_check (set_tile_state pair_fixture 0 Tile.State.RENDERED) k
                Tile.State.RENDERED &&
              decide (tile_device pair_fixture k = some (d : Int)))) ∧
      (∀ k, closure_check (set_tile_state pair_fixture 0 Tile.State.RENDERED) k
          Tile.State.RENDERED = true ↔
        closure_ok (set_tile_state pair_fixture 0 Tile.State.RENDERED) k Tile.State.RENDERED) ∧
      (∀ a, 0 ≤ get_neighbor_index pair_fixture a 5 →
        tile_state (set_tile_state pair_fixture 0 Tile.State.RENDERED)
            (get_neighbor_index pair_fixture a 5) = some Tile.State.RENDER →
        tile_at fm2 a = tile_at (set_tile_state pair_fixture 0 Tile.State.RENDERED) a) ∧
      tile_state fm2 0 =
        some (if closure_check (set_tile_state pair_fixture 0 Tile.State.RENDERED) 0
            Tile.State.RENDERED = true then Tile.State.DENOISE else Tile.State.RENDERED) :=
  finish_tile_render_promotes pair_fixture 0 pair_fixture_grid (by decide) (by decide)


/-! ## The `DENOISE` case on a grid -/

/-- The property `grid_ok` from a check of the tiles one by one. -/
theorem grid_ok_of_tiles (fm : TileManagerFull)
    (h : 1 ≤ neighbor_tile_w fm ∧ fm.tile_stride = neighbor_tile_w fm ∧
      0 ≤ neighbor_tile_h fm * neighbor_slice_num fm ∧
      (fm.tiles.length : Int) = neighbor_tile_w fm * (neighbor_tile_h fm * neighbor_slice_num fm))
    (hall : ∀ t ∈ fm.tiles, 0 ≤ t.device ∧ t.device.toNat < fm.denoising_tiles.length) :
    grid_ok fm := by
  refine ⟨h.1, h.2.1, h.2.2.1, h.2.2.2, fun k t ht => ?_⟩
  have hm : t ∈ fm.tiles := by
    unfold tile_at at ht
    split_ifs at ht
    obtain ⟨hlt, hget⟩ := List.getElem?_eq_some.1 ht
    rw [← hget]
    exact List.getElem_mem hlt
  exact hall t hm

/-- The tiles deleted in place by the `DENOISE` case on a grid. -/
theorem mem_finish_denoise_freed_grid {fm : TileManagerFull} (hg : grid_ok fm) {index : Int}
    (hi : 0 ≤ index) (hlt : index < (fm.tiles.length : Int)) (k : Int) :
    k ∈ finish_denoise_freed fm index ↔
      fm.progressive = false ∧ k ≠ index ∧ k ∈ neighborhood fm index ∧
      closure_check (set_tile_state fm index Tile.State.DENOISED) k Tile.State.DENOISED
        = true := by
  have hself := neighbor_self fm hg index hi hlt
  rw [mem_finish_denoise_freed, mem_neighborhood]
  constructor
  · rintro ⟨hp, hc, n, hn, h4, e⟩
    refine ⟨hp, fun hk => h4 ?_, ⟨n, hn, e⟩, hc⟩
    have h0 := (closure_check_tile hc).1
    exact neighbor_inj fm hg index hi n 4 hn (by decide) (by rw [e]; exact h0)
      (by rw [e, hself, hk])
  · rintro ⟨hp, hk, ⟨n, hn, e⟩, hc⟩
    refine ⟨hp, hc, n, hn, fun h4 => hk ?_, e⟩
    rw [← e, h4, hself]

/-- On a grid no tile is deleted in place twice by one call. -/
theorem finish_denoise_freed_nodup {fm : TileManagerFull} (hg : grid_ok fm) {index : Int}
    (hi : 0 ≤ index) : (finish_denoise_freed fm index).Nodup := by
  unfold finish_denoise_freed
  refine List.Nodup.map_on ?_ (List.Nodup.filter _ (List.nodup_range 9))
  intro n hn m hm e
  simp only [List.mem_filter, List.mem_range, Bool.and_eq_true] at hn hm
  exact neighbor_inj fm hg index hi n m hn.1 hm.1 (closure_check_tile hn.2.2).1 e

/-- C22: on a grid, `finish_tile` on a tile `index` in state `DENOISE` returns true.  With
`index` set to `DENOISED`: a tile `k` of the 3 x 3 neighbourhood whose closure is complete
(it and all its in-grid neighbours are at least `DENOISED`) is set to `DONE`, and its buffers
are deleted if it is one of the tiles deleted in place; every other tile is left as it is
then.  The tiles deleted in place, each once, are those tiles of the neighbourhood other
than `index` whose closure is complete, if `progressive` is not set, and none if it is;
`delete_tile` is true exactly if `progressive` is not set and the closure of `index` is
complete; `index` itself ends in `DONE` with its buffers kept if its closure is complete and
in `DENOISED` if not. -/
theorem finish_tile_denoise_releases (fm : TileManagerFull) (index : Int) (nd : Bool)
    (hg : grid_ok fm) (hs : tile_state fm index = some Tile.State.DENOISE) :
    ∃ d fm2 freed, finish_tile fm index nd = some (true, d, fm2) ∧
      finish_tile_freed fm index = some freed ∧
      (∀ k, k ∈ neighborhood fm index →
        closure_ok (set_tile_state fm index Tile.State.DENOISED) k Tile.State.DENOISED →
        tile_at fm2 k = (tile_at (set_tile_state fm index Tile.State.DENOISED) k).map
          (fun t => { t with state := Tile.State.DONE,
                             buffers := if k ∈ freed then false else t.buffers })) ∧
      (∀ k, ¬ (k ∈ neighborhood fm index ∧
          closure_ok (set_tile_state fm index Tile.State.DENOISED) k Tile.State.DENOISED) →
        tile_at fm2 k = tile_at (set_tile_state fm index Tile.State.DENOISED) k) ∧
      (∀ k, k ∈ freed ↔
        fm.progressive = false ∧ k ≠ index ∧ k ∈ neighborhood fm index ∧
        closure_ok (set_tile_state fm index Tile.State.DENOISED) k Tile.State.DENOISED) ∧
      freed.Nodup ∧
      (d = true ↔ fm.progressive = false ∧
        closure_ok (set_tile_state fm index Tile.State.DENOISED) index Tile.State.DENOISED) ∧
      (fm.progressive = true → freed = [] ∧ d = false) ∧
      index ∈ neighborhood fm index ∧
      (closure_ok (set_tile_state fm index Tile.State.DENOISED) index Tile.State.DENOISED →
        tile_at fm2 index = (tile_at fm index).map
          (fun t => { t with state := Tile.State.DONE })) ∧
      (¬ closure_ok (set_tile_state fm index Tile.State.DENOISED) index Tile.State.DENOISED →
        tile_state fm2 index = some Tile.State.DENOISED) := by
  obtain ⟨t, ht, hst⟩ := tile_at_of_state hs
  have hi := tile_at_nonneg ht
  have hlt : index < (fm.tiles.length : Int) := ((tile_at_some_iff fm index).1 ⟨t, ht⟩).2
  obtain ⟨hf, hfr, -⟩ := finish_tile_denoise hg nd hs
  have hself := neighbor_self fm hg index hi hlt
  have hmem : index ∈ neighborhood fm index :=
    (mem_neighborhood fm index index).2 ⟨4, by decide, hself⟩
  have hfreed : ∀ k, k ∈ finish_denoise_freed fm index ↔
      fm.progressive = false ∧ k ≠ index ∧ k ∈ neighborhood fm index ∧
      closure_ok (set_tile_state fm index Tile.State.DENOISED) k Tile.State.DENOISED := by
    intro k
    rw [mem_finish_denoise_freed_grid hg hi hlt, closure_check_iff]
  have hd : (finish_denoise_spec fm index).1 = true ↔ fm.progressive = false ∧
      closure_ok (set_tile_state fm index Tile.State.DENOISED) index Tile.State.DENOISED := by
    rw [finish_denoise_spec_eq, ← closure_check_iff]
    simp only [Bool.and_eq_true, Bool.not_eq_true']
    have h4 : get_neighbor_index fm index 4 = index := hself
    rw [h4]
  have hnot : ∀ k, ¬ (k ∈ neighborhood fm index ∧
      closure_ok (set_tile_state fm index Tile.State.DENOISED) k Tile.State.DENOISED) →
      tile_at (finish_denoise_spec fm index).2 k =
        tile_at (set_tile_state fm index Tile.State.DENOISED) k := by
    intro k hk
    rw [finish_denoise_spec_tile_at, if_neg]
    rw [closure_check_iff]
    exact hk
  refine ⟨_, _, _, hf, hfr, fun k hk hc => ?_, hnot, hfreed,
    finish_denoise_freed_nodup hg hi, hd, fun hp => ⟨?_, ?_⟩, hmem, fun hc => ?_, fun hc => ?_⟩
  · rw [finish_denoise_spec_tile_at, if_pos ⟨hk, (closure_check_iff _ k _).2 hc⟩]
  · apply List.eq_nil_iff_forall_not_mem.2
    intro k hk
    have := ((hfreed k).1 hk).1
    rw [hp] at this
    cases this
  · cases hdv : (finish_denoise_spec fm index).1 with
    | false => rfl
    | true =>
      have := (hd.1 hdv).1
      rw [hp] at this
      cases this
  · have hnf : index ∉ finish_denoise_freed fm index := fun h => ((hfreed index).1 h).2.1 rfl
    rw [finish_denoise_spec_tile_at, if_pos ⟨hmem, (closure_check_iff _ index _).2 hc⟩,
      tile_at_set_tile_state fm index index _ hi, if_pos rfl, ht]
    simp only [hnf, if_false, Option.map_some']
  · unfold tile_state
    rw [hnot index (fun h => hc h.2), tile_at_set_tile_state fm index index _ hi, if_pos rfl, ht]
    rfl

theorem finish_tile_denoise_releases_witness :
    ∃ d fm2 freed, finish_tile pair_denoising 0 true = some (true, d, fm2) ∧
      finish_tile_freed pair_denoising 0 = some freed ∧
      (∀ k, k ∈ neighborhood pair_denoising 0 →
        closure_ok (set_tile_state pair_denoising 0 Tile.State.DENOISED) k Tile.State.DENOISED →
        tile_at fm2 k = (tile_at (set_tile_state pair_denoising 0 Tile.State.DENOISED) k).map
          (fun t => { t with state := Tile.State.DONE,
                             buffers := if k ∈ freed then false else t.buffers })) ∧
      (∀ k, ¬ (k ∈ neighborhood pair_denoising 0 ∧
          closure_ok (set_tile_state pair_denoising 0 Tile.State.DENOISED) k
            Tile.State.DENOISED) →
        tile_at fm2 k = tile_at (set_tile_state pair_denoising 0 Tile.State.DENOISED) k) ∧
      (∀ k, k ∈ freed ↔
        pair_denoising.progressive = false ∧ k ≠ 0 ∧ k ∈ neighborhood pair_denoising 0 ∧
        closure_ok (set_tile_state pair_denoising 0 Tile.State.DENOISED) k
          Tile.State.DENOISED) ∧
      freed.Nodup ∧
      (d = true ↔ pair_denoising.progressive = false ∧
        closure_ok (set_tile_state pair_denoising 0 Tile.State.DENOISED) 0
          Tile.State.DENOISED) ∧
      (pair_denoising.progressive = true → freed = [] ∧ d = false) ∧
      (0 : Int) ∈ neighborhood pair_denoising 0 ∧
      (closure_ok (set_tile_state pair_denoising 0 Tile.State.DENOISED) 0 Tile.State.DENOISED →
        tile_at fm2 0 = (tile_at pair_denoising 0).map
          (fun t => { t with state := Tile.State.DONE })) ∧
      (¬ closure_ok (set_tile_state pair_denoising 0 Tile.State.DENOISED) 0
          Tile.State.DENOISED →
        tile_state fm2 0 = some Tile.State.DENOISED) :=
  finish_tile_denoise_releases pair_denoising 0 true
    (grid_ok_of_tiles pair_denoising (by decide) (by decide)) (by decide)


/-! ## The release invariant -/

/-- A closure check in terms of the neighbourhood. -/
theorem closure_check_nbh (fm : TileManagerFull) (k : Int) (m : Tile.State) :
    closure_check fm k m = true ↔
      0 ≤ k ∧ state_at_least fm k m = true ∧
      ∀ j ∈ neighborhood fm k, 0 ≤ j → state_at_least fm j m = true := by
  rw [closure_check_iff]
  unfold closure_ok
  simp only [← state_at_least_iff, mem_neighborhood]
  constructor
  · rintro ⟨h0, h1, h2⟩
    refine ⟨h0, h1, ?_⟩
    rintro j ⟨n, hn, rfl⟩ hj
    exact h2 n hn hj
  · rintro ⟨h0, h1, h2⟩
    exact ⟨h0, h1, fun n hn hj => h2 _ ⟨n, hn, rfl⟩ hj⟩

/-- Closure checks agree on two objects that agree on the tile and its neighbourhood. -/
theorem closure_check_congr {fm fm' : TileManagerFull} (hf : frame_eq fm fm') (k : Int)
    (m : Tile.State) (hk : state_at_least fm' k m = state_at_least fm k m)
    (hn : ∀ j ∈ neighborhood fm k, 0 ≤ j → state_at_least fm' j m = state_at_least fm j m) :
    closure_check fm' k m = closure_check fm k m := by
  have hnb : neighborhood fm' k = neighborhood fm k := by
    unfold neighborhood
    simp only [(frame_eq_spec hf).1]
  rw [Bool.eq_iff_iff, closure_check_nbh, closure_check_nbh, hnb, hk]
  constructor
  · rintro ⟨h0, h1, h2⟩
    exact ⟨h0, h1, fun j hj h0j => by rw [← hn j hj h0j]; exact h2 j hj h0j⟩
  · rintro ⟨h0, h1, h2⟩
    exact ⟨h0, h1, fun j hj h0j => by rw [hn j hj h0j]; exact h2 j hj h0j⟩

/-- On a grid a tile lies in the neighbourhood of each tile of its neighbourhood. -/
theorem neighborhood_symm {fm : TileManagerFull} (hg : grid_ok fm) {i k : Int}
    (hi : ∃ t, tile_at fm i = some t) (hk : k ∈ neighborhood fm i) (h0 : 0 ≤ k) :
    i ∈ neighborhood fm k := by
  obtain ⟨hi0, hlt⟩ := (tile_at_some_iff fm i).1 hi
  obtain ⟨n, hn, rfl⟩ := (mem_neighborhood fm i k).1 hk
  exact (mem_neighborhood fm _ i).2 ⟨8 - n, by omega, neighbor_symm fm hg i hi0 hlt n hn h0⟩

/-- On a grid a tile lies in its own neighbourhood. -/
theorem neighborhood_self {fm : TileManagerFull} (hg : grid_ok fm) {i : Int}
    (hi : ∃ t, tile_at fm i = some t) : i ∈ neighborhood fm i := by
  obtain ⟨hi0, hlt⟩ := (tile_at_some_iff fm i).1 hi
  exact (mem_neighborhood fm i i).2 ⟨4, by decide, neighbor_self fm hg i hi0 hlt⟩

/-- A tile whose closure check holds has all tiles of its neighbourhood, on a grid itself
included, in the required state. -/
theorem closure_check_neighbor {fm : TileManagerFull} {k j : Int} {m : Tile.State}
    (hc : closure_check fm k m = true) (hj : j ∈ neighborhood fm k) (h0 : 0 ≤ j) :
    ∃ s, tile_state fm j = some s ∧ m.rank ≤ s.rank :=
  (state_at_least_state fm j m).1 (((closure_check_nbh fm k m).1 hc).2.2 j hj h0)

theorem tile_state_some_of_at {fm : TileManagerFull} {k : Int} {s : Tile.State}
    (h : tile_state fm k = some s) : ∃ t, tile_at fm k = some t := by
  obtain ⟨t, ht, -⟩ := tile_at_of_state h
  exact ⟨t, ht⟩

/-- A fresh grid satisfies the release invariant. -/
theorem release_inv_fresh {fm : TileManagerFull} (hg : grid_ok fm)
    (hfresh : ∀ t ∈ fm.tiles, t.state = Tile.State.RENDER) (hp : fm.progressive = false)
    (hsd : fm.schedule_denoising = true) : release_inv fm := by
  have hst : ∀ k s, tile_state fm k = some s → s = Tile.State.RENDER := by
    intro k s hs
    obtain ⟨t, ht, e⟩ := tile_at_of_state hs
    have hm : t ∈ fm.tiles := by
      unfold tile_at at ht
      split_ifs at ht
      obtain ⟨hlt, hget⟩ := List.getElem?_eq_some.1 ht
      rw [← hget]
      exact List.getElem_mem hlt
    rw [← e]
    exact hfresh t hm
  refine ⟨hg, hp, hsd, fun k s hs hr => ?_, fun k => ⟨fun h => ?_, fun h => ?_⟩⟩
  · rw [hst k s hs] at hr
    exact absurd hr (by decide)
  · exact absurd (hst k _ h) (by decide)
  · obtain ⟨-, hk, -⟩ := (closure_check_nbh fm k _).1 h
    obtain ⟨s, hs, hr⟩ := (state_at_least_state fm k _).1 hk
    rw [hst k s hs] at hr
    exact absurd hr (by decide)


/-! ## The release invariant over a call -/

theorem rank_render : Tile.State.RENDER.rank = 0 := rfl

theorem rank_rendered : Tile.State.RENDERED.rank = 1 := rfl

theorem rank_denoise : Tile.State.DENOISE.rank = 2 := rfl

theorem rank_denoised : Tile.State.DENOISED.rank = 3 := rfl

theorem rank_done : Tile.State.DONE.rank = 4 := rfl

theorem rank_le_four (s : Tile.State) : s.rank ≤ 4 := by
  cases s <;> decide

theorem rank_eq_iff (s s' : Tile.State) : s.rank = s'.rank ↔ s = s' := by
  cases s <;> cases s' <;> decide

/-- The `RENDER` case with denoising keeps the release invariant, lowers no state and
releases nothing. -/
theorem release_inv_render {fm : TileManagerFull} (hI : release_inv fm) {index : Int}
    (hs : tile_state fm index = some Tile.State.RENDER) :
    release_inv (finish_render_spec fm index) ∧
    (∀ k s, tile_state fm k = some s →
      ∃ s', tile_state (finish_render_spec fm index) k = some s' ∧ s.rank ≤ s'.rank) ∧
    ∀ k, done_count (finish_render_spec fm index) k = done_count fm k := by
  obtain ⟨hg, hp, hsd, hI1, hI2⟩ := hI
  have hex := tile_state_some_of_at hs
  obtain ⟨hi, -⟩ := (tile_at_some_iff fm index).1 hex
  have hd : (fm.schedule_denoising && true) = true := by rw [hsd]; rfl
  obtain ⟨hf, -, hg1⟩ := finish_tile_render hg hs hd
  have hstep : states_step 1 Tile.State.DENOISE (set_tile_state fm index Tile.State.RENDERED)
      (finish_render_spec fm index) := by
    obtain ⟨-, hc⟩ := finish_tile_cases hf
    rcases hc with ⟨-, h2, -⟩ | ⟨-, -, -, -, -, h⟩ | ⟨h2, -⟩
    · rw [hd] at h2; cases h2
    · exact h
    · rw [hs] at h2; cases h2
  have hfr : frame_eq fm (finish_render_spec fm index) :=
    frame_eq_trans (frame_eq_set_tile_state _ _ _) hstep.1
  have hf1 : ∀ k, tile_state (set_tile_state fm index Tile.State.RENDERED) k =
      if k = index then some Tile.State.RENDERED else tile_state fm k := by
    intro k
    rw [tile_state_set_tile_state fm index k _ hi, hs]
    rfl
  -- a promoted tile was exactly `RENDERED`
  have hP : ∀ k, k ∈ neighborhood fm index →
      closure_check (set_tile_state fm index Tile.State.RENDERED) k Tile.State.RENDERED = true →
      ∃ s, tile_state fm k = some s ∧ s.rank ≤ 1 := by
    intro k hk hc
    by_cases e : k = index
    · exact ⟨_, by rw [e]; exact hs, by decide⟩
    · obtain ⟨h0, hk1, -⟩ := (closure_check_nbh _ k _).1 hc
      obtain ⟨s, hs1, hr⟩ := (state_at_least_state _ k _).1 hk1
      rw [hf1, if_neg e] at hs1
      refine ⟨s, hs1, ?_⟩
      by_contra hgt
      have hc2 := hI1 k s hs1 (by omega)
      have hmem := neighborhood_symm hg hex hk h0
      obtain ⟨s2, hs2, hr2⟩ := closure_check_neighbor hc2 hmem hi
      rw [hs] at hs2
      cases hs2
      exact absurd hr2 (by decide)
  have hcase : ∀ k, tile_state (finish_render_spec fm index) k = tile_state fm k ∨
      ∃ s s', tile_state fm k = some s ∧ s.rank ≤ 1 ∧
        tile_state (finish_render_spec fm index) k = some s' ∧ s.rank ≤ s'.rank ∧
        s'.rank ≤ 2 ∧
        (s'.rank = 2 →
          closure_check (set_tile_state fm index Tile.State.RENDERED) k Tile.State.RENDERED
            = true) := by
    intro k
    rw [finish_render_spec_state]
    by_cases hpr : k ∈ neighborhood fm index ∧
        closure_check (set_tile_state fm index Tile.State.RENDERED) k Tile.State.RENDERED = true
    · rw [if_pos hpr]
      obtain ⟨s, hs1, hr1⟩ := hP k hpr.1 hpr.2
      exact Or.inr ⟨s, _, hs1, hr1, rfl, by rw [rank_denoise]; omega, by decide,
        fun _ => hpr.2⟩
    · rw [if_neg hpr, hf1]
      by_cases e : k = index
      · rw [if_pos e]
        exact Or.inr ⟨_, _, by rw [e]; exact hs, by decide, rfl, by decide, by decide,
          fun h => absurd h (by decide)⟩
      · rw [if_neg e]
        exact Or.inl rfl
  have hmono : ∀ k s, tile_state fm k = some s →
      ∃ s', tile_state (finish_render_spec fm index) k = some s' ∧ s.rank ≤ s'.rank := by
    intro k s hk
    rcases hcase k with h | ⟨s1, s2, h1, -, h2, h3, -⟩
    · exact ⟨s, by rw [h, hk], le_refl _⟩
    · rw [hk] at h1
      cases h1
      exact ⟨s2, h2, h3⟩
  have hdone : ∀ k, tile_state (finish_render_spec fm index) k = some Tile.State.DONE ↔
      tile_state fm k = some Tile.State.DONE := by
    intro k
    rcases hcase k with h | ⟨s1, s2, h1, h2, h3, -, h4, -⟩
    · rw [h]
    · rw [h1, h3]
      constructor
      · intro h
        cases h
        exact absurd h4 (by decide)
      · intro h
        cases h
        exact absurd h2 (by decide)
  have hden : ∀ k, state_at_least (finish_render_spec fm index) k Tile.State.DENOISED =
      state_at_least fm k Tile.State.DENOISED := by
    intro k
    rw [Bool.eq_iff_iff, state_at_least_state, state_at_least_state]
    rcases hcase k with h | ⟨s1, s2, h1, h2, h3, -, h4, -⟩
    · rw [h]
    · rw [h1, h3]
      constructor
      · rintro ⟨s, e, hr⟩
        cases e
        rw [rank_denoised] at hr
        omega
      · rintro ⟨s, e, hr⟩
        cases e
        rw [rank_denoised] at hr
        omega
  have hren : ∀ k, state_at_least fm k Tile.State.RENDERED = true →
      state_at_least (finish_render_spec fm index) k Tile.State.RENDERED = true := by
    intro k hk
    rw [state_at_least_state] at hk ⊢
    obtain ⟨s, hs1, hr⟩ := hk
    obtain ⟨s', hs', hr'⟩ := hmono k s hs1
    exact ⟨s', hs', le_trans hr hr'⟩
  obtain ⟨-, hpr, hsch, -⟩ := frame_eq_spec hfr
  refine ⟨⟨hg1, by rw [hpr]; exact hp, by rw [hsch]; exact hsd, fun k s hk hr => ?_,
    fun k => ?_⟩, hmono, fun k => ?_⟩
  · rcases hcase k with h | ⟨s1, s2, h1, h2, h3, -, h4, h5⟩
    · rw [h] at hk
      exact closure_check_mono hfr hren k (hI1 k s hk hr)
    · rw [hk] at h3
      cases h3
      rw [states_step_closure hstep (by decide) (by decide)]
      exact h5 (by omega)
  · rw [hdone, hI2, closure_check_congr hfr k _ (hden k) (fun j _ _ => hden j)]
  · unfold done_count
    simp only [hdone]

/-- The `DENOISE` case keeps the release invariant, lowers no state, and signals the release
of exactly the tiles that become `DONE`, once each. -/
theorem release_inv_denoise {fm : TileManagerFull} (hI : release_inv fm) {index : Int}
    (hs : tile_state fm index = some Tile.State.DENOISE) :
    release_inv (finish_denoise_spec fm index).2 ∧
    (∀ k s, tile_state fm k = some s →
      ∃ s', tile_state (finish_denoise_spec fm index).2 k = some s' ∧ s.rank ≤ s'.rank) ∧
    ∀ k, (finish_denoise_freed fm index).count k +
        (if index = k ∧ (finish_denoise_spec fm index).1 = true then 1 else 0) +
        done_count fm k = done_count (finish_denoise_spec fm index).2 k := by
  obtain ⟨hg, hp, hsd, hI1, hI2⟩ := hI
  have hex := tile_state_some_of_at hs
  obtain ⟨hi, hlt⟩ := (tile_at_some_iff fm index).1 hex
  obtain ⟨hf, -, hg1⟩ := finish_tile_denoise hg true hs
  have hstep : states_step 3 Tile.State.DONE (set_tile_state fm index Tile.State.DENOISED)
      (finish_denoise_spec fm index).2 := by
    obtain ⟨-, hc⟩ := finish_tile_cases hf
    rcases hc with ⟨h2, -⟩ | ⟨h2, -⟩ | ⟨-, -, -, h⟩
    · rw [hs] at h2; cases h2
    · rw [hs] at h2; cases h2
    · exact h
  have hfr1 : frame_eq fm (set_tile_state fm index Tile.State.DENOISED) :=
    frame_eq_set_tile_state _ _ _
  have hfr : frame_eq fm (finish_denoise_spec fm index).2 := frame_eq_trans hfr1 hstep.1
  have hf1 : ∀ k, tile_state (set_tile_state fm index Tile.State.DENOISED) k =
      if k = index then some Tile.State.DENOISED else tile_state fm k := by
    intro k
    rw [tile_state_set_tile_state fm index k _ hi, hs]
    rfl
  have hself : index ∈ neighborhood fm index := neighborhood_self hg hex
  have hup : ∀ k, state_at_least fm k Tile.State.DENOISED = true →
      state_at_least (set_tile_state fm index Tile.State.DENOISED) k Tile.State.DENOISED
        = true := by
    intro k hk
    rw [state_at_least_state] at hk ⊢
    rw [hf1]
    by_cases e : k = index
    · rw [if_pos e]
      exact ⟨_, rfl, le_refl _⟩
    · rw [if_neg e]
      exact hk
  -- a released tile was `DENOISE` or `DENOISED`
  have hQ : ∀ k, k ∈ neighborhood fm index →
      closure_check (set_tile_state fm index Tile.State.DENOISED) k Tile.State.DENOISED = true →
      ∃ s, tile_state fm k = some s ∧ 2 ≤ s.rank ∧ s.rank ≤ 3 := by
    intro k hk hc
    by_cases e : k = index
    · exact ⟨_, by rw [e]; exact hs, by decide, by decide⟩
    · obtain ⟨h0, hk1, -⟩ := (closure_check_nbh _ k _).1 hc
      obtain ⟨s, hs1, hr⟩ := (state_at_least_state _ k _).1 hk1
      rw [hf1, if_neg e] at hs1
      rw [rank_denoised] at hr
      refine ⟨s, hs1, by omega, ?_⟩
      by_contra hgt
      have h4 : s.rank = Tile.State.DONE.rank := by
        have := rank_le_four s
        rw [rank_done]
        omega
      rw [(rank_eq_iff _ _).1 h4] at hs1
      have hc2 := (hI2 k).1 hs1
      have hmem := neighborhood_symm hg hex hk h0
      obtain ⟨s2, hs2, hr2⟩ := closure_check_neighbor hc2 hmem hi
      rw [hs] at hs2
      cases hs2
      exact absurd hr2 (by decide)
  have hcase : ∀ k,
      (tile_state (finish_denoise_spec fm index).2 k = tile_state fm k ∧
        ¬ (k ∈ neighborhood fm index ∧
          closure_check (set_tile_state fm index Tile.State.DENOISED) k Tile.State.DENOISED
            = true)) ∨
      ∃ s s', tile_state fm k = some s ∧ 2 ≤ s.rank ∧ s.rank ≤ 3 ∧
        tile_state (finish_denoise_spec fm index).2 k = some s' ∧ s.rank ≤ s'.rank ∧
        (s' = Tile.State.DONE ↔
          (k ∈ neighborhood fm index ∧
            closure_check (set_tile_state fm index Tile.State.DENOISED) k Tile.State.DENOISED
              = true)) := by
    intro k
    rw [finish_denoise_spec_state]
    by_cases hpr : k ∈ neighborhood fm index ∧
        closure_check (set_tile_state fm index Tile.State.DENOISED) k Tile.State.DENOISED = true
    · rw [if_pos hpr]
      obtain ⟨s, hs1, hr1, hr2⟩ := hQ k hpr.1 hpr.2
      exact Or.inr ⟨s, _, hs1, hr1, hr2, rfl, by rw [rank_done]; omega,
        ⟨fun _ => hpr, fun _ => rfl⟩⟩
    · rw [if_neg hpr, hf1]
      by_cases e : k = index
      · rw [if_pos e]
        exact Or.inr ⟨_, _, by rw [e]; exact hs, by decide, by decide, rfl, by decide,
          ⟨fun h => (by cases h), fun h => absurd h hpr⟩⟩
      · rw [if_neg e]
        exact Or.inl ⟨rfl, hpr⟩
  have hmono : ∀ k s, tile_state fm k = some s →
      ∃ s', tile_state (finish_denoise_spec fm index).2 k = some s' ∧ s.rank ≤ s'.rank := by
    intro k s hk
    rcases hcase k with ⟨h, -⟩ | ⟨s1, s2, h1, -, -, h2, h3, -⟩
    · exact ⟨s, by rw [h, hk], le_refl _⟩
    · rw [hk] at h1
      cases h1
      exact ⟨s2, h2, h3⟩
  have hren : ∀ k, state_at_least fm k Tile.State.RENDERED = true →
      state_at_least (finish_denoise_spec fm index).2 k Tile.State.RENDERED = true := by
    intro k hk
    rw [state_at_least_state] at hk ⊢
    obtain ⟨s, hs1, hr⟩ := hk
    obtain ⟨s', hs', hr'⟩ := hmono k s hs1
    exact ⟨s', hs', le_trans hr hr'⟩
  have hfreed := fun k => mem_finish_denoise_freed_grid hg hi hlt k
  have hnodup := @finish_denoise_freed_nodup fm hg index hi
  have hdel : (finish_denoise_spec fm index).1 =
      closure_check (set_tile_state fm index Tile.State.DENOISED) index Tile.State.DENOISED := by
    have h4 : get_neighbor_index fm index 4 = index := neighbor_self fm hg index hi hlt
    rw [finish_denoise_spec_eq]
    simp only [hp, h4, Bool.not_false, Bool.true_and]
  obtain ⟨-, hpr, hsch, -⟩ := frame_eq_spec hfr
  refine ⟨⟨hg1, by rw [hpr]; exact hp, by rw [hsch]; exact hsd, fun k s hk hr => ?_,
    fun k => ?_⟩, hmono, fun k => ?_⟩
  · refine closure_check_mono hfr hren k ?_
    rcases hcase k with ⟨h, -⟩ | ⟨s1, s2, h1, h2, -, -, -, -⟩
    · rw [h] at hk
      exact hI1 k s hk hr
    · exact hI1 k s1 h1 h2
  · rw [states_step_closure hstep (by decide) (by decide)]
    constructor
    · intro hd
      rcases hcase k with ⟨h, -⟩ | ⟨s1, s2, -, -, -, h2, -, h3⟩
      · rw [h] at hd
        exact closure_check_mono hfr1 hup k ((hI2 k).1 hd)
      · rw [hd] at h2
        cases h2
        exact (h3.1 rfl).2
    · intro hc
      by_cases hk : k ∈ neighborhood fm index
      · rw [finish_denoise_spec_state, if_pos ⟨hk, hc⟩]
      · have hne : k ≠ index := fun e => hk (by rw [e]; exact hself)
        obtain ⟨h0, hk1, -⟩ := (closure_check_nbh _ k _).1 hc
        obtain ⟨s, hs1, -⟩ := (state_at_least_state _ k _).1 hk1
        rw [hf1, if_neg hne] at hs1
        have hkex := tile_state_some_of_at hs1
        have hsame : ∀ j, j ≠ index →
            state_at_least (set_tile_state fm index Tile.State.DENOISED) j Tile.State.DENOISED =
              state_at_least fm j Tile.State.DENOISED := by
          intro j hj
          rw [Bool.eq_iff_iff, state_at_least_state, state_at_least_state, hf1, if_neg hj]
        have hc2 : closure_check fm k Tile.State.DENOISED = true := by
          rw [← closure_check_congr hfr1 k _ (hsame k hne)
            (fun j hj h0j => hsame j (fun e => hk (neighborhood_symm hg hkex (by rw [← e]; exact hj) hi)))]
          exact hc
        rw [finish_denoise_spec_state, if_neg (fun h => hk h.1), hf1, if_neg hne]
        exact (hI2 k).2 hc2
  · unfold done_count
    have hcount : (finish_denoise_freed fm index).count k =
        if k ≠ index ∧ k ∈ neighborhood fm index ∧
          closure_check (set_tile_state fm index Tile.State.DENOISED) k Tile.State.DENOISED
            = true then 1 else 0 := by
      by_cases hm : k ∈ finish_denoise_freed fm index
      · rw [List.count_eq_one_of_mem hnodup hm, if_pos ((hfreed k).1 hm).2]
      · rw [List.count_eq_zero_of_not_mem hm, if_neg (fun h => hm ((hfreed k).2 ⟨hp, h⟩))]
    rw [hcount, hdel]
    rcases hcase k with ⟨h, hnr⟩ | ⟨s1, s2, h1, -, h2, h3, -, h4⟩
    · rw [h, if_neg (fun h => hnr h.2), if_neg (fun h => hnr (by rw [← h.1]; exact ⟨hself, h.2⟩))]
      simp only [Nat.zero_add]
    · have hnd : tile_state fm k ≠ some Tile.State.DONE := by
        rw [h1]
        intro e
        cases e
        exact absurd h2 (by decide)
      rw [if_neg hnd, h3]
      by_cases hr : k ∈ neighborhood fm index ∧
          closure_check (set_tile_state fm index Tile.State.DENOISED) k Tile.State.DENOISED
            = true
      · have e2 : s2 = Tile.State.DONE := h4.2 hr
        rw [e2, if_pos rfl]
        by_cases e : k = index
        · rw [if_neg (fun h => h.1 e), if_pos ⟨e.symm, by rw [e] at hr; exact hr.2⟩]
        · rw [if_pos ⟨e, hr⟩, if_neg (fun h => e h.1.symm)]
      · have e2 : ¬ some s2 = some Tile.State.DONE := fun h => hr (h4.1 (Option.some.inj h))
        rw [if_neg e2, if_neg (fun h => hr h.2),
          if_neg (fun h => hr (by rw [← h.1]; exact ⟨hself, h.2⟩))]


/-! ## Release signals over a run -/

theorem release_signals_cons (e : FinishCall) (rest : List FinishCall) (k : Int) :
    release_signals (e :: rest) k =
      e.freed.count k + (if e.index = k ∧ e.delete_tile = true then 1 else 0) +
        release_signals rest k := by
  unfold release_signals
  simp only [List.map_cons, List.sum_cons]

/-- One call with denoising requested keeps the release invariant, lowers no state, and
signals the release of exactly the tiles that become `DONE`. -/
theorem release_inv_call {fm : TileManagerFull} (hI : release_inv fm) {index : Int}
    {w d : Bool} {fm1 : TileManagerFull} {freed : List Int}
    (h : finish_tile fm index true = some (w, d, fm1))
    (hfreed : finish_tile_freed fm index = some freed) :
    release_inv fm1 ∧ frame_eq fm fm1 ∧
    (∀ k s, tile_state fm k = some s → ∃ s', tile_state fm1 k = some s' ∧ s.rank ≤ s'.rank) ∧
    ∀ k, freed.count k + (if index = k ∧ d = true then 1 else 0) + done_count fm k =
      done_count fm1 k := by
  have hsd : (fm.schedule_denoising && true) = true := by rw [hI.2.2.1]; rfl
  have hfr := (finish_tile_transition h 0).1
  obtain ⟨-, hc⟩ := finish_tile_cases h
  rcases hc with ⟨-, h2, -⟩ | ⟨hs, -, -, hd, he, -⟩ | ⟨hs, -, he, -⟩
  · rw [hsd] at h2; cases h2
  · obtain ⟨-, hf2, -⟩ := finish_tile_render hI.1 hs hsd
    rw [hf2] at hfreed
    cases hfreed
    obtain ⟨h1, h2, h3⟩ := release_inv_render hI hs
    subst he
    subst hd
    refine ⟨h1, hfr, h2, fun k => ?_⟩
    rw [h3 k]
    simp
  · obtain ⟨-, hf2, -⟩ := finish_tile_denoise hI.1 true hs
    rw [hf2] at hfreed
    cases hfreed
    obtain ⟨h1, h2, h3⟩ := release_inv_denoise hI hs
    have e1 : d = (finish_denoise_spec fm index).1 := by rw [← he]
    have e2 : fm1 = (finish_denoise_spec fm index).2 := by rw [← he]
    subst e1
    subst e2
    exact ⟨h1, hfr, h2, h3⟩

/-- A run with denoising requested in every call keeps the release invariant, lowers no state,
and signals the release of exactly the tiles that become `DONE`. -/
theorem release_inv_run :
    ∀ (calls : List (Int × Bool)) (fm : TileManagerFull) (record : List FinishCall)
      (fm' : TileManagerFull), release_inv fm → (∀ c ∈ calls, c.2 = true) →
      finish_run fm calls = some (record, fm') →
      release_inv fm' ∧ frame_eq fm fm' ∧
      (∀ k s, tile_state fm k = some s → ∃ s', tile_state fm' k = some s' ∧ s.rank ≤ s'.rank) ∧
      ∀ k, release_signals record k + done_count fm k = done_count fm' k
  | [], fm, record, fm', hI, _, h => by
    unfold finish_run at h
    simp only [Option.some.injEq, Prod.mk.injEq] at h
    obtain ⟨rfl, rfl⟩ := h
    exact ⟨hI, frame_eq_refl _, fun k s hk => ⟨s, hk, le_refl _⟩,
      fun k => by simp [release_signals]⟩
  | (index, nd) :: calls, fm, record, fm', hI, hnd, h => by
    obtain ⟨w, d, fm1, freed, rest, hf, hfreed, hr, rfl⟩ := finish_run_cons h
    have e : nd = true := hnd (index, nd) (List.mem_cons_self _ _)
    subst e
    obtain ⟨h1, h2, h3, h4⟩ := release_inv_call hI hf hfreed
    obtain ⟨g1, g2, g3, g4⟩ := release_inv_run calls fm1 rest fm' h1
      (fun c hc => hnd c (List.mem_cons_of_mem _ hc)) hr
    refine ⟨g1, frame_eq_trans h2 g2, fun k s hk => ?_, fun k => ?_⟩
    · obtain ⟨s1, hs1, hr1⟩ := h3 k s hk
      obtain ⟨s2, hs2, hr2⟩ := g3 k s1 hs1
      exact ⟨s2, hs2, le_trans hr1 hr2⟩
    · rw [release_signals_cons, ← g4 k, ← h4 k]
      simp only
      omega

/-- A record splits the run at each of its calls. -/
theorem finish_run_split (e : FinishCall) (l2 : List FinishCall) (fm' : TileManagerFull) :
    ∀ (l1 : List FinishCall) (calls : List (Int × Bool)) (fm : TileManagerFull),
      finish_run fm calls = some (l1 ++ e :: l2, fm') →
      ∃ calls1 calls2, calls = calls1 ++ (e.index, e.need_denoise) :: calls2 ∧
        finish_run fm calls1 = some (l1, e.before) ∧
        finish_tile e.before e.index e.need_denoise = some (e.write, e.delete_tile, e.after) ∧
        finish_tile_freed e.before e.index = some e.freed ∧
        finish_run e.after calls2 = some (l2, fm')
  | l1, [], fm, h => by
    unfold finish_run at h
    simp only [Option.some.injEq, Prod.mk.injEq] at h
    have := h.1
    cases l1 <;> simp at this
  | [], (index, nd) :: calls, fm, h => by
    obtain ⟨w, d, fm1, freed, rest, hf, hfreed, hr, he⟩ := finish_run_cons h
    simp only [List.nil_append, List.cons.injEq] at he
    obtain ⟨rfl, rfl⟩ := he
    exact ⟨[], calls, rfl, rfl, hf, hfreed, hr⟩
  | x :: l1, (index, nd) :: calls, fm, h => by
    obtain ⟨w, d, fm1, freed, rest, hf, hfreed, hr, he⟩ := finish_run_cons h
    simp only [List.cons_append, List.cons.injEq] at he
    obtain ⟨rfl, rfl⟩ := he
    obtain ⟨c1, c2, h1, h2, h3, h4, h5⟩ := finish_run_split e l2 fm' l1 calls fm1 hr
    refine ⟨(index, nd) :: c1, c2, by rw [h1]; rfl, ?_, h3, h4, h5⟩
    unfold finish_run
    simp only [hf, hfreed, h2]

/-- In a run with denoising requested in every call, a tile below `DENOISED` that ends at
least `DENOISED` was finished in state `DENOISE` by a call of the run that returned true. -/
theorem finish_run_reach_denoised (k : Int) :
    ∀ (calls : List (Int × Bool)) (fm : TileManagerFull) (record : List FinishCall)
      (fm' : TileManagerFull), fm.schedule_denoising = true → (∀ c ∈ calls, c.2 = true) →
      finish_run fm calls = some (record, fm') →
      (∀ s, tile_state fm k = some s → s.rank < 3) →
      (∃ s, tile_state fm' k = some s ∧ 3 ≤ s.rank) →
      ∃ e ∈ record, e.index = k ∧ tile_state e.before k = some Tile.State.DENOISE ∧
        e.write = true
  | [], fm, record, fm', _, _, h, hlow, hhigh => by
    unfold finish_run at h
    simp only [Option.some.injEq, Prod.mk.injEq] at h
    obtain ⟨s, hs, hr⟩ := hhigh
    rw [← h.2] at hs
    have := hlow s hs
    omega
  | (index, nd) :: calls, fm, record, fm', hsd, hnd, h, hlow, hhigh => by
    obtain ⟨w, d, fm1, freed, rest, hf, hfreed, hr, rfl⟩ := finish_run_cons h
    have e : nd = true := hnd (index, nd) (List.mem_cons_self _ _)
    subst e
    have hsd2 : (fm.schedule_denoising && true) = true := by rw [hsd]; rfl
    obtain ⟨hfr, ht⟩ := finish_tile_transition hf k
    have hsd1 : fm1.schedule_denoising = true := by
      rw [(frame_eq_spec hfr).2.2.1]; exact hsd
    have ih := fun hl => finish_run_reach_denoised k calls fm1 rest fm' hsd1
      (fun c hc => hnd c (List.mem_cons_of_mem _ hc)) hr hl hhigh
    have lift : ∀ x : FinishCall,
        (∃ e ∈ rest, e.index = k ∧ tile_state e.before k = some Tile.State.DENOISE ∧
          e.write = true) → ∃ e ∈ x :: rest, e.index = k ∧
            tile_state e.before k = some Tile.State.DENOISE ∧ e.write = true := by
      rintro x ⟨e, he, h1⟩
      exact ⟨e, List.mem_cons_of_mem _ he, h1⟩
    rcases ht with ⟨-, e⟩ | ⟨-, -, h2, -⟩ | ⟨-, -, -, e | e⟩ | ⟨-, -, -, -, e⟩ | ⟨ei, hs, -⟩ |
      ⟨-, ⟨s, e, e3⟩, -⟩
    · exact lift _ (ih (fun s hs => hlow s (by rw [← e]; exact hs)))
    · rw [hsd2] at h2; cases h2
    · exact lift _ (ih (fun s hs => by rw [e] at hs; cases hs; decide))
    · exact lift _ (ih (fun s hs => by rw [e] at hs; cases hs; decide))
    · exact lift _ (ih (fun s hs => by rw [e] at hs; cases hs; decide))
    · refine ⟨_, List.mem_cons_self _ _, ei.symm, hs, ?_⟩
      obtain ⟨-, hc⟩ := finish_tile_cases hf
      rw [← ei] at hc
      rcases hc with ⟨h2, -⟩ | ⟨h2, -⟩ | ⟨-, hw, -⟩
      · rw [hs] at h2; cases h2
      · rw [hs] at h2; cases h2
      · exact hw
    · have := hlow s e
      omega


/-! ## No double free and no lost free -/

/-- The number of tiles of a grid does not change with the frame. -/
theorem grid_length_eq {fm fm' : TileManagerFull} (hg : grid_ok fm) (hg' : grid_ok fm')
    (hf : frame_eq fm fm') : (fm'.tiles.length : Int) = (fm.tiles.length : Int) := by
  obtain ⟨-, -, -, -, hw, hh, hs, -⟩ := frame_eq_spec hf
  rw [hg.2.2.2.1, hg'.2.2.2.1, hw, hh, hs]

/-- C29: on a grid of tiles that are all in state `RENDER`, with `progressive` off and
denoising scheduled, take a run of `finish_tile` calls that all request denoising and in
which every tile is finished in state `DENOISE` by some call.  Then every tile `k` is `DONE`
at the end, and the release of its storage is signalled exactly once in the whole run,
counting both the deletions in place and `delete_tile = true` from a call on `k`.  A call
that deletes the buffers of `k` in place is a call on another tile and comes after a call on
`k` in state `DENOISE` that returned true; a call on `k` that leaves `delete_tile = true` is
a call on `k` in state `DENOISE` that returns true and does not delete the buffers of `k` in
place. -/
theorem finish_tile_releases_once (fm0 : TileManagerFull) (calls : List (Int × Bool))
    (record : List FinishCall) (fm : TileManagerFull) (k : Int)
    (hg : grid_ok fm0) (hfresh : ∀ t ∈ fm0.tiles, t.state = Tile.State.RENDER)
    (hp : fm0.progressive = false) (hsd : fm0.schedule_denoising = true)
    (hnd : ∀ c ∈ calls, c.2 = true)
    (hrun : finish_run fm0 calls = some (record, fm))
    (hcomplete : ∀ j, 0 ≤ j → j < (fm0.tiles.length : Int) →
      ∃ e ∈ record, e.index = j ∧ tile_state e.before j = some Tile.State.DENOISE)
    (hk0 : 0 ≤ k) (hk : k < (fm0.tiles.length : Int)) :
    tile_state fm k = some Tile.State.DONE ∧
    release_signals record k = 1 ∧
    ∀ l1 e l2, record = l1 ++ e :: l2 →
      (k ∈ e.freed → e.index ≠ k ∧
        ∃ e' ∈ l1, e'.index = k ∧ tile_state e'.before k = some Tile.State.DENOISE ∧
          e'.write = true) ∧
      (e.index = k ∧ e.delete_tile = true →
        tile_state e.before k = some Tile.State.DENOISE ∧ e.write = true ∧ k ∉ e.freed) := by
  have hI0 := release_inv_fresh hg hfresh hp hsd
  obtain ⟨hI, hfr, hmono, hsig⟩ := release_inv_run calls fm0 record fm hI0 hnd hrun
  have hlen := grid_length_eq hg hI.1 hfr
  have hst0 : ∀ j s, tile_state fm0 j = some s → s = Tile.State.RENDER := by
    intro j s hs
    obtain ⟨t, ht, e⟩ := tile_at_of_state hs
    have hm : t ∈ fm0.tiles := by
      unfold tile_at at ht
      split_ifs at ht
      obtain ⟨hlt, hget⟩ := List.getElem?_eq_some.1 ht
      rw [← hget]
      exact List.getElem_mem hlt
    rw [← e]
    exact hfresh t hm
  -- the run up to a call of the record and the call itself
  have hsplit : ∀ l1 e l2, record = l1 ++ e :: l2 →
      ∃ calls1 calls2, (∀ c ∈ calls1, c.2 = true) ∧ (∀ c ∈ calls2, c.2 = true) ∧
        finish_run fm0 calls1 = some (l1, e.before) ∧
        finish_tile e.before e.index true = some (e.write, e.delete_tile, e.after) ∧
        finish_tile_freed e.before e.index = some e.freed ∧
        finish_run e.after calls2 = some (l2, fm) ∧ release_inv e.before := by
    intro l1 e l2 hrec
    rw [hrec] at hrun
    obtain ⟨c1, c2, hc, h1, h3, h4, h5⟩ := finish_run_split e l2 fm l1 calls fm0 hrun
    have hn1 : ∀ c ∈ c1, c.2 = true := fun c hm => hnd c (by rw [hc]; simp [hm])
    have hn2 : ∀ c ∈ c2, c.2 = true := fun c hm => hnd c (by rw [hc]; simp [hm])
    have hne : e.need_denoise = true := hnd (e.index, e.need_denoise) (by rw [hc]; simp)
    rw [hne] at h3
    exact ⟨c1, c2, hn1, hn2, h1, h3, h4, h5, (release_inv_run c1 fm0 l1 e.before hI0 hn1 h1).1⟩
  -- at the end every tile is at least `DENOISED`
  have hhigh : ∀ j, 0 ≤ j → j < (fm0.tiles.length : Int) →
      ∃ s, tile_state fm j = some s ∧ 3 ≤ s.rank := by
    intro j hj0 hj
    obtain ⟨e, he, hej, hes⟩ := hcomplete j hj0 hj
    obtain ⟨l1, l2, hrec⟩ := List.append_of_mem he
    obtain ⟨c1, c2, -, hn2, -, h3, h4, h5, hIb⟩ := hsplit l1 e l2 hrec
    obtain ⟨hIa, -, -, -⟩ := release_inv_call hIb h3 h4
    obtain ⟨-, -, hm2, -⟩ := release_inv_run c2 e.after l2 fm hIa hn2 h5
    have hafter : ∃ s, tile_state e.after j = some s ∧ 3 ≤ s.rank := by
      rcases (finish_tile_transition h3 j).2 with ⟨hne, -⟩ | ⟨-, h2, -⟩ | ⟨-, h2, -⟩ |
        ⟨hne, -⟩ | ⟨-, -, e1 | e1⟩ | ⟨hne, -⟩
      · exact absurd hej.symm hne
      · rw [hes] at h2; cases h2
      · rw [hes] at h2; cases h2
      · exact absurd hej.symm hne
      · exact ⟨_, e1, by decide⟩
      · exact ⟨_, e1, by decide⟩
      · exact absurd hej.symm hne
    obtain ⟨s, hs, hr⟩ := hafter
    obtain ⟨s', hs', hr'⟩ := hm2 j s hs
    exact ⟨s', hs', le_trans hr hr'⟩
  have hdone : tile_state fm k = some Tile.State.DONE := by
    rw [hI.2.2.2.2 k, closure_check_nbh]
    refine ⟨hk0, (state_at_least_state fm k _).2 (hhigh k hk0 hk), fun j hj hj0 => ?_⟩
    rw [state_at_least_state]
    obtain ⟨n, hn, rfl⟩ := (mem_neighborhood fm k j).1 hj
    obtain ⟨-, hjl⟩ := (tile_at_some_iff fm _).1 (neighbor_valid fm hI.1 k hk0 n hn hj0)
    exact hhigh _ hj0 (by rw [← hlen]; exact hjl)
  have hk_ex : ∃ t, tile_at fm0 k = some t := (tile_at_some_iff fm0 k).2 ⟨hk0, hk⟩
  obtain ⟨t0, ht0⟩ := hk_ex
  have hs0 : tile_state fm0 k = some Tile.State.RENDER := by
    have h1 : tile_state fm0 k = some t0.state := by unfold tile_state; rw [ht0]; rfl
    rw [h1, hst0 k _ h1]
  refine ⟨hdone, ?_, fun l1 e l2 hrec => ?_⟩
  · have h := hsig k
    unfold done_count at h
    rw [if_pos hdone, hs0, if_neg (by decide)] at h
    exact h
  · obtain ⟨c1, c2, hn1, -, h1, h3, h4, -, hIb⟩ := hsplit l1 e l2 hrec
    have hsdb : (e.before.schedule_denoising && true) = true := by rw [hIb.2.2.1]; rfl
    obtain ⟨hi, hc⟩ := finish_tile_cases h3
    rcases hc with ⟨-, h2, -⟩ | ⟨hs, -, -, hd, -⟩ | ⟨hs, hw, -⟩
    · rw [hsdb] at h2; cases h2
    · obtain ⟨-, hf2, -⟩ := finish_tile_render hIb.1 hs hsdb
      rw [hf2] at h4
      have hfe : e.freed = [] := (Option.some.inj h4).symm
      refine ⟨fun hm => ?_, fun hm => ?_⟩
      · rw [hfe] at hm
        cases hm
      · rw [hd] at hm
        cases hm.2
    · obtain ⟨-, hf2, -⟩ := finish_tile_denoise hIb.1 true hs
      rw [hf2] at h4
      have hfe : e.freed = finish_denoise_freed e.before e.index := (Option.some.inj h4).symm
      have hlt := ((tile_at_some_iff _ _).1 (tile_state_some_of_at hs)).2
      have hmem := fun j => mem_finish_denoise_freed_grid hIb.1 hi hlt j
      refine ⟨fun hm => ?_, fun hm => ⟨by rw [← hm.1]; exact hs, hw, fun hf => ?_⟩⟩
      · rw [hfe] at hm
        obtain ⟨-, hne, -, hc⟩ := (hmem k).1 hm
        refine ⟨fun h => hne h.symm, ?_⟩
        obtain ⟨-, hk1, -⟩ := (closure_check_nbh _ k _).1 hc
        obtain ⟨s, hs1, hr⟩ := (state_at_least_state _ k _).1 hk1
        rw [tile_state_set_tile_state _ _ k _ hi, if_neg hne] at hs1
        exact finish_run_reach_denoised k c1 fm0 l1 e.before hsd hn1 h1
          (fun s hs' => by rw [hs0] at hs'; cases hs'; decide) ⟨s, hs1, hr⟩
      · rw [hfe] at hf
        exact ((hmem k).1 hf).2.1 hm.1.symm

theorem finish_tile_releases_once_witness :
    tile_state pair_run.2 1 = some Tile.State.DONE ∧
    release_signals pair_run.1 1 = 1 ∧
    ∀ l1 e l2, pair_run.1 = l1 ++ e :: l2 →
      ((1 : Int) ∈ e.freed → e.index ≠ 1 ∧
        ∃ e' ∈ l1, e'.index = 1 ∧ tile_state e'.before 1 = some Tile.State.DENOISE ∧
          e'.write = true) ∧
      (e.index = 1 ∧ e.delete_tile = true →
        tile_state e.before 1 = some Tile.State.DENOISE ∧ e.write = true ∧
          (1 : Int) ∉ e.freed) :=
  finish_tile_releases_once pair_fixture [(0, true), (1, true), (1, true), (0, true)]
    pair_run.1 pair_run.2 1 (grid_ok_of_tiles pair_fixture (by decide) (by decide))
    (by decide) (by decide) (by decide) (by decide) (by decide)
    (fun j h0 h1 => by
      have hl : (pair_fixture.tiles.length : Int) = 2 := by decide
      rw [hl] at h1
      have hj : j = 0 ∨ j = 1 := by omega
      rcases hj with rfl | rfl <;> decide)
    (by decide) (by decide)


/-! ## The Hilbert curve is a path -/

set_option maxRecDepth 100000 in
theorem hilbert_8_adjacent : ∀ k : Nat, k < 63 →
    ((hilbert_cell 8 (k + 1)).x - (hilbert_cell 8 k).x).natAbs +
      ((hilbert_cell 8 (k + 1)).y - (hilbert_cell 8 k).y).natAbs = 1 := by
  decide

set_option maxRecDepth 100000 in
theorem hilbert_4_adjacent : ∀ k : Nat, k < 15 →
    ((hilbert_cell 4 (k + 1)).x - (hilbert_cell 4 k).x).natAbs +
      ((hilbert_cell 4 (k + 1)).y - (hilbert_cell 4 k).y).natAbs = 1 := by
  decide

/-- C33: for the block sizes `n = 4` and `n = 8`, with fuel for the three rounds of the loop,
`hilbert_index_to_pos(n, d)` returns for every index `d` of `0 .. n * n - 1` a cell of the grid
`[0, n) x [0, n)`, different indices give different cells, every cell of the grid is the
cell of an index, and the cells of two consecutive indices are at Manhattan distance 1. -/
theorem hilbert_index_to_pos_path (n : Int) (fuel : Nat) (hn : n = 4 ∨ n = 8)
    (hf : 3 ≤ fuel) :
    (∀ k : Nat, k < (n * n).toNat →
      ∃ p, hilbert_index_to_pos fuel n (k : Int) = some p ∧
        0 ≤ p.x ∧ p.x < n ∧ 0 ≤ p.y ∧ p.y < n) ∧
    (∀ j : Nat, j < (n * n).toNat → ∀ k : Nat, k < (n * n).toNat →
      hilbert_index_to_pos fuel n (j : Int) = hilbert_index_to_pos fuel n (k : Int) → j = k) ∧
    (∀ p : int2, 0 ≤ p.x → p.x < n → 0 ≤ p.y → p.y < n →
      ∃ k : Nat, k < (n * n).toNat ∧ hilbert_index_to_pos fuel n (k : Int) = some p) ∧
    (∀ k : Nat, k + 1 < (n * n).toNat →
      ∃ p q, hilbert_index_to_pos fuel n (k : Int) = some p ∧
        hilbert_index_to_pos fuel n ((k + 1 : Nat) : Int) = some q ∧
        (q.x - p.x).natAbs + (q.y - p.y).natAbs = 1) := by
  obtain ⟨h1, h2, h3⟩ := hilbert_curve_spec n hn fuel hf
  refine ⟨fun k hk => ⟨_, h1 k hk⟩, fun j hj k hk e => ?_, fun p a b c d => ?_, fun k hk => ?_⟩
  · rw [(h1 j hj).1, (h1 k hk).1] at e
    exact h2 j hj k hk (Option.some.inj e)
  · obtain ⟨k, hk, e⟩ := h3 p a b c d
    exact ⟨k, hk, by rw [(h1 k hk).1, e]⟩
  · refine ⟨_, _, (h1 k (by omega)).1, (h1 (k + 1) hk).1, ?_⟩
    rcases hn with rfl | rfl
    · exact hilbert_4_adjacent k (by
        have e : ((4 : Int) * 4).toNat = 16 := by decide
        omega)
    · exact hilbert_8_adjacent k (by
        have e : ((8 : Int) * 8).toNat = 64 := by decide
        omega)

theorem hilbert_index_to_pos_path_witness :
    (∀ k : Nat, k < ((4 : Int) * 4).toNat →
      ∃ p, hilbert_index_to_pos 3 4 (k : Int) = some p ∧
        0 ≤ p.x ∧ p.x < 4 ∧ 0 ≤ p.y ∧ p.y < 4) ∧
    (∀ j : Nat, j < ((4 : Int) * 4).toNat → ∀ k : Nat, k < ((4 : Int) * 4).toNat →
      hilbert_index_to_pos 3 4 (j : Int) = hilbert_index_to_pos 3 4 (k : Int) → j = k) ∧
    (∀ p : int2, 0 ≤ p.x → p.x < 4 → 0 ≤ p.y → p.y < 4 →
      ∃ k : Nat, k < ((4 : Int) * 4).toNat ∧ hilbert_index_to_pos 3 4 (k : Int) = some p) ∧
    (∀ k : Nat, k + 1 < ((4 : Int) * 4).toNat →
      ∃ p q, hilbert_index_to_pos 3 4 (k : Int) = some p ∧
        hilbert_index_to_pos 3 4 ((k + 1 : Nat) : Int) = some q ∧
        (q.x - p.x).natAbs + (q.y - p.y).natAbs = 1) :=
  hilbert_index_to_pos_path 4 3 (Or.inl rfl) (le_refl 3)


/-! ## The order of the states over one call -/

/-- C39 (as stated, refuted): on the two tiles of `pair_fixture`, the call
`finish_tile(0, need_denoise = false)` takes tile 0 from `RENDER` to `DONE`; the following call
`finish_tile(1, need_denoise = true)` finds the closure of tile 0 complete at `RENDERED` and
sets tile 0 from `DONE` back to `DENOISE`, queueing it for denoising. -/
theorem finish_tile_sets_done_tile_back :
    finish_tile pair_fixture 0 false =
      some (true, true, set_tile_state pair_fixture 0 Tile.State.DONE) ∧
    tile_state (set_tile_state pair_fixture 0 Tile.State.DONE) 0 = some Tile.State.DONE ∧
    tile_state (set_tile_state pair_fixture 0 Tile.State.DONE) 1 = some Tile.State.RENDER ∧
    (finish_tile (set_tile_state pair_fixture 0 Tile.State.DONE) 1 true).map
      (fun r => (r.1, r.2.1)) = some (false, false) ∧
    (finish_tile (set_tile_state pair_fixture 0 Tile.State.DONE) 1 true).map
      (fun r => tile_state r.2.2 0) = some (some Tile.State.DENOISE) ∧
    (finish_tile (set_tile_state pair_fixture 0 Tile.State.DONE) 1 true).map
      (fun r => r.2.2.denoising_tiles) = some [[0, 1]] ∧
    Tile.State.DENOISE.rank < Tile.State.DONE.rank := by
  decide

/-- C39 (amended): after a call of `finish_tile` on a tile in state `RENDER` or `DENOISE`,
whatever `need_denoise` is, every tile exists as before and its state is not lower than
before, except for tiles other than `index` that were `DENOISED` or `DONE` and are set to
`DENOISE` by a call on a `RENDER` tile with denoising scheduled and requested.  So no state
goes back in a call without denoising, in a call on a tile in state `DENOISE`, and in a call
before which no tile is `DENOISED` or `DONE`. -/
theorem finish_tile_state_order (fm : TileManagerFull) (index : Int) (nd w d : Bool)
    (fm1 : TileManagerFull) (h : finish_tile fm index nd = some (w, d, fm1)) :
    (tile_state fm index = some Tile.State.RENDER ∨
      tile_state fm index = some Tile.State.DENOISE) ∧
    (∀ k s, tile_state fm k = some s →
      ∃ s', tile_state fm1 k = some s' ∧
        (s.rank ≤ s'.rank ∨
          ((fm.schedule_denoising && nd) = true ∧
            tile_state fm index = some Tile.State.RENDER ∧ k ≠ index ∧
            Tile.State.DENOISED.rank ≤ s.rank ∧ s' = Tile.State.DENOISE))) ∧
    ((fm.schedule_denoising && nd) = false ∨ tile_state fm index = some Tile.State.DENOISE ∨
        (∀ k s, tile_state fm k = some s → s.rank < Tile.State.DENOISED.rank) →
      ∀ k s, tile_state fm k = some s →
        ∃ s', tile_state fm1 k = some s' ∧ s.rank ≤ s'.rank) := by
  have hmain : ∀ k s, tile_state fm k = some s →
      ∃ s', tile_state fm1 k = some s' ∧
        (s.rank ≤ s'.rank ∨
          ((fm.schedule_denoising && nd) = true ∧
            tile_state fm index = some Tile.State.RENDER ∧ k ≠ index ∧
            Tile.State.DENOISED.rank ≤ s.rank ∧ s' = Tile.State.DENOISE)) := by
    intro k s hk
    rcases (finish_tile_transition h k).2 with ⟨-, e⟩ | ⟨-, e1, -, e⟩ | ⟨-, e1, -, e | e⟩ |
      ⟨hne, -, hi, hnd, e⟩ | ⟨-, e1, e | e⟩ | ⟨-, -, -, e⟩
    · exact ⟨s, by rw [e, hk], Or.inl (le_refl _)⟩
    · rw [hk] at e1; cases e1; exact ⟨_, e, Or.inl (by decide)⟩
    · rw [hk] at e1; cases e1; exact ⟨_, e, Or.inl (by decide)⟩
    · rw [hk] at e1; cases e1; exact ⟨_, e, Or.inl (by decide)⟩
    · refine ⟨_, e, ?_⟩
      by_cases hr : s.rank ≤ Tile.State.DENOISE.rank
      · exact Or.inl hr
      · refine Or.inr ⟨hnd, hi, hne, ?_, rfl⟩
        rw [rank_denoise] at hr
        rw [rank_denoised]
        omega
    · rw [hk] at e1; cases e1; exact ⟨_, e, Or.inl (by decide)⟩
    · rw [hk] at e1; cases e1; exact ⟨_, e, Or.inl (by decide)⟩
    · exact ⟨_, e, Or.inl (by rw [rank_done]; exact rank_le_four s)⟩
  refine ⟨?_, hmain, fun hc k s hk => ?_⟩
  · obtain ⟨-, hc⟩ := finish_tile_cases h
    rcases hc with ⟨e, -⟩ | ⟨e, -⟩ | ⟨e, -⟩
    · exact Or.inl e
    · exact Or.inl e
    · exact Or.inr e
  · obtain ⟨s', hs', hr | ⟨hnd, hi, -, h3, -⟩⟩ := hmain k s hk
    · exact ⟨s', hs', hr⟩
    · exfalso
      rcases hc with hc | hc | hc
      · rw [hnd] at hc; cases hc
      · rw [hi] at hc; cases hc
      · have := hc k s hk
        omega

theorem finish_tile_state_order_witness :
    (tile_state pair_fixture 0 = some Tile.State.RENDER ∨
      tile_state pair_fixture 0 = some Tile.State.DENOISE) ∧
    (∀ k s, tile_state pair_fixture k = some s →
      ∃ s', tile_state (set_tile_state pair_fixture 0 Tile.State.RENDERED) k = some s' ∧
        (s.rank ≤ s'.rank ∨
          ((pair_fixture.schedule_denoising && true) = true ∧
            tile_state pair_fixture 0 = some Tile.State.RENDER ∧ k ≠ 0 ∧
            Tile.State.DENOISED.rank ≤ s.rank ∧ s' = Tile.State.DENOISE))) ∧
    ((pair_fixture.schedule_denoising && true) = false ∨
        tile_state pair_fixture 0 = some Tile.State.DENOISE ∨
        (∀ k s, tile_state pair_fixture k = some s → s.rank < Tile.State.DENOISED.rank) →
      ∀ k s, tile_state pair_fixture k = some s →
        ∃ s', tile_state (set_tile_state pair_fixture 0 Tile.State.RENDERED) k = some s' ∧
          s.rank ≤ s'.rank) :=
  finish_tile_state_order pair_fixture 0 true false false
    (set_tile_state pair_fixture 0 Tile.State.RENDERED) (by decide)

/-! ## The neighbour grid and the slices -/

/-- C38 (the code at the failing input): a 3 x 7 image, tiles of 2 x 2, three devices, sliced.
`gen_tiles` cuts the slices of 2, 2 and 3 rows; the last slice has two rows of tiles, so
there are 8 tiles in 4 rows of 2.  `get_neighbor_index` computes `tile_h = 1` from
`slice_h = 7 / 3 = 2` for every slice, so its grid has 3 rows, and it returns `-1` for the
centre neighbour of the generated tiles 6 and 7. -/
theorem get_neighbor_index_misses_last_slice :
    (gen_tiles 0 junk_tile sliced_fixture true).map (fun r => (r.1, r.2.tile_stride)) =
      some (8, 2) ∧
    (gen_tiles 0 junk_tile sliced_fixture true).map
      (fun r => r.2.tiles.map (fun t => (t.index, t.y, t.h, t.device))) =
      some [(0, 0, 2, 0), (1, 0, 2, 0), (2, 2, 2, 1), (3, 2, 2, 1), (4, 4, 2, 2), (5, 4, 2, 2),
        (6, 6, 1, 2), (7, 6, 1, 2)] ∧
    (gen_tiles 0 junk_tile sliced_fixture true).map
      (fun r => (neighbor_tile_w r.2, neighbor_tile_h r.2, neighbor_slice_num r.2)) =
      some (2, 1, 3) ∧
    (gen_tiles 0 junk_tile sliced_fixture true).map
      (fun r => (List.range r.2.tiles.length).map
        (fun (i : Nat) => get_neighbor_index r.2 (i : Int) 4)) =
      some [0, 1, 2, 3, 4, 5, -1, -1] := by
  decide


/-! ## Sessions that are not progressive -/

theorem tile_state_fresh {fm : TileManagerFull}
    (hfresh : ∀ t ∈ fm.tiles, t.state = Tile.State.RENDER) (k : Int) (s : Tile.State)
    (hs : tile_state fm k = some s) : s = Tile.State.RENDER := by
  obtain ⟨t, ht, e⟩ := tile_at_of_state hs
  have hm : t ∈ fm.tiles := by
    unfold tile_at at ht
    split_ifs at ht
    obtain ⟨hlt, hget⟩ := List.getElem?_eq_some.1 ht
    rw [← hget]
    exact List.getElem_mem hlt
  rw [← e]
  exact hfresh t hm

theorem promote_inv_fresh {fm : TileManagerFull} (hg : grid_ok fm)
    (hsd : fm.schedule_denoising = true)
    (hfresh : ∀ t ∈ fm.tiles, t.state = Tile.State.RENDER)
    (hq : ∀ q ∈ fm.denoising_tiles, q = []) : promote_inv fm := by
  have hst := tile_state_fresh hfresh
  refine ⟨hg, hsd, fun k s hs => ?_, fun k => ⟨fun h => ?_, fun h => ?_⟩, fun d k => ?_⟩
  · rw [hst k s hs]
    decide
  · exact absurd (hst k _ h) (by decide)
  · obtain ⟨-, hk, -⟩ := (closure_check_nbh fm k _).1 h
    obtain ⟨s, hs, hr⟩ := (state_at_least_state fm k _).1 hk
    rw [hst k s hs] at hr
    exact absurd hr (by decide)
  · have hempty : fm.denoising_tiles.getD d [] = [] := by
      rw [List.getD_eq_getElem?_getD]
      cases hd : fm.denoising_tiles[d]? with
      | none => rfl
      | some q =>
        obtain ⟨hlt, hget⟩ := List.getElem?_eq_some.1 hd
        have : q ∈ fm.denoising_tiles := by rw [← hget]; exact List.getElem_mem hlt
        simp [hq q this]
    rw [hempty]
    have : ¬ (tile_state fm k = some Tile.State.DENOISE ∧ tile_device fm k = some (d : Int)) :=
      fun h => absurd (hst k _ h.1) (by decide)
    rw [if_neg this]
    rfl

/-- A tile of the neighbourhood that passes a test which only tiles pass occurs once among
the tiles of the neighbourhood that pass. -/
theorem count_neighborhood_filter {fm : TileManagerFull} (hg : grid_ok fm) (index : Int)
    (hi : 0 ≤ index) (p : Int → Bool) (hp : ∀ k, p k = true → 0 ≤ k) (k : Int) :
    ((neighborhood fm index).filter p).count k =
      if k ∈ neighborhood fm index ∧ p k = true then 1 else 0 := by
  have hnd : ((neighborhood fm index).filter p).Nodup := by
    unfold neighborhood
    rw [List.filter_map]
    refine List.Nodup.map_on ?_ (List.Nodup.filter _ (List.nodup_range 9))
    intro n hn m hm e
    simp only [List.mem_filter, List.mem_range, Function.comp_apply] at hn hm
    exact neighbor_inj fm hg index hi n m hn.1 hm.1 (hp _ hn.2) e
  rw [List.count_eq_of_nodup hnd]
  simp only [List.mem_filter]

theorem tile_device_finish_render_spec (fm : TileManagerFull) (index : Int) (hi : 0 ≤ index)
    (k : Int) : tile_device (finish_render_spec fm index) k = tile_device fm k := by
  unfold tile_device
  rw [finish_render_spec_tile_at, tile_at_set_tile_state fm index k _ hi]
  by_cases e : k = index
  · subst e
    simp only [if_true]
    split_ifs <;> cases tile_at fm k <;> rfl
  · simp only [if_neg e]
    split_ifs <;> cases tile_at fm k <;> rfl

/-- The `RENDER` case with denoising keeps `promote_inv`, leaves every other tile that is in
state `RENDER` in that state, lowers no state and leaves the tile at least `RENDERED`. -/
theorem promote_inv_render {fm : TileManagerFull} (hI : promote_inv fm) {index : Int}
    (hs : tile_state fm index = some Tile.State.RENDER) :
    promote_inv (finish_render_spec fm index) ∧
    (∀ k, k ≠ index → tile_state fm k = some Tile.State.RENDER →
      tile_state (finish_render_spec fm index) k = some Tile.State.RENDER) ∧
    (∀ k, state_at_least fm k Tile.State.RENDERED = true →
      state_at_least (finish_render_spec fm index) k Tile.State.RENDERED = true) ∧
    state_at_least (finish_render_spec fm index) index Tile.State.RENDERED = true := by
  obtain ⟨hg, hsd, hI1, hI2, hI3⟩ := hI
  have hex := tile_state_some_of_at hs
  obtain ⟨hi, -⟩ := (tile_at_some_iff fm index).1 hex
  have hd : (fm.schedule_denoising && true) = true := by rw [hsd]; rfl
  obtain ⟨hf, -, hg1⟩ := finish_tile_render hg hs hd
  have hstep : states_step 1 Tile.State.DENOISE (set_tile_state fm index Tile.State.RENDERED)
      (finish_render_spec fm index) := by
    obtain ⟨-, hc⟩ := finish_tile_cases hf
    rcases hc with ⟨-, h2, -⟩ | ⟨-, -, -, -, -, h⟩ | ⟨h2, -⟩
    · rw [hd] at h2; cases h2
    · exact h
    · rw [hs] at h2; cases h2
  have hfR : frame_eq fm (set_tile_state fm index Tile.State.RENDERED) :=
    frame_eq_set_tile_state _ _ _
  have hf1 : ∀ k, tile_state (set_tile_state fm index Tile.State.RENDERED) k =
      if k = index then some Tile.State.RENDERED else tile_state fm k := by
    intro k
    rw [tile_state_set_tile_state fm index k _ hi, hs]
    rfl
  have hcl : ∀ k, closure_check (finish_render_spec fm index) k Tile.State.RENDERED =
      closure_check (set_tile_state fm index Tile.State.RENDERED) k Tile.State.RENDERED :=
    fun k => states_step_closure hstep (by decide) (by decide) k
  -- the states at least `RENDERED` stay so when the tile becomes `RENDERED`
  have hup : ∀ k, state_at_least fm k Tile.State.RENDERED = true →
      state_at_least (set_tile_state fm index Tile.State.RENDERED) k Tile.State.RENDERED
        = true := by
    intro k hk
    rw [state_at_least_state] at hk ⊢
    obtain ⟨s, hs1, hr⟩ := hk
    rw [hf1]
    by_cases e : k = index
    · rw [if_pos e]
      exact ⟨_, rfl, by decide⟩
    · rw [if_neg e]
      exact ⟨s, hs1, hr⟩
  -- a complete closure does not contain the tile that is still `RENDER`
  have hA : ∀ k, closure_check fm k Tile.State.RENDERED = true → k ∉ neighborhood fm index := by
    intro k hc hk
    obtain ⟨h0, -, -⟩ := (closure_check_nbh _ k _).1 hc
    have hmem := neighborhood_symm hg hex hk h0
    obtain ⟨s2, hs2, hr2⟩ := closure_check_neighbor hc hmem hi
    rw [hs] at hs2
    cases hs2
    exact absurd hr2 (by decide)
  -- away from the neighbourhood the closure check is the old one
  have hB : ∀ k, k ∉ neighborhood fm index →
      closure_check (set_tile_state fm index Tile.State.RENDERED) k Tile.State.RENDERED = true →
      closure_check fm k Tile.State.RENDERED = true := by
    intro k hk hc
    obtain ⟨h0, hk1, -⟩ := (closure_check_nbh _ k _).1 hc
    have hne : k ≠ index := fun e => hk (by rw [e]; exact neighborhood_self hg hex)
    obtain ⟨s, hs1, hr⟩ := (state_at_least_state _ k _).1 hk1
    rw [hf1, if_neg hne] at hs1
    have hkex := tile_state_some_of_at hs1
    have hni : index ∉ neighborhood fm k := fun hm => hk (neighborhood_symm hg hkex hm hi)
    rw [← closure_check_congr hfR k Tile.State.RENDERED]
    · exact hc
    · rw [Bool.eq_iff_iff, state_at_least_state, state_at_least_state, hf1, if_neg hne]
    · intro j hj _
      have hje : j ≠ index := fun e => hni (by rw [← e]; exact hj)
      rw [Bool.eq_iff_iff, state_at_least_state, state_at_least_state, hf1, if_neg hje]
  have hstate := finish_render_spec_state fm index
  have hden : ∀ k, tile_state (finish_render_spec fm index) k = some Tile.State.DENOISE ↔
      closure_check (set_tile_state fm index Tile.State.RENDERED) k Tile.State.RENDERED
        = true := by
    intro k
    rw [hstate]
    by_cases hpr : k ∈ neighborhood fm index ∧
        closure_check (set_tile_state fm index Tile.State.RENDERED) k Tile.State.RENDERED = true
    · rw [if_pos hpr]
      exact ⟨fun _ => hpr.2, fun _ => rfl⟩
    · rw [if_neg hpr, hf1]
      by_cases e : k = index
      · rw [if_pos e]
        constructor
        · intro h; cases h
        · intro hc
          exact absurd ⟨by rw [e]; exact neighborhood_self hg hex, hc⟩ hpr
      · rw [if_neg e]
        constructor
        · intro h
          exact closure_check_mono hfR hup k ((hI2 k).1 h)
        · intro hc
          have hk : k ∉ neighborhood fm index := fun hk => hpr ⟨hk, hc⟩
          exact (hI2 k).2 (hB k hk hc)
  refine ⟨⟨hg1, ?_, fun k s hk => ?_, fun k => ?_, fun d k => ?_⟩, fun k hne hk => ?_,
    fun k hk => ?_, ?_⟩
  · rw [(frame_eq_spec (frame_eq_trans hfR hstep.1)).2.2.1]
    exact hsd
  · rw [hstate] at hk
    split_ifs at hk with hpr
    · cases hk
      decide
    · rw [hf1] at hk
      split_ifs at hk with e
      · cases hk
        decide
      · exact hI1 k s hk
  · rw [hcl]
    exact hden k
  · rw [finish_render_spec_queue hg index hi d, List.count_append, hI3 d k,
      count_neighborhood_filter hg index hi _
        (fun j hj => by
          simp only [Bool.and_eq_true] at hj
          exact (closure_check_tile hj.1).1),
      tile_device_finish_render_spec fm index hi k]
    by_cases hdev : tile_device fm k = some (d : Int)
    · simp only [hdev, and_true, Bool.and_eq_true, decide_True]
      by_cases hold : tile_state fm k = some Tile.State.DENOISE
      · have hnk := hA k ((hI2 k).1 hold)
        have hnew : tile_state (finish_render_spec fm index) k = some Tile.State.DENOISE := by
          rw [hden]
          exact closure_check_mono hfR hup k ((hI2 k).1 hold)
        simp [hold, hnk, hnew]
      · rw [if_neg hold]
        by_cases hpr : k ∈ neighborhood fm index ∧
            closure_check (set_tile_state fm index Tile.State.RENDERED) k Tile.State.RENDERED
              = true
        · rw [if_pos hpr, if_pos ((hden k).2 hpr.2)]
        · rw [if_neg hpr]
          have hnew : ¬ tile_state (finish_render_spec fm index) k =
              some Tile.State.DENOISE := by
            intro h
            have hc := (hden k).1 h
            have hk : k ∉ neighborhood fm index := fun hk => hpr ⟨hk, hc⟩
            exact hold ((hI2 k).2 (hB k hk hc))
          rw [if_neg hnew]
    · simp [hdev]
  · rw [hstate]
    have hno : ¬ (k ∈ neighborhood fm index ∧
        closure_check (set_tile_state fm index Tile.State.RENDERED) k Tile.State.RENDERED
          = true) := by
      rintro ⟨-, hc⟩
      obtain ⟨-, hk1, -⟩ := (closure_check_nbh _ k _).1 hc
      obtain ⟨s, hs1, hr⟩ := (state_at_least_state _ k _).1 hk1
      rw [hf1, if_neg hne, hk] at hs1
      cases hs1
      exact absurd hr (by decide)
    rw [if_neg hno, hf1, if_neg hne]
    exact hk
  · rw [states_step_at_least hstep (by decide) (by decide) k]
    exact hup k hk
  · rw [states_step_at_least hstep (by decide) (by decide) index, state_at_least_state, hf1,
      if_pos rfl]
    exact ⟨_, rfl, by decide⟩

/-- A run of calls with denoising on distinct tiles that are in state `RENDER` returns, keeps
`promote_inv`, and leaves every tile it was called on at least `RENDERED`. -/
theorem promote_inv_run :
    ∀ (calls : List (Int × Bool)) (fm : TileManagerFull), promote_inv fm →
      (∀ c ∈ calls, c.2 = true) → (calls.map Prod.fst).Nodup →
      (∀ c ∈ calls, tile_state fm c.1 = some Tile.State.RENDER) →
      ∃ record fm', finish_run fm calls = some (record, fm') ∧ promote_inv fm' ∧
        frame_eq fm fm' ∧ (∀ k, tile_device fm' k = tile_device fm k) ∧
        (∀ k, state_at_least fm k Tile.State.RENDERED = true →
          state_at_least fm' k Tile.State.RENDERED = true) ∧
        ∀ c ∈ calls, state_at_least fm' c.1 Tile.State.RENDERED = true
  | [], fm, hI, _, _, _ =>
    ⟨[], fm, rfl, hI, frame_eq_refl fm, fun _ => rfl, fun _ h => h,
      fun c hc => absurd hc (List.not_mem_nil c)⟩
  | (index, nd) :: calls, fm, hI, hnd, hnodup, hren => by
    have e : nd = true := hnd (index, nd) (List.mem_cons_self _ _)
    subst e
    have hs : tile_state fm index = some Tile.State.RENDER :=
      hren (index, true) (List.mem_cons_self _ _)
    have hex := tile_state_some_of_at hs
    obtain ⟨hi, -⟩ := (tile_at_some_iff fm index).1 hex
    have hd : (fm.schedule_denoising && true) = true := by rw [hI.2.1]; rfl
    obtain ⟨hf, hfreed, -⟩ := finish_tile_render hI.1 hs hd
    obtain ⟨h1, h2, h3, h4⟩ := promote_inv_render hI hs
    rw [List.map_cons, List.nodup_cons] at hnodup
    have hren1 : ∀ c ∈ calls, tile_state (finish_render_spec fm index) c.1 =
        some Tile.State.RENDER := by
      intro c hc
      have hne : c.1 ≠ index := by
        intro e
        exact hnodup.1 (List.mem_map.2 ⟨c, hc, e⟩)
      exact h2 c.1 hne (hren c (List.mem_cons_of_mem _ hc))
    obtain ⟨rest, fm', g1, g2, g3, g4, g5, g6⟩ := promote_inv_run calls
      (finish_render_spec fm index) h1 (fun c hc => hnd c (List.mem_cons_of_mem _ hc))
      hnodup.2 hren1
    have hfr : frame_eq fm (finish_render_spec fm index) := (finish_tile_transition hf 0).1
    refine ⟨FinishCall.mk fm index true false false [] (finish_render_spec fm index) :: rest,
      fm', by simp only [finish_run, hf, hfreed, g1], g2, frame_eq_trans hfr g3,
      fun k => ?_, fun k hk => g5 k (h3 k hk), fun c hc => ?_⟩
    · rw [g4, tile_device_finish_render_spec fm index hi]
    · rcases List.mem_cons.1 hc with rfl | hc
      · exact g5 _ h4
      · exact g6 c hc

/-- On a grid with denoising scheduled, from a fresh tiling, a run with one call with denoising
for every tile returns and leaves every tile in state `DENOISE` and once in the denoising
queue of its device. -/
theorem promote_run_complete (fm : TileManagerFull)
    (calls : List (Int × Bool)) (hg : grid_ok fm) (hsd : fm.schedule_denoising = true)
    (hfresh : ∀ t ∈ fm.tiles, t.state = Tile.State.RENDER)
    (hq : ∀ q ∈ fm.denoising_tiles, q = [])
    (hnd : ∀ c ∈ calls, c.2 = true) (hnodup : (calls.map Prod.fst).Nodup)
    (hall : ∀ k : Int, k ∈ calls.map Prod.fst ↔ 0 ≤ k ∧ k < (fm.tiles.length : Int)) :
    ∃ record fm', finish_run fm calls = some (record, fm') ∧
      (∀ k : Int, 0 ≤ k → k < (fm.tiles.length : Int) →
        tile_state fm' k = some Tile.State.DENOISE) ∧
      (∀ (d : Nat) (k : Int), (fm'.denoising_tiles.getD d []).count k =
        if tile_device fm k = some (d : Int) then 1 else 0) ∧
      fm'.tiles.length = fm.tiles.length ∧ ∀ k, tile_device fm' k = tile_device fm k := by
  have hI := promote_inv_fresh hg hsd hfresh hq
  have hvalid : ∀ k : Int, (0 ≤ k ∧ k < (fm.tiles.length : Int)) →
      tile_state fm k = some Tile.State.RENDER := by
    intro k hk
    obtain ⟨t, ht⟩ := (tile_at_some_iff fm k).2 hk
    have hs : tile_state fm k = some t.state := by
      unfold tile_state
      rw [ht]
      rfl
    rw [hs, tile_state_fresh hfresh k _ hs]
  obtain ⟨record, fm', h1, h2, h3, h4, -, h6⟩ := promote_inv_run calls fm hI hnd hnodup
    (fun c hc => hvalid c.1 ((hall c.1).1 (List.mem_map.2 ⟨c, hc, rfl⟩)))
  obtain ⟨hg', -, -, hI2, hI3⟩ := h2
  have hlen : fm'.tiles.length = fm.tiles.length := by
    obtain ⟨-, -, -, hl', -⟩ := hg'
    obtain ⟨-, -, -, hl, -⟩ := hg
    obtain ⟨-, -, -, -, e1, e2, e3, -⟩ := frame_eq_spec h3
    rw [e1, e2, e3, ← hl] at hl'
    exact_mod_cast hl'
  have hcalled : ∀ k : Int, 0 ≤ k → k < (fm.tiles.length : Int) →
      state_at_least fm' k Tile.State.RENDERED = true := by
    intro k h0 hlt
    obtain ⟨c, hc, rfl⟩ := List.mem_map.1 ((hall k).2 ⟨h0, hlt⟩)
    exact h6 c hc
  have hden : ∀ k : Int, 0 ≤ k → k < (fm.tiles.length : Int) →
      tile_state fm' k = some Tile.State.DENOISE := by
    intro k h0 hlt
    rw [hI2, closure_check_nbh]
    refine ⟨h0, hcalled k h0 hlt, fun j hj hj0 => ?_⟩
    obtain ⟨n, hn, rfl⟩ := (mem_neighborhood fm' k j).1 hj
    obtain ⟨t, ht⟩ := neighbor_valid fm' hg' k h0 n hn hj0
    obtain ⟨-, hjlt⟩ := (tile_at_some_iff fm' _).1 ⟨t, ht⟩
    rw [hlen] at hjlt
    exact hcalled _ hj0 hjlt
  refine ⟨record, fm', h1, hden, fun d k => ?_, hlen, h4⟩
  rw [hI3 d k, h4 k]
  by_cases hdev : tile_device fm k = some (d : Int)
  · have hk : 0 ≤ k ∧ k < (fm.tiles.length : Int) := by
      rw [← tile_at_some_iff]
      unfold tile_device at hdev
      cases ht : tile_at fm k with
      | none => rw [ht] at hdev; cases hdev
      | some t => exact ⟨t, rfl⟩
    rw [if_pos ⟨hden k hk.1 hk.2, hdev⟩, if_pos hdev]
  · rw [if_neg hdev, if_neg (fun h => hdev h.2)]

/-! ## The tiling of the non-sliced mode is the grid of `get_neighbor_index` -/

theorem gen_tiles_tile_fresh (fm : TileManagerFull) (sliced : Bool) (image_w : Int)
    (center : int2) (tile_w tile_h slice slice_y slice_h tiles_per_device tile_y tile_x : Int)
    (s s' : GenState)
    (h : gen_tiles_tile fm sliced image_w center tile_w tile_h slice slice_y slice_h
      tiles_per_device tile_y tile_x s = some s')
    (hs : ∀ t ∈ s.tiles, t.state = Tile.State.RENDER) :
    ∀ t ∈ s'.tiles, t.state = Tile.State.RENDER := by
  have key : ∀ (x : Tile), x.state = Tile.State.RENDER →
      ∀ t ∈ s.tiles ++ [x], t.state = Tile.State.RENDER := by
    intro x hx t ht
    rcases List.mem_append.1 ht with h1 | h1
    · exact hs t h1
    · rw [List.mem_singleton] at h1
      rw [h1]
      exact hx
  unfold gen_tiles_tile at h
  simp only at h
  split_ifs at h <;> cases h <;> exact key _ rfl

theorem gen_tiles_row_fresh (fm : TileManagerFull) (sliced : Bool) (image_w : Int)
    (center : int2) (tile_w tile_h slice slice_y slice_h tiles_per_device tile_y : Int)
    (s s' : GenState)
    (h : gen_tiles_row fm sliced image_w center tile_w tile_h slice slice_y slice_h
      tiles_per_device tile_y s = some s')
    (hs : ∀ t ∈ s.tiles, t.state = Tile.State.RENDER) :
    ∀ t ∈ s'.tiles, t.state = Tile.State.RENDER :=
  foldlM_range_preserves _ (fun _ (st : GenState) => ∀ t ∈ st.tiles, t.state = Tile.State.RENDER)
    _ s s' hs
    (fun k st st' _ hP hb => gen_tiles_tile_fresh fm sliced image_w center tile_w tile_h slice
      slice_y slice_h tiles_per_device tile_y (k : Int) st st' hb hP) h

theorem gen_tiles_slice_fresh (fm : TileManagerFull) (sliced : Bool) (image_w image_h : Int)
    (center : int2) (num slice_num tile_w slice : Int) (s s' : GenState)
    (h : gen_tiles_slice fm sliced image_w image_h center num slice_num tile_w slice s = some s')
    (hs : ∀ t ∈ s.tiles, t.state = Tile.State.RENDER) :
    ∀ t ∈ s'.tiles, t.state = Tile.State.RENDER := by
  unfold gen_tiles_slice at h
  simp only at h
  split at h
  · cases h
  · rename_i s1 h1
    have hfresh : ∀ t ∈ s1.tiles, t.state = Tile.State.RENDER := by
      refine foldlM_range_preserves _
        (fun _ (st : GenState) => ∀ t ∈ st.tiles, t.state = Tile.State.RENDER) _ _ s1 ?_ ?_ h1
      · exact hs
      · intro k st st' _ hP hb
        exact gen_tiles_row_fresh _ _ _ _ _ _ _ _ _ _ _ st st' hb hP
    cases h
    split_ifs
    · exact hfresh
    · exact hfresh

/-- The raster branch of `gen_tiles` leaves one empty denoising queue for each render
queue. -/
theorem gen_tiles_raster_queues (fuel : Nat) (junk : Tile) (fm : TileManagerFull)
    (sliced : Bool) (hord : fm.tile_order ≠ TileOrder.TILE_HILBERT_SPIRAL)
    (hnum : 0 ≤ gen_tiles_num fm sliced) (s1 : GenState)
    (hrun : (List.range (gen_tiles_slice_num fm sliced).toNat).foldlM
        (fun st (slice : Nat) => gen_tiles_slice fm sliced (gen_tiles_image_w fm)
          (gen_tiles_image_h fm)
          { x := (gen_tiles_image_w fm).tdiv 2, y := (gen_tiles_image_h fm).tdiv 2 }
          (gen_tiles_num fm sliced) (gen_tiles_slice_num fm sliced) (gen_tiles_tile_w fm)
          (slice : Int) st) (gen_tiles_start fm sliced) = some s1) :
    ∃ fm', gen_tiles fuel junk fm sliced = some (s1.idx, fm') ∧
      fm'.denoising_tiles = List.replicate (gen_tiles_num fm sliced).toNat [] ∧
      fm'.schedule_denoising = fm.schedule_denoising := by
  unfold gen_tiles
  simp only [gen_tiles_num, gen_tiles_slice_num, gen_tiles_image_w, gen_tiles_image_h,
    gen_tiles_tile_w, gen_tiles_start] at hnum hrun
  simp only [hord, if_false, not_lt.2 hnum, device_free, hrun]
  exact ⟨_, rfl, rfl, rfl⟩

/-- In non-sliced mode with `background` set and a raster order, `gen_tiles` returns a fresh
tiling that is the grid `get_neighbor_index` computes: all tiles are in state `RENDER`, the
denoising queues are empty, every device has a queue, and every generated tile is its own
centre neighbour. -/
theorem gen_tiles_background_grid (fuel : Nat) (junk : Tile) (fm : TileManagerFull)
    (htx : 1 ≤ fm.tile_size.x) (hty : 1 ≤ fm.tile_size.y) (hnd : 1 ≤ fm.num_devices)
    (hov : 0 ≤ fm.slice_overlap) (hord : fm.tile_order ≠ TileOrder.TILE_HILBERT_SPIRAL)
    (hbg : fm.background = true) :
    ∃ n fm', gen_tiles fuel junk fm false = some (n, fm') ∧ grid_ok fm' ∧
      (n : Int) = (fm'.tiles.length : Int) ∧
      (∀ t ∈ fm'.tiles, t.state = Tile.State.RENDER) ∧
      (∀ q ∈ fm'.denoising_tiles, q = []) ∧
      fm'.schedule_denoising = fm.schedule_denoising ∧
      ∀ i : Int, 0 ≤ i → i < n → get_neighbor_index fm' i ((4 : Nat) : Int) = i := by
  obtain ⟨n1, -, -, -, -⟩ := gen_tiles_num_spec fm false hnd
  obtain ⟨s1, hrun, htw, hth, htpd, q1, q2, q3, q4, q5, q6, q7, q8⟩ :=
    gen_tiles_nonsliced_run fm hty htx hnd hov
  obtain ⟨fm', g1, g2, g3, g4, g5, g6, g7, g8⟩ :=
    gen_tiles_raster_run fuel junk fm false hord (by omega) s1 hrun
  obtain ⟨fm2, k1, k2, k3⟩ := gen_tiles_raster_queues fuel junk fm false hord (by omega) s1 hrun
  rw [g1] at k1
  obtain rfl : fm' = fm2 := by
    have := Option.some.inj k1
    exact (Prod.mk.inj this).2
  have hfresh : ∀ t ∈ fm'.tiles, t.state = Tile.State.RENDER := by
    rw [g2]
    refine foldlM_range_preserves _
      (fun _ (st : GenState) => ∀ t ∈ st.tiles, t.state = Tile.State.RENDER) _ _ s1 ?_ ?_ hrun
    · intro t ht
      exact absurd ht (List.not_mem_nil t)
    · intro k st st' _ hP hb
      exact gen_tiles_slice_fresh _ _ _ _ _ _ _ _ _ st st' hb hP
  have hpar : fm'.params = fm.params := congrArg TileManager.params g5
  have hstate : fm'.state = fm.state := congrArg TileManager.state g5
  have hiw : gen_tiles_image_w fm' = gen_tiles_image_w fm := by
    unfold gen_tiles_image_w
    rw [hpar, hstate]
  have hih : gen_tiles_image_h fm' = gen_tiles_image_h fm := by
    unfold gen_tiles_image_h
    rw [hpar, hstate]
  have hw : neighbor_tile_w fm' = gen_tiles_tile_w fm := by
    unfold neighbor_tile_w gen_tiles_tile_w
    rw [hiw, g6]
  have hsn : neighbor_slice_num fm' = 1 := by
    unfold neighbor_slice_num
    rw [g8, hbg]
    rfl
  have hh : neighbor_tile_h fm' = gen_tiles_tile_h fm (gen_tiles_image_h fm) := by
    unfold neighbor_tile_h gen_tiles_tile_h
    rw [hsn, hih, g6, Int.tdiv_one]
  generalize gen_tiles_tile_w fm = tile_w at *
  generalize gen_tiles_tile_h fm (gen_tiles_image_h fm) = tile_h at *
  generalize gen_tiles_num fm false = num at *
  have hT : 1 ≤ tile_w * tile_h := by
    have := mul_le_mul htw hth (by omega) (by omega)
    simpa using this
  obtain ⟨d1, d2, d3⟩ := divide_up_spec (tile_w * tile_h) num (by omega) n1
  generalize divide_up (tile_w * tile_h) num = tpd at *
  have hcast : ((tpd.toNat : Nat) : Int) = tpd := Int.toNat_of_nonneg (by omega)
  have hTc : ((tile_h.toNat * tile_w.toNat : Nat) : Int) = tile_w * tile_h := by
    push_cast
    rw [Int.toNat_of_nonneg (by omega), Int.toNat_of_nonneg (by omega)]
    ring
  have hlen : (fm'.tiles.length : Int) = tile_w * tile_h := by
    rw [g2, q3, hTc]
  have hg : grid_ok fm' := by
    apply grid_ok_of_tiles
    · refine ⟨by rw [hw]; exact htw, by rw [g4, hw], ?_, ?_⟩
      · rw [hh, hsn]
        omega
      · rw [hlen, hw, hh, hsn, mul_one]
    · intro t ht
      rw [g2] at ht
      obtain ⟨k, hk, hget⟩ := List.mem_iff_getElem.1 ht
      have hk2 : s1.tiles[k]? = some t := by
        rw [List.getElem?_eq_getElem hk, hget]
      obtain ⟨-, b⟩ := q7 k t hk2
      have hklt : k < tile_h.toNat * tile_w.toNat := by omega
      have hlt : k / tpd.toNat < num.toNat := by
        apply Nat.div_lt_of_lt_mul
        have : ((k : Nat) : Int) < ((tpd.toNat * num.toNat : Nat) : Int) := by
          push_cast
          rw [hcast, Int.toNat_of_nonneg (by omega)]
          have : (k : Int) < tile_w * tile_h := by rw [← hTc]; exact_mod_cast hklt
          omega
        exact_mod_cast this
      rw [b, k2, List.length_replicate]
      exact ⟨Int.ofNat_nonneg _, by rw [Int.toNat_ofNat]; exact hlt⟩
  refine ⟨s1.idx, fm', g1, hg, ?_, hfresh, ?_, k3, fun i h0 hlt => ?_⟩
  · rw [q2, g2, q3]
  · intro q hq
    rw [k2] at hq
    exact (List.mem_replicate.1 hq).2
  · refine neighbor_self fm' hg i h0 ?_
    rw [g2, q3, ← q2]
    exact hlt

/-- C37: closure promotion is complete and happens once.  On a grid, which is the tiling of
the non-sliced mode, with denoising scheduled, starting from a fresh tiling, all tiles
`RENDER` and the denoising queues empty, a run of `finish_tile(i, need_denoise = true)` with
exactly one call for every tile `i`, in any order, returns; after it every tile is in state
`DENOISE`, and every tile index occurs exactly once in the denoising queue of the tile's
device and in no other queue.  And `gen_tiles` in non-sliced mode with `background` set (and a
raster order) returns such a fresh tiling on a grid. -/
theorem finish_tile_promotes_every_tile_once :
    (∀ (fm : TileManagerFull) (calls : List (Int × Bool)), grid_ok fm →
      fm.schedule_denoising = true → (∀ t ∈ fm.tiles, t.state = Tile.State.RENDER) →
      (∀ q ∈ fm.denoising_tiles, q = []) → (∀ c ∈ calls, c.2 = true) →
      (calls.map Prod.fst).Nodup →
      (∀ k : Int, k ∈ calls.map Prod.fst ↔ 0 ≤ k ∧ k < (fm.tiles.length : Int)) →
      ∃ record fm', finish_run fm calls = some (record, fm') ∧
        (∀ k : Int, 0 ≤ k → k < (fm.tiles.length : Int) →
          tile_state fm' k = some Tile.State.DENOISE) ∧
        (∀ (d : Nat) (k : Int), (fm'.denoising_tiles.getD d []).count k =
          if tile_device fm k = some (d : Int) then 1 else 0) ∧
        fm'.tiles.length = fm.tiles.length ∧ ∀ k, tile_device fm' k = tile_device fm k) ∧
    (∀ (fuel : Nat) (junk : Tile) (fm : TileManagerFull), 1 ≤ fm.tile_size.x →
      1 ≤ fm.tile_size.y → 1 ≤ fm.num_devices → 0 ≤ fm.slice_overlap →
      fm.tile_order ≠ TileOrder.TILE_HILBERT_SPIRAL → fm.background = true →
      fm.schedule_denoising = true →
      ∃ n fm0, gen_tiles fuel junk fm false = some (n, fm0) ∧ grid_ok fm0 ∧
        fm0.schedule_denoising = true ∧ (n : Int) = (fm0.tiles.length : Int) ∧
        (∀ t ∈ fm0.tiles, t.state = Tile.State.RENDER) ∧
        (∀ q ∈ fm0.denoising_tiles, q = [])) := by
  refine ⟨promote_run_complete, ?_⟩
  intro fuel junk fm htx hty hnd hov hord hbg hsd
  obtain ⟨n, fm0, h1, h2, h3, h4, h5, h6, -⟩ :=
    gen_tiles_background_grid fuel junk fm htx hty hnd hov hord hbg
  exact ⟨n, fm0, h1, h2, by rw [h6, hsd], h3, h4, h5⟩

theorem finish_tile_promotes_every_tile_once_witness :
    (∃ record fm', finish_run pair_fixture [(1, true), (0, true)] = some (record, fm') ∧
      (∀ k : Int, 0 ≤ k → k < (pair_fixture.tiles.length : Int) →
        tile_state fm' k = some Tile.State.DENOISE) ∧
      (∀ (d : Nat) (k : Int), (fm'.denoising_tiles.getD d []).count k =
        if tile_device pair_fixture k = some (d : Int) then 1 else 0) ∧
      fm'.tiles.length = pair_fixture.tiles.length ∧
      ∀ k, tile_device fm' k = tile_device pair_fixture k) ∧
    ∃ n fm0, gen_tiles 0 junk_tile pair_fixture false = some (n, fm0) ∧ grid_ok fm0 ∧
      fm0.schedule_denoising = true ∧ (n : Int) = (fm0.tiles.length : Int) ∧
      (∀ t ∈ fm0.tiles, t.state = Tile.State.RENDER) ∧
      (∀ q ∈ fm0.denoising_tiles, q = []) :=
  ⟨finish_tile_promotes_every_tile_once.1 pair_fixture [(1, true), (0, true)]
      pair_fixture_grid (by decide) (by decide) (by decide) (by decide) (by decide)
      (fun k => by
        simp only [List.map_cons, List.map_nil, List.mem_cons, List.mem_singleton,
          List.not_mem_nil, or_false]
        have : (pair_fixture.tiles.length : Int) = 2 := by decide
        rw [this]
        omega),
    finish_tile_promotes_every_tile_once.2 0 junk_tile pair_fixture (by decide) (by decide)
      (by decide) (by decide) (by decide) (by decide) (by decide)⟩

end TileManager

end Cycles
